import Mathlib


/-! # timing_solver: a shallow embedding of `timing_solver.c`

The program reads one source document (sections `GATES`, `CLOCK`, `CIRCUIT`),
builds an operator table, a clock budget and a circuit graph in a bump arena,
annotates the graph with minimum and maximum delays and reports two bounds.

Conventions of the embedding.

* `unsigned long` is 64 bits wide (LP64); values are `Nat`, and every C
  operation that can wrap is written with an explicit `% 2 ^ 64`.
* The source buffer is a list of characters, one per byte, together with the
  size recorded by `fstat`; the list is the readable mapping, which may extend
  beyond `size`.  A read outside the list is the error `Err.fault`.
* `error(...)` and the out-of-memory exit end the run; they are the
  constructors of `Err`.  Behaviour that C leaves undefined (wild reads, a
  `NULL` dereference, use of an indeterminate value) is `Err.fault`.
* Recursion that follows pointers or the input is driven by a `Nat` budget;
  exhausting it is `Err.fuel`.
* Memory is a map from byte offsets to the objects stored there: `Circuit`
  cells and, in the arena, `Token`s.  Pointers are offsets; `NULL` is `none`.
  Struct sizes are those of the LP64 layout.  A store replaces the object at
  its offset; an object that shares a byte with it without lying at its
  offset no longer holds a value, and reading it is `Err.fault`.
* The operator table, the `Gate` a node points to and the `Token` a name leaf
  points to are kept by value where they are used.
* Positions in the buffer and line numbers are bounded by the length of the
  mapping, which is below `2 ^ 64`; their increments are not wrapped.
-/

namespace TimingSolver

/-! ## Machine constants -/

/-- Largest value of `unsigned long`. -/
def ULONG_MAX : Nat := 2 ^ 64 - 1

/-- Wrap a natural number to `unsigned long`. -/
def wrap (n : Nat) : Nat := n % 2 ^ 64

/-- The macro `MIN(x, y)`: `((x) < (y) ? (x) : (y))`. -/
def MIN (x y : Nat) : Nat := if x < y then x else y

/-- The macro `MAX(x, y)`: `((x) > (y) ? (x) : (y))`. -/
def MAX (x y : Nat) : Nat := if x > y then x else y

def INIT_ARENA_SIZE : Nat := 10000

/-- The value of `sizeof(Token)`: five 8-byte fields. -/
def SIZEOF_TOKEN : Nat := 40

/-- The value of `sizeof(Gate)`: four 8-byte fields. -/
def SIZEOF_GATE : Nat := 32

/-- The value of `sizeof(Circuit)`: three pointers, a padded `bool`, two `ulong`. -/
def SIZEOF_CIRCUIT : Nat := 48

/-- The value of `sizeof(Var)`: a `Token` followed by a `Circuit`. -/
def SIZEOF_VAR : Nat := 88

/-- The value of `offsetof(Var, formula)`. -/
def OFFSETOF_FORMULA : Nat := 40

/-! ## Errors -/

structure Token where
  line_n : Nat
  line   : Nat
  start  : Option Nat
  len    : Nat
deriving DecidableEq, Repr

inductive Err where
  /-- The message `Expected '%s', got '%.*s'.` of `parse_literal`. -/
  | expected (token : Token) (s : String)
  /-- The message `Expected one of '%s' or '%s', got '%.*s'.` of `parse_one_of`. -/
  | expected_one_of (token : Token) (s0 s1 : String)
  /-- The message `Expected integer, got '%.*s'.` -/
  | expected_integer (token : Token)
  /-- The message `Integer is too large. Max integer is %ul.` -/
  | too_large (token : Token)
  /-- The message `Already declared operator "%.*s" with arity %lu.` -/
  | already_declared (token : Token) (arity : Nat)
  /-- The message `Already defined %s above`. -/
  | already_defined (token : Token) (name : String)
  /-- The message `Invalid number of operands, got %lu.` -/
  | invalid_operands (token : Token) (args_len : Nat)
  /-- The message `Redefined variable "%.*s".` -/
  | redefined (token : Token)
  /-- The message `Variable not defined.` -/
  | not_defined (token : Token)
  /-- The message `Out of memory. ...` of `alloc`. -/
  | out_of_memory
  /-- Undefined behaviour of the C program. -/
  | fault
  /-- The budget of the embedding ran out. -/
  | fuel
deriving DecidableEq, Repr

/-! ## Source buffer and scanner -/

structure File where
  size : Nat
  text : List Char
deriving DecidableEq, Repr

/-- The buffer of a source text whose mapping ends with the text. -/
def File.ofString (s : String) : File := ⟨s.length, s.toList⟩

/-- The read `text[i]`. -/
def File.read (file : File) (i : Nat) : Except Err Char :=
  match file.text[i]? with
  | some c => pure c
  | none => throw Err.fault

structure Scanner where
  line_n : Nat
  line   : Nat
  idx    : Nat
  stored : Token
  peeked : Bool
deriving DecidableEq, Repr

/-- The token returned at end of input; only `start` is initialised in C. -/
def eof_token : Token := ⟨0, 0, none, 0⟩

def make_scanner : Scanner :=
  { line_n := 1, line := 0, idx := 0, stored := eof_token, peeked := false }

def is_space (c : Char) : Bool := c == ' ' || c == '\n' || c == '\t'

def is_digit (c : Char) : Bool := decide ('0' ≤ c) && decide (c ≤ '9')

def is_letter (c : Char) : Bool :=
  (decide ('a' ≤ c) && decide (c ≤ 'z')) || (decide ('A' ≤ c) && decide (c ≤ 'Z'))

def reserved : List String := ["[", "]", "(", ")", ","]

/-- The character constant NUL. -/
def NUL : Char := Char.ofNat 0

/-- The read `s[i]` of a string literal: its characters, then the terminator. -/
def cstr_at (s : String) (i : Nat) : Except Err Char :=
  match s.toList[i]? with
  | some c => pure c
  | none => if i = s.length then pure NUL else throw Err.fault

/-- The test `strncmp(a, b, n) == 0`, where `a` and `b` read the two strings
from position `i` on. -/
def strncmp_eq (a b : Nat → Except Err Char) : Nat → Nat → Except Err Bool
  | 0, _ => pure true
  | n + 1, i => do
    let x ← a i
    let y ← b i
    if x ≠ y then pure false
    else if x = NUL then pure true
    else strncmp_eq a b n (i + 1)

/-- The loop of `next_reserved` over the table `reserved`. -/
def next_reserved_loop (file : File) (idx : Nat) : List String → Except Err Nat
  | [] => pure 0
  | s :: rest => do
    if (← strncmp_eq (cstr_at s) (fun i => file.read (idx + i)) s.length 0) then
      pure s.length
    else next_reserved_loop file idx rest

/-- The call `next_reserved(text + idx)`. -/
def next_reserved (file : File) (idx : Nat) : Except Err Nat :=
  next_reserved_loop file idx reserved

/-- The loop `while (is_space(text[idx])) { ... idx++; }` of `next_token`; it has
no bound check, the budget is the length of the mapping. -/
def skip_space (file : File) : Nat → Nat → Nat → Nat → Except Err (Nat × Nat × Nat)
  | 0, _, _, _ => throw Err.fault
  | n + 1, line_n, line, idx => do
    let c ← file.read idx
    if is_space c then
      if c = '\n' then skip_space file n (line_n + 1) (idx + 1) (idx + 1)
      else skip_space file n line_n line (idx + 1)
    else pure (line_n, line, idx)

/-- The loops `while (idx < file->size && p(text[idx])) idx++;` of `next_token`;
they run at most `size - idx` times, which is the budget. -/
def scan_run (file : File) (p : Nat → Except Err Bool) : Nat → Nat → Except Err Nat
  | 0, idx => pure idx
  | n + 1, idx =>
    if idx < file.size then do
      if (← p idx) then scan_run file p n (idx + 1) else pure idx
    else pure idx

/-- The condition of the last loop of `next_token`. -/
def symbol_char (file : File) (idx : Nat) : Except Err Bool := do
  let c ← file.read idx
  if is_space c then pure false
  else if is_digit c then pure false
  else if is_letter c then pure false
  else pure ((← next_reserved file idx) == 0)

/-- The comparison `idx > file->size - 1`, in `unsigned long`. -/
def past_end (file : File) (idx : Nat) : Bool :=
  decide (idx > wrap (file.size + 2 ^ 64 - 1))

def next_token (file : File) (scanner : Scanner) : Except Err (Token × Scanner) :=
  if scanner.peeked then
    pure (scanner.stored, { scanner with peeked := false })
  else if past_end file scanner.idx then
    pure (eof_token, scanner)
  else do
    let (line_n, line, idx) ←
      skip_space file (file.text.length + 1 - scanner.idx) scanner.line_n scanner.line
        scanner.idx
    if past_end file idx then
      pure (eof_token, scanner)
    else
      let idx0 := idx
      let rlen ← next_reserved file idx
      let c ← file.read idx
      let idx ←
        if is_digit c then
          scan_run file (fun i => do pure (is_digit (← file.read i))) (file.size - idx) idx
        else if rlen > 0 then
          pure (idx + rlen)
        else if is_letter c then
          scan_run file
            (fun i => do let d ← file.read i; pure (is_letter d || is_digit d))
            (file.size - idx) idx
        else
          scan_run file (symbol_char file) (file.size - idx) idx
      let token : Token := ⟨line_n, line, some idx0, idx - idx0⟩
      pure (token, { scanner with line_n := line_n, line := line, idx := idx })

def peek_token (file : File) (scanner : Scanner) : Except Err (Token × Scanner) :=
  if scanner.peeked then
    pure (scanner.stored, scanner)
  else do
    let (token, scanner) ← next_token file scanner
    pure (token, { scanner with stored := token, peeked := true })

def eof (token : Token) : Bool := token.start.isNone

/-- The loop of `is`: compare `kind[idx]` with `start[idx]` for `idx < len`,
then test `kind[len] == 0`. -/
def is_loop (file : File) (start : Nat) (kind : String) : Nat → Nat → Except Err Bool
  | 0, idx => do pure ((← cstr_at kind idx) == NUL)
  | n + 1, idx => do
    let k ← cstr_at kind idx
    let c ← file.read (start + idx)
    if k ≠ c then pure false else is_loop file start kind n (idx + 1)

def is_kind (file : File) (token : Token) (kind : String) : Except Err Bool :=
  match token.start with
  | none => pure false
  | some start => is_loop file start kind token.len 0

def next_is (file : File) (scanner : Scanner) (kind : String) :
    Except Err (Bool × Scanner) := do
  let (token, scanner) ← peek_token file scanner
  if eof token then pure (true, scanner)
  else pure (← is_kind file token kind, scanner)

/-- The loop of `token_eq` and of `gate_equals`: compare `len` bytes at two
positions of the buffer. -/
def bytes_eq (file : File) (s0 s1 : Nat) : Nat → Nat → Except Err Bool
  | 0, _ => pure true
  | n + 1, i => do
    let a ← file.read (s0 + i)
    let b ← file.read (s1 + i)
    if a ≠ b then pure false else bytes_eq file s0 s1 n (i + 1)

def token_eq (file : File) (t0 t1 : Token) : Except Err Bool :=
  if t0.len ≠ t1.len then pure false
  else match t0.start, t1.start with
    | some s0, some s1 => bytes_eq file s0 s1 t0.len 0
    | _, _ => if t0.len = 0 then pure true else throw Err.fault

/-- The loop of `remaining_commas`. -/
def count_commas (file : File) : Nat → Nat → Nat → Except Err Nat
  | 0, _, count => pure count
  | n + 1, i, count => do
    let c ← file.read i
    count_commas file n (i + 1) (if c = ',' then count + 1 else count)

def remaining_commas (file : File) (scanner : Scanner) : Except Err Nat :=
  count_commas file (file.size - scanner.idx) scanner.idx 0

/-- The token stream printed by `print_tokens`: every token up to end of input. -/
def tokens_loop (file : File) : Nat → Scanner → Except Err (List Token)
  | 0, _ => throw Err.fuel
  | n + 1, scanner => do
    let (token, scanner) ← next_token file scanner
    if eof token then pure [] else do
      let rest ← tokens_loop file n scanner
      pure (token :: rest)

def print_tokens (file : File) : Except Err (List Token) :=
  tokens_loop file (file.size + 1) make_scanner

/-! ## Literals and integers -/

def parse_literal (file : File) (scanner : Scanner) (s : String) : Except Err Scanner := do
  let (token, scanner) ← next_token file scanner
  if !(← is_kind file token s) then throw (Err.expected token s)
  pure scanner

def parse_one_of (file : File) (scanner : Scanner) (s0 s1 : String) :
    Except Err Scanner := do
  let (token, scanner) ← next_token file scanner
  if (← is_kind file token s0) then pure scanner
  else
    if !(← is_kind file token s1) then throw (Err.expected_one_of token s0 s1)
    pure scanner

/-- The loop of `parse_integer` over the bytes of the token. -/
def parse_integer_loop (file : File) (token : Token) (start : Nat) :
    Nat → Nat → Nat → Except Err Nat
  | 0, _, integer => pure integer
  | n + 1, i, integer => do
    let c ← file.read (start + i)
    if !is_digit c then throw (Err.expected_integer token)
    let digit := wrap (c.toNat + 2 ^ 64 - '0'.toNat)
    if (ULONG_MAX - digit) / 10 < integer then throw (Err.too_large token)
    parse_integer_loop file token start n (i + 1) (wrap (wrap (integer * 10) + digit))

/-- At end of input the token's `len` is indeterminate, so reading it is a fault. -/
def parse_integer (file : File) (scanner : Scanner) : Except Err (Nat × Scanner) := do
  let (token, scanner) ← next_token file scanner
  match token.start with
  | none => throw Err.fault
  | some start =>
    let integer ← parse_integer_loop file token start token.len 0 0
    pure (integer, scanner)

/-! ## Operator table -/

structure Gate where
  start : Option Nat
  len   : Nat
  arity : Nat
  delay : Nat
deriving DecidableEq, Repr

def gate_equals (file : File) (gate : Gate) (token : Token) : Except Err Bool :=
  if gate.len ≠ token.len then pure false
  else match gate.start, token.start with
    | some s0, some s1 => bytes_eq file s0 s1 gate.len 0
    | _, _ => if gate.len = 0 then pure true else throw Err.fault

def parse_gate (file : File) (scanner : Scanner) : Except Err (Gate × Scanner) := do
  let (token0, scanner0) ← next_token file scanner
  let is_arity ← (do
    if (← is_kind file token0 "arity") then pure true else is_kind file token0 "a")
  let (arity, token, scanner) ← (do
    if is_arity then
      let (peek, scanner1) ← peek_token file scanner0
      match peek.start with
      | none => pure (2, token0, scanner1)
      | some start =>
        if is_digit (← file.read start) then
          let (arity, scanner2) ← parse_integer file scanner1
          let (token, scanner3) ← next_token file scanner2
          pure (arity, token, scanner3)
        else pure (2, token0, scanner1)
    else pure (2, token0, scanner0) : Except Err (Nat × Token × Scanner))
  let scanner ← parse_one_of file scanner "delays" "d"
  let (delay, scanner) ← parse_integer file scanner
  pure ({ start := token.start, len := token.len, arity := arity, delay := delay }, scanner)

structure Circuit where
  var       : Option Token
  gate      : Option Gate
  inp       : Option Nat
  seen      : Bool
  min_delay : Nat
  max_delay : Nat
deriving DecidableEq, Repr

/-- The bump arena: its capacity (the size of the block `malloc` returned), the
bytes used, and the memory, which maps a byte offset to the `Circuit` stored
there and to the `Token` stored there. -/
structure Arena where
  size   : Nat
  used   : Nat
  cells  : Nat → Option Circuit
  tokens : Nat → Option Token

def make_arena : Arena :=
  { size := INIT_ARENA_SIZE, used := 0, cells := fun _ => none, tokens := fun _ => none }

/-- The pointer `end(arena)`, as an offset. -/
def arena_end (arena : Arena) : Nat := arena.used

def alloc (arena : Arena) (needed : Nat) : Except Err (Nat × Arena) :=
  let result := arena_end arena
  let used := wrap (arena.used + needed)
  if used > arena.size then throw Err.out_of_memory
  else pure (result, { arena with used := used })

/-- The store `*p = circuit` of the 48 bytes of a `Circuit`: it replaces the
cell at `p`; another cell and a token that share a byte with it no longer hold
a value. -/
def Arena.store (arena : Arena) (p : Nat) (circuit : Circuit) : Arena :=
  { arena with
    cells := fun q =>
      if q = p then some circuit
      else if q < p + SIZEOF_CIRCUIT ∧ p < q + SIZEOF_CIRCUIT then none
      else arena.cells q
    tokens := fun t =>
      if t < p + SIZEOF_CIRCUIT ∧ p < t + SIZEOF_TOKEN then none else arena.tokens t }

/-- The store `*p = token` of the 40 bytes of a `Token`: it replaces the token
at `p`; another token and a cell that share a byte with it no longer hold a
value. -/
def Arena.store_token (arena : Arena) (p : Nat) (token : Token) : Arena :=
  { arena with
    cells := fun q =>
      if q < p + SIZEOF_TOKEN ∧ p < q + SIZEOF_CIRCUIT then none else arena.cells q
    tokens := fun t =>
      if t = p then some token
      else if t < p + SIZEOF_TOKEN ∧ p < t + SIZEOF_TOKEN then none
      else arena.tokens t }

/-- The load `*p`; a pointer that holds no `Circuit` is a wild read. -/
def load (cells : Nat → Option Circuit) (p : Nat) : Except Err Circuit :=
  match cells p with
  | some c => pure c
  | none => throw Err.fault

/-- The load of the `Token` at `p`; a pointer that holds no `Token` is a wild
read. -/
def load_token (tokens : Nat → Option Token) (p : Nat) : Except Err Token :=
  match tokens p with
  | some t => pure t
  | none => throw Err.fault

/-- The inner loop of `parse_gates`: is `gate` already in the table? -/
def declared (file : File) (gate : Gate) : List Gate → Except Err Bool
  | [] => pure false
  | g :: rest =>
    if g.len ≠ gate.len ∨ g.arity ≠ gate.arity then declared file gate rest
    else match g.start, gate.start with
      | some s0, some s1 => do
        if !(← strncmp_eq (fun i => file.read (s0 + i)) (fun i => file.read (s1 + i))
              gate.len 0) then
          declared file gate rest
        else pure true
      | _, _ => if gate.len = 0 then pure true else throw Err.fault

/-- The loop `while (!next_is(scanner, "CLOCK"))` of `parse_gates`.  The
entries are kept by value, in the order of the array. -/
def parse_gates_loop (file : File) :
    Nat → Scanner → Arena → List Gate → Except Err (List Gate × Scanner × Arena)
  | 0, _, _, _ => throw Err.fuel
  | n + 1, scanner, arena, arr => do
    let (stop, scanner) ← next_is file scanner "CLOCK"
    if stop then pure (arr, scanner, arena)
    else
      let (token, scanner) ← peek_token file scanner
      let (gate, scanner) ← parse_gate file scanner
      if (← declared file gate arr) then throw (Err.already_declared token gate.arity)
      let (_, arena) ← alloc arena SIZEOF_GATE
      parse_gates_loop file n scanner arena (arr ++ [gate])

def parse_gates (file : File) (scanner : Scanner) (arena : Arena) :
    Except Err (List Gate × Scanner × Arena) := do
  let scanner ← parse_literal file scanner "GATES"
  parse_gates_loop file (file.size + 1) scanner arena []

/-! ## Clock budget -/

structure Clock where
  given : Nat
  setup : Nat
  hold  : Nat
  c2q   : Nat
  prop  : Nat
deriving DecidableEq, Repr

def clock_names : List String := ["setup", "hold", "c2q", "prop"]

/-- The loop `for (i = 0; i < 4; i++)` of `parse_clock`, from index `i` on the
names still to be tried. -/
def clock_assign (file : File) (token : Token) (n : Nat) :
    List String → Nat → Nat → List Nat → Except Err (Nat × List Nat)
  | [], _, given, fields => pure (given, fields)
  | name :: rest, i, given, fields => do
    if (← is_kind file token name) then
      if (given >>> i) &&& 1 ≠ 0 then throw (Err.already_defined token name)
      clock_assign file token n rest (i + 1) (given ||| wrap (1 <<< i)) (fields.set i n)
    else clock_assign file token n rest (i + 1) given fields

/-- The loop `while (!next_is(scanner, "CIRCUIT"))` of `parse_clock`. -/
def parse_clock_loop (file : File) :
    Nat → Scanner → Nat → List Nat → Except Err (Nat × List Nat × Scanner)
  | 0, _, _, _ => throw Err.fuel
  | k + 1, scanner, given, fields => do
    let (stop, scanner) ← next_is file scanner "CIRCUIT"
    if stop then pure (given, fields, scanner)
    else
      let (token, scanner) ← next_token file scanner
      let scanner ← parse_literal file scanner "="
      let (n, scanner) ← parse_integer file scanner
      let (given, fields) ← clock_assign file token n clock_names 0 given fields
      parse_clock_loop file k scanner given fields

def parse_clock (file : File) (scanner : Scanner) : Except Err (Clock × Scanner) := do
  let scanner ← parse_literal file scanner "CLOCK"
  let (given, fields, scanner) ← parse_clock_loop file (file.size + 1) scanner 0 [0, 0, 0, 0]
  pure ({ given := given, setup := fields.getD 0 0, hold := fields.getD 1 0,
          c2q := fields.getD 2 0, prop := fields.getD 3 0 }, scanner)

/-! ## Circuit expressions -/

def is_var (circuit : Circuit) : Bool := circuit.var.isSome

def is_reg (circuit : Circuit) : Bool := !is_var circuit && circuit.gate.isNone

/-- Offset of main's local `circuit` (and of the local `formula` of
`parse_circuit`, which is copied into it); it lies outside the arena. -/
def ROOT : Nat := INIT_ARENA_SIZE

/-- A counted loop `for (i = 0; i < k; i++) body`, from index `i` on. -/
def for_range {σ : Type} (body : σ → Nat → Except Err σ) : Nat → Nat → σ → Except Err σ
  | 0, _, s => pure s
  | k + 1, i, s => do
    let s ← body s i
    for_range body k (i + 1) s

def formula_end (file : File) (scanner : Scanner) : Except Err (Bool × Scanner) := do
  let (token, scanner) ← peek_token file scanner
  if eof token then pure (true, scanner)
  else
    let (b, scanner) ← next_is file scanner "]"
    if b then pure (true, scanner) else next_is file scanner ")"

/-- The first loop over the table in `parse_formula`: `is_var` and `max_arity`. -/
def max_arity_loop (file : File) (token : Token) :
    List Gate → Bool → Nat → Except Err (Bool × Nat)
  | [], is_var, max_arity => pure (is_var, max_arity)
  | gate_i :: rest, is_var, max_arity => do
    if !(← gate_equals file gate_i token) then
      max_arity_loop file token rest is_var max_arity
    else if gate_i.arity > max_arity then
      max_arity_loop file token rest false gate_i.arity
    else max_arity_loop file token rest is_var max_arity

/-- The second loop over the table in `parse_formula`: the entry selected. -/
def select_gate (file : File) (token : Token) (args_len : Nat) :
    List Gate → Option Gate → Except Err (Option Gate)
  | [], gate => pure gate
  | gate_i :: rest, gate => do
    if !(← gate_equals file gate_i token) then select_gate file token args_len rest gate
    else if gate_i.arity = args_len then
      select_gate file token args_len rest (some gate_i)
    else select_gate file token args_len rest gate

/-- A node as `parse_formula` returns it; the annotations are not initialised
in C and are 0 here. -/
def mk_circuit (var : Option Token) (gate : Option Gate) (inp : Option Nat) : Circuit :=
  { var := var, gate := gate, inp := inp, seen := false, min_delay := 0, max_delay := 0 }

mutual

/-- The function `parse_formula`.  The table `gates` is read only.  A call that
recurses has read a token since it was entered, and so has each round of the
loop over the arguments, which takes one unit of the budget as well: the
callers pass the budget `2 * file.size + 2`, which is never exhausted
(`parse_formula_budget`). -/
def parse_formula (file : File) (gates : List Gate) :
    Nat → Scanner → Arena → Except Err (Circuit × Scanner × Arena)
  | 0, _, _ => throw Err.fuel
  | n + 1, scanner, arena => do
    let (bracket, scanner) ← next_is file scanner "["
    if bracket then
      let (_, scanner) ← next_token file scanner
      let (close, scanner) ← next_is file scanner "]"
      if !close then
        let (inp, arena) ← alloc arena SIZEOF_CIRCUIT
        let (inner, scanner, arena) ← parse_formula file gates n scanner arena
        let arena := arena.store inp inner
        let scanner ← parse_literal file scanner "]"
        pure (mk_circuit none none (some inp), scanner, arena)
      else
        let scanner ← parse_literal file scanner "]"
        pure (mk_circuit none none none, scanner, arena)
    else
      let (paren, scanner) ← next_is file scanner "("
      if paren then
        let (_, scanner) ← next_token file scanner
        let (inner, scanner, arena) ← parse_formula file gates n scanner arena
        let scanner ← parse_literal file scanner ")"
        pure (mk_circuit inner.var inner.gate inner.inp, scanner, arena)
      else
        let (token, scanner) ← next_token file scanner
        let (is_var, max_arity) ← max_arity_loop file token gates true 0
        let needed := wrap (SIZEOF_CIRCUIT * max_arity)
        let (args, arena) ← alloc arena needed
        let (args_len, scanner, arena) ←
          parse_args file gates n args max_arity 0 scanner arena
        let gate ← select_gate file token args_len gates none
        let inp := if gate.isSome then some args else none
        if !is_var && gate.isNone then throw (Err.invalid_operands token args_len)
        if is_var then
          let (var, arena) ← alloc arena SIZEOF_TOKEN
          let arena := arena.store_token var token
          pure (mk_circuit (some token) gate inp, scanner, arena)
        else
          pure (mk_circuit none gate inp, scanner, arena)

/-- The loop `while (!formula_end(scanner) && args_len < max_arity)` of
`parse_formula`.  The store `args[args_len] = ...` is made wherever it lies in
the block of the arena, also beyond the bytes allocated for `args` (their
number has wrapped when `max_arity` is large); outside the block it is a
fault. -/
def parse_args (file : File) (gates : List Gate) :
    Nat → Nat → Nat → Nat → Scanner → Arena → Except Err (Nat × Scanner × Arena)
  | 0, _, _, _, _, _ => throw Err.fuel
  | n + 1, args, max_arity, args_len, scanner, arena => do
    let (stop, scanner) ← formula_end file scanner
    if !stop && args_len < max_arity then
      let (arg, scanner, arena) ← parse_formula file gates n scanner arena
      if args + SIZEOF_CIRCUIT * (args_len + 1) > arena.size then throw Err.fault
      let arena := arena.store (args + SIZEOF_CIRCUIT * args_len) arg
      parse_args file gates n args max_arity (args_len + 1) scanner arena
    else pure (args_len, scanner, arena)

end

/-! ## Named bindings -/

/-- The value `Vars` that `parse_vars` returns: the array `arr` of `len`
structs `Var`, which lie in the arena.  Entry `i` has its name at
`arr + SIZEOF_VAR * i` and its formula at `var_formula arr i`. -/
structure VarTable where
  arr : Nat
  len : Nat
deriving DecidableEq, Repr

/-- The table `Vars` as `resolve_circuit` reads it: the array `arr` and the
names of its entries, by value (`resolve_circuit` writes no name). -/
structure Vars where
  arr   : Nat
  names : List Token

/-- The pointer `&vars.arr[i].formula`. -/
def var_formula (arr i : Nat) : Nat := arr + SIZEOF_VAR * i + OFFSETOF_FORMULA

/-- The function `parse_var`; the caller stores the result in `arr[i]`. -/
def parse_var (file : File) (gates : List Gate) (scanner : Scanner) (arena : Arena) :
    Except Err (Token × Circuit × Scanner × Arena) := do
  let (name, scanner) ← next_token file scanner
  let scanner ← parse_literal file scanner "is"
  let (formula, scanner, arena) ← parse_formula file gates (2 * file.size + 2) scanner arena
  pure (name, formula, scanner, arena)

/-- The loop `for (j = 0; j < i; j++)` of `parse_vars`, from index `j` on for
`n` rounds: is `arr[i].name` equal to one of the names before it?  Both names
are read from the arena. -/
def redefined (file : File) (tokens : Nat → Option Token) (arr i : Nat) :
    Nat → Nat → Except Err Bool
  | 0, _ => pure false
  | n + 1, j => do
    let name_i ← load_token tokens (arr + SIZEOF_VAR * i)
    let name_j ← load_token tokens (arr + SIZEOF_VAR * j)
    if (← token_eq file name_i name_j) then pure true
    else redefined file tokens arr i n (j + 1)

/-- The loop `for (i = 0; i < len; i++)` of `parse_vars`, from index `i` on for
`k` rounds.  The store `arr[i] = ...` writes the name and the formula; outside
the block of the arena it is a fault. -/
def parse_vars_loop (file : File) (gates : List Gate) (arr : Nat) :
    Nat → Nat → Scanner → Arena → Except Err (Scanner × Arena)
  | 0, _, scanner, arena => pure (scanner, arena)
  | k + 1, i, scanner, arena => do
    let (token, scanner) ← peek_token file scanner
    let (name, formula, scanner, arena) ← parse_var file gates scanner arena
    if arr + SIZEOF_VAR * (i + 1) > arena.size then throw Err.fault
    let arena := (arena.store_token (arr + SIZEOF_VAR * i) name).store (var_formula arr i) formula
    let scanner ← parse_literal file scanner ","
    if (← redefined file arena.tokens arr i i 0) then throw (Err.redefined token)
    parse_vars_loop file gates arr k (i + 1) scanner arena

def parse_vars (file : File) (gates : List Gate) (scanner : Scanner) (arena : Arena) :
    Except Err (VarTable × Scanner × Arena) := do
  let len ← remaining_commas file scanner
  let (arr, arena) ← alloc arena (wrap (SIZEOF_VAR * len))
  let (scanner, arena) ← parse_vars_loop file gates arr len 0 scanner arena
  pure ({ arr := arr, len := len }, scanner, arena)

/-- The names of the entries `i`, `i + 1`, ... of the array as they lie in the
arena, up to the first of the `k` that holds no value. -/
def stored_names (tokens : Nat → Option Token) (arr : Nat) : Nat → Nat → List Token
  | 0, _ => []
  | k + 1, i =>
    match tokens (arr + SIZEOF_VAR * i) with
    | some name => name :: stored_names tokens arr k (i + 1)
    | none => []

/-- The loop `for (i = 0; i < vars.len; i++)` of `resolve_circuit`: the index
of the first binding whose name equals the token. -/
def find_var (file : File) (token : Token) : List Token → Nat → Except Err (Option Nat)
  | [], _ => pure none
  | name :: rest, i => do
    if (← token_eq file token name) then pure (some i) else find_var file token rest (i + 1)

/-- The function `resolve_circuit(vars, circuit)`, `circuit` being the pointer
`p`; the result is the memory it leaves. -/
def resolve_circuit (file : File) (vars : Vars) :
    Nat → (Nat → Option Circuit) → Nat → Except Err (Nat → Option Circuit)
  | 0, _, _ => throw Err.fuel
  | n + 1, cells, p => do
    let circuit ← load cells p
    if is_var circuit then
      if circuit.inp.isSome then pure cells
      else match circuit.var with
        | none => throw Err.fault
        | some token =>
          match ← find_var file token vars.names 0 with
          | none => throw (Err.not_defined token)
          | some i =>
            let target := var_formula vars.arr i
            let cells := fun q => if q = p then some { circuit with inp := some target }
                                  else cells q
            resolve_circuit file vars n cells target
    else if is_reg circuit then
      match circuit.inp with
      | some q => resolve_circuit file vars n cells q
      | none => pure cells
    else
      match circuit.gate, circuit.inp with
      | some gate, some inp =>
        for_range (fun cells i => resolve_circuit file vars n cells (inp + SIZEOF_CIRCUIT * i))
          gate.arity 0 cells
      | some gate, none => if gate.arity = 0 then pure cells else throw Err.fault
      | none, _ => throw Err.fault

/-- The function `print_formula`, for the nodes it reads; the characters it
prints are not kept.  An operator of arity 1 or 2 has its inputs read as the
loop of the last case reads them. -/
def print_formula : Nat → (Nat → Option Circuit) → Circuit → Except Err Unit
  | 0, _, _ => throw Err.fuel
  | n + 1, cells, circuit =>
    if is_var circuit then
      match circuit.inp with
      | none => pure ()
      | some inp => do print_formula n cells (← load cells inp)
    else if is_reg circuit then
      match circuit.inp with
      | none => pure ()
      | some inp => do print_formula n cells (← load cells inp)
    else
      match circuit.gate, circuit.inp with
      | some gate, some inp =>
        for_range (fun _ i => do
            print_formula n cells (← load cells (inp + SIZEOF_CIRCUIT * i)))
          gate.arity 0 ()
      | some gate, none => if gate.arity = 0 then pure () else throw Err.fault
      | none, _ => throw Err.fault

/-- The function `print_vars`: `print_var(vars.arr[i])` reads the entry, name
and formula, and prints the formula. -/
def print_vars (n : Nat) (arena : Arena) (vars : VarTable) : Except Err Unit :=
  for_range (fun _ i => do
      let _ ← load_token arena.tokens (vars.arr + SIZEOF_VAR * i)
      print_formula n arena.cells (← load arena.cells (var_formula vars.arr i)))
    vars.len 0 ()

/-- The function `parse_circuit`.  `resolve_circuit` compares a name with the
names of the array in turn: it is run on the names that hold a value, and a
name that it does not find among them has been compared with the first entry
that holds none, which is a fault.  A path that `resolve_circuit` follows
stays in the tree of one expression between two name leaves that it links,
and it links a name leaf once: its budget is `(file.size + 1) * (file.size + 1)`.
The expressions that `print_vars` follows are the trees of the bindings. -/
def parse_circuit (file : File) (gates : List Gate) (scanner : Scanner) (arena : Arena) :
    Except Err (Scanner × Arena) := do
  let scanner ← parse_literal file scanner "CIRCUIT"
  let (vars, scanner, arena) ← parse_vars file gates scanner arena
  print_vars (2 * file.size + 2) arena vars
  let (formula, scanner, arena) ← parse_formula file gates (2 * file.size + 2) scanner arena
  let arena := arena.store ROOT formula
  let names := stored_names arena.tokens vars.arr vars.len 0
  match resolve_circuit file ⟨vars.arr, names⟩ ((file.size + 1) * (file.size + 1))
      arena.cells ROOT with
  | .ok cells => pure (scanner, { arena with cells := cells })
  | .error (Err.not_defined token) =>
    if names.length < vars.len then throw Err.fault else throw (Err.not_defined token)
  | .error e => throw e

/-! ## Delay analysis

The loops over the inputs of an operator read `circuit->gate->arity` and
`circuit->in` of a node that no callee writes; they are read once here. -/

abbrev Cells := Nat → Option Circuit

/-- The store `circuit->min_delay = min_delay` through the pointer `p`. -/
def set_min_delay (cells : Cells) (p : Nat) (min_delay : Nat) : Except Err Cells := do
  let circuit ← load cells p
  pure (fun q => if q = p then some { circuit with min_delay := min_delay } else cells q)

/-- The store `circuit->max_delay = max_delay` through the pointer `p`. -/
def set_max_delay (cells : Cells) (p : Nat) (max_delay : Nat) : Except Err Cells := do
  let circuit ← load cells p
  pure (fun q => if q = p then some { circuit with max_delay := max_delay } else cells q)

/-- The pointer `circuit->in + i`; arithmetic on `NULL` is a fault. -/
def input_ptr (circuit : Circuit) (i : Nat) : Except Err Nat :=
  match circuit.inp with
  | some inp => pure (inp + SIZEOF_CIRCUIT * i)
  | none => throw Err.fault

/-- The pointer `circuit->in` about to be dereferenced. -/
def deref_in (circuit : Circuit) : Except Err Nat :=
  match circuit.inp with
  | some inp => pure inp
  | none => throw Err.fault

def compute_min_delays : Nat → Cells → Nat → Except Err (Cells × Nat)
  | 0, _, _ => throw Err.fuel
  | n + 1, cells, p => do
    let circuit ← load cells p
    let (cells, min_delay) ← (do
      if is_reg circuit then
        match circuit.inp with
        | some inp => compute_min_delays n cells inp
        | none => pure (cells, ULONG_MAX)
      else if is_var circuit then
        compute_min_delays n cells (← deref_in circuit)
      else match circuit.gate with
        | some gate =>
          let (cells, min_delay) ←
            for_range (fun (s : Cells × Nat) i => do
                let (cells, in_delay) ← compute_min_delays n s.1 (← input_ptr circuit i)
                pure (cells, MIN s.2 in_delay))
              gate.arity 0 (cells, ULONG_MAX)
          let min_delay := if min_delay = ULONG_MAX then 0 else min_delay
          pure (cells, wrap (min_delay + gate.delay))
        | none => pure (cells, ULONG_MAX) : Except Err (Cells × Nat))
    let cells ← set_min_delay cells p min_delay
    pure (cells, min_delay)

def get_min_delay : Nat → Cells → Circuit → Except Err Nat
  | 0, _, _ => throw Err.fuel
  | n + 1, cells, circuit => do
    if is_reg circuit then
      let delay := circuit.min_delay
      match circuit.inp with
      | some inp => pure (MIN delay (← get_min_delay n cells (← load cells inp)))
      | none => pure delay
    else if is_var circuit then
      get_min_delay n cells (← load cells (← deref_in circuit))
    else match circuit.gate with
      | some gate =>
        for_range (fun delay i => do
            let in_delay ← get_min_delay n cells (← load cells (← input_ptr circuit i))
            pure (MIN delay in_delay))
          gate.arity 0 ULONG_MAX
      | none => pure ULONG_MAX

def compute_max_delays : Nat → Cells → Nat → Except Err (Cells × Nat)
  | 0, _, _ => throw Err.fuel
  | n + 1, cells, p => do
    let circuit ← load cells p
    let (cells, max_delay) ← (do
      if is_reg circuit then
        match circuit.inp with
        | some inp => compute_max_delays n cells inp
        | none => pure (cells, 0)
      else if is_var circuit then
        compute_max_delays n cells (← deref_in circuit)
      else match circuit.gate with
        | some gate =>
          let (cells, max_delay) ←
            for_range (fun (s : Cells × Nat) i => do
                let (cells, in_delay) ← compute_max_delays n s.1 (← input_ptr circuit i)
                pure (cells, MAX s.2 in_delay))
              gate.arity 0 (cells, 0)
          pure (cells, wrap (max_delay + gate.delay))
        | none => pure (cells, 0) : Except Err (Cells × Nat))
    let cells ← set_max_delay cells p max_delay
    pure (cells, max_delay)

def get_max_delay : Nat → Cells → Circuit → Except Err Nat
  | 0, _, _ => throw Err.fuel
  | n + 1, cells, circuit => do
    if is_reg circuit then
      let delay := circuit.max_delay
      match circuit.inp with
      | some inp => pure (MAX delay (← get_max_delay n cells (← load cells inp)))
      | none => pure delay
    else if is_var circuit then
      get_max_delay n cells (← load cells (← deref_in circuit))
    else match circuit.gate with
      | some gate =>
        for_range (fun delay i => do
            let in_delay ← get_max_delay n cells (← load cells (← input_ptr circuit i))
            pure (MAX delay in_delay))
          gate.arity 0 0
      | none => pure 0

/-! ## The run -/

/-- The two pairs of numbers `main` prints after the dumps: the shortest path
delay with the bound on `t_hold`, the longest path delay with the bound on
`t_period`. -/
structure Report where
  shortest : Option (Nat × Nat)
  longest  : Option (Nat × Nat)
deriving DecidableEq, Repr

/-- The reporting part of `main`, from the clock budget and the annotated
memory; `k` is the budget of the two queries. -/
def report (k : Nat) (clock : Clock) (cells : Cells) : Except Err Report := do
  let circuit ← load cells ROOT
  let shortest ← (do
    if (clock.given >>> 2) &&& 1 ≠ 0 then
      let c2q := clock.c2q
      let min_delay ← get_min_delay k cells circuit
      pure (some (min_delay, wrap (c2q + min_delay)))
    else pure none : Except Err (Option (Nat × Nat)))
  let longest ← (do
    if clock.given &&& 1 ≠ 0 then
      let setup := clock.setup
      let max_delay ← get_max_delay k cells circuit
      pure (some (max_delay, wrap (setup + max_delay)))
    else pure none : Except Err (Option (Nat × Nat)))
  pure { shortest := shortest, longest := longest }

/-- The function `main` on the buffer of the file named by `argv[1]`; `k` is
the budget of the traversals of the resolved graph. -/
def main (k : Nat) (file : File) : Except Err Report := do
  let arena := make_arena
  let scanner := make_scanner
  let _ ← print_tokens file
  let (gates, scanner, arena) ← parse_gates file scanner arena
  let (clock, scanner) ← parse_clock file scanner
  let (_, arena) ← parse_circuit file gates scanner arena
  let (cells, _) ← compute_min_delays k arena.cells ROOT
  let (cells, _) ← compute_max_delays k cells ROOT
  print_formula k cells (← load cells ROOT)
  report k clock cells

/-! ## Specification-side definitions

Equality of results is decidable, so that runs on concrete buffers can be
checked by evaluation. -/

deriving instance DecidableEq for Except

/-- `resolved n cells p`: the graph below the node at `p` is fully linked and
every downward path from `p` has fewer than `n` nodes: every pointer followed
by the traversals holds a cell, every name leaf has a target, every operator
with inputs has its array of inputs. -/
def resolved : Nat → Cells → Nat → Bool
  | 0, _, _ => false
  | n + 1, cells, p =>
    match cells p with
    | none => false
    | some c =>
      if is_reg c then
        match c.inp with
        | some q => resolved n cells q
        | none => true
      else if is_var c then
        match c.inp with
        | some q => resolved n cells q
        | none => false
      else
        match c.gate, c.inp with
        | some g, some a =>
          (List.range g.arity).all (fun i => resolved n cells (a + SIZEOF_CIRCUIT * i))
        | some g, none => decide (g.arity = 0)
        | none, _ => false

/-- `PathSum cells p s`: there is a path from the node at `p` down to a node
without inputs (a primary register, or an operator of arity 0) along which
the delays of the operators sum to `s`; registers and name leaves add 0. -/
inductive PathSum (cells : Cells) : Nat → Nat → Prop where
  | prim {p : Nat} {c : Circuit} :
      cells p = some c → is_reg c = true → c.inp = none → PathSum cells p 0
  | reg {p q s : Nat} {c : Circuit} :
      cells p = some c → is_reg c = true → c.inp = some q → PathSum cells q s →
      PathSum cells p s
  | leaf {p q s : Nat} {c : Circuit} :
      cells p = some c → is_reg c = false → is_var c = true → c.inp = some q →
      PathSum cells q s → PathSum cells p s
  | app {p a i s : Nat} {c : Circuit} {g : Gate} :
      cells p = some c → is_reg c = false → is_var c = false → c.gate = some g →
      c.inp = some a → i < g.arity → PathSum cells (a + SIZEOF_CIRCUIT * i) s →
      PathSum cells p (s + g.delay)
  | const {p : Nat} {c : Circuit} {g : Gate} :
      cells p = some c → is_reg c = false → is_var c = false → c.gate = some g →
      g.arity = 0 → PathSum cells p g.delay

/-- `IsLongest cells p v`: `v` is the largest sum of operator delays along any
path from the node at `p` down to a node without inputs. -/
def IsLongest (cells : Cells) (p v : Nat) : Prop :=
  PathSum cells p v ∧ ∀ s, PathSum cells p s → s ≤ v

/-- `IsShortest cells p v`: `v` is the smallest sum of operator delays along any
path from the node at `p` down to a node without inputs. -/
def IsShortest (cells : Cells) (p v : Nat) : Prop :=
  PathSum cells p v ∧ ∀ s, PathSum cells p s → v ≤ s

/-- The largest path sum below `p`, in unbounded arithmetic, for graphs with
`resolved n cells p`. -/
def longest_sum : Nat → Cells → Nat → Nat
  | 0, _, _ => 0
  | n + 1, cells, p =>
    match cells p with
    | none => 0
    | some c =>
      if is_reg c then
        match c.inp with
        | some q => longest_sum n cells q
        | none => 0
      else if is_var c then
        match c.inp with
        | some q => longest_sum n cells q
        | none => 0
      else
        match c.gate, c.inp with
        | some g, some a =>
          ((List.range g.arity).map
            (fun i => longest_sum n cells (a + SIZEOF_CIRCUIT * i))).foldl max 0 + g.delay
        | some g, none => g.delay
        | none, _ => 0

/-- The memory after the three parsers have run on a buffer (empty when one
of them fails). -/
def parsed_cells (file : File) : Cells :=
  match (do
    let (gates, scanner, arena) ← parse_gates file make_scanner make_arena
    let (_, scanner) ← parse_clock file scanner
    let (_, arena) ← parse_circuit file gates scanner arena
    pure arena.cells : Except Err Cells) with
  | .ok cells => cells
  | .error _ => fun _ => none

/-- The kind and the links of a node, without its annotations. -/
def Circuit.shape (c : Circuit) : Option Token × Option Gate × Option Nat :=
  (c.var, c.gate, c.inp)

/-- Two memories hold nodes of the same kind with the same links at every
offset; only the annotations may differ. -/
def SameShape (cells cells' : Cells) : Prop :=
  ∀ q, (cells' q).map Circuit.shape = (cells q).map Circuit.shape

/-- `Edge cells p q`: the traversals step from the node at `p` to the node at
`q`: the driver of a register, the target of a name leaf, an input of an
operator. -/
def Edge (cells : Cells) (p q : Nat) : Prop :=
  ∃ c, cells p = some c ∧
    ((is_reg c = true ∧ c.inp = some q) ∨
     (is_reg c = false ∧ is_var c = true ∧ c.inp = some q) ∨
     (is_reg c = false ∧ is_var c = false ∧
        ∃ g a i, c.gate = some g ∧ c.inp = some a ∧ i < g.arity ∧
          q = a + SIZEOF_CIRCUIT * i))

/-- `Reach cells p q`: the node at `q` is in the fan-in of the node at `p`
(`p` included). -/
def Reach (cells : Cells) (p q : Nat) : Prop :=
  Relation.ReflTransGen (Edge cells) p q

/-- No register in the fan-in of `p` has a constrained minimum annotation. -/
def Unconstrained (cells : Cells) (p : Nat) : Prop :=
  ∀ q c, Reach cells p q → cells q = some c → is_reg c = true → c.min_delay = ULONG_MAX

/-! ## Source documents used as examples -/

/-- The scenario of the specification: `AND` of arity 2 and delay 3, setup 2,
output `AND [ ] [ ]`. -/
def source_and_3 : File :=
  File.ofString "GATES arity 2 AND delays 3 CLOCK setup = 2 CIRCUIT AND [ ] [ ]"

/-- Operator `AND` with delay 5 applied to two primary registers. -/
def source_and_5 : File :=
  File.ofString "GATES AND delays 5 CLOCK CIRCUIT AND [ ] [ ]"

/-- A shared binding below two operators; the longest path has delay 19. -/
def source_shared : File :=
  File.ofString
    "GATES AND delays 5 OR delays 7 CLOCK CIRCUIT x is OR [ ] [ ] , [ AND x (OR [ ] x) ]"

/-- A register driven by `AND [ ] (OR [ ] [ ])`, delays 5 and 7. -/
def source_and_or : File :=
  File.ofString "GATES AND delays 5 OR delays 7 CLOCK c2q = 0 CIRCUIT [ AND [ ] (OR [ ] [ ]) ]"

/-- The clock budget parsed from a buffer (all zero when a parser fails). -/
def parsed_clock (file : File) : Clock :=
  match (do
    let (_, scanner, _) ← parse_gates file make_scanner make_arena
    let (clock, _) ← parse_clock file scanner
    pure clock : Except Err Clock) with
  | .ok clock => clock
  | .error _ => ⟨0, 0, 0, 0, 0⟩

/-! ## Sections as sequences of entries

The parser of the `CLOCK` section interleaves reading an entry with checking
it.  The function `read_clock` below reads the same tokens with the same
effects on the scanner and leaves the checks out; the section is well formed
when it succeeds. -/

/-- The bytes of a token. -/
def token_text (file : File) (token : Token) : List Char :=
  match token.start with
  | some start => (file.text.drop start).take token.len
  | none => []

/-- The token is a slice of the mapped buffer. -/
def Token.inside (file : File) (token : Token) : Prop :=
  ∃ start, token.start = some start ∧ start + token.len ≤ file.text.length

/-- The entries `<name> = <integer>` of a `CLOCK` section, read as the loop of
`parse_clock` reads them, without the assignments. -/
def read_clock (file : File) : Nat → Scanner → Except Err (List (Token × Nat) × Scanner)
  | 0, _ => throw Err.fuel
  | k + 1, scanner => do
    let (stop, scanner) ← next_is file scanner "CIRCUIT"
    if stop then pure ([], scanner)
    else
      let (token, scanner) ← next_token file scanner
      let scanner ← parse_literal file scanner "="
      let (n, scanner) ← parse_integer file scanner
      let (rest, scanner) ← read_clock file k scanner
      pure ((token, n) :: rest, scanner)

/-- The index of a known clock field, from the bytes of a name. -/
def known_name (text : List Char) : Option Nat :=
  if text = "setup".toList then some 0
  else if text = "hold".toList then some 1
  else if text = "c2q".toList then some 2
  else if text = "prop".toList then some 3
  else none

/-- The value of field `i` of a clock budget: setup, hold, c2q, prop. -/
def Clock.field (clock : Clock) (i : Nat) : Nat :=
  [clock.setup, clock.hold, clock.c2q, clock.prop].getD i 0

/-- The bytes of the name of a gate. -/
def gate_text (file : File) (gate : Gate) : List Char :=
  match gate.start with
  | some start => (file.text.drop start).take gate.len
  | none => []

/-- Two entries of the operator table have the same name (length and bytes)
and the same arity. -/
def same_entry (file : File) (a b : Gate) : Prop :=
  a.len = b.len ∧ a.arity = b.arity ∧ gate_text file a = gate_text file b

/-- The name of the gate is a slice of the mapped buffer. -/
def Gate.inside (file : File) (gate : Gate) : Prop :=
  ∃ start, gate.start = some start ∧ start + gate.len ≤ file.text.length

/-- The operator table, the scanner and the arena at the start of the
bindings, after `parse_gates`, `parse_clock` and the literal `CIRCUIT` (the
initial values when one of them fails). -/
def circuit_section (file : File) : List Gate × Scanner × Arena :=
  match (do
    let (gates, scanner, arena) ← parse_gates file make_scanner make_arena
    let (_, scanner) ← parse_clock file scanner
    let scanner ← parse_literal file scanner "CIRCUIT"
    pure (gates, scanner, arena) : Except Err (List Gate × Scanner × Arena)) with
  | .ok r => r
  | .error _ => ([], make_scanner, make_arena)

/-- Three bindings, the third redefining the first. -/
def source_redefined : File :=
  File.ofString "GATES CLOCK CIRCUIT x is [ ] , y is [ x ] , x is y , x"

/-- The assignments of `parse_clock` applied to the entries in turn. -/
def assign_entries (file : File) :
    List (Token × Nat) → Nat → List Nat → Except Err (Nat × List Nat)
  | [], given, fields => pure (given, fields)
  | (token, n) :: rest, given, fields => do
    let (given, fields) ← clock_assign file token n clock_names 0 given fields
    assign_entries file rest given fields

/-- The known fields that the entries of a `CLOCK` section assign, in order:
the index of the field and the integer. -/
def assigned_fields (file : File) (entries : List (Token × Nat)) : List (Nat × Nat) :=
  entries.filterMap (fun e => (known_name (token_text file e.1)).map (fun i => (i, e.2)))

/-- The scanner after `parse_gates` (the initial scanner when it fails). -/
def clock_section (file : File) : Scanner :=
  match parse_gates file make_scanner make_arena with
  | .ok r => r.2.1
  | .error _ => make_scanner

/-- A clock budget with an unknown name between two known ones. -/
def source_clock : File :=
  File.ofString "GATES CLOCK setup = 2 foo = 7 c2q = 5 CIRCUIT [ ]"

/-- The entries of the `CLOCK` section of `source_clock`. -/
def source_clock_entries : List (Token × Nat) :=
  [(⟨1, 0, some 12, 5⟩, 2), (⟨1, 0, some 22, 3⟩, 7), (⟨1, 0, some 30, 3⟩, 5)]

/-- The first expression of the `CIRCUIT` section, as `parse_formula` returns
it. -/
def first_formula (file : File) : Except Err Circuit :=
  (parse_formula file (circuit_section file).1 (2 * file.size + 2) (circuit_section file).2.1
    (circuit_section file).2.2).map (fun r => r.1)

/-- The operator table of a buffer. -/
def parsed_gates (file : File) : Except Err (List Gate) :=
  (parse_gates file make_scanner make_arena).map (fun r => r.1)

/-- An operator of arity 0 and no other operator of that name. -/
def source_nullary : File :=
  File.ofString "GATES arity 0 X delays 4 CLOCK setup = 1 CIRCUIT X"

/-- The name `X` with arities 0 and 2, used without operands. -/
def source_nullary_binary : File :=
  File.ofString "GATES arity 0 X delays 4 arity 2 X delays 5 CLOCK setup = 1 CIRCUIT [ X ]"

/-- The name `f` with arities 1 and 3, applied to two operands. -/
def source_f_two : File :=
  File.ofString "GATES arity 1 f delays 1 arity 3 f delays 3 CLOCK CIRCUIT f (a) (b)"

/-- The name `f` with arities 1 and 3, applied to three operands. -/
def source_f_three : File :=
  File.ofString "GATES arity 1 f delays 1 arity 3 f delays 3 CLOCK CIRCUIT f (a) (b) (c)"

/-- Two operators whose names are three bytes long, contain a NUL byte and
differ after it. -/
def source_nul_names : File :=
  File.ofString "GATES +\x00- delays 1 +\x00* delays 2 CLOCK"

/-- The same two operators without the NUL bytes. -/
def source_plain_names : File :=
  File.ofString "GATES +- delays 1 +* delays 2 CLOCK"

/-! ## Resolution: specification side -/

/-- The index of the first binding whose name has the bytes of the token,
counted from `i`. -/
def binding_index (file : File) (token : Token) : List Token → Nat → Option Nat
  | [], _ => none
  | name :: rest, i =>
    if token_text file token = token_text file name then some i
    else binding_index file token rest (i + 1)

/-- `NameEdge file vars cells p q`: before resolution, the node at `q` is
reached from the node at `p` in one step: the driver of a register, an input
of an operator, or, for a node that keeps its token and has no link yet, the
body of the first binding with that name. -/
def NameEdge (file : File) (vars : Vars) (cells : Cells) (p q : Nat) : Prop :=
  ∃ c, cells p = some c ∧
    ((is_var c = false ∧ is_reg c = true ∧ c.inp = some q) ∨
     (is_var c = false ∧ is_reg c = false ∧
        ∃ g a i, c.gate = some g ∧ c.inp = some a ∧ i < g.arity ∧
          q = a + SIZEOF_CIRCUIT * i) ∨
     (is_var c = true ∧ c.inp = none ∧
        ∃ t i, c.var = some t ∧ binding_index file t vars.names 0 = some i ∧
          q = var_formula vars.arr i))

/-- The nodes reached from `p` before resolution, directly or through
bindings. -/
def NameReach (file : File) (vars : Vars) (cells : Cells) (p q : Nat) : Prop :=
  Relation.ReflTransGen (NameEdge file vars cells) p q

/-- `Linked file vars cells cells'`: the memory `cells'` is `cells` with some
unlinked nodes that keep a token linked, each to the body of the first binding
with its name; nothing else differs. -/
def Linked (file : File) (vars : Vars) (cells cells' : Cells) : Prop :=
  ∀ a, cells' a = cells a ∨
    ∃ c t i, cells a = some c ∧ c.var = some t ∧ c.inp = none ∧
      binding_index file t vars.names 0 = some i ∧
      cells' a = some { c with inp := some (var_formula vars.arr i) }

/-- `TreeDone cells x`: in the expression below `x`, followed through
registers and operators down to the nodes that keep a token, every such node
is linked. -/
inductive TreeDone (cells : Cells) : Nat → Prop where
  | var {x : Nat} {c : Circuit} :
      cells x = some c → is_var c = true → c.inp.isSome = true → TreeDone cells x
  | prim {x : Nat} {c : Circuit} :
      cells x = some c → is_var c = false → is_reg c = true → c.inp = none →
      TreeDone cells x
  | reg {x q : Nat} {c : Circuit} :
      cells x = some c → is_var c = false → is_reg c = true → c.inp = some q →
      TreeDone cells q → TreeDone cells x
  | app {x a : Nat} {c : Circuit} {g : Gate} :
      cells x = some c → is_var c = false → is_reg c = false → c.gate = some g →
      c.inp = some a → (∀ i, i < g.arity → TreeDone cells (a + SIZEOF_CIRCUIT * i)) →
      TreeDone cells x
  | const {x : Nat} {c : Circuit} {g : Gate} :
      cells x = some c → is_var c = false → is_reg c = false → c.gate = some g →
      c.inp = none → g.arity = 0 → TreeDone cells x

/-- A node that keeps its token and has no link. -/
def unlinked (c : Option Circuit) : Bool :=
  match c with
  | some c => is_var c && c.inp.isNone
  | none => false

/-- The number of unlinked nodes at offsets below `bound`. -/
def unlinked_count (bound : Nat) (cells : Cells) : Nat :=
  ((Finset.range bound).filter (fun a => unlinked (cells a) = true)).card

/-- The memory is laid out as the parsers leave it: all cells lie below
`bound`; the driver of a register and the inputs of an operator are cells of
smaller rank `rank`; every binding has a body; the tokens are slices of the
buffer. -/
structure WellFormed (file : File) (vars : Vars) (rank : Nat → Nat) (bound : Nat)
    (cells : Cells) : Prop where
  dom : ∀ a, bound ≤ a → cells a = none
  reg : ∀ a c q, cells a = some c → is_var c = false → is_reg c = true → c.inp = some q →
    (cells q).isSome = true ∧ rank q < rank a
  app : ∀ a c, cells a = some c → is_var c = false → is_reg c = false →
    ∃ g, c.gate = some g ∧ (c.inp = none → g.arity = 0) ∧
      ∀ b i, c.inp = some b → i < g.arity →
        (cells (b + SIZEOF_CIRCUIT * i)).isSome = true ∧ rank (b + SIZEOF_CIRCUIT * i) < rank a
  body : ∀ i, i < vars.names.length → (cells (var_formula vars.arr i)).isSome = true
  names_inside : ∀ t ∈ vars.names, t.inside file
  tokens_inside : ∀ a c t, cells a = some c → c.var = some t → t.inside file

/-- Every unlinked node of `cells` that is linked in `cells'` has a target
whose expression is done. -/
def NewDone (cells cells' : Cells) : Prop :=
  ∀ a c c' q, cells a = some c → is_var c = true → c.inp = none → cells' a = some c' →
    c'.inp = some q → TreeDone cells' q

/-- `Undefined file vars cells p token`: before resolution, a node reached from
`p` keeps the token `token`, has no link, and no binding has that name. -/
def Undefined (file : File) (vars : Vars) (cells : Cells) (p : Nat) (token : Token) : Prop :=
  ∃ q c, NameReach file vars cells p q ∧ cells q = some c ∧ c.var = some token ∧
    c.inp = none ∧ binding_index file token vars.names 0 = none

/-- `Settled file vars cells p r`: the result `r` of resolving from `p` is
either a memory in which some nodes of `cells` have been linked, or the error
`Variable not defined` at a token that is undefined below `p`. -/
def Settled (file : File) (vars : Vars) (cells : Cells) (p : Nat) (r : Except Err Cells) :
    Prop :=
  (∃ cells', r = .ok cells' ∧ Linked file vars cells cells') ∨
  (∃ token, r = .error (Err.not_defined token) ∧ Undefined file vars cells p token)

/-- The binding table and the memory that `parse_circuit` hands to
`resolve_circuit` (empty when a parser fails). -/
def unresolved (file : File) : Vars × Cells :=
  match (do
    let (gates, scanner, arena) := circuit_section file
    let (vars, scanner, arena) ← parse_vars file gates scanner arena
    let (formula, _, arena) ← parse_formula file gates (2 * file.size + 2) scanner arena
    let arena := arena.store ROOT formula
    pure (⟨vars.arr, stored_names arena.tokens vars.arr vars.len 0⟩, arena.cells) :
      Except Err (Vars × Cells)) with
  | .ok r => r
  | .error _ => (⟨0, []⟩, fun _ => none)

/-- Two bindings, one used twice in the other and both in the output. -/
def source_bindings : File :=
  File.ofString "GATES AND delays 5 CLOCK CIRCUIT x is [ AND y y ] , y is [ ] , AND x y"

/-- The rank of the cells of a parsed memory: inputs lie at larger offsets
than the node they belong to, and the output node lies outside the arena. -/
def parsed_rank (a : Nat) : Nat := if a = ROOT then ROOT + 1 else ROOT - a

/-- The memory parsed from `source_bindings`, cell by cell. -/
def source_bindings_cells : Cells := fun q =>
  if q = 10000 then some (mk_circuit none (some ⟨some 6, 3, 2, 5⟩) (some 432))
  else if q = 480 then some (mk_circuit (some ⟨1, 0, some 69, 1⟩) none none)
  else if q = 432 then some (mk_circuit (some ⟨1, 0, some 67, 1⟩) none none)
  else if q = 160 then some (mk_circuit none none none)
  else if q = 72 then some (mk_circuit none none (some 208))
  else if q = 208 then some (mk_circuit none (some ⟨some 6, 3, 2, 5⟩) (some 256))
  else if q = 304 then some (mk_circuit (some ⟨1, 0, some 46, 1⟩) none none)
  else if q = 256 then some (mk_circuit (some ⟨1, 0, some 44, 1⟩) none none)
  else none

/-- The binding table parsed from `source_bindings`. -/
def source_bindings_vars : Vars := ⟨32, [⟨1, 0, some 33, 1⟩, ⟨1, 0, some 52, 1⟩]⟩

/-! ## The tokenization rule -/

/-- One of the reserved literals `[`, `]`, `(`, `)`, `,`. -/
def reserved_char (c : Char) : Bool :=
  c == '[' || c == ']' || c == '(' || c == ')' || c == ','

/-- A letter or a digit. -/
def word_char (c : Char) : Bool := is_letter c || is_digit c

/-- None of whitespace, digit, letter or reserved literal. -/
def symbol_class (c : Char) : Bool :=
  !is_space c && !is_digit c && !is_letter c && !reserved_char c

/-- `MaximalRun file p s len`: the bytes `s .. s + len - 1` lie in the buffer
and satisfy `p`, and the run cannot be extended: it ends at the end of the
buffer or before a byte that does not satisfy `p`. -/
def MaximalRun (file : File) (p : Char → Bool) (s len : Nat) : Prop :=
  s + len ≤ file.size ∧
  (∀ i, s ≤ i → i < s + len → ∃ c, file.text[i]? = some c ∧ p c = true) ∧
  (s + len = file.size ∨ ∃ c, file.text[s + len]? = some c ∧ p c = false)

/-- The rule for the length `len` of the token that starts at `s` with the
character `c`: (a) digits, (b) a reserved literal, (c) an identifier, (d) a
symbol, tried in this order. -/
def TokenRule (file : File) (s len : Nat) (c : Char) : Prop :=
  if is_digit c then MaximalRun file is_digit s len
  else if reserved_char c then len = 1
  else if is_letter c then MaximalRun file word_char s len
  else MaximalRun file symbol_class s len

/-- All bytes from `a` up to `b` are whitespace. -/
def Blank (file : File) (a b : Nat) : Prop :=
  ∀ i, a ≤ i → i < b → ∃ c, file.text[i]? = some c ∧ is_space c = true

/-- The number of newline characters before position `i`, plus 1. -/
def line_number (file : File) : Nat → Nat
  | 0 => 1
  | i + 1 => if file.text[i]? = some '\n' then line_number file i + 1 else line_number file i

/-- The position just after the last newline character before position `i`;
0 when there is none. -/
def line_begin (file : File) : Nat → Nat
  | 0 => 0
  | i + 1 => if file.text[i]? = some '\n' then i + 1 else line_begin file i

/-- The scanners reached from a fresh scanner by calling `next_token`
repeatedly. -/
inductive Scanned (file : File) : Scanner → Prop where
  | fresh : Scanned file make_scanner
  | next {sc sc' : Scanner} {token : Token} :
      Scanned file sc → next_token file sc = .ok (token, sc') → Scanned file sc'

/-- The value of a run of decimal digits. -/
def decimal_value (digits : List Char) : Nat :=
  digits.foldl (fun acc c => acc * 10 + (c.toNat - '0'.toNat)) 0

/-- A buffer with leading blanks, an identifier, a symbol, a literal and a
number. -/
def source_tokens : File := File.ofString "  ab12 +- [7"

/-- A buffer of two lines. -/
def source_lines : File := File.ofString "a\n  b"

/-- A document that ends with a newline character; the mapping ends with the
buffer. -/
def source_trailing : File := File.ofString "GATES CLOCK setup = 1 CIRCUIT [ ]\n"

/-- The same document with one more readable byte after the buffer. -/
def source_trailing_mapped : File :=
  ⟨34, "GATES CLOCK setup = 1 CIRCUIT [ ]\n".toList ++ [NUL]⟩

/-- The literal of `2 ^ 64`, the least integer that `unsigned long` cannot
hold. -/
def source_two_pow_64 : File := File.ofString "18446744073709551616"

/-- The literal of `ULONG_MAX`. -/
def source_ulong_max : File := File.ofString "18446744073709551615"

/-! ## The entries of the operator table -/

/-- `TokensFrom file sc ts sc'`: the tokens that `next_token` returns from the
scanner `sc` on are `ts`, in this order, and `sc'` is the scanner after them. -/
inductive TokensFrom (file : File) : Scanner → List Token → Scanner → Prop where
  | nil (sc : Scanner) : TokensFrom file sc [] sc
  | cons {sc sc1 sc' : Scanner} {t : Token} {ts : List Token} :
      next_token file sc = .ok (t, sc1) → TokensFrom file sc1 ts sc' →
      TokensFrom file sc (t :: ts) sc'

/-- The token starts with a digit. -/
def StartsWithDigit (file : File) (t : Token) : Prop :=
  ∃ s c, t.start = some s ∧ file.text[s]? = some c ∧ is_digit c = true

/-- The token is the keyword of an arity clause, `arity` or `a`. -/
def ArityKeyword (file : File) (t : Token) : Prop :=
  is_kind file t "arity" = .ok true ∨ is_kind file t "a" = .ok true

/-- The token is the keyword of a delay, `delays` or `d`. -/
def DelayKeyword (file : File) (t : Token) : Prop :=
  is_kind file t "delays" = .ok true ∨ is_kind file t "d" = .ok true

/-- `GateClause file gate ts`: the tokens `ts` are one entry of the `GATES`
section and `gate` has the name and the arity written in it.  Either the entry
has an arity clause, the keyword followed by a token that starts with a digit:
then that token is a run of digits, the arity is its decimal value (any value
that `unsigned long` holds, 0 included) and the name is the token after it.
Or the entry has no arity clause: then the arity is 2 and the name is the
first token.  The keyword of the delay and one more token end the entry. -/
def GateClause (file : File) (gate : Gate) (ts : List Token) : Prop :=
  (∃ kw n name d v, ts = [kw, n, name, d, v] ∧
      ArityKeyword file kw ∧ StartsWithDigit file n ∧
      (∃ s, n.start = some s ∧ MaximalRun file is_digit s n.len) ∧
      gate.arity = decimal_value (token_text file n) ∧ gate.arity ≤ ULONG_MAX ∧
      gate.start = name.start ∧ gate.len = name.len ∧ DelayKeyword file d) ∨
  (∃ name d v, ts = [name, d, v] ∧
      ¬ (ArityKeyword file name ∧ StartsWithDigit file d) ∧
      gate.arity = 2 ∧ gate.start = name.start ∧ gate.len = name.len ∧ DelayKeyword file d)

/-- Two scanners at the same place of the buffer, neither of which holds a
token that was looked at: they differ at most in the field `stored`, which
`next_token` does not read then. -/
def SamePlace (a b : Scanner) : Prop :=
  a.line_n = b.line_n ∧ a.line = b.line ∧ a.idx = b.idx ∧ a.peeked = false ∧ b.peeked = false

/-! ## The budget of the parser -/

/-- A bound on the tokens left to read: the bytes after the position, and one
more for a token that was looked at and is not the end of input. -/
def tokens_left (file : File) (sc : Scanner) : Nat :=
  (file.size - sc.idx) + (if sc.peeked = true ∧ sc.stored.start.isSome = true then 1 else 0)

/-- The scanner is consistent at the end of input: when the token it has
looked at is the end of input, reading on returns the end of input.  A scanner
that holds no such token is consistent, and the scanner functions keep a
scanner consistent. -/
def EofStable (file : File) (sc : Scanner) : Prop :=
  sc.peeked = true → sc.stored.start = none →
    ∃ t s', next_token file { sc with peeked := false } = .ok (t, s') ∧ t.start = none

/-! ## Registers in the fan-in -/

/-- `RegReach cells p r`: `r` is the cell of a register node in the fan-in of
the node at `p` (`p` included). -/
def RegReach (cells : Cells) (p : Nat) (r : Circuit) : Prop :=
  ∃ q, Reach cells p q ∧ cells q = some r ∧ is_reg r = true

/-! ## Annotations of a whole graph -/

/-- The minimum annotation of the node at `p` as `compute_min_delays` defines
it, in unbounded arithmetic, for graphs with `resolved n cells p`: a register
without driver has the sentinel, a driven register and a name leaf have the
value of their input, and an operator adds its delay to the least value of its
inputs, taken as 0 when that is the sentinel. -/
def min_ann : Nat → Cells → Nat → Nat
  | 0, _, _ => ULONG_MAX
  | n + 1, cells, p =>
    match cells p with
    | none => ULONG_MAX
    | some c =>
      if is_reg c then
        match c.inp with
        | some q => min_ann n cells q
        | none => ULONG_MAX
      else if is_var c then
        match c.inp with
        | some q => min_ann n cells q
        | none => ULONG_MAX
      else
        match c.gate, c.inp with
        | some g, some a =>
          (let m := ((List.range g.arity).map
            (fun i => min_ann n cells (a + SIZEOF_CIRCUIT * i))).foldl min ULONG_MAX
           if m = ULONG_MAX then 0 else m) + g.delay
        | some g, none => g.delay
        | none, _ => ULONG_MAX

/-- The node at `q` carries its maximum annotation: the largest path sum
below it. -/
def MaxAnnotated (cells : Cells) (q : Nat) : Prop :=
  ∃ c k, cells q = some c ∧ resolved k cells q = true ∧ c.max_delay = longest_sum k cells q

/-- The node at `q` carries its minimum annotation. -/
def MinAnnotated (cells : Cells) (q : Nat) : Prop :=
  ∃ c k, cells q = some c ∧ resolved k cells q = true ∧ c.min_delay = min_ann k cells q

/-- The nodes of `cells'` have the minimum annotations they have in `cells`. -/
def KeepsMin (cells cells' : Cells) : Prop :=
  ∀ q, (cells' q).map Circuit.min_delay = (cells q).map Circuit.min_delay

/-- A memory with the graph of `[ AND [ OR [ ] [ ] ] [ ] ]`, delays 5 and 7,
and the annotations of both passes: the output register at `ROOT` holds
(12, 12), the inner register holds (7, 7), the primary registers hold
(`ULONG_MAX`, 0). -/
def registers_cells : Cells := fun q =>
  if q = 10000 then some ⟨none, none, some 0, false, 12, 12⟩
  else if q = 0 then some ⟨none, some ⟨some 6, 3, 2, 5⟩, some 48, false, 12, 12⟩
  else if q = 48 then some ⟨none, none, some 144, false, 7, 7⟩
  else if q = 96 then some ⟨none, none, none, false, 18446744073709551615, 0⟩
  else if q = 144 then some ⟨none, some ⟨some 19, 2, 2, 7⟩, some 192, false, 7, 7⟩
  else if q = 192 then some ⟨none, none, none, false, 18446744073709551615, 0⟩
  else if q = 240 then some ⟨none, none, none, false, 18446744073709551615, 0⟩
  else none

/-! ## The annotated memory of a run -/

/-- Six bindings, the third with the name of the first.  The operator `F` is
declared with arity 1 and with arity `2 ^ 60 - 11`, for which the size of the
array of arguments, `sizeof(Circuit) * max_arity`, wraps to `2 ^ 64 - 528`. -/
def source_overlap : File :=
  File.ofString
    "GATES a 1 F d 1 a 1152921504606846965 F d 1 CLOCK CIRCUIT x is [ ] , y is ( F z ) , x is [ ] , u is [ ] , v is [ ] , w is [ ] , [ ]"

/-- The same bindings with the arities 1 and 3 for `F`. -/
def source_no_overlap : File :=
  File.ofString
    "GATES a 1 F d 1 a 3 F d 1 CLOCK CIRCUIT x is [ ] , y is ( F z ) , x is [ ] , u is [ ] , v is [ ] , w is [ ] , [ ]"

/-- The table of bindings that `parse_vars` returns on the `CIRCUIT` section of
a buffer, with the bytes that the arena has in use then. -/
def parsed_vars (file : File) : Except Err (VarTable × Nat) :=
  (parse_vars file (circuit_section file).1 (circuit_section file).2.1
    (circuit_section file).2.2).map (fun r => (r.1, r.2.2.used))

/-- The texts of the tokens of a buffer. -/
def token_texts (file : File) : Except Err (List (List Char)) :=
  (print_tokens file).map (fun ts => ts.map (token_text file))

/-! ## Bindings that refer to themselves, and bindings that are not used -/

/-- A binding whose body is its own name. -/
def source_self : File := File.ofString "GATES CLOCK CIRCUIT x is x , x"

/-- A binding whose body applies an operator to its own name. -/
def source_self_and : File :=
  File.ofString "GATES AND d 1 CLOCK CIRCUIT x is AND x [ ] , x"

/-- A binding that the output does not use and whose body is a name without
binding. -/
def source_unused : File := File.ofString "GATES CLOCK setup = 1 CIRCUIT x is y , [ ]"

/-- The memory parsed from `source_unused`, cell by cell: the body of the
binding `x`, which is the name `y`, and the output, a register. -/
def source_unused_cells : Cells := fun q =>
  if q = 10000 then some (mk_circuit none none none)
  else if q = 40 then some (mk_circuit (some ⟨1, 0, some 35, 1⟩) none none)
  else none

/-- The binding table parsed from `source_unused`. -/
def source_unused_vars : Vars := ⟨0, [⟨1, 0, some 30, 1⟩]⟩

/-! ## Stores of the arena -/

theorem store_cells (a : Arena) (p : Nat) (c : Circuit) (q : Nat) :
    (a.store p c).cells q =
      if q = p then some c
      else if q < p + 48 ∧ p < q + 48 then none
      else a.cells q := rfl

theorem store_token_cells (a : Arena) (p : Nat) (t : Token) (q : Nat) :
    (a.store_token p t).cells q = if q < p + 40 ∧ p < q + 48 then none else a.cells q := rfl

theorem make_arena_cells (q : Nat) : make_arena.cells q = none := rfl

/-! # Theorems -/

/-! ## Arithmetic of `unsigned long` -/

theorem wrap_of_le {n : Nat} (h : n ≤ ULONG_MAX) : wrap n = n := by
  unfold wrap
  apply Nat.mod_eq_of_lt
  have : ULONG_MAX < 2 ^ 64 := by norm_num [ULONG_MAX]
  omega

theorem MAX_eq_max (x y : Nat) : MAX x y = max x y := by
  unfold MAX
  split <;> omega

theorem MIN_eq_min (x y : Nat) : MIN x y = min x y := by
  unfold MIN
  split <;> omega

/-! ## Memories of the same shape -/

theorem SameShape.refl (cells : Cells) : SameShape cells cells := fun _ => rfl

theorem SameShape.trans {a b c : Cells} (h1 : SameShape a b) (h2 : SameShape b c) :
    SameShape a c := fun q => (h2 q).trans (h1 q)

theorem SameShape.symm {a b : Cells} (h : SameShape a b) : SameShape b a :=
  fun q => (h q).symm

theorem SameShape.none {a b : Cells} (h : SameShape a b) {q : Nat} (hq : a q = none) :
    b q = none := by
  have := h q
  rw [hq] at this
  simpa using this

theorem SameShape.some {a b : Cells} (h : SameShape a b) {q : Nat} {c : Circuit}
    (hq : a q = some c) :
    ∃ c', b q = some c' ∧ c'.var = c.var ∧ c'.gate = c.gate ∧ c'.inp = c.inp := by
  have := h q
  rw [hq] at this
  cases hb : b q with
  | none => rw [hb] at this; simp at this
  | some c' =>
    rw [hb] at this
    simp only [Option.map_some', Option.some.injEq, Circuit.shape, Prod.mk.injEq] at this
    exact ⟨c', rfl, this⟩

theorem is_var_congr {c c' : Circuit} (h : c'.var = c.var) : is_var c' = is_var c := by
  simp [is_var, h]

theorem is_reg_congr {c c' : Circuit} (h : c'.var = c.var) (hg : c'.gate = c.gate) :
    is_reg c' = is_reg c := by
  simp [is_reg, is_var, h, hg]

theorem resolved_congr {a b : Cells} (h : SameShape a b) :
    ∀ n p, resolved n b p = resolved n a p := by
  intro n
  induction n with
  | zero => intro p; rfl
  | succ n ih =>
    intro p
    unfold resolved
    cases ha : a p with
    | none => rw [h.none ha]
    | some c =>
      obtain ⟨c', hb, hv, hg, hi⟩ := h.some ha
      rw [hb]
      simp only [is_reg_congr hv hg, is_var_congr hv, hg, hi, ih]

theorem longest_sum_congr {a b : Cells} (h : SameShape a b) :
    ∀ n p, longest_sum n b p = longest_sum n a p := by
  intro n
  induction n with
  | zero => intro p; rfl
  | succ n ih =>
    intro p
    unfold longest_sum
    cases ha : a p with
    | none => rw [h.none ha]
    | some c =>
      obtain ⟨c', hb, hv, hg, hi⟩ := h.some ha
      rw [hb]
      simp only [is_reg_congr hv hg, is_var_congr hv, hg, hi, ih]

theorem PathSum.congr {a b : Cells} (h : SameShape a b) {p s : Nat} (hp : PathSum a p s) :
    PathSum b p s := by
  induction hp with
  | prim hc hr hi =>
    obtain ⟨c', hb, hv, hg, hi'⟩ := h.some hc
    exact PathSum.prim hb (by rw [is_reg_congr hv hg, hr]) (by rw [hi', hi])
  | reg hc hr hi _ ih =>
    obtain ⟨c', hb, hv, hg, hi'⟩ := h.some hc
    exact PathSum.reg hb (by rw [is_reg_congr hv hg, hr]) (by rw [hi', hi]) ih
  | leaf hc hr hv' hi _ ih =>
    obtain ⟨c', hb, hv, hg, hi'⟩ := h.some hc
    exact PathSum.leaf hb (by rw [is_reg_congr hv hg, hr]) (by rw [is_var_congr hv, hv'])
      (by rw [hi', hi]) ih
  | app hc hr hv' hgate hi hlt _ ih =>
    obtain ⟨c', hb, hv, hg, hi'⟩ := h.some hc
    exact PathSum.app hb (by rw [is_reg_congr hv hg, hr]) (by rw [is_var_congr hv, hv'])
      (by rw [hg, hgate]) (by rw [hi', hi]) hlt ih
  | const hc hr hv' hgate h0 =>
    obtain ⟨c', hb, hv, hg, hi'⟩ := h.some hc
    exact PathSum.const hb (by rw [is_reg_congr hv hg, hr]) (by rw [is_var_congr hv, hv'])
      (by rw [hg, hgate]) h0

theorem set_max_delay_ok {cells : Cells} {p : Nat} {c : Circuit} (h : cells p = some c)
    (v : Nat) :
    set_max_delay cells p v =
      .ok (fun q => if q = p then some { c with max_delay := v } else cells q) := by
  simp [set_max_delay, load, h, bind, Except.bind, pure, Except.pure]

theorem set_min_delay_ok {cells : Cells} {p : Nat} {c : Circuit} (h : cells p = some c)
    (v : Nat) :
    set_min_delay cells p v =
      .ok (fun q => if q = p then some { c with min_delay := v } else cells q) := by
  simp [set_min_delay, load, h, bind, Except.bind, pure, Except.pure]

theorem sameShape_set_max {cells : Cells} {p : Nat} {c : Circuit} (h : cells p = some c)
    (v : Nat) :
    SameShape cells (fun q => if q = p then some { c with max_delay := v } else cells q) := by
  intro q
  by_cases hq : q = p
  · subst hq; simp [h, Circuit.shape]
  · simp [hq]

theorem sameShape_set_min {cells : Cells} {p : Nat} {c : Circuit} (h : cells p = some c)
    (v : Nat) :
    SameShape cells (fun q => if q = p then some { c with min_delay := v } else cells q) := by
  intro q
  by_cases hq : q = p
  · subst hq; simp [h, Circuit.shape]
  · simp [hq]


/-! ## Counted loops -/

theorem for_range_inv {σ : Type} (body : σ → Nat → Except Err σ) (Inv : Nat → σ → Prop) :
    ∀ (k i : Nat) (s : σ), Inv i s →
      (∀ j s, i ≤ j → j < i + k → Inv j s → ∃ s', body s j = .ok s' ∧ Inv (j + 1) s') →
      ∃ s', for_range body k i s = .ok s' ∧ Inv (i + k) s' := by
  intro k
  induction k with
  | zero => intro i s h _; exact ⟨s, rfl, h⟩
  | succ k ih =>
    intro i s h step
    obtain ⟨s1, h1, hi1⟩ := step i s (Nat.le_refl _) (by omega) h
    obtain ⟨s2, h2, hi2⟩ := ih (i + 1) s1 hi1 (fun j s hj hlt => step j s (by omega) (by omega))
    refine ⟨s2, ?_, ?_⟩
    · simp only [for_range, h1, bind, Except.bind]
      exact h2
    · have : i + (k + 1) = i + 1 + k := by omega
      rw [this]; exact hi2

theorem foldl_max_ge (l : List Nat) (acc : Nat) : acc ≤ l.foldl max acc := by
  induction l generalizing acc with
  | nil => exact Nat.le_refl _
  | cons x l ih => exact Nat.le_trans (Nat.le_max_left _ _) (ih (max acc x))

theorem le_foldl_max {l : List Nat} {x : Nat} (h : x ∈ l) (acc : Nat) :
    x ≤ l.foldl max acc := by
  induction l generalizing acc with
  | nil => cases h
  | cons y l ih =>
    rcases List.mem_cons.mp h with rfl | h
    · exact Nat.le_trans (Nat.le_max_right _ _) (foldl_max_ge l _)
    · exact ih h _

theorem foldl_max_mem (l : List Nat) (acc : Nat) :
    l.foldl max acc = acc ∨ l.foldl max acc ∈ l := by
  induction l generalizing acc with
  | nil => exact Or.inl rfl
  | cons x l ih =>
    rcases ih (max acc x) with h | h
    · rw [List.foldl_cons, h]
      rcases Nat.le_total acc x with hx | hx
      · right; rw [Nat.max_eq_right hx]; exact List.mem_cons_self _ _
      · left; exact Nat.max_eq_left hx
    · right; exact List.mem_cons_of_mem _ h

theorem foldl_max_snoc (l : List Nat) (acc x : Nat) :
    (l ++ [x]).foldl max acc = max (l.foldl max acc) x := by
  simp [List.foldl_append]

theorem range'_snoc (i k : Nat) : List.range' i (k + 1) = List.range' i k ++ [i + k] := by
  rw [List.range'_concat]; simp


/-! ## The maximum-delay annotation -/

theorem resolved_inputs {n : Nat} {cells : Cells} {p : Nat} {c : Circuit} {g : Gate} {a : Nat}
    (hp : cells p = some c) (hr : is_reg c = false) (hv : is_var c = false)
    (hg : c.gate = some g) (hi : c.inp = some a)
    (h : resolved (n + 1) cells p = true) :
    ∀ j, j < g.arity → resolved n cells (a + SIZEOF_CIRCUIT * j) = true := by
  unfold resolved at h
  simp only [hp, hr, hv, hg, hi] at h
  simpa using h

theorem longest_sum_app {n : Nat} {cells : Cells} {p : Nat} {c : Circuit} {g : Gate} {a : Nat}
    (hp : cells p = some c) (hr : is_reg c = false) (hv : is_var c = false)
    (hg : c.gate = some g) (hi : c.inp = some a) :
    longest_sum (n + 1) cells p =
      ((List.range g.arity).map
        (fun i => longest_sum n cells (a + SIZEOF_CIRCUIT * i))).foldl max 0 + g.delay := by
  simp [longest_sum, hp, hr, hv, hg, hi]


theorem compute_max_delays_app {n : Nat} {cells : Cells} {p : Nat} {c : Circuit} {g : Gate}
    (hp : cells p = some c) (hr : is_reg c = false) (hv : is_var c = false)
    (hg : c.gate = some g) :
    compute_max_delays (n + 1) cells p =
      (for_range (fun (s : Cells × Nat) i =>
          input_ptr c i >>= fun q => compute_max_delays n s.1 q >>= fun r =>
            pure (r.1, MAX s.2 r.2)) g.arity 0 (cells, 0)) >>= fun r =>
        set_max_delay r.1 p (wrap (r.2 + g.delay)) >>= fun cells' =>
          pure (cells', wrap (r.2 + g.delay)) := by
  simp only [compute_max_delays, load, hp, hr, hv, hg, Bool.false_eq_true, if_false, pure_bind,
    bind_assoc]

theorem compute_max_delays_spec :
    ∀ (n : Nat) (cells : Cells) (p : Nat), resolved n cells p = true →
      longest_sum n cells p ≤ ULONG_MAX →
      ∃ cells' c', compute_max_delays n cells p = .ok (cells', longest_sum n cells p) ∧
        SameShape cells cells' ∧ cells' p = some c' ∧
        c'.max_delay = longest_sum n cells p := by
  intro n
  induction n with
  | zero => intro cells p h; simp [resolved] at h
  | succ n ih =>
    intro cells p hres hle
    cases hp : cells p with
    | none => simp [resolved, hp] at hres
    | some c =>
      by_cases hr : is_reg c = true
      · cases hi : c.inp with
        | none =>
          refine ⟨_, _, ?_, sameShape_set_max hp 0, if_pos rfl, ?_⟩
          · simp [compute_max_delays, load, hp, hr, hi, bind, Except.bind, pure, Except.pure,
              set_max_delay, longest_sum]
          · simp [longest_sum, hp, hr, hi]
        | some q =>
          have hres' : resolved n cells q = true := by
            simpa [resolved, hp, hr, hi] using hres
          have hl : longest_sum (n + 1) cells p = longest_sum n cells q := by
            simp [longest_sum, hp, hr, hi]
          obtain ⟨cells1, c1, h1, hs1, _, _⟩ := ih cells q hres' (hl ▸ hle)
          obtain ⟨cp, hcp, _⟩ := hs1.some hp
          refine ⟨_, _, ?_, hs1.trans (sameShape_set_max hcp _), if_pos rfl, rfl⟩
          simp [compute_max_delays, load, hp, hr, hi, bind, Except.bind, pure, Except.pure,
            h1, set_max_delay, hcp, hl]
      · have hr : is_reg c = false := by simpa using hr
        by_cases hv : is_var c = true
        · cases hi : c.inp with
          | none => simp [resolved, hp, hr, hv, hi] at hres
          | some q =>
            have hres' : resolved n cells q = true := by
              simpa [resolved, hp, hr, hv, hi] using hres
            have hl : longest_sum (n + 1) cells p = longest_sum n cells q := by
              simp [longest_sum, hp, hr, hv, hi]
            obtain ⟨cells1, c1, h1, hs1, _, _⟩ := ih cells q hres' (hl ▸ hle)
            obtain ⟨cp, hcp, _⟩ := hs1.some hp
            refine ⟨_, _, ?_, hs1.trans (sameShape_set_max hcp _), if_pos rfl, rfl⟩
            simp [compute_max_delays, load, hp, hr, hv, hi, bind, Except.bind, pure,
              Except.pure, h1, set_max_delay, hcp, hl, deref_in]
        · have hv : is_var c = false := by simpa using hv
          cases hg : c.gate with
          | none => simp [resolved, hp, hr, hv, hg] at hres
          | some g =>
            cases hi : c.inp with
            | none =>
              have h0 : g.arity = 0 := by simpa [resolved, hp, hr, hv, hg, hi] using hres
              have hl : longest_sum (n + 1) cells p = g.delay := by
                simp [longest_sum, hp, hr, hv, hg, hi]
              refine ⟨_, _, ?_, sameShape_set_max hp _, if_pos rfl, rfl⟩
              rw [hl] at hle
              simp [compute_max_delays, load, hp, hr, hv, hg, hi, bind, Except.bind, pure,
                Except.pure, set_max_delay, hl, h0, for_range, wrap_of_le hle]
            | some a =>
              have hin := resolved_inputs hp hr hv hg hi hres
              have hl := longest_sum_app (n := n) hp hr hv hg hi
              set f := fun i => longest_sum n cells (a + SIZEOF_CIRCUIT * i) with hf
              have hfle : ∀ j, j < g.arity → f j ≤ ULONG_MAX := by
                intro j hj
                have : f j ≤ ((List.range g.arity).map f).foldl max 0 :=
                  le_foldl_max (List.mem_map.mpr ⟨j, List.mem_range.mpr hj, rfl⟩) 0
                omega
              obtain ⟨s', hloop, hsame, hacc⟩ := for_range_inv
                (fun (s : Cells × Nat) i =>
                  input_ptr c i >>= fun q => compute_max_delays n s.1 q >>= fun r =>
                    pure (r.1, MAX s.2 r.2))
                (fun j s => SameShape cells s.1 ∧
                  s.2 = ((List.range' 0 j).map f).foldl max 0)
                g.arity 0 (cells, 0) ⟨SameShape.refl _, rfl⟩
                (by
                  rintro j ⟨cj, acc⟩ _ hj ⟨hsj, haccj⟩
                  have hj : j < g.arity := by omega
                  have e1 := resolved_congr hsj n (a + SIZEOF_CIRCUIT * j)
                  have e2 := longest_sum_congr hsj n (a + SIZEOF_CIRCUIT * j)
                  obtain ⟨cells1, c1, h1, hs1, _, _⟩ := ih cj (a + SIZEOF_CIRCUIT * j)
                    (by rw [e1]; exact hin j hj) (by rw [e2]; exact hfle j hj)
                  refine ⟨(cells1, MAX acc (f j)), ?_, hsj.trans hs1, ?_⟩
                  · simp only [input_ptr, hi, bind, Except.bind, pure, Except.pure, h1, e2]
                  · simp only at haccj
                    simp only [range'_snoc, List.map_append, foldl_max_snoc, MAX_eq_max, haccj,
                      List.map_cons, List.map_nil, Nat.zero_add])
              simp only [Nat.zero_add] at hsame hacc
              rw [← List.range_eq_range'] at hacc
              obtain ⟨cp, hcp, _⟩ := hsame.some hp
              have hw : wrap (s'.2 + g.delay) = longest_sum (n + 1) cells p := by
                rw [hl, ← hacc]; apply wrap_of_le; rw [hacc, ← hl]; exact hle
              refine ⟨fun q => if q = p then
                  some { cp with max_delay := longest_sum (n + 1) cells p } else s'.1 q,
                { cp with max_delay := longest_sum (n + 1) cells p }, ?_,
                hsame.trans (sameShape_set_max hcp _), if_pos rfl, rfl⟩
              rw [compute_max_delays_app hp hr hv hg, hloop]
              simp only [bind, Except.bind, set_max_delay_ok hcp, pure, Except.pure, hw]


theorem pathSum_longest_sum :
    ∀ (n : Nat) (cells : Cells) (p : Nat), resolved n cells p = true →
      PathSum cells p (longest_sum n cells p) := by
  intro n
  induction n with
  | zero => intro cells p h; simp [resolved] at h
  | succ n ih =>
    intro cells p hres
    cases hp : cells p with
    | none => simp [resolved, hp] at hres
    | some c =>
      by_cases hr : is_reg c = true
      · cases hi : c.inp with
        | none =>
          have hl : longest_sum (n + 1) cells p = 0 := by simp [longest_sum, hp, hr, hi]
          rw [hl]; exact PathSum.prim hp hr hi
        | some q =>
          have hres' : resolved n cells q = true := by
            simpa [resolved, hp, hr, hi] using hres
          have hl : longest_sum (n + 1) cells p = longest_sum n cells q := by
            simp [longest_sum, hp, hr, hi]
          rw [hl]; exact PathSum.reg hp hr hi (ih cells q hres')
      · have hr : is_reg c = false := by simpa using hr
        by_cases hv : is_var c = true
        · cases hi : c.inp with
          | none => simp [resolved, hp, hr, hv, hi] at hres
          | some q =>
            have hres' : resolved n cells q = true := by
              simpa [resolved, hp, hr, hv, hi] using hres
            have hl : longest_sum (n + 1) cells p = longest_sum n cells q := by
              simp [longest_sum, hp, hr, hv, hi]
            rw [hl]; exact PathSum.leaf hp hr hv hi (ih cells q hres')
        · have hv : is_var c = false := by simpa using hv
          cases hg : c.gate with
          | none => simp [resolved, hp, hr, hv, hg] at hres
          | some g =>
            cases hi : c.inp with
            | none =>
              have h0 : g.arity = 0 := by simpa [resolved, hp, hr, hv, hg, hi] using hres
              have hl : longest_sum (n + 1) cells p = g.delay := by
                simp [longest_sum, hp, hr, hv, hg, hi]
              rw [hl]; exact PathSum.const hp hr hv hg h0
            | some a =>
              have hin := resolved_inputs hp hr hv hg hi hres
              rw [longest_sum_app hp hr hv hg hi]
              by_cases h0 : g.arity = 0
              · simp only [h0, List.range_zero, List.map_nil, List.foldl_nil, Nat.zero_add]
                exact PathSum.const hp hr hv hg h0
              · have key : ∃ i, i < g.arity ∧
                    ((List.range g.arity).map
                      (fun i => longest_sum n cells (a + SIZEOF_CIRCUIT * i))).foldl max 0 =
                    longest_sum n cells (a + SIZEOF_CIRCUIT * i) := by
                  rcases foldl_max_mem ((List.range g.arity).map
                      (fun i => longest_sum n cells (a + SIZEOF_CIRCUIT * i))) 0 with h | h
                  · have hpos : 0 < g.arity := by omega
                    refine ⟨0, hpos, ?_⟩
                    have := le_foldl_max (l := (List.range g.arity).map
                        (fun i => longest_sum n cells (a + SIZEOF_CIRCUIT * i)))
                      (List.mem_map.mpr ⟨0, List.mem_range.mpr hpos, rfl⟩) 0
                    omega
                  · obtain ⟨i, hi1, hi2⟩ := List.mem_map.mp h
                    exact ⟨i, List.mem_range.mp hi1, hi2.symm⟩
                obtain ⟨i, hilt, hieq⟩ := key
                rw [hieq]
                exact PathSum.app hp hr hv hg hi hilt (ih cells _ (hin i hilt))

theorem pathSum_le_longest_sum :
    ∀ (n : Nat) (cells : Cells) (p : Nat), resolved n cells p = true →
      ∀ s, PathSum cells p s → s ≤ longest_sum n cells p := by
  intro n
  induction n with
  | zero => intro cells p h; simp [resolved] at h
  | succ n ih =>
    intro cells p hres s hs
    cases hs with
    | prim hp hr hi => exact Nat.zero_le _
    | reg hp hr hi hq =>
      rename_i q c
      have hres' : resolved n cells q = true := by
        simpa [resolved, hp, hr, hi] using hres
      have hl : longest_sum (n + 1) cells p = longest_sum n cells q := by
        simp [longest_sum, hp, hr, hi]
      rw [hl]; exact ih cells _ hres' s hq
    | leaf hp hr hv hi hq =>
      rename_i q c
      have hres' : resolved n cells q = true := by
        simpa [resolved, hp, hr, hv, hi] using hres
      have hl : longest_sum (n + 1) cells p = longest_sum n cells q := by
        simp [longest_sum, hp, hr, hv, hi]
      rw [hl]; exact ih cells _ hres' s hq
    | app hp hr hv hg hi hlt hq =>
      rename_i a i s c g
      have hin := resolved_inputs hp hr hv hg hi hres
      rw [longest_sum_app hp hr hv hg hi]
      have h1 := ih cells _ (hin _ hlt) _ hq
      have h2 := le_foldl_max (l := (List.range g.arity).map
          (fun i => longest_sum n cells (a + SIZEOF_CIRCUIT * i)))
        (List.mem_map.mpr ⟨i, List.mem_range.mpr hlt, rfl⟩) 0
      exact Nat.add_le_add_right (Nat.le_trans h1 h2) _
    | const hp hr hv hg h0 =>
      rename_i c g
      cases hi : c.inp with
      | none => simp [longest_sum, hp, hr, hv, hg, hi]
      | some a => rw [longest_sum_app hp hr hv hg hi]; omega

theorem resolved_succ :
    ∀ (n : Nat) (cells : Cells) (p : Nat), resolved n cells p = true →
      resolved (n + 1) cells p = true ∧ longest_sum (n + 1) cells p = longest_sum n cells p := by
  intro n
  induction n with
  | zero => intro cells p h; simp [resolved] at h
  | succ n ih =>
    intro cells p hres
    cases hp : cells p with
    | none => simp [resolved, hp] at hres
    | some c =>
      by_cases hr : is_reg c = true
      · cases hi : c.inp with
        | none => simp [resolved, longest_sum, hp, hr, hi]
        | some q =>
          have hres' : resolved n cells q = true := by
            simpa [resolved, hp, hr, hi] using hres
          have := ih cells q hres'
          constructor
          · rw [resolved]; simp only [hp, hr, hi, if_true]; exact this.1
          · rw [longest_sum]; simp only [hp, hr, hi, if_true]; rw [this.2]
            simp [longest_sum, hp, hr, hi]
      · have hr : is_reg c = false := by simpa using hr
        by_cases hv : is_var c = true
        · cases hi : c.inp with
          | none => simp [resolved, hp, hr, hv, hi] at hres
          | some q =>
            have hres' : resolved n cells q = true := by
              simpa [resolved, hp, hr, hv, hi] using hres
            have := ih cells q hres'
            constructor
            · rw [resolved]; simp only [hp, hr, hv, hi, if_true, Bool.false_eq_true, if_false]
              exact this.1
            · rw [longest_sum]
              simp only [hp, hr, hv, hi, if_true, Bool.false_eq_true, if_false]; rw [this.2]
              simp [longest_sum, hp, hr, hv, hi]
        · have hv : is_var c = false := by simpa using hv
          cases hg : c.gate with
          | none => simp [resolved, hp, hr, hv, hg] at hres
          | some g =>
            cases hi : c.inp with
            | none =>
              have h0 : g.arity = 0 := by simpa [resolved, hp, hr, hv, hg, hi] using hres
              simp [resolved, longest_sum, hp, hr, hv, hg, hi, h0]
            | some a =>
              have hin := resolved_inputs hp hr hv hg hi hres
              constructor
              · rw [resolved]
                simp only [hp, hr, hv, hg, hi, Bool.false_eq_true, if_false, List.all_eq_true,
                  List.mem_range]
                intro j hj; exact (ih cells _ (hin j hj)).1
              · rw [longest_sum_app hp hr hv hg hi, longest_sum_app hp hr hv hg hi]
                congr 2
                apply List.map_congr_left
                intro j hj
                exact (ih cells _ (hin j (List.mem_range.mp hj))).2

theorem resolved_le {n k : Nat} (h : n ≤ k) {cells : Cells} {p : Nat}
    (hres : resolved n cells p = true) :
    resolved k cells p = true ∧ longest_sum k cells p = longest_sum n cells p := by
  induction h with
  | refl => exact ⟨hres, rfl⟩
  | step _ ih =>
    have := resolved_succ _ cells p ih.1
    exact ⟨this.1, this.2.trans ih.2⟩


/-! ## The extremal queries -/

theorem get_min_delay_app {n : Nat} {cells : Cells} {c : Circuit} {g : Gate}
    (hr : is_reg c = false) (hv : is_var c = false) (hg : c.gate = some g) :
    get_min_delay (n + 1) cells c =
      for_range (fun delay i =>
          input_ptr c i >>= fun q => load cells q >>= fun ci =>
            get_min_delay n cells ci >>= fun in_delay => pure (MIN delay in_delay))
        g.arity 0 ULONG_MAX := by
  simp only [get_min_delay, hr, hv, hg, Bool.false_eq_true, if_false, bind_assoc]

theorem get_max_delay_app {n : Nat} {cells : Cells} {c : Circuit} {g : Gate}
    (hr : is_reg c = false) (hv : is_var c = false) (hg : c.gate = some g) :
    get_max_delay (n + 1) cells c =
      for_range (fun delay i =>
          input_ptr c i >>= fun q => load cells q >>= fun ci =>
            get_max_delay n cells ci >>= fun in_delay => pure (MAX delay in_delay))
        g.arity 0 0 := by
  simp only [get_max_delay, hr, hv, hg, Bool.false_eq_true, if_false, bind_assoc]

theorem resolved_some {n : Nat} {cells : Cells} {p : Nat} (h : resolved n cells p = true) :
    ∃ c, cells p = some c := by
  cases n with
  | zero => simp [resolved] at h
  | succ n =>
    cases hp : cells p with
    | none => simp [resolved, hp] at h
    | some c => exact ⟨c, rfl⟩

theorem Unconstrained.step {cells : Cells} {p q : Nat} (h : Unconstrained cells p)
    (e : Edge cells p q) : Unconstrained cells q :=
  fun r c hr => h r c (Relation.ReflTransGen.head e hr)

/-- C1, as stated, fails: on the scenario of the specification (`AND` of arity
2 and delay 3, setup 2, output `AND [ ] [ ]`) the run reports the longest path
delay 0 and the period bound 2, not 3 and 5. -/
theorem main_and_3_reports_zero :
    (main 100 source_and_3).map Report.longest = .ok (some (0, 2)) ∧
    (main 100 source_and_3).map Report.longest ≠ .ok (some (3, 5)) := by
  decide

/-- C1, amended: when the output is an operator of arity 2 and delay `d` applied
to two primary registers and the clock declares `setup = s`, the annotation
pass stores `d` at the output node, but `get_max_delay` takes only the stored
annotations of registers (0 for both inputs): the reported longest path delay
is 0 and the reported period bound is `s`, for every `d` and `s`. -/
theorem and_of_primary_registers_report (cells : Cells) (clock : Clock) (a k : Nat)
    (c r0 r1 : Circuit) (g : Gate)
    (hp : cells ROOT = some c) (hcv : c.var = none) (hcg : c.gate = some g)
    (hci : c.inp = some a) (harity : g.arity = 2)
    (h0 : cells a = some r0) (hr0 : r0.var = none ∧ r0.gate = none ∧ r0.inp = none)
    (h1 : cells (a + SIZEOF_CIRCUIT) = some r1)
    (hr1 : r1.var = none ∧ r1.gate = none ∧ r1.inp = none)
    (hd : g.delay ≤ ULONG_MAX) (hs : clock.setup ≤ ULONG_MAX)
    (hsetup : clock.given &&& 1 ≠ 0) (hk : 2 ≤ k) :
    ∃ cells1 m cells2 c2,
      compute_min_delays k cells ROOT = .ok (cells1, m) ∧
      compute_max_delays k cells1 ROOT = .ok (cells2, g.delay) ∧
      cells2 ROOT = some c2 ∧ c2.max_delay = g.delay ∧
      get_max_delay k cells2 c2 = .ok 0 ∧
      (report k clock cells2).map Report.longest = .ok (some (0, clock.setup)) := by
  obtain ⟨k, rfl⟩ : ∃ k', k = k' + 2 := ⟨k - 2, by omega⟩
  have hpa : ROOT ≠ a := by
    intro h; rw [← h, hp] at h0; cases h0; simp [hcg] at hr0
  have hpa1 : ROOT ≠ a + SIZEOF_CIRCUIT := by
    intro h; rw [← h, hp] at h1; cases h1; simp [hcg] at hr1
  simp only [SIZEOF_CIRCUIT] at h1 hpa1
  have hd' := wrap_of_le hd
  have hs' := wrap_of_le hs
  have hsetup' : clock.given % 2 = 1 := by simpa using hsetup
  simp [compute_min_delays, compute_max_delays, get_max_delay, get_min_delay, report, load, hp,
    is_reg, is_var, hcv, hcg, hci, harity, for_range, input_ptr, h0, hr0, h1, hr1, bind,
    Except.bind, pure, Except.pure, set_min_delay, set_max_delay, hpa, hpa1, hpa.symm,
    hpa1.symm, MIN, MAX, hd', hs', Except.map, hsetup', SIZEOF_CIRCUIT]
  by_cases hc : clock.given >>> 2 % 2 = 1 <;> simp [hc]

/-- The amended C1 applies to the memory and the clock budget parsed from the
scenario of the specification. -/
theorem and_of_primary_registers_report_witness :
    parsed_cells source_and_3 ROOT =
        some (mk_circuit none (some ⟨some 14, 3, 2, 3⟩) (some 32)) ∧
      (parsed_clock source_and_3).setup = 2 ∧
      ∃ cells1 m cells2 c2,
        compute_min_delays 2 (parsed_cells source_and_3) ROOT = .ok (cells1, m) ∧
        compute_max_delays 2 cells1 ROOT = .ok (cells2, 3) ∧
        cells2 ROOT = some c2 ∧ c2.max_delay = 3 ∧
        get_max_delay 2 cells2 c2 = .ok 0 ∧
        (report 2 (parsed_clock source_and_3) cells2).map Report.longest = .ok (some (0, 2)) :=
  ⟨by decide, by decide,
    and_of_primary_registers_report (parsed_cells source_and_3) (parsed_clock source_and_3)
      32 2 (mk_circuit none (some ⟨some 14, 3, 2, 3⟩) (some 32)) (mk_circuit none none none)
      (mk_circuit none none none) ⟨some 14, 3, 2, 3⟩ (by decide) rfl rfl rfl rfl (by decide)
      ⟨rfl, rfl, rfl⟩ (by decide) ⟨rfl, rfl, rfl⟩ (by decide) (by decide) (by decide)
      (by decide)⟩

/-- C2: on a resolved, acyclic graph in which no path sum exceeds `ULONG_MAX`,
`compute_max_delays` returns, for every sufficient budget, the largest sum of
operator delays along any path from the node down to a node without inputs,
and stores it in `max_delay` of the node; it changes annotations only. -/
theorem compute_max_delays_longest_path (n : Nat) (cells : Cells) (p : Nat)
    (hres : resolved n cells p = true)
    (hbound : ∀ s, PathSum cells p s → s ≤ ULONG_MAX) :
    ∃ v, IsLongest cells p v ∧
      ∀ k, n ≤ k → ∃ cells' c', compute_max_delays k cells p = .ok (cells', v) ∧
        cells' p = some c' ∧ c'.max_delay = v ∧ SameShape cells cells' := by
  refine ⟨longest_sum n cells p,
    ⟨pathSum_longest_sum n cells p hres, pathSum_le_longest_sum n cells p hres⟩, ?_⟩
  intro k hk
  obtain ⟨hresk, hlk⟩ := resolved_le hk hres
  have hle : longest_sum k cells p ≤ ULONG_MAX := by
    rw [hlk]; exact hbound _ (pathSum_longest_sum n cells p hres)
  obtain ⟨cells', c', h1, h2, h3, h4⟩ := compute_max_delays_spec k cells p hresk hle
  exact ⟨cells', c', hlk ▸ h1, h3, hlk ▸ h4, h2⟩

/-- C2 applies to the graph parsed from `source_shared`, where a binding is
shared by two operators; its longest path has delay 19. -/
theorem compute_max_delays_longest_path_witness :
    resolved 6 (parsed_cells source_shared) ROOT = true ∧
      ∃ v, IsLongest (parsed_cells source_shared) ROOT v ∧
        ∀ k, 6 ≤ k → ∃ cells' c',
          compute_max_delays k (parsed_cells source_shared) ROOT = .ok (cells', v) ∧
          cells' ROOT = some c' ∧ c'.max_delay = v ∧
          SameShape (parsed_cells source_shared) cells' :=
  ⟨by decide,
    compute_max_delays_longest_path 6 (parsed_cells source_shared) ROOT (by decide)
      (fun s hs => Nat.le_trans
        (pathSum_le_longest_sum 6 (parsed_cells source_shared) ROOT (by decide) s hs)
        (by decide))⟩


/-- C3, as stated, fails: for `AND` with delay 5 applied to two primary
registers, `compute_min_delays` returns and stores 5, not the sentinel
`ULONG_MAX`: the sentinel is reset to 0 before the delay is added. -/
theorem compute_min_delays_and_5 :
    (compute_min_delays 2 (parsed_cells source_and_5) ROOT).map Prod.snd = .ok 5 ∧
    (compute_min_delays 2 (parsed_cells source_and_5) ROOT).map Prod.snd ≠ .ok ULONG_MAX := by
  decide

/-- C3, amended: an operator of arity 2 and delay `d` applied to two primary
registers gets from `compute_min_delays` the minimum annotation `0 + d = d`
and from `compute_max_delays` the maximum annotation `0 + d = d`, for every
`d`; both are returned and stored in the node. -/
theorem and_of_primary_registers_annotations (cells : Cells) (p a k : Nat)
    (c r0 r1 : Circuit) (g : Gate)
    (hp : cells p = some c) (hcv : c.var = none) (hcg : c.gate = some g)
    (hci : c.inp = some a) (harity : g.arity = 2)
    (h0 : cells a = some r0) (hr0 : r0.var = none ∧ r0.gate = none ∧ r0.inp = none)
    (h1 : cells (a + SIZEOF_CIRCUIT) = some r1)
    (hr1 : r1.var = none ∧ r1.gate = none ∧ r1.inp = none)
    (hd : g.delay ≤ ULONG_MAX) (hk : 2 ≤ k) :
    ∃ cells1 c1 cells2 c2,
      compute_min_delays k cells p = .ok (cells1, g.delay) ∧
      cells1 p = some c1 ∧ c1.min_delay = g.delay ∧
      compute_max_delays k cells p = .ok (cells2, g.delay) ∧
      cells2 p = some c2 ∧ c2.max_delay = g.delay := by
  obtain ⟨k, rfl⟩ : ∃ k', k = k' + 2 := ⟨k - 2, by omega⟩
  have hpa : p ≠ a := by
    intro h; rw [← h, hp] at h0; cases h0; simp [hcg] at hr0
  have hpa1 : p ≠ a + SIZEOF_CIRCUIT := by
    intro h; rw [← h, hp] at h1; cases h1; simp [hcg] at hr1
  simp only [SIZEOF_CIRCUIT] at h1 hpa1
  have hd' := wrap_of_le hd
  simp [compute_min_delays, compute_max_delays, load, hp,
    is_reg, is_var, hcv, hcg, hci, harity, for_range, input_ptr, h0, hr0, h1, hr1, bind,
    Except.bind, pure, Except.pure, set_min_delay, set_max_delay, hpa, hpa1, hpa.symm,
    hpa1.symm, MIN, MAX, hd', SIZEOF_CIRCUIT]

/-- The amended C3 applies to the graph parsed from `source_and_5`. -/
theorem and_of_primary_registers_annotations_witness :
    parsed_cells source_and_5 ROOT =
        some (mk_circuit none (some ⟨some 6, 3, 2, 5⟩) (some 32)) ∧
      ∃ cells1 c1 cells2 c2,
        compute_min_delays 2 (parsed_cells source_and_5) ROOT = .ok (cells1, 5) ∧
        cells1 ROOT = some c1 ∧ c1.min_delay = 5 ∧
        compute_max_delays 2 (parsed_cells source_and_5) ROOT = .ok (cells2, 5) ∧
        cells2 ROOT = some c2 ∧ c2.max_delay = 5 :=
  ⟨by decide,
    and_of_primary_registers_annotations (parsed_cells source_and_5) ROOT 32 2
      (mk_circuit none (some ⟨some 6, 3, 2, 5⟩) (some 32)) (mk_circuit none none none)
      (mk_circuit none none none) ⟨some 6, 3, 2, 5⟩ (by decide) rfl rfl rfl rfl (by decide)
      ⟨rfl, rfl, rfl⟩ (by decide) ⟨rfl, rfl, rfl⟩ (by decide) (by decide)⟩

/-- C4: on the single-stage circuit `[ AND [ ] (OR [ ] [ ]) ]` with delays 5 and
7 the run reports the shortest path delay 12, although the path from the output
register through `AND` to its first input, a primary register, has delay 5. -/
theorem main_and_or_reports_12 :
    main 100 source_and_or = .ok { shortest := some (12, 12), longest := none } ∧
    resolved 4 (parsed_cells source_and_or) ROOT = true ∧
    PathSum (parsed_cells source_and_or) ROOT 5 := by
  refine ⟨by decide, by decide, ?_⟩
  have h64 : parsed_cells source_and_or 64 =
      some (mk_circuit none (some ⟨some 6, 3, 2, 5⟩) (some 112)) := by decide
  have h112 : parsed_cells source_and_or 112 = some (mk_circuit none none none) := by decide
  have hroot : parsed_cells source_and_or ROOT = some (mk_circuit none none (some 64)) := by
    decide
  exact PathSum.reg hroot rfl rfl
    (PathSum.app (i := 0) (s := 0) h64 rfl rfl rfl rfl (by decide) (PathSum.prim h112 rfl rfl))

theorem peek_then_next {file : File} {sc sc1 : Scanner} {t : Token}
    (h : peek_token file sc = .ok (t, sc1)) :
    next_token file sc1 = .ok (t, { sc1 with peeked := false }) := by
  unfold peek_token at h
  by_cases hp : sc.peeked = true
  · simp only [hp, if_true, pure, Except.pure, Except.ok.injEq, Prod.mk.injEq] at h
    obtain ⟨rfl, rfl⟩ := h
    simp [next_token, hp, pure, Except.pure]
  · simp only [hp, Bool.false_eq_true, if_false] at h
    cases hn : next_token file sc with
    | error e => simp [hn, bind, Except.bind] at h
    | ok r =>
      obtain ⟨t', sc'⟩ := r
      simp only [hn, bind, Except.bind, pure, Except.pure, Except.ok.injEq, Prod.mk.injEq] at h
      obtain ⟨rfl, rfl⟩ := h
      simp [next_token, pure, Except.pure]

/-! ## Tokens -/

theorem read_lt {file : File} {i : Nat} (h : i < file.text.length) :
    file.read i = .ok file.text[i] := by
  simp [File.read, List.getElem?_eq_getElem h, pure, Except.pure]

theorem bytes_eq_spec (file : File) (s0 s1 : Nat) :
    ∀ n i, s0 + i + n ≤ file.text.length → s1 + i + n ≤ file.text.length →
      bytes_eq file s0 s1 n i =
        .ok (decide ((file.text.drop (s0 + i)).take n = (file.text.drop (s1 + i)).take n)) := by
  intro n
  induction n with
  | zero => intro i _ _; simp [bytes_eq, pure, Except.pure]
  | succ n ih =>
    intro i h0 h1
    have l0 : s0 + i < file.text.length := by omega
    have l1 : s1 + i < file.text.length := by omega
    unfold bytes_eq
    rw [read_lt l0, read_lt l1]
    simp only [bind, Except.bind]
    rw [List.drop_eq_getElem_cons l0, List.drop_eq_getElem_cons l1, List.take_succ_cons,
      List.take_succ_cons]
    by_cases hab : file.text[s0 + i] = file.text[s1 + i]
    · have := ih (i + 1) (by omega) (by omega)
      simp only [hab, ne_eq, not_true_eq_false, if_false, List.cons.injEq, true_and]
      rw [this]
      simp [Nat.add_assoc]
    · simp [hab, pure, Except.pure]

theorem token_text_length {file : File} {t : Token} (h : t.inside file) :
    (token_text file t).length = t.len := by
  obtain ⟨s, hs, hle⟩ := h
  simp only [token_text, hs, List.length_take, List.length_drop]
  omega

theorem token_eq_spec {file : File} {a b : Token} (ha : a.inside file) (hb : b.inside file) :
    token_eq file a b = .ok (decide (token_text file a = token_text file b)) := by
  have la := token_text_length ha
  have lb := token_text_length hb
  obtain ⟨s0, hs0, h0⟩ := ha
  obtain ⟨s1, hs1, h1⟩ := hb
  unfold token_eq
  by_cases hlen : a.len = b.len
  · simp only [hlen, ne_eq, not_true_eq_false, if_false, hs0, hs1]
    have := bytes_eq_spec file s0 s1 b.len 0 (by omega) (by omega)
    simp only [Nat.add_zero] at this
    rw [this]
    simp [token_text, hs0, hs1, hlen]
  · have : token_text file a ≠ token_text file b := by
      intro h; rw [h] at la; omega
    simp [hlen, this, pure, Except.pure]

/-! ## Keywords -/

theorem cstr_at_eq (kind : String) (ks : List Char) (hks : kind.toList = ks) (idx : Nat) :
    cstr_at kind idx =
      match ks[idx]? with
      | some c => .ok c
      | none => if idx = ks.length then .ok NUL else .error Err.fault := by
  subst hks
  rfl

theorem is_loop_spec (file : File) (start : Nat) (kind : String) (ks : List Char)
    (hks : kind.toList = ks) (hk : NUL ∉ ks) :
    ∀ n idx, start + idx + n ≤ file.text.length → idx ≤ ks.length →
      NUL ∉ (file.text.drop (start + idx)).take n →
      is_loop file start kind n idx =
        .ok (decide ((file.text.drop (start + idx)).take n = ks.drop idx)) := by
  intro n
  induction n with
  | zero =>
    intro idx _ hidx _
    unfold is_loop
    rw [cstr_at_eq kind ks hks]
    rcases Nat.lt_or_eq_of_le hidx with h | h
    · have hne : ks[idx] ≠ NUL := fun e => hk (e ▸ List.getElem_mem h)
      have hd : ks.drop idx ≠ [] := by
        intro e; have := congrArg List.length e; simp at this; omega
      simp [List.getElem?_eq_getElem h, bind, Except.bind, pure, Except.pure, hne, Ne.symm hd]
    · subst h
      simp [bind, Except.bind, pure, Except.pure]
  | succ n ih =>
    intro idx hle hidx hnul
    have l0 : start + idx < file.text.length := by omega
    unfold is_loop
    rw [read_lt l0, cstr_at_eq kind ks hks]
    rw [List.drop_eq_getElem_cons l0, List.take_succ_cons] at hnul ⊢
    have hc : file.text[start + idx] ≠ NUL := fun e => hnul (e ▸ List.mem_cons_self _ _)
    rcases Nat.lt_or_eq_of_le hidx with h | h
    · rw [List.drop_eq_getElem_cons h]
      simp only [List.getElem?_eq_getElem h, bind, Except.bind]
      by_cases hkc : ks[idx] = file.text[start + idx]
      · have := ih (idx + 1) (by omega) (by omega)
          (fun hm => hnul (List.mem_cons_of_mem _ (by simpa [Nat.add_assoc] using hm)))
        simp only [hkc, ne_eq, not_true_eq_false, if_false, List.cons.injEq, true_and]
        rw [this]
        simp [Nat.add_assoc]
      · have hkc' : ¬ file.text[start + idx] = ks[idx] := fun e => hkc e.symm
        simp [hkc, hkc', pure, Except.pure]
        intro e
        rw [List.drop_eq_getElem_cons h] at e
        exact hkc' (List.cons.inj e).1
    · subst h
      simp [bind, Except.bind, pure, Except.pure, Ne.symm hc]

theorem is_kind_text {file : File} {token : Token} (kind : String)
    (hin : token.inside file) (hnul : NUL ∉ token_text file token)
    (hk : NUL ∉ kind.toList) :
    is_kind file token kind = .ok (decide (token_text file token = kind.toList)) := by
  obtain ⟨s, hs, hle⟩ := hin
  have := is_loop_spec file s kind kind.toList rfl hk token.len 0 (by omega) (Nat.zero_le _)
    (by simpa [token_text, hs] using hnul)
  simp only [is_kind, hs, this]
  simp [token_text, hs]


/-! ## Clock budget -/

theorem known_name_lt {text : List Char} {i : Nat} (h : known_name text = some i) : i < 4 := by
  unfold known_name at h
  split at h
  · cases h; omega
  · split at h
    · cases h; omega
    · split at h
      · cases h; omega
      · split at h
        · cases h; omega
        · cases h

theorem bit_test (given i : Nat) : ((given >>> i) &&& 1 ≠ 0) ↔ given.testBit i = true := by
  simp [Nat.testBit, Nat.and_comm]

theorem clock_assign_spec {file : File} {token : Token} (n given : Nat) (fields : List Nat)
    (hin : token.inside file) (hnul : NUL ∉ token_text file token) :
    clock_assign file token n clock_names 0 given fields =
      match known_name (token_text file token) with
      | none => .ok (given, fields)
      | some i =>
        if given.testBit i = true then
          .error (Err.already_defined token (clock_names.getD i ""))
        else .ok (given ||| 2 ^ i, fields.set i n) := by
  have h0 := is_kind_text "setup" hin hnul (by decide)
  have h1 := is_kind_text "hold" hin hnul (by decide)
  have h2 := is_kind_text "c2q" hin hnul (by decide)
  have h3 := is_kind_text "prop" hin hnul (by decide)
  have w0 : wrap (1 <<< 0) = 2 ^ 0 := by decide
  have w1 : wrap (1 <<< 1) = 2 ^ 1 := by decide
  have w2 : wrap (1 <<< 2) = 2 ^ 2 := by decide
  have w3 : wrap (1 <<< 3) = 2 ^ 3 := by decide
  generalize token_text file token = text at h0 h1 h2 h3
  simp only [clock_assign, clock_names, h0, h1, h2, h3, bind, Except.bind, bit_test, w0, w1,
    w2, w3, Nat.zero_add, Nat.reduceAdd]
  unfold known_name
  by_cases e0 : text = "setup".toList
  · subst e0
    by_cases hb : given.testBit 0 = true <;>
      simp [hb, throw, throwThe, MonadExceptOf.throw, pure, Except.pure]
  · by_cases e1 : text = "hold".toList
    · subst e1
      by_cases hb : given.testBit 1 = true <;>
        simp [hb, throw, throwThe, MonadExceptOf.throw, pure, Except.pure]
    · by_cases e2 : text = "c2q".toList
      · subst e2
        by_cases hb : given.testBit 2 = true <;>
          simp [hb, throw, throwThe, MonadExceptOf.throw, pure, Except.pure]
      · by_cases e3 : text = "prop".toList
        · subst e3
          by_cases hb : given.testBit 3 = true <;>
            simp [hb, throw, throwThe, MonadExceptOf.throw, pure, Except.pure]
        · simp only [String.toList] at e0 e1 e2 e3
          simp [e0, e1, e2, e3, pure, Except.pure]

theorem parse_clock_loop_eq (file : File) :
    ∀ (k : Nat) (sc : Scanner) (given : Nat) (fields : List Nat)
      (entries : List (Token × Nat)) (sc' : Scanner),
      read_clock file k sc = .ok (entries, sc') →
      parse_clock_loop file k sc given fields =
        (assign_entries file entries given fields >>= fun r => pure (r.1, r.2, sc')) := by
  intro k
  induction k with
  | zero => intro sc given fields entries sc' h; simp [read_clock, throw, throwThe,
      MonadExceptOf.throw] at h
  | succ k ih =>
    intro sc given fields entries sc' h
    unfold read_clock at h
    unfold parse_clock_loop
    cases h1 : next_is file sc "CIRCUIT" with
    | error e => simp [h1, bind, Except.bind] at h
    | ok r1 =>
      obtain ⟨stop, sc1⟩ := r1
      simp only [h1, bind, Except.bind] at h ⊢
      cases stop with
      | true =>
        simp only [if_true, pure, Except.pure, Except.ok.injEq, Prod.mk.injEq] at h
        obtain ⟨rfl, rfl⟩ := h
        simp [assign_entries, pure, Except.pure]
      | false =>
        simp only [Bool.false_eq_true, if_false] at h ⊢
        cases h2 : next_token file sc1 with
        | error e => simp [h2] at h
        | ok r2 =>
          obtain ⟨token, sc2⟩ := r2
          simp only [h2] at h ⊢
          cases h3 : parse_literal file sc2 "=" with
          | error e => simp [h3] at h
          | ok sc3 =>
            simp only [h3] at h ⊢
            cases h4 : parse_integer file sc3 with
            | error e => simp [h4] at h
            | ok r4 =>
              obtain ⟨n, sc4⟩ := r4
              simp only [h4] at h ⊢
              cases h5 : read_clock file k sc4 with
              | error e => simp [h5] at h
              | ok r5 =>
                obtain ⟨rest, sc5⟩ := r5
                simp only [h5, pure, Except.pure, Except.ok.injEq, Prod.mk.injEq] at h
                obtain ⟨rfl, rfl⟩ := h
                cases h6 : clock_assign file token n clock_names 0 given fields with
                | error e => simp [assign_entries, h6, bind, Except.bind]
                | ok r6 =>
                  obtain ⟨g', f'⟩ := r6
                  have := ih sc4 g' f' rest sc5 h5
                  simp only [bind, Except.bind] at this
                  simp only [assign_entries, h6, bind, Except.bind, this]

/-- The state of the loop of `parse_clock` after the known fields `assigned`
have been assigned, starting from the empty budget. -/
theorem assign_entries_spec (file : File) :
    ∀ (entries : List (Token × Nat)) (assigned : List (Nat × Nat)) (given : Nat)
      (fields : List Nat),
      (∀ e ∈ entries, e.1.inside file ∧ NUL ∉ token_text file e.1) →
      fields.length = 4 →
      (∀ i, given.testBit i = true ↔ i ∈ assigned.map Prod.fst) →
      (∀ i n, (i, n) ∈ assigned → fields.getD i 0 = n) →
      (∀ i, i ∉ assigned.map Prod.fst → fields.getD i 0 = 0) →
      ((assigned ++ assigned_fields file entries).map Prod.fst).Nodup →
      ∃ given' fields', assign_entries file entries given fields = .ok (given', fields') ∧
        fields'.length = 4 ∧
        (∀ i, given'.testBit i = true ↔
          i ∈ (assigned ++ assigned_fields file entries).map Prod.fst) ∧
        (∀ i n, (i, n) ∈ assigned ++ assigned_fields file entries → fields'.getD i 0 = n) ∧
        (∀ i, i ∉ (assigned ++ assigned_fields file entries).map Prod.fst →
          fields'.getD i 0 = 0) := by
  intro entries
  induction entries with
  | nil =>
    intro assigned given fields _ hlen hbit hval hzero _
    refine ⟨given, fields, rfl, hlen, ?_, ?_, ?_⟩
    · simpa [assigned_fields] using hbit
    · simpa [assigned_fields] using hval
    · simpa [assigned_fields] using hzero
  | cons e rest ih =>
    intro assigned given fields hwf hlen hbit hval hzero hnd
    obtain ⟨token, n⟩ := e
    have hw := hwf (token, n) (List.mem_cons_self _ _)
    have hwf' : ∀ e ∈ rest, e.1.inside file ∧ NUL ∉ token_text file e.1 :=
      fun e he => hwf e (List.mem_cons_of_mem _ he)
    have hspec := clock_assign_spec n given fields hw.1 hw.2
    cases hk : known_name (token_text file token) with
    | none =>
      have hA : assigned_fields file ((token, n) :: rest) = assigned_fields file rest := by
        simp [assigned_fields, hk]
      rw [hA] at hnd ⊢
      rw [hk] at hspec
      obtain ⟨g', f', h1, h2⟩ := ih assigned given fields hwf' hlen hbit hval hzero hnd
      exact ⟨g', f', by simp [assign_entries, hspec, bind, Except.bind, h1], h2⟩
    | some i =>
      have hi4 := known_name_lt hk
      have hA : assigned_fields file ((token, n) :: rest) =
          (i, n) :: assigned_fields file rest := by
        simp [assigned_fields, hk]
      rw [hA] at hnd ⊢
      have hnd' : (((assigned ++ [(i, n)]) ++ assigned_fields file rest).map Prod.fst).Nodup := by
        simpa [List.append_assoc] using hnd
      have hnot : i ∉ assigned.map Prod.fst := by
        intro hmem
        rw [List.map_append, List.nodup_append] at hnd
        exact hnd.2.2 hmem (by simp)
      have hbi : ¬ given.testBit i = true := fun h => hnot ((hbit i).mp h)
      rw [hk] at hspec
      simp only [hbi, if_false] at hspec
      obtain ⟨g', f', h1, h2, h3, h4, h5⟩ := ih (assigned ++ [(i, n)]) (given ||| 2 ^ i)
        (fields.set i n) hwf' (by simpa using hlen)
        (by
          intro j
          rw [Nat.testBit_or, Nat.testBit_two_pow]
          simp only [Bool.or_eq_true, decide_eq_true_eq, hbit j, List.map_append, List.map_cons,
            List.map_nil, List.mem_append, List.mem_singleton]
          constructor
          · rintro (h | h)
            · exact Or.inl h
            · exact Or.inr h.symm
          · rintro (h | h)
            · exact Or.inl h
            · exact Or.inr h.symm)
        (by
          intro j m hjm
          simp only [List.mem_append, List.mem_singleton, Prod.mk.injEq] at hjm
          rcases hjm with h | ⟨rfl, rfl⟩
          · have hne : i ≠ j := by
              rintro rfl
              exact hnot (List.mem_map.mpr ⟨(i, m), h, rfl⟩)
            simp only [List.getD_eq_getElem?_getD, List.getElem?_set, hne, if_false]
            simpa [List.getD_eq_getElem?_getD] using hval j m h
          · simp [List.getD_eq_getElem?_getD, List.getElem?_set, hlen, hi4])
        (by
          intro j hj
          simp only [List.map_append, List.map_cons, List.map_nil, List.mem_append,
            List.mem_singleton, not_or] at hj
          have hne : i ≠ j := fun h => hj.2 h.symm
          simp only [List.getD_eq_getElem?_getD, List.getElem?_set, hne, if_false]
          simpa [List.getD_eq_getElem?_getD] using hzero j hj.1)
        hnd'
      refine ⟨g', f', by simp [assign_entries, hspec, bind, Except.bind, h1], h2, ?_, ?_, ?_⟩
      · intro j; simpa [List.append_assoc] using h3 j
      · intro j m; simpa [List.append_assoc] using h4 j m
      · intro j; simpa [List.append_assoc] using h5 j

theorem assign_entries_dup (file : File) :
    ∀ (entries : List (Token × Nat)) (assigned : List (Nat × Nat)) (given : Nat)
      (fields : List Nat),
      (∀ e ∈ entries, e.1.inside file ∧ NUL ∉ token_text file e.1) →
      (∀ i, given.testBit i = true ↔ i ∈ assigned.map Prod.fst) →
      (assigned.map Prod.fst).Nodup →
      ¬ ((assigned ++ assigned_fields file entries).map Prod.fst).Nodup →
      ∃ e ∈ entries, ∃ i name, known_name (token_text file e.1) = some i ∧
        clock_names[i]? = some name ∧
        assign_entries file entries given fields = .error (Err.already_defined e.1 name) := by
  intro entries
  induction entries with
  | nil =>
    intro assigned given fields _ _ hnd hdup
    simp [assigned_fields, hnd] at hdup
  | cons e rest ih =>
    intro assigned given fields hwf hbit hnd hdup
    obtain ⟨token, n⟩ := e
    have hw := hwf (token, n) (List.mem_cons_self _ _)
    have hwf' : ∀ e ∈ rest, e.1.inside file ∧ NUL ∉ token_text file e.1 :=
      fun e he => hwf e (List.mem_cons_of_mem _ he)
    have hspec := clock_assign_spec n given fields hw.1 hw.2
    cases hk : known_name (token_text file token) with
    | none =>
      have hA : assigned_fields file ((token, n) :: rest) = assigned_fields file rest := by
        simp [assigned_fields, hk]
      rw [hA] at hdup
      rw [hk] at hspec
      obtain ⟨e, he, i, name, h1, h2, h3⟩ := ih assigned given fields hwf' hbit hnd hdup
      exact ⟨e, List.mem_cons_of_mem _ he, i, name, h1, h2,
        by simp [assign_entries, hspec, bind, Except.bind, h3]⟩
    | some i =>
      have hi4 := known_name_lt hk
      have hA : assigned_fields file ((token, n) :: rest) =
          (i, n) :: assigned_fields file rest := by
        simp [assigned_fields, hk]
      rw [hA] at hdup
      rw [hk] at hspec
      have hname : ∃ name, clock_names[i]? = some name ∧ clock_names.getD i "" = name := by
        have : i = 0 ∨ i = 1 ∨ i = 2 ∨ i = 3 := by omega
        rcases this with rfl | rfl | rfl | rfl <;> exact ⟨_, rfl, rfl⟩
      obtain ⟨name, hn1, hn2⟩ := hname
      by_cases hmem : i ∈ assigned.map Prod.fst
      · have hbi : given.testBit i = true := (hbit i).mpr hmem
        simp only [hbi, if_true, hn2] at hspec
        exact ⟨(token, n), List.mem_cons_self _ _, i, name, hk, hn1,
          by simp [assign_entries, hspec, bind, Except.bind]⟩
      · have hbi : ¬ given.testBit i = true := fun h => hmem ((hbit i).mp h)
        simp only [hbi, if_false] at hspec
        obtain ⟨e, he, j, name', h1, h2, h3⟩ := ih (assigned ++ [(i, n)]) (given ||| 2 ^ i)
          (fields.set i n) hwf'
          (by
            intro j
            rw [Nat.testBit_or, Nat.testBit_two_pow]
            simp only [Bool.or_eq_true, decide_eq_true_eq, hbit j, List.map_append,
              List.map_cons, List.map_nil, List.mem_append, List.mem_singleton]
            constructor
            · rintro (h | h)
              · exact Or.inl h
              · exact Or.inr h.symm
            · rintro (h | h)
              · exact Or.inl h
              · exact Or.inr h.symm)
          (by
            rw [List.map_append, List.nodup_append]
            refine ⟨hnd, by simp, ?_⟩
            intro x hx hx'
            simp only [List.map_cons, List.map_nil, List.mem_singleton] at hx'
            subst hx'
            exact hmem hx)
          (by simpa [List.append_assoc] using hdup)
        exact ⟨e, List.mem_cons_of_mem _ he, j, name', h1, h2,
          by simp [assign_entries, hspec, bind, Except.bind, h3]⟩

/-- The test of `parse_vars` on names that lie in the arena as they were
stored: when the entries `0 .. i` of the array hold the names `names`, the
test of entry `i` finds a name exactly when the bytes of its name are those of
the name of an earlier entry. -/
theorem redefined_spec {file : File} {tokens : Nat → Option Token} {arr i : Nat}
    {names : List Token} (hi : i < names.length)
    (hmem : ∀ j, j ≤ i → tokens (arr + SIZEOF_VAR * j) = names[j]?)
    (hin : ∀ t ∈ names, t.inside file) :
    redefined file tokens arr i i 0 =
      .ok (decide (token_text file names[i] ∈ (names.take i).map (token_text file))) := by
  have hli : load_token tokens (arr + SIZEOF_VAR * i) = .ok names[i] := by
    simp [load_token, hmem i (Nat.le_refl i), List.getElem?_eq_getElem hi, pure, Except.pure]
  have key : ∀ n j, j + n = i →
      redefined file tokens arr i n j =
        .ok (decide (token_text file names[i] ∈
          ((names.take i).drop j).map (token_text file))) := by
    intro n
    induction n with
    | zero =>
      intro j hj
      have : (names.take i).drop j = [] := by
        apply List.drop_eq_nil_of_le
        simp only [List.length_take]
        omega
      simp [redefined, this, pure, Except.pure]
    | succ n ih =>
      intro j hj
      have hjl : j < names.length := by omega
      have hlj : load_token tokens (arr + SIZEOF_VAR * j) = .ok names[j] := by
        simp [load_token, hmem j (by omega), List.getElem?_eq_getElem hjl, pure, Except.pure]
      have hdrop : (names.take i).drop j = names[j] :: (names.take i).drop (j + 1) := by
        rw [List.drop_eq_getElem_cons (by simp only [List.length_take]; omega)]
        simp
      unfold redefined
      rw [hli, hlj]
      simp only [bind, Except.bind]
      rw [token_eq_spec (hin _ (List.getElem_mem _)) (hin _ (List.getElem_mem _))]
      simp only
      by_cases heq : token_text file names[i] = token_text file names[j]
      · simp [heq, hdrop, pure, Except.pure]
      · rw [ih (j + 1) (by omega), hdrop]
        simp [heq]
  simpa using key i 0 (by omega)

set_option maxRecDepth 8192 in
/-- C9, at a failing input: the `CIRCUIT` section of `source_overlap` has six
bindings, named `x`, `y`, `x`, `u`, `v`, `w`, and `parse_vars` returns their
table: the run is not rejected, `main` ends without a report to make.  The
array of the table lies at offset 64 and ends at 592.  For the operand of `F` in
the second binding, `alloc` adds `2 ^ 64 - 528` to `used`, which wraps from 592
to 64 and passes the test `used > size`; the token of the name `z` is then
allocated at offset 64, where the name of the first binding lies, and
overwrites it: when the third binding is compared with the names before it,
these are `z` and `y` (on names that lie in the arena as they were stored the
test is exact, `redefined_spec`).  With arity 3 in place of `2 ^ 60 - 11` the
same section is rejected at the third binding, as the section of
`source_redefined` is. -/
theorem parse_vars_overwritten_name :
    (token_texts source_overlap).map (fun ts => ts.drop 12) =
      .ok ["CIRCUIT".toList, ['x'], "is".toList, ['['], [']'], [','],
        ['y'], "is".toList, ['('], ['F'], ['z'], [')'], [','],
        ['x'], "is".toList, ['['], [']'], [','],
        ['u'], "is".toList, ['['], [']'], [','],
        ['v'], "is".toList, ['['], [']'], [','],
        ['w'], "is".toList, ['['], [']'], [','], ['['], [']']] ∧
    parsed_vars source_overlap = .ok (⟨64, 6⟩, 104) ∧
    (unresolved source_overlap).1.names.map (token_text source_overlap) =
      [['z'], ['y'], ['x'], ['u'], ['v'], ['w']] ∧
    main 10 source_overlap = .ok ⟨none, none⟩ ∧
    main 10 source_no_overlap = .error (Err.redefined ⟨1, 0, some 66, 1⟩) ∧
    main 10 source_redefined = .error (Err.redefined ⟨1, 0, some 44, 1⟩) := by
  refine ⟨by decide, by decide, by decide, by decide, by decide, by decide⟩

/-- C10: for a `CLOCK` section whose entries `<name> = <integer>` read well,
`parse_clock` fails (with `Already defined`) exactly when a known name is
assigned a second time; otherwise bit `i` of the mask is set iff known name `i`
was assigned, a present field holds the integer assigned to it, an absent field
is 0; an entry with any other name leaves the mask and the fields unchanged. -/
theorem parse_clock_fields (file : File) (sc sc1 sc' : Scanner)
    (entries : List (Token × Nat))
    (hlit : parse_literal file sc "CLOCK" = .ok sc1)
    (hread : read_clock file (file.size + 1) sc1 = .ok (entries, sc'))
    (hwf : ∀ e ∈ entries, e.1.inside file ∧ NUL ∉ token_text file e.1) :
    (((assigned_fields file entries).map Prod.fst).Nodup →
      ∃ clock, parse_clock file sc = .ok (clock, sc') ∧
        ∀ i, (clock.given.testBit i = true ↔
            i ∈ (assigned_fields file entries).map Prod.fst) ∧
          (∀ n, (i, n) ∈ assigned_fields file entries → clock.field i = n) ∧
          (i ∉ (assigned_fields file entries).map Prod.fst → clock.field i = 0)) ∧
    (¬ ((assigned_fields file entries).map Prod.fst).Nodup →
      ∃ e ∈ entries, ∃ i name, known_name (token_text file e.1) = some i ∧
        clock_names[i]? = some name ∧
        parse_clock file sc = .error (Err.already_defined e.1 name)) ∧
    (∀ e ∈ entries, known_name (token_text file e.1) = none →
      ∀ given fields,
        clock_assign file e.1 e.2 clock_names 0 given fields = .ok (given, fields)) := by
  have hloop := parse_clock_loop_eq file (file.size + 1) sc1 0 [0, 0, 0, 0] entries sc' hread
  refine ⟨?_, ?_, ?_⟩
  · intro hnd
    obtain ⟨g', f', h1, h2, h3, h4, h5⟩ := assign_entries_spec file entries [] 0 [0, 0, 0, 0]
      hwf rfl (by simp) (by simp) (by intro i _; rcases i with _ | _ | _ | _ | i <;> rfl)
      (by simpa using hnd)
    refine ⟨⟨g', f'.getD 0 0, f'.getD 1 0, f'.getD 2 0, f'.getD 3 0⟩, ?_, ?_⟩
    · simp [parse_clock, hlit, hloop, h1, bind, Except.bind, pure, Except.pure]
    · intro i
      simp only [List.nil_append] at h3 h4 h5
      have hfield : ∀ j, j < 4 →
          (Clock.field ⟨g', f'.getD 0 0, f'.getD 1 0, f'.getD 2 0, f'.getD 3 0⟩ j) =
            f'.getD j 0 := by
        intro j hj
        have : j = 0 ∨ j = 1 ∨ j = 2 ∨ j = 3 := by omega
        rcases this with rfl | rfl | rfl | rfl <;> rfl
      have hmem_lt : ∀ j, j ∈ (assigned_fields file entries).map Prod.fst → j < 4 := by
        intro j hj
        obtain ⟨⟨a, b⟩, hab, rfl⟩ := List.mem_map.mp hj
        simp only [assigned_fields, List.mem_filterMap, Option.map_eq_some', Prod.mk.injEq] at hab
        obtain ⟨e, _, k, hk, rfl, _⟩ := hab
        exact known_name_lt hk
      refine ⟨h3 i, ?_, ?_⟩
      · intro n hn
        have hi : i < 4 := hmem_lt i (List.mem_map.mpr ⟨(i, n), hn, rfl⟩)
        rw [hfield i hi]; exact h4 i n hn
      · intro hi
        by_cases hi4 : i < 4
        · rw [hfield i hi4]; exact h5 i hi
        · simp [Clock.field, List.getD_eq_getElem?_getD]
          rw [List.getElem?_eq_none (by simp; omega)]
          rfl
  · intro hdup
    obtain ⟨e, he, i, name, h1, h2, h3⟩ := assign_entries_dup file entries [] 0 [0, 0, 0, 0]
      hwf (by simp) (by simp) (by simpa using hdup)
    exact ⟨e, he, i, name, h1, h2,
      by simp [parse_clock, hlit, hloop, h3, bind, Except.bind]⟩
  · intro e he hk given fields
    have := clock_assign_spec e.2 given fields (hwf e he).1 (hwf e he).2
    rw [hk] at this
    exact this

/-- C10 applies to `source_clock`: `setup = 2`, an unknown name, `c2q = 5`. -/
theorem parse_clock_fields_witness :
    read_clock source_clock (source_clock.size + 1)
        { clock_section source_clock with peeked := false } =
      .ok (source_clock_entries, ⟨1, 0, 45, ⟨1, 0, some 38, 7⟩, true⟩) ∧
    ((((assigned_fields source_clock source_clock_entries).map Prod.fst).Nodup →
      ∃ clock, parse_clock source_clock (clock_section source_clock) =
          .ok (clock, ⟨1, 0, 45, ⟨1, 0, some 38, 7⟩, true⟩) ∧
        ∀ i, (clock.given.testBit i = true ↔
            i ∈ (assigned_fields source_clock source_clock_entries).map Prod.fst) ∧
          (∀ n, (i, n) ∈ assigned_fields source_clock source_clock_entries →
            clock.field i = n) ∧
          (i ∉ (assigned_fields source_clock source_clock_entries).map Prod.fst →
            clock.field i = 0)) ∧
    (¬ ((assigned_fields source_clock source_clock_entries).map Prod.fst).Nodup →
      ∃ e ∈ source_clock_entries, ∃ i name,
        known_name (token_text source_clock e.1) = some i ∧
        clock_names[i]? = some name ∧
        parse_clock source_clock (clock_section source_clock) =
          .error (Err.already_defined e.1 name)) ∧
    (∀ e ∈ source_clock_entries, known_name (token_text source_clock e.1) = none →
      ∀ given fields,
        clock_assign source_clock e.1 e.2 clock_names 0 given fields = .ok (given, fields))) :=
  ⟨by decide,
    parse_clock_fields source_clock (clock_section source_clock)
      { clock_section source_clock with peeked := false }
      ⟨1, 0, 45, ⟨1, 0, some 38, 7⟩, true⟩ source_clock_entries (by decide) (by decide)
      (by
        intro e he
        simp only [source_clock_entries, List.mem_cons, List.mem_singleton, List.not_mem_nil,
          or_false] at he
        rcases he with rfl | rfl | rfl
        · exact ⟨⟨12, rfl, by decide⟩, by decide⟩
        · exact ⟨⟨22, rfl, by decide⟩, by decide⟩
        · exact ⟨⟨30, rfl, by decide⟩, by decide⟩)⟩

/-! ## The operator table has no two entries of equal name and arity -/

theorem strncmp_eq_false (a b : Nat → Except Err Char) :
    ∀ n i, strncmp_eq a b n i = .ok false →
      ∃ j x y, i ≤ j ∧ j < i + n ∧ a j = .ok x ∧ b j = .ok y ∧ x ≠ y := by
  intro n
  induction n with
  | zero => intro i h; simp [strncmp_eq, pure, Except.pure] at h
  | succ n ih =>
    intro i h
    unfold strncmp_eq at h
    cases ha : a i with
    | error e => simp [ha, bind, Except.bind] at h
    | ok x =>
      cases hb : b i with
      | error e => simp [ha, hb, bind, Except.bind] at h
      | ok y =>
        simp only [ha, hb, bind, Except.bind] at h
        by_cases hxy : x = y
        · subst hxy
          by_cases hx : x = NUL
          · simp [hx, pure, Except.pure] at h
          · simp only [ne_eq, not_true_eq_false, if_false, hx] at h
            obtain ⟨j, x', y', h1, h2, h3⟩ := ih (i + 1) h
            exact ⟨j, x', y', by omega, by omega, h3⟩
        · exact ⟨i, x, y, Nat.le_refl _, by omega, ha, hb, hxy⟩

theorem read_getElem? {file : File} {i : Nat} {x : Char} (h : file.read i = .ok x) :
    file.text[i]? = some x := by
  unfold File.read at h
  cases hi : file.text[i]? with
  | none => simp [hi, throw, throwThe, MonadExceptOf.throw] at h
  | some c =>
    simp only [hi, pure, Except.pure, Except.ok.injEq] at h
    rw [h]

theorem declared_false (file : File) (gate : Gate) :
    ∀ arr : List Gate, declared file gate arr = .ok false →
      ∀ g ∈ arr, ¬ same_entry file g gate := by
  intro arr
  induction arr with
  | nil => intro _ g hg; simp at hg
  | cons g0 arr ih =>
    intro h g hg
    unfold declared at h
    by_cases hc : g0.len ≠ gate.len ∨ g0.arity ≠ gate.arity
    · rw [if_pos hc] at h
      rcases List.mem_cons.mp hg with rfl | hg
      · rintro ⟨h1, h2, _⟩
        rcases hc with hc | hc
        · exact hc h1
        · exact hc h2
      · exact ih h g hg
    · rw [if_neg hc] at h
      cases hs0 : g0.start with
      | none =>
        simp only [hs0] at h
        split_ifs at h
        simp [pure, Except.pure, throw, throwThe, MonadExceptOf.throw] at h
      | some s0 =>
        cases hs1 : gate.start with
        | none =>
          simp only [hs0, hs1] at h
          split_ifs at h
          simp [pure, Except.pure, throw, throwThe, MonadExceptOf.throw] at h
        | some s1 =>
          simp only [hs0, hs1] at h
          cases hcmp : strncmp_eq (fun i => file.read (s0 + i)) (fun i => file.read (s1 + i))
              gate.len 0 with
          | error e => simp [hcmp, bind, Except.bind] at h
          | ok b =>
            cases b with
            | true => simp [hcmp, bind, Except.bind, pure, Except.pure] at h
            | false =>
              simp only [hcmp, bind, Except.bind, Bool.not_false, if_true] at h
              rcases List.mem_cons.mp hg with rfl | hg
              · rintro ⟨h1, _, h3⟩
                obtain ⟨j, x, y, _, hj, hx, hy, hxy⟩ := strncmp_eq_false _ _ _ _ hcmp
                have ex := read_getElem? hx
                have ey := read_getElem? hy
                have e1 : (gate_text file g)[j]? = some x := by
                  simp only [gate_text, hs0]
                  rw [List.getElem?_take_of_lt (by omega), List.getElem?_drop, ex]
                have e2 : (gate_text file gate)[j]? = some y := by
                  simp only [gate_text, hs1]
                  rw [List.getElem?_take_of_lt (by omega), List.getElem?_drop, ey]
                rw [h3, e2] at e1
                exact hxy (Option.some.inj e1).symm
              · exact ih h g hg

theorem parse_gates_loop_distinct (file : File) :
    ∀ (n : Nat) (sc : Scanner) (ar : Arena) (arr0 arr : List Gate) (sc' : Scanner)
      (ar' : Arena),
      parse_gates_loop file n sc ar arr0 = .ok (arr, sc', ar') →
      arr0.Pairwise (fun a b => ¬ same_entry file a b) →
      arr.Pairwise (fun a b => ¬ same_entry file a b) := by
  intro n
  induction n with
  | zero =>
    intro sc ar arr0 arr sc' ar' h _
    simp [parse_gates_loop, throw, throwThe, MonadExceptOf.throw] at h
  | succ n ih =>
    intro sc ar arr0 arr sc' ar' h hp
    unfold parse_gates_loop at h
    cases h1 : next_is file sc "CLOCK" with
    | error e => simp [h1, bind, Except.bind] at h
    | ok r1 =>
      obtain ⟨stop, sc1⟩ := r1
      simp only [h1, bind, Except.bind] at h
      cases stop with
      | true =>
        simp only [if_true, pure, Except.pure, Except.ok.injEq, Prod.mk.injEq] at h
        obtain ⟨rfl, _, _⟩ := h
        exact hp
      | false =>
        simp only [Bool.false_eq_true, if_false] at h
        cases h2 : peek_token file sc1 with
        | error e => simp [h2] at h
        | ok r2 =>
          obtain ⟨token, sc2⟩ := r2
          simp only [h2] at h
          cases h3 : parse_gate file sc2 with
          | error e => simp [h3] at h
          | ok r3 =>
            obtain ⟨gate, sc3⟩ := r3
            simp only [h3] at h
            cases h4 : declared file gate arr0 with
            | error e => simp [h4] at h
            | ok b =>
              cases b with
              | true => simp [h4, throw, throwThe, MonadExceptOf.throw] at h
              | false =>
                simp only [h4, Bool.false_eq_true, if_false, pure, Except.pure] at h
                cases h5 : alloc ar SIZEOF_GATE with
                | error e => simp [h5] at h
                | ok r5 =>
                  obtain ⟨q, ar5⟩ := r5
                  simp only [h5] at h
                  refine ih sc3 ar5 (arr0 ++ [gate]) arr sc' ar' h ?_
                  rw [List.pairwise_append]
                  refine ⟨hp, List.pairwise_singleton _ _, ?_⟩
                  intro a ha b hb
                  rw [List.mem_singleton] at hb
                  subst hb
                  exact declared_false file b arr0 h4 a ha

/-- Every table that a successful `parse_gates` returns has no two entries
with the same name and the same arity. -/
theorem parse_gates_distinct (file : File) (sc sc' : Scanner) (ar ar' : Arena)
    (gates : List Gate) (h : parse_gates file sc ar = .ok (gates, sc', ar')) :
    gates.Pairwise (fun a b => ¬ same_entry file a b) := by
  unfold parse_gates at h
  cases h1 : parse_literal file sc "GATES" with
  | error e => simp [h1, bind, Except.bind] at h
  | ok sc1 =>
    simp only [h1, bind, Except.bind] at h
    exact parse_gates_loop_distinct file _ sc1 ar [] gates sc' ar' h List.Pairwise.nil

theorem strncmp_eq_inside (file : File) (s0 s1 : Nat) :
    ∀ n i, s0 + i + n ≤ file.text.length → s1 + i + n ≤ file.text.length →
      ∃ b, strncmp_eq (fun i => file.read (s0 + i)) (fun i => file.read (s1 + i)) n i = .ok b ∧
        ((file.text.drop (s0 + i)).take n = (file.text.drop (s1 + i)).take n → b = true) ∧
        (NUL ∉ (file.text.drop (s1 + i)).take n → b = true →
          (file.text.drop (s0 + i)).take n = (file.text.drop (s1 + i)).take n) := by
  intro n
  induction n with
  | zero => intro i _ _; exact ⟨true, by simp [strncmp_eq, pure, Except.pure]⟩
  | succ n ih =>
    intro i h0 h1
    have l0 : s0 + i < file.text.length := by omega
    have l1 : s1 + i < file.text.length := by omega
    unfold strncmp_eq
    simp only [read_lt l0, read_lt l1, bind, Except.bind]
    rw [List.drop_eq_getElem_cons l0, List.drop_eq_getElem_cons l1, List.take_succ_cons,
      List.take_succ_cons]
    obtain ⟨b, hb, hb1, hb2⟩ := ih (i + 1) (by omega) (by omega)
    simp only [← Nat.add_assoc] at hb1 hb2
    by_cases hab : file.text[s0 + i] = file.text[s1 + i]
    · by_cases hz : file.text[s0 + i] = NUL
      · refine ⟨true, by simp [← hab, hz, pure, Except.pure], fun _ => rfl, ?_⟩
        intro hnul _
        exact absurd (List.mem_cons_self _ _) (by rw [← hab, hz] at hnul; exact hnul)
      · refine ⟨b, ?_, ?_, ?_⟩
        · simp only [hab, ne_eq, not_true_eq_false, if_false]
          rw [← hab, if_neg hz]
          exact hb
        · intro e
          exact hb1 (List.cons.inj e).2
        · intro hnul hbt
          rw [hab, hb2 (fun hm => hnul (List.mem_cons_of_mem _ hm)) hbt]
    · refine ⟨false, by simp [hab, pure, Except.pure], ?_, ?_⟩
      · intro e
        exact absurd (List.cons.inj e).1 hab
      · intro _ hbt
        cases hbt

/-- The test of `parse_gates` on names that lie in the buffer: it answers, it
finds every earlier entry of the same name and arity, and when the name of the
new entry has no NUL byte it finds nothing else. -/
theorem declared_inside (file : File) (gate : Gate) (hgate : gate.inside file) :
    ∀ arr : List Gate, (∀ g ∈ arr, g.inside file) →
      ∃ b, declared file gate arr = .ok b ∧
        ((∃ g ∈ arr, same_entry file g gate) → b = true) ∧
        (NUL ∉ gate_text file gate → b = true → ∃ g ∈ arr, same_entry file g gate) := by
  obtain ⟨s1, hs1, hl1⟩ := hgate
  intro arr
  induction arr with
  | nil =>
    intro _
    refine ⟨false, by simp [declared, pure, Except.pure], ?_, ?_⟩
    · rintro ⟨g, hg, _⟩
      simp at hg
    · intro _ h
      cases h
  | cons g0 arr ih =>
    intro hin
    obtain ⟨b, hb, hb1, hb2⟩ := ih (fun g hg => hin g (List.mem_cons_of_mem _ hg))
    obtain ⟨s0, hs0, hl0⟩ := hin g0 (List.mem_cons_self _ _)
    unfold declared
    by_cases hc : g0.len ≠ gate.len ∨ g0.arity ≠ gate.arity
    · rw [if_pos hc]
      refine ⟨b, hb, ?_, ?_⟩
      · rintro ⟨g, hg, hs⟩
        rcases List.mem_cons.mp hg with rfl | hg
        · rcases hc with hc | hc
          · exact absurd hs.1 hc
          · exact absurd hs.2.1 hc
        · exact hb1 ⟨g, hg, hs⟩
      · intro hnul hbt
        obtain ⟨g, hg, hs⟩ := hb2 hnul hbt
        exact ⟨g, List.mem_cons_of_mem _ hg, hs⟩
    · rw [if_neg hc]
      have hlen : g0.len = gate.len := by
        by_contra hne
        exact hc (Or.inl hne)
      have har : g0.arity = gate.arity := by
        by_contra hne
        exact hc (Or.inr hne)
      simp only [hs0, hs1]
      obtain ⟨c, hcmp, hc1, hc2⟩ :=
        strncmp_eq_inside file s0 s1 gate.len 0 (by omega) (by omega)
      simp only [Nat.add_zero] at hc1 hc2
      simp only [hcmp, bind, Except.bind]
      have htext : gate_text file g0 = gate_text file gate ↔
          (file.text.drop s0).take gate.len = (file.text.drop s1).take gate.len := by
        simp only [gate_text, hs0, hs1, hlen]
      cases c with
      | true =>
        refine ⟨true, by simp [pure, Except.pure], fun _ => rfl, ?_⟩
        intro hnul _
        refine ⟨g0, List.mem_cons_self _ _, hlen, har, htext.mpr (hc2 ?_ rfl)⟩
        simpa [gate_text, hs1] using hnul
      | false =>
        refine ⟨b, by simpa using hb, ?_, ?_⟩
        · rintro ⟨g, hg, hs⟩
          rcases List.mem_cons.mp hg with rfl | hg
          · exact absurd (hc1 (htext.mp hs.2.2)) (by simp)
          · exact hb1 ⟨g, hg, hs⟩
        · intro hnul hbt
          obtain ⟨g, hg, hs⟩ := hb2 hnul hbt
          exact ⟨g, List.mem_cons_of_mem _ hg, hs⟩

/-! ## Claims on the parsers: two defects -/

/-- C6: when every operator that matches the token has arity 0, `parse_formula`
returns a node that keeps the token in `var`: `is_var` holds of it, although it
carries the entry of arity 0 and the array of its (no) inputs, and the
annotation pass then reads that array as the target of a name leaf.  When the
same name also has an entry of larger arity, the entry of arity 0 yields an
operator application.  The examples of the claim behave as stated. -/
theorem parse_formula_nullary_name_leaf :
    first_formula source_nullary =
      .ok (mk_circuit (some ⟨1, 0, some 49, 1⟩) (some ⟨some 14, 1, 0, 4⟩) (some 32)) ∧
    (first_formula source_nullary).map is_var = .ok true ∧
    main 10 source_nullary = .error Err.fault ∧
    parsed_cells source_nullary_binary 64 =
      some (mk_circuit none (some ⟨some 14, 1, 0, 4⟩) (some 112)) ∧
    main 10 source_nullary_binary = .ok { shortest := none, longest := some (4, 5) } ∧
    first_formula source_f_two = .error (Err.invalid_operands ⟨1, 0, some 58, 1⟩ 2) ∧
    first_formula source_f_three =
      .ok (mk_circuit none (some ⟨some 33, 1, 3, 3⟩) (some 64)) := by
  refine ⟨by decide, by decide, by decide, by decide, by decide, by decide, by decide⟩

/-- C8: two operators of equal arity whose names have equal length and agree up
to a NUL byte are rejected as `Already declared operator` although the names
differ: the test uses `strncmp`, which stops at the NUL byte.  Without the NUL
bytes the two entries are accepted. -/
theorem parse_gates_nul_names :
    parsed_gates source_nul_names = .error (Err.already_declared ⟨1, 0, some 19, 3⟩ 2) ∧
    token_text source_nul_names ⟨1, 0, some 6, 3⟩ = ['+', NUL, '-'] ∧
    token_text source_nul_names ⟨1, 0, some 19, 3⟩ = ['+', NUL, '*'] ∧
    parsed_gates source_plain_names =
      .ok [⟨some 6, 2, 2, 1⟩, ⟨some 18, 2, 2, 2⟩] := by
  refine ⟨by decide, by decide, by decide, by decide⟩

/-! ## Resolution -/

theorem find_var_spec {file : File} {t : Token} (ht : t.inside file) :
    ∀ (names : List Token) (i : Nat), (∀ name ∈ names, name.inside file) →
      find_var file t names i = .ok (binding_index file t names i) := by
  intro names
  induction names with
  | nil => intro i _; rfl
  | cons name rest ih =>
    intro i h
    unfold find_var binding_index
    rw [token_eq_spec ht (h name (List.mem_cons_self _ _))]
    by_cases heq : token_text file t = token_text file name
    · simp [heq, bind, Except.bind, pure, Except.pure]
    · simp only [heq, bind, Except.bind, decide_False, Bool.false_eq_true, if_false]
      exact ih (i + 1) (fun n hn => h n (List.mem_cons_of_mem _ hn))

theorem binding_index_lt {file : File} {t : Token} :
    ∀ (names : List Token) (i j : Nat), binding_index file t names i = some j →
      i ≤ j ∧ j < i + names.length := by
  intro names
  induction names with
  | nil => intro i j h; simp [binding_index] at h
  | cons name rest ih =>
    intro i j h
    unfold binding_index at h
    split at h
    · cases h; simp
    · have := ih (i + 1) j h
      simp only [List.length_cons]
      omega

theorem Linked.linked_refl (file : File) (vars : Vars) (cells : Cells) :
    Linked file vars cells cells := fun _ => Or.inl rfl

theorem Linked.linked_trans {file : File} {vars : Vars} {a b c : Cells}
    (h1 : Linked file vars a b) (h2 : Linked file vars b c) : Linked file vars a c := by
  intro x
  rcases h2 x with h | ⟨cb, t, i, hb, hv, hi, hbi, hc⟩
  · rcases h1 x with h' | h'
    · left; rw [h, h']
    · right; rw [h]; exact h'
  · rcases h1 x with h' | ⟨ca, t', i', ha, hv', hi', hbi', hb'⟩
    · right; rw [h'] at hb; exact ⟨cb, t, i, hb, hv, hi, hbi, hc⟩
    · rw [hb'] at hb
      cases hb
      simp at hi

theorem Linked.shape {file : File} {vars : Vars} {a b : Cells} (h : Linked file vars a b)
    {x : Nat} {c : Circuit} (hx : a x = some c) :
    ∃ c', b x = some c' ∧ c'.var = c.var ∧ c'.gate = c.gate ∧
      (c'.inp = c.inp ∨ (c.inp = none ∧ c'.inp.isSome = true ∧ is_var c = true)) := by
  rcases h x with h' | ⟨c0, t, i, h0, hv, hi, hbi, hb⟩
  · exact ⟨c, by rw [h', hx], rfl, rfl, Or.inl rfl⟩
  · rw [hx] at h0; cases h0
    exact ⟨_, hb, rfl, rfl, Or.inr ⟨hi, rfl, by simp [is_var, hv]⟩⟩

theorem Linked.linked_none {file : File} {vars : Vars} {a b : Cells} (h : Linked file vars a b)
    {x : Nat} (hx : a x = none) : b x = none := by
  rcases h x with h' | ⟨c0, t, i, h0, _⟩
  · rw [h', hx]
  · rw [hx] at h0; cases h0

theorem Linked.isSome {file : File} {vars : Vars} {a b : Cells} (h : Linked file vars a b)
    {x : Nat} (hx : (a x).isSome = true) : (b x).isSome = true := by
  obtain ⟨c, hc⟩ := Option.isSome_iff_exists.mp hx
  obtain ⟨c', hc', _⟩ := h.shape hc
  simp [hc']

theorem Linked.nonvar {file : File} {vars : Vars} {a b : Cells} (h : Linked file vars a b)
    {x : Nat} {c : Circuit} (hx : a x = some c) (hv : is_var c = false) : b x = some c := by
  rcases h x with h' | ⟨c0, t, i, h0, hvar, _⟩
  · rw [h', hx]
  · rw [hx] at h0; cases h0
    simp [is_var, hvar] at hv

theorem Linked.nonvar' {file : File} {vars : Vars} {a b : Cells} (h : Linked file vars a b)
    {x : Nat} {c : Circuit} (hx : b x = some c) (hv : is_var c = false) : a x = some c := by
  rcases h x with h' | ⟨c0, t, i, h0, hvar, _, _, hb⟩
  · rw [← h', hx]
  · rw [hx] at hb; cases hb
    simp [is_var, hvar] at hv

theorem TreeDone.mono {file : File} {vars : Vars} {a b : Cells} (h : Linked file vars a b)
    {x : Nat} (hx : TreeDone a x) : TreeDone b x := by
  induction hx with
  | var hc hv hi =>
    obtain ⟨c', hc', hvar, _, hinp⟩ := h.shape hc
    refine TreeDone.var hc' (by rw [is_var_congr hvar]; exact hv) ?_
    rcases hinp with e | ⟨_, e, _⟩
    · rw [e]; exact hi
    · exact e
  | prim hc hv hr hi => exact TreeDone.prim (h.nonvar hc hv) hv hr hi
  | reg hc hv hr hi _ ih => exact TreeDone.reg (h.nonvar hc hv) hv hr hi ih
  | app hc hv hr hg hi _ ih => exact TreeDone.app (h.nonvar hc hv) hv hr hg hi ih
  | const hc hv hr hg hi h0 => exact TreeDone.const (h.nonvar hc hv) hv hr hg hi h0

theorem for_range_partial {σ : Type} (body : σ → Nat → Except Err σ) (Inv : Nat → σ → Prop) :
    ∀ (k i : Nat) (s s' : σ), Inv i s →
      (∀ j s s', i ≤ j → j < i + k → Inv j s → body s j = .ok s' → Inv (j + 1) s') →
      for_range body k i s = .ok s' → Inv (i + k) s' := by
  intro k
  induction k with
  | zero =>
    intro i s s' h _ hr
    simp only [for_range, pure, Except.pure, Except.ok.injEq] at hr
    subst hr; exact h
  | succ k ih =>
    intro i s s' h step hr
    unfold for_range at hr
    cases hb : body s i with
    | error e => simp [hb, bind, Except.bind] at hr
    | ok s1 =>
      simp only [hb, bind, Except.bind] at hr
      have h1 := step i s s1 (Nat.le_refl _) (by omega) h hb
      have := ih (i + 1) s1 s' h1 (fun j s s' hj hlt => step j s s' (by omega) (by omega)) hr
      have e : i + (k + 1) = i + 1 + k := by omega
      rw [e]; exact this

theorem NewDone.newDone_refl (cells : Cells) : NewDone cells cells := by
  intro a c c' q hc _ hi hc' hq
  rw [hc] at hc'; cases hc'
  rw [hi] at hq; cases hq

theorem tokens_inside_linked {file : File} {vars : Vars} {a b : Cells}
    (h : Linked file vars a b)
    (ha : ∀ x c t, a x = some c → c.var = some t → t.inside file) :
    ∀ x c t, b x = some c → c.var = some t → t.inside file := by
  intro x c t hx ht
  rcases h x with h' | ⟨c0, t0, i, h0, hv, hi, hbi, hb⟩
  · rw [h'] at hx; exact ha x c t hx ht
  · rw [hx] at hb; cases hb
    exact ha x c0 t h0 ht

theorem NewDone.newDone_step {file : File} {vars : Vars} {h s s' : Cells}
    (h1 : Linked file vars h s) (h2 : Linked file vars s s')
    (n1 : NewDone h s) (n2 : NewDone s s') : NewDone h s' := by
  intro a c c' q hc hv hi hc' hq
  rcases h1 a with e | ⟨c0, t, i, h0, hvar, hinp, hbi, hs⟩
  · exact n2 a c c' q (by rw [e, hc]) hv hi hc' hq
  · rw [hc] at h0; cases h0
    rcases h2 a with e | ⟨c1, t1, i1, h1', _, hinp1, _⟩
    · rw [e, hs] at hc'; cases hc'
      exact TreeDone.mono h2 (n1 a c _ q hc hv hi hs hq)
    · rw [hs] at h1'; cases h1'
      simp at hinp1


theorem is_var_some {c : Circuit} (h : is_var c = true) : ∃ t, c.var = some t := by
  cases hv : c.var with
  | none => simp [is_var, hv] at h
  | some t => exact ⟨t, rfl⟩

theorem resolve_circuit_app {file : File} {vars : Vars} {n : Nat} {cells : Cells} {p a : Nat}
    {c : Circuit} {g : Gate}
    (hp : cells p = some c) (hv : is_var c = false) (hr : is_reg c = false)
    (hg : c.gate = some g) (hi : c.inp = some a) :
    resolve_circuit file vars (n + 1) cells p =
      for_range (fun cells i => resolve_circuit file vars n cells (a + SIZEOF_CIRCUIT * i))
        g.arity 0 cells := by
  simp only [resolve_circuit, load, hp, hv, hr, hg, hi, Bool.false_eq_true, if_false, pure_bind]

theorem resolve_circuit_succ {file : File} {vars : Vars} {n : Nat} {cells : Cells} {p : Nat}
    {c : Circuit} (hp : cells p = some c) :
    resolve_circuit file vars (n + 1) cells p =
      if is_var c = true then
        if c.inp.isSome = true then .ok cells
        else match c.var with
          | none => .error Err.fault
          | some token =>
            find_var file token vars.names 0 >>= fun r =>
              match r with
              | none => .error (Err.not_defined token)
              | some i =>
                resolve_circuit file vars n
                  (fun q => if q = p then some { c with inp := some (var_formula vars.arr i) }
                            else cells q)
                  (var_formula vars.arr i)
      else if is_reg c = true then
        match c.inp with
        | some q => resolve_circuit file vars n cells q
        | none => .ok cells
      else
        match c.gate, c.inp with
        | some gate, some inp =>
          for_range
            (fun cells i => resolve_circuit file vars n cells (inp + SIZEOF_CIRCUIT * i))
            gate.arity 0 cells
        | some gate, none => if gate.arity = 0 then .ok cells else .error Err.fault
        | none, _ => .error Err.fault := by
  simp only [resolve_circuit, load, hp, pure_bind]
  rfl

theorem resolve_circuit_post (file : File) (vars : Vars)
    (hnames : ∀ t ∈ vars.names, t.inside file) :
    ∀ (n : Nat) (h : Cells) (p : Nat) (h' : Cells),
      (∀ x c t, h x = some c → c.var = some t → t.inside file) →
      resolve_circuit file vars n h p = .ok h' →
      Linked file vars h h' ∧ TreeDone h' p ∧ NewDone h h' := by
  intro n
  induction n with
  | zero => intro h p h' _ hr; simp [resolve_circuit, throw, throwThe, MonadExceptOf.throw] at hr
  | succ n ih =>
    intro h p h' htok hres
    cases hp : h p with
    | none => simp [resolve_circuit, load, hp, bind, Except.bind, throw, throwThe,
        MonadExceptOf.throw] at hres
    | some c =>
      by_cases hv : is_var c = true
      · by_cases hi : c.inp.isSome = true
        · rw [resolve_circuit_succ hp] at hres
          simp only [hv, hi, if_true, Except.ok.injEq] at hres
          subst hres
          exact ⟨Linked.linked_refl _ _ _, TreeDone.var hp hv hi, NewDone.newDone_refl _⟩
        · have hi' : c.inp = none := by simpa using hi
          obtain ⟨t, ht⟩ := is_var_some hv
          have hfind := find_var_spec (htok p c t hp ht) vars.names 0 hnames
          rw [resolve_circuit_succ hp] at hres
          simp only [hv, hi, if_true, ht, hfind, Bool.false_eq_true, if_false, bind,
            Except.bind] at hres
          cases hb : binding_index file t vars.names 0 with
          | none => simp [hb] at hres
          | some i =>
            simp only [hb] at hres
            set h1 : Cells := fun q =>
              if q = p then some { c with inp := some (var_formula vars.arr i) } else h q
              with hh1
            have hl1 : Linked file vars h h1 := by
              intro x
              by_cases hx : x = p
              · subst hx
                right
                exact ⟨c, t, i, hp, ht, hi', hb, by simp [hh1]⟩
              · left; simp [hh1, hx]
            have hres1 : resolve_circuit file vars n h1 (var_formula vars.arr i) = .ok h' := by
              rw [← hres]
              congr 1
              funext q
              by_cases hq : q = p <;> simp [hh1, hq, ht]
            obtain ⟨hl, htd, hnd⟩ := ih h1 (var_formula vars.arr i) h'
              (tokens_inside_linked hl1 htok) hres1
            have hp1 : h1 p = some { c with inp := some (var_formula vars.arr i) } := by
              simp [hh1]
            refine ⟨hl1.linked_trans hl, ?_, ?_⟩
            · obtain ⟨c', hc', hvar, _, hinp⟩ := hl.shape hp1
              refine TreeDone.var hc' (by rw [is_var_congr hvar]; exact hv) ?_
              rcases hinp with e | ⟨e, _⟩
              · rw [e]; rfl
              · simp at e
            · intro a c0 c' q hc0 hv0 hi0 hc' hq
              by_cases ha : a = p
              · subst ha
                rcases hl a with e | ⟨c1, t1, i1, h1', _, hinp1, _⟩
                · rw [e, hp1] at hc'; cases hc'
                  simp only [Option.some.injEq] at hq
                  subst hq
                  exact htd
                · rw [hp1] at h1'; cases h1'
                  simp at hinp1
              · have : h1 a = some c0 := by simp [hh1, ha, hc0]
                exact hnd a c0 c' q this hv0 hi0 hc' hq
      · have hv : is_var c = false := by simpa using hv
        by_cases hr : is_reg c = true
        · cases hi : c.inp with
          | none =>
            rw [resolve_circuit_succ hp] at hres
            simp only [hv, hr, hi, if_true, Except.ok.injEq, Bool.false_eq_true,
              if_false] at hres
            subst hres
            exact ⟨Linked.linked_refl _ _ _, TreeDone.prim hp hv hr hi, NewDone.newDone_refl _⟩
          | some q =>
            rw [resolve_circuit_succ hp] at hres
            simp only [hv, hr, hi, if_true, Bool.false_eq_true, if_false] at hres
            obtain ⟨hl, htd, hnd⟩ := ih h q h' htok hres
            exact ⟨hl, TreeDone.reg (hl.nonvar hp hv) hv hr hi htd, hnd⟩
        · have hr : is_reg c = false := by simpa using hr
          cases hg : c.gate with
          | none =>
            rw [resolve_circuit_succ hp] at hres
            simp [hv, hr, hg] at hres
          | some g =>
            cases hi : c.inp with
            | none =>
              by_cases h0 : g.arity = 0
              · rw [resolve_circuit_succ hp] at hres
                simp only [hv, hr, hg, hi, h0, if_true, Except.ok.injEq, Bool.false_eq_true,
                  if_false] at hres
                subst hres
                exact ⟨Linked.linked_refl _ _ _, TreeDone.const hp hv hr hg hi h0, NewDone.newDone_refl _⟩
              · rw [resolve_circuit_succ hp] at hres
                simp [hv, hr, hg, hi, h0] at hres
            | some a =>
              rw [resolve_circuit_succ hp] at hres
              simp only [hv, hr, hg, hi, Bool.false_eq_true, if_false] at hres
              have := for_range_partial
                (fun cells i => resolve_circuit file vars n cells (a + SIZEOF_CIRCUIT * i))
                (fun j s => Linked file vars h s ∧
                  (∀ i, i < j → TreeDone s (a + SIZEOF_CIRCUIT * i)) ∧ NewDone h s)
                g.arity 0 h h' ⟨Linked.linked_refl _ _ _, fun i hi => absurd hi (Nat.not_lt_zero _),
                  NewDone.newDone_refl _⟩
                (by
                  rintro j s s' _ _ ⟨hls, htds, hnds⟩ hbody
                  obtain ⟨hl, htd, hnd⟩ := ih s _ s' (tokens_inside_linked hls htok) hbody
                  refine ⟨hls.linked_trans hl, ?_, NewDone.newDone_step hls hl hnds hnd⟩
                  intro i hi
                  rcases Nat.lt_succ_iff_lt_or_eq.mp hi with h1 | rfl
                  · exact TreeDone.mono hl (htds i h1)
                  · exact htd)
                hres
              obtain ⟨hl, htd, hnd⟩ := this
              simp only [Nat.zero_add] at htd
              exact ⟨hl, TreeDone.app (hl.nonvar hp hv) hv hr hg hi htd, hnd⟩


theorem treeDone_edge {file : File} {vars : Vars} {h h' : Cells} {x y : Nat}
    (hl : Linked file vars h h') (hn : NewDone h h') (hx : TreeDone h' x)
    (e : NameEdge file vars h x y) : TreeDone h' y := by
  obtain ⟨c, hc, hcase⟩ := e
  rcases hcase with ⟨hv, hr, hi⟩ | ⟨hv, hr, g, a, i, hg, hi, hlt, rfl⟩ |
    ⟨hv, hi, t, i, ht, hb, rfl⟩
  · have hc' := hl.nonvar hc hv
    cases hx with
    | var h1 h2 _ => rw [hc'] at h1; cases h1; simp [hv] at h2
    | prim h1 _ _ h4 => rw [hc'] at h1; cases h1; simp [hi] at h4
    | reg h1 _ _ h4 h5 => rw [hc'] at h1; cases h1; rw [hi] at h4; cases h4; exact h5
    | app h1 _ h3 _ _ _ => rw [hc'] at h1; cases h1; simp [hr] at h3
    | const h1 _ h3 _ _ _ => rw [hc'] at h1; cases h1; simp [hr] at h3
  · have hc' := hl.nonvar hc hv
    cases hx with
    | var h1 h2 _ => rw [hc'] at h1; cases h1; simp [hv] at h2
    | prim h1 _ h3 _ => rw [hc'] at h1; cases h1; simp [hr] at h3
    | reg h1 _ h3 _ _ => rw [hc'] at h1; cases h1; simp [hr] at h3
    | app h1 _ _ h4 h5 h6 =>
      rw [hc'] at h1; cases h1
      rw [hg] at h4; cases h4
      rw [hi] at h5; cases h5
      exact h6 i hlt
    | const h1 _ _ _ h5 _ => rw [hc'] at h1; cases h1; simp [hi] at h5
  · have hdone : ∀ c', h' x = some c' → c'.inp.isSome = true →
        TreeDone h' (var_formula vars.arr i) := by
      intro c' hc' hsome
      rcases hl x with e | ⟨c0, t0, i0, h0, hv0, hi0, hb0, hh'⟩
      · rw [e, hc] at hc'; cases hc'; simp [hi] at hsome
      · rw [hc] at h0; cases h0
        rw [ht] at hv0; cases hv0
        rw [hb] at hb0; cases hb0
        exact hn x c _ _ hc hv hi hh' rfl
    obtain ⟨c', hc', hvar, _, _⟩ := hl.shape hc
    have hv' : is_var c' = true := by rw [is_var_congr hvar]; exact hv
    cases hx with
    | var h1 _ h3 => rw [hc'] at h1; cases h1; exact hdone _ hc' h3
    | prim h1 h2 _ _ => rw [hc'] at h1; cases h1; simp [hv'] at h2
    | reg h1 h2 _ _ _ => rw [hc'] at h1; cases h1; simp [hv'] at h2
    | app h1 h2 _ _ _ _ => rw [hc'] at h1; cases h1; simp [hv'] at h2
    | const h1 h2 _ _ _ _ => rw [hc'] at h1; cases h1; simp [hv'] at h2

theorem treeDone_reach {file : File} {vars : Vars} {h h' : Cells} {p q : Nat}
    (hl : Linked file vars h h') (hn : NewDone h h') (hp : TreeDone h' p)
    (r : NameReach file vars h p q) : TreeDone h' q := by
  induction r with
  | refl => exact hp
  | tail _ e ih => exact treeDone_edge hl hn ih e

theorem linked_of_treeDone {file : File} {vars : Vars} {h h' : Cells} {q : Nat} {c : Circuit}
    {t : Token} (hl : Linked file vars h h') (hq : TreeDone h' q)
    (hc : h q = some c) (ht : c.var = some t) (hi : c.inp = none) :
    ∃ i, binding_index file t vars.names 0 = some i ∧
      h' q = some { c with inp := some (var_formula vars.arr i) } := by
  have hv : is_var c = true := by simp [is_var, ht]
  rcases hl q with e | ⟨c0, t0, i0, h0, hv0, hi0, hb0, hh'⟩
  · exfalso
    rw [hc] at e
    cases hq with
    | var h1 _ h3 => rw [e] at h1; cases h1; simp [hi] at h3
    | prim h1 h2 _ _ => rw [e] at h1; cases h1; simp [hv] at h2
    | reg h1 h2 _ _ _ => rw [e] at h1; cases h1; simp [hv] at h2
    | app h1 h2 _ _ _ _ => rw [e] at h1; cases h1; simp [hv] at h2
    | const h1 h2 _ _ _ _ => rw [e] at h1; cases h1; simp [hv] at h2
  · rw [hc] at h0; cases h0
    rw [ht] at hv0; cases hv0
    exact ⟨i0, hb0, hh'⟩

/-! ### Termination of resolution -/

theorem WellFormed.linked {file : File} {vars : Vars} {rank : Nat → Nat} {bound : Nat}
    {h h' : Cells} (hw : WellFormed file vars rank bound h) (hl : Linked file vars h h') :
    WellFormed file vars rank bound h' where
  dom := fun a ha => hl.linked_none (hw.dom a ha)
  reg := fun a c q hc hv hr hi =>
    have := hw.reg a c q (hl.nonvar' hc hv) hv hr hi
    ⟨hl.isSome this.1, this.2⟩
  app := fun a c hc hv hr => by
    obtain ⟨g, hg, h0, hin⟩ := hw.app a c (hl.nonvar' hc hv) hv hr
    exact ⟨g, hg, h0, fun b i hb hi => ⟨hl.isSome (hin b i hb hi).1, (hin b i hb hi).2⟩⟩
  body := fun i hi => hl.isSome (hw.body i hi)
  names_inside := hw.names_inside
  tokens_inside := tokens_inside_linked hl hw.tokens_inside

theorem unlinked_of_linked {file : File} {vars : Vars} {h h' : Cells}
    (hl : Linked file vars h h') {a : Nat} (hu : unlinked (h' a) = true) :
    unlinked (h a) = true := by
  rcases hl a with e | ⟨c0, t0, i0, h0, hv0, hi0, hb0, hh'⟩
  · rw [← e]; exact hu
  · rw [hh'] at hu; simp [unlinked] at hu

theorem unlinked_count_le {file : File} {vars : Vars} {h h' : Cells} (bound : Nat)
    (hl : Linked file vars h h') : unlinked_count bound h' ≤ unlinked_count bound h := by
  unfold unlinked_count
  apply Finset.card_le_card
  intro a ha
  simp only [Finset.mem_filter, Finset.mem_range] at ha ⊢
  exact ⟨ha.1, unlinked_of_linked hl ha.2⟩

theorem unlinked_count_lt {file : File} {vars : Vars} {h h' : Cells} (bound : Nat)
    (hl : Linked file vars h h') {p : Nat} (hp : p < bound)
    (hu : unlinked (h p) = true) (hu' : unlinked (h' p) = false) :
    unlinked_count bound h' < unlinked_count bound h := by
  unfold unlinked_count
  apply Finset.card_lt_card
  rw [Finset.ssubset_iff_of_subset]
  · exact ⟨p, by simp [hp, hu], by simp [hu']⟩
  · intro a ha
    simp only [Finset.mem_filter, Finset.mem_range] at ha ⊢
    exact ⟨ha.1, unlinked_of_linked hl ha.2⟩

theorem NameEdge.edge_of_linked {file : File} {vars : Vars} {h s : Cells} {x y : Nat}
    (hl : Linked file vars h s) (e : NameEdge file vars s x y) : NameEdge file vars h x y := by
  obtain ⟨c, hc, hcase⟩ := e
  rcases hcase with ⟨hv, hr, hi⟩ | ⟨hv, hr, rest⟩ | ⟨hv, hi, t, i, ht, hb, rfl⟩
  · exact ⟨c, hl.nonvar' hc hv, Or.inl ⟨hv, hr, hi⟩⟩
  · exact ⟨c, hl.nonvar' hc hv, Or.inr (Or.inl ⟨hv, hr, rest⟩)⟩
  · rcases hl x with e | ⟨c0, t0, i0, h0, hv0, hi0, hb0, hh'⟩
    · exact ⟨c, by rw [← e, hc], Or.inr (Or.inr ⟨hv, hi, t, i, ht, hb, rfl⟩)⟩
    · rw [hc] at hh'; cases hh'; simp at hi

theorem NameReach.reach_of_linked {file : File} {vars : Vars} {h s : Cells} {x y : Nat}
    (hl : Linked file vars h s) (r : NameReach file vars s x y) : NameReach file vars h x y := by
  induction r with
  | refl => exact Relation.ReflTransGen.refl
  | tail _ e ih => exact Relation.ReflTransGen.tail ih (e.edge_of_linked hl)

theorem Undefined.undefined_of_linked {file : File} {vars : Vars} {h s : Cells} {p : Nat} {tok : Token}
    (hl : Linked file vars h s) (u : Undefined file vars s p tok) :
    Undefined file vars h p tok := by
  obtain ⟨q, c, hr, hc, ht, hi, hb⟩ := u
  refine ⟨q, c, hr.reach_of_linked hl, ?_, ht, hi, hb⟩
  rcases hl q with e | ⟨c0, t0, i0, h0, hv0, hi0, hb0, hh'⟩
  · rw [← e, hc]
  · rw [hc] at hh'; cases hh'; simp at hi

theorem Undefined.of_edge {file : File} {vars : Vars} {h : Cells} {p q : Nat} {tok : Token}
    (e : NameEdge file vars h p q) (u : Undefined file vars h q tok) :
    Undefined file vars h p tok := by
  obtain ⟨x, c, hr, rest⟩ := u
  exact ⟨x, c, Relation.ReflTransGen.head e hr, rest⟩


theorem resolve_inputs_total {file : File} {vars : Vars} {h : Cells} {p a : Nat} {c : Circuit}
    {g : Gate} (hp : h p = some c) (hv : is_var c = false) (hr : is_reg c = false)
    (hg : c.gate = some g) (hi : c.inp = some a)
    (child : ∀ s i, Linked file vars h s → i < g.arity →
      ∃ n R, (∀ m, n ≤ m → resolve_circuit file vars m s (a + SIZEOF_CIRCUIT * i) = R) ∧
        Settled file vars s (a + SIZEOF_CIRCUIT * i) R) :
    ∀ (k i : Nat) (s : Cells), i + k = g.arity → Linked file vars h s →
      ∃ n R, (∀ m, n ≤ m →
          for_range (fun cells j => resolve_circuit file vars m cells (a + SIZEOF_CIRCUIT * j))
            k i s = R) ∧
        ((∃ h', R = .ok h' ∧ Linked file vars h h') ∨
         (∃ tok, R = .error (Err.not_defined tok) ∧ Undefined file vars h p tok)) := by
  intro k
  induction k with
  | zero =>
    intro i s _ hl
    exact ⟨0, .ok s, fun m _ => rfl, Or.inl ⟨s, rfl, hl⟩⟩
  | succ k ih =>
    intro i s hik hl
    obtain ⟨n1, R1, h1, hs1⟩ := child s i hl (by omega)
    rcases hs1 with ⟨s1, rfl, hl1⟩ | ⟨tok, rfl, hu⟩
    · obtain ⟨n2, R2, h2, hs2⟩ := ih (i + 1) s1 (by omega) (hl.linked_trans hl1)
      refine ⟨max n1 n2, R2, ?_, hs2⟩
      intro m hm
      have e1 := h1 m (le_trans (le_max_left _ _) hm)
      have e2 := h2 m (le_trans (le_max_right _ _) hm)
      simp only [for_range, e1, bind, Except.bind]
      exact e2
    · refine ⟨n1, .error (Err.not_defined tok), ?_, Or.inr ⟨tok, rfl, ?_⟩⟩
      · intro m hm
        simp only [for_range, h1 m hm, bind, Except.bind]
      · have e : NameEdge file vars h p (a + SIZEOF_CIRCUIT * i) :=
          ⟨c, hp, Or.inr (Or.inl ⟨hv, hr, g, a, i, hg, hi, by omega, rfl⟩)⟩
        exact Undefined.of_edge e (hu.undefined_of_linked hl)

theorem resolve_circuit_total (file : File) (vars : Vars) (rank : Nat → Nat) (bound : Nat) :
    ∀ (u r : Nat) (h : Cells) (p : Nat), unlinked_count bound h = u → rank p = r →
      WellFormed file vars rank bound h → (h p).isSome = true →
      ∃ n R, (∀ m, n ≤ m → resolve_circuit file vars m h p = R) ∧
        Settled file vars h p R := by
  intro u
  induction u using Nat.strong_induction_on with
  | _ u ihu =>
    intro r
    induction r using Nat.strong_induction_on with
    | _ r ihr =>
      intro h p hu hrk hw hsome
      have IH : ∀ (h2 : Cells) (p2 : Nat), WellFormed file vars rank bound h2 →
          (h2 p2).isSome = true → unlinked_count bound h2 ≤ u →
          (unlinked_count bound h2 < u ∨ rank p2 < r) →
          ∃ n R, (∀ m, n ≤ m → resolve_circuit file vars m h2 p2 = R) ∧
            Settled file vars h2 p2 R := by
        intro h2 p2 hw2 hs2 hle hlt
        rcases Nat.lt_or_eq_of_le hle with hlt' | heq
        · exact ihu _ hlt' _ h2 p2 rfl rfl hw2 hs2
        · rcases hlt with hlt | hlt
          · omega
          · exact ihr _ hlt h2 p2 heq rfl hw2 hs2
      obtain ⟨c, hp⟩ := Option.isSome_iff_exists.mp hsome
      have hpb : p < bound := by
        by_contra hge
        have := hw.dom p (by omega)
        rw [hp] at this; cases this
      have succ_eq : ∀ m, 1 ≤ m → ∃ m', m = m' + 1 := fun m hm => ⟨m - 1, by omega⟩
      by_cases hv : is_var c = true
      · by_cases hi : c.inp.isSome = true
        · refine ⟨1, .ok h, ?_, Or.inl ⟨h, rfl, Linked.linked_refl _ _ _⟩⟩
          intro m hm
          obtain ⟨m', rfl⟩ := succ_eq m hm
          rw [resolve_circuit_succ hp]
          simp only [hv, hi, if_true]
        · have hi' : c.inp = none := by simpa using hi
          obtain ⟨t, ht⟩ := is_var_some hv
          have hfind := find_var_spec (hw.tokens_inside p c t hp ht) vars.names 0
            hw.names_inside
          cases hb : binding_index file t vars.names 0 with
          | none =>
            refine ⟨1, .error (Err.not_defined t), ?_, Or.inr ⟨t, rfl, ?_⟩⟩
            · intro m hm
              obtain ⟨m', rfl⟩ := succ_eq m hm
              rw [resolve_circuit_succ hp]
              simp only [hv, hi, if_true, ht, hfind, hb, Bool.false_eq_true, if_false, bind,
                Except.bind]
            · exact ⟨p, c, Relation.ReflTransGen.refl, hp, ht, hi', hb⟩
          | some i =>
            set h1 : Cells := fun q =>
              if q = p then some { c with inp := some (var_formula vars.arr i) } else h q
              with hh1
            have hl1 : Linked file vars h h1 := by
              intro x
              by_cases hx : x = p
              · subst hx
                right
                exact ⟨c, t, i, hp, ht, hi', hb, by simp [hh1]⟩
              · left; simp [hh1, hx]
            have hcount : unlinked_count bound h1 < u := by
              rw [← hu]
              apply unlinked_count_lt bound hl1 hpb
              · simp [unlinked, hp, hv, hi']
              · simp [hh1, unlinked]
            have hilt := binding_index_lt vars.names 0 i hb
            obtain ⟨n, R, hn, hs⟩ := IH h1 (var_formula vars.arr i) (hw.linked hl1)
              (hl1.isSome (hw.body i (by omega))) (Nat.le_of_lt hcount) (Or.inl hcount)
            refine ⟨n + 1, R, ?_, ?_⟩
            · intro m hm
              obtain ⟨m', rfl⟩ := succ_eq m (by omega)
              rw [resolve_circuit_succ hp]
              simp only [hv, hi, if_true, ht, hfind, hb, Bool.false_eq_true, if_false, bind,
                Except.bind]
              rw [← hn m' (by omega)]
              congr 1
              funext q
              by_cases hq : q = p <;> simp [hh1, hq, ht]
            · have e : NameEdge file vars h p (var_formula vars.arr i) :=
                ⟨c, hp, Or.inr (Or.inr ⟨hv, hi', t, i, ht, hb, rfl⟩)⟩
              rcases hs with ⟨h', rfl, hl⟩ | ⟨tok, rfl, hund⟩
              · exact Or.inl ⟨h', rfl, hl1.linked_trans hl⟩
              · exact Or.inr ⟨tok, rfl, Undefined.of_edge e (hund.undefined_of_linked hl1)⟩
      · have hv : is_var c = false := by simpa using hv
        by_cases hr : is_reg c = true
        · cases hi : c.inp with
          | none =>
            refine ⟨1, .ok h, ?_, Or.inl ⟨h, rfl, Linked.linked_refl _ _ _⟩⟩
            intro m hm
            obtain ⟨m', rfl⟩ := succ_eq m hm
            rw [resolve_circuit_succ hp]
            simp only [hv, hr, hi, if_true, Bool.false_eq_true, if_false]
          | some q =>
            have hq := hw.reg p c q hp hv hr hi
            obtain ⟨n, R, hn, hs⟩ := IH h q hw hq.1 (Nat.le_of_eq hu)
              (Or.inr (by rw [← hrk]; exact hq.2))
            refine ⟨n + 1, R, ?_, ?_⟩
            · intro m hm
              obtain ⟨m', rfl⟩ := succ_eq m (by omega)
              rw [resolve_circuit_succ hp]
              simp only [hv, hr, hi, if_true, Bool.false_eq_true, if_false]
              exact hn m' (by omega)
            · have e : NameEdge file vars h p q := ⟨c, hp, Or.inl ⟨hv, hr, hi⟩⟩
              rcases hs with ⟨h', rfl, hl⟩ | ⟨tok, rfl, hund⟩
              · exact Or.inl ⟨h', rfl, hl⟩
              · exact Or.inr ⟨tok, rfl, Undefined.of_edge e hund⟩
        · have hr : is_reg c = false := by simpa using hr
          obtain ⟨g, hg, h0, hin⟩ := hw.app p c hp hv hr
          cases hi : c.inp with
          | none =>
            refine ⟨1, .ok h, ?_, Or.inl ⟨h, rfl, Linked.linked_refl _ _ _⟩⟩
            intro m hm
            obtain ⟨m', rfl⟩ := succ_eq m hm
            rw [resolve_circuit_succ hp]
            simp only [hv, hr, hg, hi, h0 hi, if_true, Bool.false_eq_true, if_false]
          | some a =>
            obtain ⟨n, R, hn, hs⟩ := @resolve_inputs_total file vars _ _ _ _ _
              hp hv hr hg hi
              (by
                intro s i hl hlt
                have hws := hw.linked hl
                exact IH s _ hws (hl.isSome (hin a i hi hlt).1)
                  (by rw [← hu]; exact unlinked_count_le bound hl)
                  (Or.inr (by rw [← hrk]; exact (hin a i hi hlt).2)))
              g.arity 0 h (by omega) (Linked.linked_refl _ _ _)
            refine ⟨n + 1, R, ?_, hs⟩
            intro m hm
            obtain ⟨m', rfl⟩ := succ_eq m (by omega)
            rw [resolve_circuit_succ hp]
            simp only [hv, hr, hg, hi, Bool.false_eq_true, if_false]
            exact hn m' (by omega)

/-- C7: on a memory laid out as the parsers leave it, in which no name leaf is
linked yet, `resolve_circuit` returns the same result for every sufficient
budget; the result is the error `Variable not defined` whenever a name leaf
reached from `p`, directly or through bindings, has no binding with its name;
and when the result is a memory, every name leaf reached from `p` is linked in
it to the body of the first binding whose name has the bytes of its token. -/
theorem resolve_circuit_links (file : File) (vars : Vars) (rank : Nat → Nat) (bound : Nat)
    (h : Cells) (p : Nat)
    (hw : WellFormed file vars rank bound h)
    (h0 : ∀ a c, h a = some c → is_var c = true → c.gate = none → c.inp = none)
    (hp : (h p).isSome = true) :
    ∃ n R, (∀ m, n ≤ m → resolve_circuit file vars m h p = R) ∧
      ((∃ h', R = .ok h') ∨ ∃ tok, R = .error (Err.not_defined tok)) ∧
      ((∃ q c t, NameReach file vars h p q ∧ h q = some c ∧ c.var = some t ∧ c.gate = none ∧
          binding_index file t vars.names 0 = none) →
        ∃ tok, R = .error (Err.not_defined tok) ∧ Undefined file vars h p tok) ∧
      (∀ h', R = .ok h' →
        ∀ q c t, NameReach file vars h p q → h q = some c → c.var = some t → c.gate = none →
          ∃ i, binding_index file t vars.names 0 = some i ∧
            h' q = some { c with inp := some (var_formula vars.arr i) }) := by
  obtain ⟨n, R, hn, hs⟩ := resolve_circuit_total file vars rank bound _ _ h p rfl rfl hw hp
  have hsucc : ∀ h', R = .ok h' →
      ∀ q c t, NameReach file vars h p q → h q = some c → c.var = some t → c.gate = none →
        ∃ i, binding_index file t vars.names 0 = some i ∧
          h' q = some { c with inp := some (var_formula vars.arr i) } := by
    intro h' hR q c t hreach hc ht hg
    have hres : resolve_circuit file vars n h p = .ok h' := by rw [hn n (Nat.le_refl _), hR]
    obtain ⟨hl, htd, hnd⟩ := resolve_circuit_post file vars hw.names_inside n h p h'
      hw.tokens_inside hres
    have hi : c.inp = none := h0 q c hc (by simp [is_var, ht]) hg
    exact linked_of_treeDone hl (treeDone_reach hl hnd htd hreach) hc ht hi
  refine ⟨n, R, hn, ?_, ?_, hsucc⟩
  · rcases hs with ⟨h', hR, _⟩ | ⟨tok, hR, _⟩
    · exact Or.inl ⟨h', hR⟩
    · exact Or.inr ⟨tok, hR⟩
  · rintro ⟨q, c, t, hreach, hc, ht, hg, hb⟩
    rcases hs with ⟨h', hR, _⟩ | ⟨tok, hR, hu⟩
    · obtain ⟨i, hi, _⟩ := hsucc h' hR q c t hreach hc ht hg
      rw [hb] at hi; cases hi
    · exact ⟨tok, hR, hu⟩

theorem source_bindings_wellFormed :
    WellFormed source_bindings source_bindings_vars parsed_rank (ROOT + 1)
      source_bindings_cells where
  dom := by
    intro a ha
    simp only [ROOT, INIT_ARENA_SIZE] at ha
    unfold source_bindings_cells
    simp only [show a ≠ 10000 by omega, show a ≠ 480 by omega, show a ≠ 432 by omega,
      show a ≠ 160 by omega, show a ≠ 72 by omega, show a ≠ 208 by omega,
      show a ≠ 304 by omega, show a ≠ 256 by omega, if_false]
  reg := by
    intro a c q hc hv hr hi
    unfold source_bindings_cells at hc
    split_ifs at hc <;> cases hc <;> subst_vars <;>
      simp [is_var, is_reg, mk_circuit] at hv hr hi
    subst_vars
    decide
  app := by
    intro a c hc hv hr
    unfold source_bindings_cells at hc
    split_ifs at hc <;> cases hc <;> subst_vars <;>
      simp [is_var, is_reg, mk_circuit] at hv hr
    · refine ⟨_, rfl, by simp [mk_circuit], ?_⟩
      intro b i hb hi
      simp [mk_circuit] at hb hi
      subst hb
      have : i = 0 ∨ i = 1 := by omega
      rcases this with rfl | rfl <;> decide
    · refine ⟨_, rfl, by simp [mk_circuit], ?_⟩
      intro b i hb hi
      simp [mk_circuit] at hb hi
      subst hb
      have : i = 0 ∨ i = 1 := by omega
      rcases this with rfl | rfl <;> decide
  body := by
    intro i hi
    simp [source_bindings_vars] at hi
    have : i = 0 ∨ i = 1 := by omega
    rcases this with rfl | rfl <;> decide
  names_inside := by
    intro t ht
    simp only [source_bindings_vars, List.mem_cons, List.mem_singleton, List.not_mem_nil,
      or_false] at ht
    rcases ht with rfl | rfl
    · exact ⟨33, rfl, by decide⟩
    · exact ⟨52, rfl, by decide⟩
  tokens_inside := by
    intro a c t hc ht
    unfold source_bindings_cells at hc
    split_ifs at hc <;> cases hc <;> simp [mk_circuit] at ht <;> subst ht
    · exact ⟨69, rfl, by decide⟩
    · exact ⟨67, rfl, by decide⟩
    · exact ⟨46, rfl, by decide⟩
    · exact ⟨44, rfl, by decide⟩

set_option maxHeartbeats 400000 in
theorem source_bindings_replay :
    unresolved source_bindings = (source_bindings_vars,
      ((((((((((((((make_arena.store_token 352 ⟨1, 0, some 44, 1⟩).store 256
        (mk_circuit (some ⟨1, 0, some 44, 1⟩) none none)).store_token 392
          ⟨1, 0, some 46, 1⟩).store 304
        (mk_circuit (some ⟨1, 0, some 46, 1⟩) none none)).store 208
        (mk_circuit none (some ⟨some 6, 3, 2, 5⟩) (some 256))).store_token 32
          ⟨1, 0, some 33, 1⟩).store 72
        (mk_circuit none none (some 208))).store_token 120 ⟨1, 0, some 52, 1⟩).store 160
        (mk_circuit none none none)).store_token 528 ⟨1, 0, some 67, 1⟩).store 432
        (mk_circuit (some ⟨1, 0, some 67, 1⟩) none none)).store_token 568
          ⟨1, 0, some 69, 1⟩).store 480
        (mk_circuit (some ⟨1, 0, some 69, 1⟩) none none)).store 10000
        (mk_circuit none (some ⟨some 6, 3, 2, 5⟩) (some 432))).cells) := by
  rfl

set_option maxHeartbeats 1600000 in
theorem source_bindings_parsed :
    unresolved source_bindings = (source_bindings_vars, source_bindings_cells) := by
  rw [source_bindings_replay]
  congr 1
  funext q
  by_cases h1 : q = 10000
  · subst h1; decide
  by_cases h2 : q = 480
  · subst h2; decide
  by_cases h3 : q = 432
  · subst h3; decide
  by_cases h4 : q = 160
  · subst h4; decide
  by_cases h5 : q = 72
  · subst h5; decide
  by_cases h6 : q = 208
  · subst h6; decide
  by_cases h7 : q = 304
  · subst h7; decide
  by_cases h8 : q = 256
  · subst h8; decide
  simp only [store_cells, store_token_cells, make_arena_cells, source_bindings_cells,
    h1, h2, h3, h4, h5, h6, h7, h8, if_false, ite_self]

/-- C7 applies to the memory and the binding table that `parse_circuit` builds
from `source_bindings`. -/
theorem resolve_circuit_links_witness :
    unresolved source_bindings = (source_bindings_vars, source_bindings_cells) ∧
    ∃ n R, (∀ m, n ≤ m →
        resolve_circuit source_bindings source_bindings_vars m source_bindings_cells ROOT = R) ∧
      ((∃ h', R = .ok h') ∨ ∃ tok, R = .error (Err.not_defined tok)) ∧
      ((∃ q c t, NameReach source_bindings source_bindings_vars source_bindings_cells ROOT q ∧
          source_bindings_cells q = some c ∧ c.var = some t ∧ c.gate = none ∧
          binding_index source_bindings t source_bindings_vars.names 0 = none) →
        ∃ tok, R = .error (Err.not_defined tok) ∧
          Undefined source_bindings source_bindings_vars source_bindings_cells ROOT tok) ∧
      (∀ h', R = .ok h' →
        ∀ q c t, NameReach source_bindings source_bindings_vars source_bindings_cells ROOT q →
          source_bindings_cells q = some c → c.var = some t → c.gate = none →
          ∃ i, binding_index source_bindings t source_bindings_vars.names 0 = some i ∧
            h' q = some { c with inp := some (var_formula source_bindings_vars.arr i) }) :=
  ⟨source_bindings_parsed,
    resolve_circuit_links source_bindings source_bindings_vars parsed_rank (ROOT + 1)
      source_bindings_cells ROOT source_bindings_wellFormed
      (by
        intro a c hc hv hg
        unfold source_bindings_cells at hc
        split_ifs at hc <;> cases hc <;> first | rfl | simp [is_var, mk_circuit] at hv)
      (by decide)⟩

/-! ## The lexer -/

theorem strncmp_literal {file : File} {idx : Nat} {c : Char} (h : file.read idx = .ok c)
    (s : String) (l : Char) (hs : s = String.mk [l]) (hl : l ≠ NUL) :
    strncmp_eq (cstr_at s) (fun i => file.read (idx + i)) 1 0 = .ok (decide (l = c)) := by
  subst hs
  have h0 : cstr_at (String.mk [l]) 0 = .ok l := rfl
  simp only [strncmp_eq, h0, Nat.add_zero, h, bind, Except.bind, pure, Except.pure]
  by_cases hlc : l = c
  · subst hlc
    simp [hl, strncmp_eq, pure, Except.pure]
  · simp [hlc]

theorem next_reserved_spec {file : File} {idx : Nat} {c : Char} (h : file.read idx = .ok c) :
    next_reserved file idx = .ok (if reserved_char c = true then 1 else 0) := by
  have e1 := strncmp_literal h "[" '[' rfl (by decide)
  have e2 := strncmp_literal h "]" ']' rfl (by decide)
  have e3 := strncmp_literal h "(" '(' rfl (by decide)
  have e4 := strncmp_literal h ")" ')' rfl (by decide)
  have e5 := strncmp_literal h "," ',' rfl (by decide)
  have l1 : ("[" : String).length = 1 := rfl
  have l2 : ("]" : String).length = 1 := rfl
  have l3 : ("(" : String).length = 1 := rfl
  have l4 : (")" : String).length = 1 := rfl
  have l5 : ("," : String).length = 1 := rfl
  unfold next_reserved reserved
  simp only [next_reserved_loop, l1, l2, l3, l4, l5, e1, e2, e3, e4, e5, bind, Except.bind,
    pure, Except.pure, reserved_char]
  by_cases c1 : '[' = c
  · simp [← c1]
  · by_cases c2 : ']' = c
    · simp [← c2]
    · by_cases c3 : '(' = c
      · simp [← c3]
      · by_cases c4 : ')' = c
        · simp [← c4]
        · by_cases c5 : ',' = c
          · simp [← c5]
          · simp [c1, c2, c3, c4, c5, Ne.symm c1, Ne.symm c2, Ne.symm c3, Ne.symm c4,
              Ne.symm c5]

theorem getElem?_read {file : File} {i : Nat} {c : Char} (h : file.text[i]? = some c) :
    file.read i = .ok c := by
  simp [File.read, h, pure, Except.pure]

theorem past_end_iff {file : File} (h1 : 0 < file.size) (h2 : file.size ≤ ULONG_MAX)
    (idx : Nat) : past_end file idx = decide (file.size ≤ idx) := by
  unfold past_end wrap
  have e : (file.size + 2 ^ 64 - 1) % 2 ^ 64 = file.size - 1 := by
    have : file.size + 2 ^ 64 - 1 = (file.size - 1) + 2 ^ 64 := by omega
    rw [this, Nat.add_mod_right]
    apply Nat.mod_eq_of_lt
    have : ULONG_MAX < 2 ^ 64 := by norm_num [ULONG_MAX]
    omega
  rw [e]
  by_cases h : file.size ≤ idx
  · simp only [h, decide_True, decide_eq_true_eq]; omega
  · simp only [h, decide_False, decide_eq_false_iff_not]; omega

theorem skip_space_ok (file : File) :
    ∀ (n line_n line idx ln l j : Nat), skip_space file n line_n line idx = .ok (ln, l, j) →
      idx ≤ j ∧ Blank file idx j ∧ ∃ c, file.text[j]? = some c ∧ is_space c = false := by
  intro n
  induction n with
  | zero =>
    intro line_n line idx ln l j h
    simp [skip_space, throw, throwThe, MonadExceptOf.throw] at h
  | succ n ih =>
    intro line_n line idx ln l j h
    unfold skip_space at h
    cases hr : file.read idx with
    | error e => simp [hr, bind, Except.bind] at h
    | ok c =>
      simp only [hr, bind, Except.bind] at h
      have hc := read_getElem? hr
      by_cases hs : is_space c = true
      · simp only [hs, if_true] at h
        have key : ∀ a b, skip_space file n a b (idx + 1) = .ok (ln, l, j) →
            idx ≤ j ∧ Blank file idx j ∧ ∃ c, file.text[j]? = some c ∧ is_space c = false := by
          intro a b hab
          obtain ⟨h1, h2, h3⟩ := ih a b (idx + 1) ln l j hab
          refine ⟨by omega, ?_, h3⟩
          intro i hi1 hi2
          by_cases hii : i = idx
          · subst hii; exact ⟨c, hc, hs⟩
          · exact h2 i (by omega) hi2
        by_cases hn : c = '\n'
        · rw [if_pos hn] at h
          exact key _ _ h
        · rw [if_neg hn] at h
          exact key _ _ h
      · simp only [hs, Bool.false_eq_true, if_false, pure, Except.pure, Except.ok.injEq,
          Prod.mk.injEq] at h
        obtain ⟨_, _, rfl⟩ := h
        refine ⟨Nat.le_refl _, ?_, c, hc, by simpa using hs⟩
        intro i hi1 hi2
        omega

theorem skip_space_lines (file : File) :
    ∀ (n idx ln l j : Nat),
      skip_space file n (line_number file idx) (line_begin file idx) idx = .ok (ln, l, j) →
      ln = line_number file j ∧ l = line_begin file j := by
  intro n
  induction n with
  | zero =>
    intro idx ln l j h
    simp [skip_space, throw, throwThe, MonadExceptOf.throw] at h
  | succ n ih =>
    intro idx ln l j h
    unfold skip_space at h
    cases hr : file.read idx with
    | error e => simp [hr, bind, Except.bind] at h
    | ok c =>
      simp only [hr, bind, Except.bind] at h
      have hc := read_getElem? hr
      by_cases hs : is_space c = true
      · simp only [hs, if_true] at h
        by_cases hn : c = '\n'
        · rw [if_pos hn] at h
          subst hn
          have e1 : line_number file (idx + 1) = line_number file idx + 1 := by
            simp [line_number, hc]
          have e2 : line_begin file (idx + 1) = idx + 1 := by
            simp [line_begin, hc]
          exact ih (idx + 1) ln l j (by rw [e1, e2]; exact h)
        · rw [if_neg hn] at h
          have e1 : line_number file (idx + 1) = line_number file idx := by
            simp [line_number, hc, hn]
          have e2 : line_begin file (idx + 1) = line_begin file idx := by
            simp [line_begin, hc, hn]
          exact ih (idx + 1) ln l j (by rw [e1, e2]; exact h)
      · simp only [hs, Bool.false_eq_true, if_false, pure, Except.pure, Except.ok.injEq,
          Prod.mk.injEq] at h
        obtain ⟨rfl, rfl, rfl⟩ := h
        exact ⟨rfl, rfl⟩

theorem skip_space_total (file : File) :
    ∀ (k n line_n line idx : Nat) (c : Char), Blank file idx (idx + k) →
      file.text[idx + k]? = some c → is_space c = false → k < n →
      ∃ ln l, skip_space file n line_n line idx = .ok (ln, l, idx + k) := by
  intro k
  induction k with
  | zero =>
    intro n line_n line idx c _ hc hs hn
    obtain ⟨n, rfl⟩ : ∃ m, n = m + 1 := ⟨n - 1, by omega⟩
    simp only [Nat.add_zero] at hc
    unfold skip_space
    rw [getElem?_read hc]
    simp [bind, Except.bind, hs, pure, Except.pure]
  | succ k ih =>
    intro n line_n line idx c hb hc hs hn
    obtain ⟨n, rfl⟩ : ∃ m, n = m + 1 := ⟨n - 1, by omega⟩
    obtain ⟨d, hd, hds⟩ := hb idx (Nat.le_refl _) (by omega)
    have hb' : Blank file (idx + 1) (idx + 1 + k) := fun i h1 h2 => hb i (by omega) (by omega)
    have hc' : file.text[idx + 1 + k]? = some c := by
      rw [← hc]; congr 1; omega
    unfold skip_space
    rw [getElem?_read hd]
    simp only [bind, Except.bind, hds, if_true]
    have e : idx + (k + 1) = idx + 1 + k := by omega
    rw [e]
    by_cases hnl : d = '\n'
    · rw [if_pos hnl]
      exact ih n _ _ (idx + 1) c hb' hc' hs (by omega)
    · rw [if_neg hnl]
      exact ih n _ _ (idx + 1) c hb' hc' hs (by omega)

theorem scan_run_ok (file : File) (p : Nat → Except Err Bool) :
    ∀ (n idx e : Nat), scan_run file p n idx = .ok e →
      idx ≤ e ∧ e ≤ idx + n ∧ (∀ i, idx ≤ i → i < e → i < file.size ∧ p i = .ok true) ∧
      (e = idx + n ∨ file.size ≤ e ∨ p e = .ok false) := by
  intro n
  induction n with
  | zero =>
    intro idx e h
    simp only [scan_run, pure, Except.pure, Except.ok.injEq] at h
    subst h
    exact ⟨Nat.le_refl _, Nat.le_refl _, fun i h1 h2 => by omega, Or.inl rfl⟩
  | succ n ih =>
    intro idx e h
    unfold scan_run at h
    by_cases hlt : idx < file.size
    · rw [if_pos hlt] at h
      cases hp : p idx with
      | error err => simp [hp, bind, Except.bind] at h
      | ok b =>
        simp only [hp, bind, Except.bind] at h
        cases b with
        | true =>
          simp only [if_true] at h
          obtain ⟨h1, h2, h3, h4⟩ := ih (idx + 1) e h
          refine ⟨by omega, by omega, ?_, ?_⟩
          · intro i hi1 hi2
            by_cases hii : i = idx
            · subst hii; exact ⟨hlt, hp⟩
            · exact h3 i (by omega) hi2
          · rcases h4 with h4 | h4 | h4
            · left; omega
            · right; left; exact h4
            · right; right; exact h4
        | false =>
          simp only [Bool.false_eq_true, if_false, pure, Except.pure, Except.ok.injEq] at h
          subst h
          exact ⟨Nat.le_refl _, by omega, fun i h1 h2 => by omega, Or.inr (Or.inr hp)⟩
    · rw [if_neg hlt] at h
      simp only [pure, Except.pure, Except.ok.injEq] at h
      subst h
      exact ⟨Nat.le_refl _, by omega, fun i h1 h2 => by omega, Or.inr (Or.inl (by omega))⟩

theorem scan_run_total (file : File) (p : Nat → Except Err Bool) :
    ∀ (n idx : Nat), (∀ i, idx ≤ i → i < file.size → ∃ b, p i = .ok b) →
      ∃ e, scan_run file p n idx = .ok e := by
  intro n
  induction n with
  | zero => intro idx _; exact ⟨idx, rfl⟩
  | succ n ih =>
    intro idx h
    unfold scan_run
    by_cases hlt : idx < file.size
    · rw [if_pos hlt]
      obtain ⟨b, hb⟩ := h idx (Nat.le_refl _) hlt
      cases b with
      | true =>
        obtain ⟨e, he⟩ := ih (idx + 1) (fun i h1 h2 => h i (by omega) h2)
        exact ⟨e, by simp [hb, bind, Except.bind, he]⟩
      | false => exact ⟨idx, by simp [hb, bind, Except.bind, pure, Except.pure]⟩
    · rw [if_neg hlt]
      exact ⟨idx, rfl⟩

theorem symbol_char_eq (file : File) :
    symbol_char file = fun i => file.read i >>= fun d => pure (symbol_class d) := by
  funext i
  unfold symbol_char
  cases hr : file.read i with
  | error e => rfl
  | ok c =>
    simp only [bind, Except.bind, next_reserved_spec hr, symbol_class, pure, Except.pure]
    cases h1 : is_space c <;> cases h2 : is_digit c <;> cases h3 : is_letter c <;>
      cases h4 : reserved_char c <;> simp

theorem next_token_cases {file : File} {sc sc' : Scanner} {tok : Token} {s : Nat}
    (hp : sc.peeked = false) (h : next_token file sc = .ok (tok, sc'))
    (hs : tok.start = some s) :
    ∃ ln l c e, past_end file sc.idx = false ∧
      skip_space file (file.text.length + 1 - sc.idx) sc.line_n sc.line sc.idx = .ok (ln, l, s) ∧
      past_end file s = false ∧ file.read s = .ok c ∧
      ((is_digit c = true ∧
          scan_run file (fun i => file.read i >>= fun d => pure (is_digit d))
            (file.size - s) s = .ok e) ∨
       (is_digit c = false ∧ reserved_char c = true ∧ e = s + 1) ∨
       (is_digit c = false ∧ reserved_char c = false ∧ is_letter c = true ∧
          scan_run file (fun i => file.read i >>= fun d => pure (word_char d))
            (file.size - s) s = .ok e) ∨
       (is_digit c = false ∧ reserved_char c = false ∧ is_letter c = false ∧
          scan_run file (fun i => file.read i >>= fun d => pure (symbol_class d))
            (file.size - s) s = .ok e)) ∧
      tok = ⟨ln, l, some s, e - s⟩ ∧ sc' = { sc with line_n := ln, line := l, idx := e } := by
  unfold next_token at h
  simp only [hp, Bool.false_eq_true, if_false] at h
  cases hpe : past_end file sc.idx with
  | true =>
    simp only [hpe, if_true, pure, Except.pure, Except.ok.injEq, Prod.mk.injEq] at h
    rw [← h.1] at hs
    simp [eof_token] at hs
  | false =>
    simp only [hpe, Bool.false_eq_true, if_false] at h
    cases hsk : skip_space file (file.text.length + 1 - sc.idx) sc.line_n sc.line sc.idx with
    | error e => simp [hsk, bind, Except.bind] at h
    | ok r =>
      obtain ⟨ln, l, j⟩ := r
      simp only [hsk, bind, Except.bind] at h
      cases hpj : past_end file j with
      | true =>
        simp only [hpj, if_true, pure, Except.pure, Except.ok.injEq, Prod.mk.injEq] at h
        rw [← h.1] at hs
        simp [eof_token] at hs
      | false =>
        simp only [hpj, Bool.false_eq_true, if_false] at h
        cases hr : file.read j with
        | error e => 
          cases hnr : next_reserved file j <;> simp [hnr, hr] at h
        | ok c =>
          simp only [next_reserved_spec hr, hr] at h
          by_cases hd : is_digit c = true
          · simp only [hd, if_true] at h
            generalize hrun : scan_run file _ (file.size - j) j = R at h
            cases R with
            | error e => simp at h
            | ok e =>
              simp only [pure, Except.pure, Except.ok.injEq, Prod.mk.injEq] at h
              obtain ⟨rfl, rfl⟩ := h
              simp only [Token.mk.injEq, Option.some.injEq] at hs
              obtain rfl := hs
              exact ⟨ln, l, c, e, rfl, rfl, hpj, hr, Or.inl ⟨hd, hrun⟩, rfl, by rw [hp]⟩
          · have hd' : is_digit c = false := by simpa using hd
            simp only [hd', Bool.false_eq_true, if_false] at h
            by_cases hres : reserved_char c = true
            · simp only [hres, if_true, Nat.lt_one_iff, pure, Except.pure, Except.ok.injEq,
                Prod.mk.injEq, gt_iff_lt, Nat.lt_add_one] at h
              obtain ⟨rfl, rfl⟩ := h
              simp only [Token.mk.injEq, Option.some.injEq] at hs
              obtain rfl := hs
              exact ⟨ln, l, c, j + 1, rfl, rfl, hpj, hr, Or.inr (Or.inl ⟨hd', hres, rfl⟩), rfl,
                by rw [hp]⟩
            · have hres' : reserved_char c = false := by simpa using hres
              simp only [hres', Bool.false_eq_true, if_false, gt_iff_lt, Nat.lt_irrefl] at h
              by_cases hl : is_letter c = true
              · simp only [hl, if_true] at h
                generalize hrun : scan_run file _ (file.size - j) j = R at h
                cases R with
                | error e => simp at h
                | ok e =>
                  simp only [pure, Except.pure, Except.ok.injEq, Prod.mk.injEq] at h
                  obtain ⟨rfl, rfl⟩ := h
                  simp only [Token.mk.injEq, Option.some.injEq] at hs
                  obtain rfl := hs
                  exact ⟨ln, l, c, e, rfl, rfl, hpj, hr,
                    Or.inr (Or.inr (Or.inl ⟨hd', hres', hl, hrun⟩)), rfl, by rw [hp]⟩
              · have hl' : is_letter c = false := by simpa using hl
                simp only [hl', Bool.false_eq_true, if_false, symbol_char_eq] at h
                generalize hrun : scan_run file _ (file.size - j) j = R at h
                cases R with
                | error e => simp at h
                | ok e =>
                  simp only [pure, Except.pure, Except.ok.injEq, Prod.mk.injEq] at h
                  obtain ⟨rfl, rfl⟩ := h
                  simp only [Token.mk.injEq, Option.some.injEq] at hs
                  obtain rfl := hs
                  exact ⟨ln, l, c, e, rfl, rfl, hpj, hr,
                    Or.inr (Or.inr (Or.inr ⟨hd', hres', hl', hrun⟩)), rfl, by rw [hp]⟩

theorem charp_ok {file : File} {q : Char → Bool} {i : Nat} {b : Bool}
    (h : (file.read i >>= fun d => (pure (q d) : Except Err Bool)) = .ok b) :
    ∃ d, file.text[i]? = some d ∧ q d = b := by
  cases hr : file.read i with
  | error e => simp [hr, bind, Except.bind] at h
  | ok d =>
    simp only [hr, bind, Except.bind, pure, Except.pure, Except.ok.injEq] at h
    exact ⟨d, read_getElem? hr, h⟩

theorem scan_run_class {file : File} {q : Char → Bool} {s e : Nat} {c : Char}
    (hlt : s < file.size) (hr : file.read s = .ok c) (hq : q c = true)
    (h : scan_run file (fun i => file.read i >>= fun d => pure (q d)) (file.size - s) s =
      .ok e) :
    s < e ∧ MaximalRun file q s (e - s) := by
  obtain ⟨h1, h2, h3, h4⟩ := scan_run_ok file _ _ _ _ h
  have hps : (file.read s >>= fun d => (pure (q d) : Except Err Bool)) = .ok true := by
    simp [hr, bind, Except.bind, pure, Except.pure, hq]
  have hse : s < e := by
    rcases Nat.lt_or_ge s e with hlt' | hge
    · exact hlt'
    · have hes : e = s := by omega
      subst hes
      rcases h4 with h4 | h4 | h4
      · omega
      · omega
      · rw [hps] at h4
        cases h4
  refine ⟨hse, by omega, ?_, ?_⟩
  · intro i hi1 hi2
    exact charp_ok (h3 i hi1 (by omega)).2
  · have hee : s + (e - s) = e := by omega
    rw [hee]
    rcases h4 with h4 | h4 | h4
    · left; omega
    · left; omega
    · right; exact charp_ok h4

theorem token_rule_nonempty (file : File) (sc : Scanner)
    (h1 : 0 < file.size) (h2 : file.size ≤ ULONG_MAX) (hp : sc.peeked = false) :
    (∀ tok sc' s, next_token file sc = .ok (tok, sc') → tok.start = some s →
      sc.idx ≤ s ∧ Blank file sc.idx s ∧
      ∃ c, file.text[s]? = some c ∧ is_space c = false ∧ TokenRule file s tok.len c ∧
        0 < tok.len ∧ s + tok.len ≤ file.size ∧ sc'.idx = s + tok.len) ∧
    (∀ s c, file.size ≤ file.text.length → sc.idx ≤ s → s < file.size →
      Blank file sc.idx s → file.text[s]? = some c → is_space c = false →
      ∃ tok sc', next_token file sc = .ok (tok, sc') ∧ tok.start = some s) := by
  have total : ∀ s c, file.size ≤ file.text.length → sc.idx ≤ s → s < file.size →
      Blank file sc.idx s → file.text[s]? = some c → is_space c = false →
      ∃ tok sc', next_token file sc = .ok (tok, sc') ∧ tok.start = some s := by
    intro s c hmap hle hlt hb hc hns
    have hb' : Blank file sc.idx (sc.idx + (s - sc.idx)) := by
      rw [Nat.add_sub_cancel' hle]; exact hb
    have hc' : file.text[sc.idx + (s - sc.idx)]? = some c := by
      rw [Nat.add_sub_cancel' hle]; exact hc
    obtain ⟨ln, l, hsk⟩ := skip_space_total file (s - sc.idx)
      (file.text.length + 1 - sc.idx) sc.line_n sc.line sc.idx c hb' hc' hns (by omega)
    rw [Nat.add_sub_cancel' hle] at hsk
    have hreads : ∀ (q : Char → Bool) i, s ≤ i → i < file.size →
        ∃ b, (file.read i >>= fun d => (pure (q d) : Except Err Bool)) = .ok b := by
      intro q i _ hi
      have hi' : i < file.text.length := by omega
      exact ⟨q file.text[i], by simp [read_lt hi', bind, Except.bind, pure, Except.pure]⟩
    have e1 : past_end file sc.idx = false := by
      rw [past_end_iff h1 h2]; simp; omega
    have e2 : past_end file s = false := by
      rw [past_end_iff h1 h2]; simp; omega
    have hr := getElem?_read hc
    unfold next_token
    simp only [hp, Bool.false_eq_true, if_false, e1, hsk, bind, Except.bind, e2,
      next_reserved_spec hr, hr, symbol_char_eq]
    by_cases hd : is_digit c = true
    · obtain ⟨e, he⟩ := scan_run_total file _ (file.size - s) s (hreads is_digit)
      simp only [bind, Except.bind, pure, Except.pure] at he
      simp [hd, he, pure, Except.pure]
    · have hd' : is_digit c = false := by simpa using hd
      by_cases hres : reserved_char c = true
      · simp [hd', hres, pure, Except.pure]
      · have hres' : reserved_char c = false := by simpa using hres
        by_cases hl : is_letter c = true
        · obtain ⟨e, he⟩ := scan_run_total file _ (file.size - s) s (hreads word_char)
          simp only [bind, Except.bind, word_char, pure, Except.pure] at he
          simp [hd', hres', hl, he, pure, Except.pure]
        · have hl' : is_letter c = false := by simpa using hl
          obtain ⟨e, he⟩ := scan_run_total file _ (file.size - s) s (hreads symbol_class)
          simp only [bind, Except.bind, pure, Except.pure] at he
          simp [hd', hres', hl', he, pure, Except.pure]
  refine ⟨?_, total⟩
  intro tok sc' s h hs
  obtain ⟨ln, l, c, e, _, hsk, hpe, hr, hrun, rfl, rfl⟩ := next_token_cases hp h hs
  obtain ⟨hle, hb, c', hc', hns⟩ := skip_space_ok file _ _ _ _ _ _ _ hsk
  have hc := read_getElem? hr
  rw [hc] at hc'
  obtain rfl := Option.some.inj hc'
  have hlt : s < file.size := by
    rw [past_end_iff h1 h2] at hpe
    simpa using hpe
  refine ⟨hle, hb, c, hc, hns, ?_⟩
  rcases hrun with ⟨hd, hrun⟩ | ⟨hd, hres, rfl⟩ | ⟨hd, hres, hl, hrun⟩ | ⟨hd, hres, hl, hrun⟩
  · obtain ⟨hse, hmax⟩ := scan_run_class hlt hr hd hrun
    refine ⟨by simpa [TokenRule, hd] using hmax, by simpa using hse, ?_, ?_⟩
    · exact hmax.1
    · simp only; omega
  · refine ⟨by simp [TokenRule, hd, hres], by simp, ?_, ?_⟩
    · simp only; omega
    · simp only; omega
  · have hw : word_char c = true := by simp [word_char, hl]
    obtain ⟨hse, hmax⟩ := scan_run_class hlt hr hw hrun
    refine ⟨by simpa [TokenRule, hd, hres, hl] using hmax, by simpa using hse, ?_, ?_⟩
    · exact hmax.1
    · simp only; omega
  · have hw : symbol_class c = true := by simp [symbol_class, hd, hres, hl, hns]
    obtain ⟨hse, hmax⟩ := scan_run_class hlt hr hw hrun
    refine ⟨by simpa [TokenRule, hd, hres, hl] using hmax, by simpa using hse, ?_, ?_⟩
    · exact hmax.1
    · simp only; omega

theorem next_token_empty {file : File} {sc sc' : Scanner} {tok : Token}
    (ht : file.text = []) (hp : sc.peeked = false)
    (h : next_token file sc = .ok (tok, sc')) : tok.start = none := by
  have hskip : ∀ n a b i, skip_space file n a b i = .error Err.fault := by
    intro n a b i
    cases n with
    | zero => rfl
    | succ n =>
      simp [skip_space, File.read, ht, bind, Except.bind, throw, throwThe,
        MonadExceptOf.throw]
  unfold next_token at h
  simp only [hp, Bool.false_eq_true, if_false] at h
  cases hpe : past_end file sc.idx with
  | true =>
    simp only [hpe, if_true, pure, Except.pure, Except.ok.injEq, Prod.mk.injEq] at h
    rw [← h.1]
    rfl
  | false =>
    simp [hpe, hskip, bind, Except.bind] at h

/-- C11: the token that `next_token` returns from a scanner without a cached
peek starts at the first non-whitespace byte at or after the position, is not
empty, lies inside the buffer and follows the rule of its first character:
(a) the maximal run of digits, else (b) the one-character reserved literal,
else (c) the maximal run of letters and digits, else (d) the maximal run of
bytes that are none of whitespace, digit, letter or reserved literal; the
scanner is left at the end of the token.  And `next_token` does return a token
when the buffer, which is mapped in full, has a non-whitespace byte at or
after the position.  The size is an `unsigned long`, and an empty file has no
mapping. -/
theorem next_token_rule (file : File) (sc : Scanner)
    (h1 : file.size = 0 → file.text = []) (h2 : file.size ≤ ULONG_MAX)
    (hp : sc.peeked = false) :
    (∀ tok sc' s, next_token file sc = .ok (tok, sc') → tok.start = some s →
      sc.idx ≤ s ∧ Blank file sc.idx s ∧
      ∃ c, file.text[s]? = some c ∧ is_space c = false ∧ TokenRule file s tok.len c ∧
        0 < tok.len ∧ s + tok.len ≤ file.size ∧ sc'.idx = s + tok.len) ∧
    (∀ s c, file.size ≤ file.text.length → sc.idx ≤ s → s < file.size →
      Blank file sc.idx s → file.text[s]? = some c → is_space c = false →
      ∃ tok sc', next_token file sc = .ok (tok, sc') ∧ tok.start = some s) := by
  by_cases hz : 0 < file.size
  · exact token_rule_nonempty file sc hz h2 hp
  · have hs : file.size = 0 := by omega
    refine ⟨?_, ?_⟩
    · intro tok sc' s h hst
      rw [next_token_empty (h1 hs) hp h] at hst
      cases hst
    · intro s c _ _ hlt
      omega

theorem next_token_eof {file : File} {sc sc' : Scanner} {tok : Token}
    (hp : sc.peeked = false) (h : next_token file sc = .ok (tok, sc'))
    (hs : tok.start = none) : sc' = sc := by
  unfold next_token at h
  simp only [hp, Bool.false_eq_true, if_false] at h
  cases hpe : past_end file sc.idx with
  | true =>
    simp only [hpe, if_true, pure, Except.pure, Except.ok.injEq, Prod.mk.injEq] at h
    exact h.2.symm
  | false =>
    simp only [hpe, Bool.false_eq_true, if_false] at h
    cases hsk : skip_space file (file.text.length + 1 - sc.idx) sc.line_n sc.line sc.idx with
    | error e => simp [hsk, bind, Except.bind] at h
    | ok r =>
      obtain ⟨ln, l, j⟩ := r
      simp only [hsk, bind, Except.bind] at h
      cases hpj : past_end file j with
      | true =>
        simp only [hpj, if_true, pure, Except.pure, Except.ok.injEq, Prod.mk.injEq] at h
        exact h.2.symm
      | false =>
        exfalso
        simp only [hpj, Bool.false_eq_true, if_false] at h
        cases hr : file.read j with
        | error e =>
          cases hnr : next_reserved file j <;> simp [hnr, hr] at h
        | ok c =>
          simp only [next_reserved_spec hr, hr] at h
          split_ifs at h
          all_goals
            first
            | (generalize scan_run file _ (file.size - j) j = R at h
               cases R with
               | error e => simp at h
               | ok e =>
                 simp only [pure, Except.pure, Except.ok.injEq, Prod.mk.injEq] at h
                 rw [← h.1] at hs
                 simp at hs)
            | (simp only [pure, Except.pure, Except.ok.injEq, Prod.mk.injEq] at h
               rw [← h.1] at hs
               simp at hs)

theorem skip_space_fault (file : File) :
    ∀ (k n line_n line idx : Nat), idx + k = file.text.length → Blank file idx (idx + k) →
      k < n → skip_space file n line_n line idx = .error Err.fault := by
  intro k
  induction k with
  | zero =>
    intro n line_n line idx hk _ hn
    obtain ⟨n, rfl⟩ : ∃ m, n = m + 1 := ⟨n - 1, by omega⟩
    have hnone : file.text[idx]? = none := by
      rw [List.getElem?_eq_none]; omega
    unfold skip_space
    simp [File.read, hnone, bind, Except.bind, throw, throwThe, MonadExceptOf.throw]
  | succ k ih =>
    intro n line_n line idx hk hb hn
    obtain ⟨n, rfl⟩ : ∃ m, n = m + 1 := ⟨n - 1, by omega⟩
    obtain ⟨d, hd, hds⟩ := hb idx (Nat.le_refl _) (by omega)
    have hb' : Blank file (idx + 1) (idx + 1 + k) := fun i h1 h2 => hb i (by omega) (by omega)
    unfold skip_space
    rw [getElem?_read hd]
    simp only [bind, Except.bind, hds, if_true]
    by_cases hnl : d = '\n'
    · rw [if_pos hnl]
      exact ih n _ _ (idx + 1) (by omega) hb' (by omega)
    · rw [if_neg hnl]
      exact ih n _ _ (idx + 1) (by omega) hb' (by omega)

/-- When the mapping ends with the buffer and only whitespace is left in the
buffer, `next_token` reads the byte after the buffer. -/
theorem next_token_trailing_space (file : File) (sc : Scanner)
    (h1 : 0 < file.size) (h2 : file.size ≤ ULONG_MAX) (hmap : file.text.length = file.size)
    (hp : sc.peeked = false) (hidx : sc.idx < file.size) (hb : Blank file sc.idx file.size) :
    next_token file sc = .error Err.fault := by
  have e1 : past_end file sc.idx = false := by
    rw [past_end_iff h1 h2]; simp; omega
  have hb' : Blank file sc.idx (sc.idx + (file.size - sc.idx)) := by
    rw [Nat.add_sub_cancel' (Nat.le_of_lt hidx)]; exact hb
  have hsk := skip_space_fault file (file.size - sc.idx) (file.text.length + 1 - sc.idx)
    sc.line_n sc.line sc.idx (by omega) hb' (by omega)
  unfold next_token
  simp only [hp, Bool.false_eq_true, if_false, e1, hsk, bind, Except.bind]

/-! ## Line numbers and line starts -/

theorem line_number_count (file : File) :
    ∀ i, line_number file i = 1 + (file.text.take i).count '\n' := by
  intro i
  induction i with
  | zero => simp [line_number]
  | succ i ih =>
    rw [line_number, List.take_succ, List.count_append, ih]
    cases hc : file.text[i]? with
    | none => simp
    | some c =>
      by_cases hn : c = '\n'
      · subst hn; simp; omega
      · have : List.count '\n' [c] = 0 := by
          rw [List.count_eq_zero]
          simpa using Ne.symm hn
        simp [hn, this]

theorem line_begin_spec (file : File) :
    ∀ i, line_begin file i ≤ i ∧
      (∀ j, line_begin file i ≤ j → j < i → file.text[j]? ≠ some '\n') ∧
      (line_begin file i = 0 ∨ file.text[line_begin file i - 1]? = some '\n') := by
  intro i
  induction i with
  | zero => exact ⟨Nat.le_refl _, fun j _ h => by omega, Or.inl rfl⟩
  | succ i ih =>
    obtain ⟨h1, h2, h3⟩ := ih
    by_cases hc : file.text[i]? = some '\n'
    · simp only [line_begin, hc, if_true]
      refine ⟨Nat.le_refl _, fun j h4 h5 => by omega, Or.inr ?_⟩
      simpa using hc
    · simp only [line_begin, hc, if_false]
      refine ⟨by omega, ?_, h3⟩
      intro j h4 h5
      by_cases hj : j = i
      · subst hj; exact hc
      · exact h2 j h4 (by omega)

theorem lines_no_newline (file : File) (s : Nat) :
    ∀ k, (∀ i, s ≤ i → i < s + k → file.text[i]? ≠ some '\n') →
      line_number file (s + k) = line_number file s ∧
      line_begin file (s + k) = line_begin file s := by
  intro k
  induction k with
  | zero => intro _; exact ⟨rfl, rfl⟩
  | succ k ih =>
    intro h
    obtain ⟨e1, e2⟩ := ih (fun i h1 h2 => h i h1 (by omega))
    have hc := h (s + k) (by omega) (by omega)
    have e : s + (k + 1) = (s + k) + 1 := by omega
    rw [e]
    simp only [line_number, line_begin, hc, if_false]
    exact ⟨e1, e2⟩

theorem run_no_newline {file : File} {q : Char → Bool} {s e : Nat} (hq : q '\n' = false)
    (h : scan_run file (fun i => file.read i >>= fun d => pure (q d)) (file.size - s) s =
      .ok e) :
    s ≤ e ∧ ∀ i, s ≤ i → i < e → file.text[i]? ≠ some '\n' := by
  obtain ⟨h1, _, h3, _⟩ := scan_run_ok file _ _ _ _ h
  refine ⟨h1, ?_⟩
  intro i hi1 hi2 hc
  obtain ⟨d, hd, hqd⟩ := charp_ok (h3 i hi1 hi2).2
  rw [hc] at hd
  obtain rfl := Option.some.inj hd
  rw [hq] at hqd
  cases hqd

theorem scanned_lines {file : File} {sc : Scanner} (h : Scanned file sc) :
    sc.peeked = false ∧ sc.line_n = line_number file sc.idx ∧
      sc.line = line_begin file sc.idx := by
  induction h with
  | fresh => exact ⟨rfl, rfl, rfl⟩
  | @next sc sc' tok _ hn ih =>
    obtain ⟨hp, hl, hb⟩ := ih
    cases hs : tok.start with
    | none =>
      rw [next_token_eof hp hn hs]
      exact ⟨hp, hl, hb⟩
    | some s =>
      obtain ⟨ln, l, c, e, _, hsk, _, hr, hrun, _, rfl⟩ := next_token_cases hp hn hs
      rw [hl, hb] at hsk
      obtain ⟨rfl, rfl⟩ := skip_space_lines file _ _ _ _ _ hsk
      have hc := read_getElem? hr
      have key : s ≤ e ∧ ∀ i, s ≤ i → i < e → file.text[i]? ≠ some '\n' := by
        rcases hrun with ⟨_, hrun⟩ | ⟨_, hres, rfl⟩ | ⟨_, _, _, hrun⟩ | ⟨_, _, _, hrun⟩
        · exact run_no_newline (by decide) hrun
        · refine ⟨by omega, ?_⟩
          intro i hi1 hi2 hi
          have : i = s := by omega
          subst this
          rw [hc] at hi
          obtain rfl := Option.some.inj hi
          revert hres
          decide
        · exact run_no_newline (by decide) hrun
        · exact run_no_newline (by decide) hrun
      obtain ⟨hse, hnn⟩ := key
      have := lines_no_newline file s (e - s) (fun i h1 h2 => hnn i h1 (by omega))
      rw [Nat.add_sub_cancel' hse] at this
      exact ⟨hp, this.1.symm, this.2.symm⟩

/-- C18: a token returned by `next_token` from a scanner that was reached from
the fresh scanner by calls of `next_token` carries as `line_n` 1 plus the
number of newline characters before its start, and as `line` the position just
after the last newline before its start, or 0 when there is none: `line` is at
most the start, no newline lies between them, and `line` is 0 or follows a
newline. -/
theorem next_token_position (file : File) (sc sc' : Scanner) (tok : Token) (s : Nat)
    (hsc : Scanned file sc) (h : next_token file sc = .ok (tok, sc'))
    (hs : tok.start = some s) :
    tok.line_n = 1 + (file.text.take s).count '\n' ∧
    tok.line ≤ s ∧
    (∀ i, tok.line ≤ i → i < s → file.text[i]? ≠ some '\n') ∧
    (tok.line = 0 ∨ file.text[tok.line - 1]? = some '\n') := by
  obtain ⟨hp, hl, hb⟩ := scanned_lines hsc
  obtain ⟨ln, l, c, e, _, hsk, _, _, _, rfl, _⟩ := next_token_cases hp h hs
  rw [hl, hb] at hsk
  obtain ⟨rfl, rfl⟩ := skip_space_lines file _ _ _ _ _ hsk
  obtain ⟨h1, h2, h3⟩ := line_begin_spec file s
  exact ⟨line_number_count file s, h1, h2, h3⟩

/-- C11 applies to the fresh scanner on `source_tokens`, where the token is
the identifier `ab12` after two blanks. -/
theorem next_token_rule_witness :
    (source_tokens.size = 0 → source_tokens.text = []) ∧ source_tokens.size ≤ ULONG_MAX ∧
    make_scanner.peeked = false ∧
    next_token source_tokens make_scanner =
      .ok (⟨1, 0, some 2, 4⟩, ⟨1, 0, 6, eof_token, false⟩) ∧
    ((∀ tok sc' s, next_token source_tokens make_scanner = .ok (tok, sc') →
        tok.start = some s →
        make_scanner.idx ≤ s ∧ Blank source_tokens make_scanner.idx s ∧
        ∃ c, source_tokens.text[s]? = some c ∧ is_space c = false ∧
          TokenRule source_tokens s tok.len c ∧
          0 < tok.len ∧ s + tok.len ≤ source_tokens.size ∧ sc'.idx = s + tok.len) ∧
      (∀ s c, source_tokens.size ≤ source_tokens.text.length → make_scanner.idx ≤ s →
        s < source_tokens.size → Blank source_tokens make_scanner.idx s →
        source_tokens.text[s]? = some c → is_space c = false →
        ∃ tok sc', next_token source_tokens make_scanner = .ok (tok, sc') ∧
          tok.start = some s)) :=
  ⟨by decide, by decide, rfl, by decide,
    next_token_rule source_tokens make_scanner (by decide) (by decide) rfl⟩

/-- C12: on a document that ends with a newline character the last call of
`next_token` reads the byte after the buffer: the run faults when the mapping
ends with the buffer and succeeds when one more byte is readable.  The same
happens at a single position with trailing blanks, and on the empty buffer. -/
theorem next_token_reads_past_buffer :
    print_tokens source_trailing = .error Err.fault ∧
    main 10 source_trailing = .error Err.fault ∧
    main 10 source_trailing_mapped = .ok { shortest := none, longest := some (0, 1) } ∧
    next_token (File.ofString "a ") ⟨1, 0, 1, eof_token, false⟩ = .error Err.fault ∧
    next_token ⟨2, ['a', ' ', NUL]⟩ ⟨1, 0, 1, eof_token, false⟩ =
      .ok (eof_token, ⟨1, 0, 1, eof_token, false⟩) ∧
    next_token ⟨0, []⟩ make_scanner = .error Err.fault := by
  refine ⟨by decide, by decide, by decide, by decide, by decide, by decide⟩

/-- C18 applies to the second token of `source_lines`: it is on line 2 and its
line starts at offset 2. -/
theorem next_token_position_witness :
    Scanned source_lines ⟨1, 0, 1, eof_token, false⟩ ∧
    next_token source_lines ⟨1, 0, 1, eof_token, false⟩ =
      .ok (⟨2, 2, some 4, 1⟩, ⟨2, 2, 5, eof_token, false⟩) ∧
    ((⟨2, 2, some 4, 1⟩ : Token).line_n = 1 + (source_lines.text.take 4).count '\n' ∧
      (⟨2, 2, some 4, 1⟩ : Token).line ≤ 4 ∧
      (∀ i, (⟨2, 2, some 4, 1⟩ : Token).line ≤ i → i < 4 →
        source_lines.text[i]? ≠ some '\n') ∧
      ((⟨2, 2, some 4, 1⟩ : Token).line = 0 ∨
        source_lines.text[(⟨2, 2, some 4, 1⟩ : Token).line - 1]? = some '\n')) :=
  have hsc : Scanned source_lines ⟨1, 0, 1, eof_token, false⟩ :=
    Scanned.next Scanned.fresh
      (by decide : next_token source_lines make_scanner =
        .ok (⟨1, 0, some 0, 1⟩, ⟨1, 0, 1, eof_token, false⟩))
  ⟨hsc, by decide,
    next_token_position source_lines ⟨1, 0, 1, eof_token, false⟩ ⟨2, 2, 5, eof_token, false⟩
      ⟨2, 2, some 4, 1⟩ 4 hsc (by decide) rfl⟩

/-! ## Integer literals -/

theorem is_digit_toNat {c : Char} (h : is_digit c = true) :
    '0'.toNat ≤ c.toNat ∧ c.toNat ≤ '9'.toNat := by
  simp only [is_digit, Bool.and_eq_true, decide_eq_true_eq] at h
  exact ⟨h.1, h.2⟩

theorem decimal_ge (l : List Char) :
    ∀ acc : Nat, acc ≤ l.foldl (fun a c => a * 10 + (c.toNat - '0'.toNat)) acc := by
  induction l with
  | nil => intro acc; exact Nat.le_refl _
  | cons c l ih =>
    intro acc
    rw [List.foldl_cons]
    have := ih (acc * 10 + (c.toNat - '0'.toNat))
    omega

theorem parse_integer_loop_spec (file : File) (token : Token) (start : Nat) :
    ∀ (n i acc : Nat), start + i + n ≤ file.text.length →
      (∀ c ∈ (file.text.drop (start + i)).take n, is_digit c = true) → acc ≤ ULONG_MAX →
      parse_integer_loop file token start n i acc =
        if ((file.text.drop (start + i)).take n).foldl
            (fun a c => a * 10 + (c.toNat - '0'.toNat)) acc ≤ ULONG_MAX then
          .ok (((file.text.drop (start + i)).take n).foldl
            (fun a c => a * 10 + (c.toNat - '0'.toNat)) acc)
        else .error (Err.too_large token) := by
  intro n
  induction n with
  | zero =>
    intro i acc _ _ hacc
    simp [parse_integer_loop, hacc, pure, Except.pure]
  | succ n ih =>
    intro i acc hlen hd hacc
    have l0 : start + i < file.text.length := by omega
    have e0 : '0'.toNat = 48 := rfl
    have e9 : '9'.toNat = 57 := rfl
    have hU : ULONG_MAX = 18446744073709551615 := by norm_num [ULONG_MAX]
    rw [List.drop_eq_getElem_cons l0, List.take_succ_cons] at hd ⊢
    have hdc := is_digit_toNat (hd _ (List.mem_cons_self _ _))
    rw [e0, e9] at hdc
    have hdigit : wrap (file.text[start + i].toNat + 2 ^ 64 - 48) =
        file.text[start + i].toNat - 48 := by
      unfold wrap
      have : file.text[start + i].toNat + 2 ^ 64 - 48 =
          (file.text[start + i].toNat - 48) + 2 ^ 64 := by omega
      rw [this, Nat.add_mod_right]
      apply Nat.mod_eq_of_lt
      omega
    unfold parse_integer_loop
    simp only [read_lt l0, bind, Except.bind, hd _ (List.mem_cons_self _ _), Bool.not_true,
      Bool.false_eq_true, if_false, List.foldl_cons, e0, hdigit, pure, Except.pure]
    by_cases hg : (ULONG_MAX - (file.text[start + i].toNat - 48)) / 10 < acc
    · rw [if_pos hg]
      have hbig : ULONG_MAX < acc * 10 + (file.text[start + i].toNat - 48) := by
        rw [hU] at hg ⊢
        omega
      have hge := decimal_ge (List.take n (List.drop (start + i + 1) file.text))
        (acc * 10 + (file.text[start + i].toNat - 48))
      rw [e0] at hge
      rw [if_neg (by omega)]
    · rw [if_neg hg]
      have hsmall : acc * 10 + (file.text[start + i].toNat - 48) ≤ ULONG_MAX := by
        rw [hU] at hg ⊢
        omega
      have hw : wrap (wrap (acc * 10) + (file.text[start + i].toNat - 48)) =
          acc * 10 + (file.text[start + i].toNat - 48) := by
        rw [wrap_of_le (by omega : acc * 10 ≤ ULONG_MAX), wrap_of_le hsmall]
      rw [hw]
      have := ih (i + 1) (acc * 10 + (file.text[start + i].toNat - 48)) (by omega)
        (fun c hc => hd c (List.mem_cons_of_mem _ (by rw [Nat.add_assoc]; exact hc))) hsmall
      rw [e0, ← Nat.add_assoc] at this
      exact this

theorem parse_integer_spec {file : File} {sc sc' : Scanner} {token : Token}
    (hnext : next_token file sc = .ok (token, sc')) (hin : token.inside file)
    (hd : ∀ c ∈ token_text file token, is_digit c = true) :
    parse_integer file sc =
      if decimal_value (token_text file token) ≤ ULONG_MAX then
        .ok (decimal_value (token_text file token), sc')
      else .error (Err.too_large token) := by
  obtain ⟨start, hs, hle⟩ := hin
  have hspec := parse_integer_loop_spec file token start token.len 0 0 (by omega)
    (by simpa [token_text, hs] using hd) (Nat.zero_le _)
  unfold parse_integer
  simp only [hnext, bind, Except.bind, hs]
  simp only [Nat.add_zero] at hspec
  rw [hspec]
  simp only [decimal_value, token_text, hs]
  by_cases hv : List.foldl (fun a c => a * 10 + (c.toNat - '0'.toNat)) 0
      (List.take token.len (List.drop start file.text)) ≤ ULONG_MAX
  · simp only [if_pos hv, pure, Except.pure]
  · simp only [if_neg hv]

/-- C13: on an integer token (a run of digits inside the buffer)
`parse_integer` returns the decimal value of the token when the value is at
most `ULONG_MAX`, and fails with `Integer is too large` exactly when the value
exceeds `ULONG_MAX`; the value returned is never a wrapped one. -/
theorem parse_integer_value (file : File) (sc sc' : Scanner) (token : Token)
    (hnext : next_token file sc = .ok (token, sc')) (hin : token.inside file)
    (hd : ∀ c ∈ token_text file token, is_digit c = true) :
    parse_integer file sc =
      if decimal_value (token_text file token) ≤ ULONG_MAX then
        .ok (decimal_value (token_text file token), sc')
      else .error (Err.too_large token) :=
  parse_integer_spec hnext hin hd

/-- C13 applies to the literal `18446744073709551616`, which is `2 ^ 64`: it is
rejected; the literal `18446744073709551615` is returned as `ULONG_MAX`. -/
theorem parse_integer_value_witness :
    next_token source_two_pow_64 make_scanner =
      .ok (⟨1, 0, some 0, 20⟩, ⟨1, 0, 20, eof_token, false⟩) ∧
    (⟨1, 0, some 0, 20⟩ : Token).inside source_two_pow_64 ∧
    (∀ c ∈ token_text source_two_pow_64 ⟨1, 0, some 0, 20⟩, is_digit c = true) ∧
    parse_integer source_two_pow_64 make_scanner =
      (if decimal_value (token_text source_two_pow_64 ⟨1, 0, some 0, 20⟩) ≤ ULONG_MAX then
        .ok (decimal_value (token_text source_two_pow_64 ⟨1, 0, some 0, 20⟩),
          ⟨1, 0, 20, eof_token, false⟩)
      else .error (Err.too_large ⟨1, 0, some 0, 20⟩)) ∧
    parse_integer source_two_pow_64 make_scanner = .error (Err.too_large ⟨1, 0, some 0, 20⟩) ∧
    (parse_integer source_ulong_max make_scanner).map (fun r => r.1) = .ok ULONG_MAX :=
  ⟨by decide, ⟨0, rfl, by decide⟩, by decide,
    parse_integer_value source_two_pow_64 make_scanner ⟨1, 0, 20, eof_token, false⟩
      ⟨1, 0, some 0, 20⟩ (by decide) ⟨0, rfl, by decide⟩ (by decide),
    by decide, by decide⟩

/-! ## The arity of an operator -/

theorem next_token_unpeeked {file : File} {sc sc' : Scanner} {tok : Token}
    (h : next_token file sc = .ok (tok, sc')) : sc'.peeked = false := by
  by_cases hp : sc.peeked = true
  · simp only [next_token, hp, if_true, pure, Except.pure, Except.ok.injEq, Prod.mk.injEq] at h
    rw [← h.2]
  · have hp' : sc.peeked = false := by simpa using hp
    cases hs : tok.start with
    | none => rw [next_token_eof hp' h hs]; exact hp'
    | some s =>
      obtain ⟨ln, l, c, e, _, _, _, _, _, _, rfl⟩ := next_token_cases hp' h hs
      exact hp'

theorem peek_token_unpeeked {file : File} {sc sc1 : Scanner} {t : Token}
    (hp : sc.peeked = false) (h : peek_token file sc = .ok (t, sc1)) :
    ∃ sc2, next_token file sc = .ok (t, sc2) := by
  unfold peek_token at h
  simp only [hp, Bool.false_eq_true, if_false] at h
  cases hn : next_token file sc with
  | error e => simp [hn, bind, Except.bind] at h
  | ok r =>
    obtain ⟨t', sc'⟩ := r
    simp only [hn, bind, Except.bind, pure, Except.pure, Except.ok.injEq, Prod.mk.injEq] at h
    exact ⟨sc', by rw [h.1]⟩

theorem digit_token {file : File} {sc sc' : Scanner} {tok : Token} {s : Nat} {c : Char}
    (h1 : 0 < file.size) (h2 : file.size ≤ ULONG_MAX) (hp : sc.peeked = false)
    (h : next_token file sc = .ok (tok, sc')) (hs : tok.start = some s)
    (hc : file.text[s]? = some c) (hd : is_digit c = true) :
    MaximalRun file is_digit s tok.len ∧ tok.inside file ∧
      ∀ d ∈ token_text file tok, is_digit d = true := by
  obtain ⟨_, _, c', hc', _, hrule, _, _, _⟩ := (token_rule_nonempty file sc h1 h2 hp).1 tok sc' s h hs
  rw [hc] at hc'
  obtain rfl := Option.some.inj hc'
  simp only [TokenRule, hd, if_true] at hrule
  obtain ⟨hle, hall, hend⟩ := hrule
  have hin : s + tok.len ≤ file.text.length := by
    by_cases hz : tok.len = 0
    · have := (List.getElem?_eq_some.mp hc).1; omega
    · obtain ⟨d, hd', _⟩ := hall (s + tok.len - 1) (by omega) (by omega)
      have := (List.getElem?_eq_some.mp hd').1
      omega
  refine ⟨⟨hle, hall, hend⟩, ⟨s, hs, hin⟩, ?_⟩
  intro d hd'
  simp only [token_text, hs] at hd'
  obtain ⟨i, hi, hget⟩ := List.getElem_of_mem hd'
  simp only [List.length_take, List.length_drop] at hi
  rw [List.getElem_take, List.getElem_drop] at hget
  obtain ⟨d', hd1, hd2⟩ := hall (s + i) (by omega) (by omega)
  rw [List.getElem?_eq_getElem (by omega)] at hd1
  rw [← hget, Option.some.inj hd1]
  exact hd2

theorem next_token_stored {file : File} {sc sc' : Scanner} {t : Token} (x : Token)
    (hp : sc.peeked = false) (h : next_token file sc = .ok (t, sc')) :
    next_token file { sc with stored := x } = .ok (t, { sc' with stored := x }) := by
  unfold next_token at h ⊢
  simp only [hp, Bool.false_eq_true, if_false] at h ⊢
  by_cases h1 : past_end file sc.idx = true
  · simp only [h1, if_true, pure, Except.pure, Except.ok.injEq, Prod.mk.injEq] at h ⊢
    obtain ⟨rfl, rfl⟩ := h
    simp [hp]
  · simp only [h1, Bool.false_eq_true, if_false] at h ⊢
    cases hs : skip_space file (file.text.length + 1 - sc.idx) sc.line_n sc.line sc.idx with
    | error e => simp [hs, bind, Except.bind] at h
    | ok r =>
      obtain ⟨ln, l, idx⟩ := r
      simp only [hs, bind, Except.bind] at h ⊢
      by_cases h2 : past_end file idx = true
      · simp only [h2, if_true, pure, Except.pure, Except.ok.injEq, Prod.mk.injEq] at h ⊢
        obtain ⟨rfl, rfl⟩ := h
        simp [hp]
      · simp only [h2, Bool.false_eq_true, if_false] at h ⊢
        cases hr : next_reserved file idx with
        | error e => simp [hr] at h
        | ok rlen =>
          simp only [hr] at h ⊢
          cases hc : file.read idx with
          | error e => simp [hc] at h
          | ok c =>
            simp only [hc] at h ⊢
            by_cases hd : is_digit c = true
            · simp only [hd, if_true] at h ⊢
              generalize scan_run file _ (file.size - idx) idx = E at h ⊢
              cases E with
              | error e => simp at h
              | ok e =>
                simp only [pure, Except.pure, Except.ok.injEq, Prod.mk.injEq] at h ⊢
                obtain ⟨rfl, rfl⟩ := h
                simp
            · simp only [hd, Bool.false_eq_true, if_false] at h ⊢
              by_cases hl : rlen > 0
              · simp only [hl, if_true, pure, Except.pure, Except.ok.injEq, Prod.mk.injEq] at h ⊢
                obtain ⟨rfl, rfl⟩ := h
                simp
              · simp only [hl, Bool.false_eq_true, if_false] at h ⊢
                by_cases hle : is_letter c = true
                · simp only [hle, if_true] at h ⊢
                  generalize scan_run file _ (file.size - idx) idx = E at h ⊢
                  cases E with
                  | error e => simp at h
                  | ok e =>
                    simp only [pure, Except.pure, Except.ok.injEq, Prod.mk.injEq] at h ⊢
                    obtain ⟨rfl, rfl⟩ := h
                    simp
                · simp only [hle, Bool.false_eq_true, if_false] at h ⊢
                  generalize scan_run file _ (file.size - idx) idx = E at h ⊢
                  cases E with
                  | error e => simp at h
                  | ok e =>
                    simp only [pure, Except.pure, Except.ok.injEq, Prod.mk.injEq] at h ⊢
                    obtain ⟨rfl, rfl⟩ := h
                    simp

theorem samePlace_refl {sc : Scanner} (hp : sc.peeked = false) : SamePlace sc sc :=
  ⟨rfl, rfl, rfl, hp, hp⟩

/-- Scanners at the same place read the same token and are at the same place
after it. -/
theorem samePlace_next {file : File} {c c' p : Scanner} {t : Token} (hs : SamePlace c p)
    (h : next_token file c = .ok (t, c')) :
    ∃ p', next_token file p = .ok (t, p') ∧ SamePlace c' p' := by
  obtain ⟨e1, e2, e3, hc, hp⟩ := hs
  have hp' := next_token_unpeeked h
  have hn := next_token_stored p.stored hc h
  have hcp : ({ c with stored := p.stored } : Scanner) = p := by
    cases c; cases p; simp_all
  rw [hcp] at hn
  exact ⟨_, hn, ⟨rfl, rfl, rfl, hp', hp'⟩⟩

/-- A look at the next token, then reading it, is reading it. -/
theorem samePlace_peek {file : File} {c c1 p : Scanner} {t : Token} (hs : SamePlace c p)
    (h : peek_token file c = .ok (t, c1)) :
    peek_token file c1 = .ok (t, c1) ∧
    ∃ p', next_token file p = .ok (t, p') ∧ SamePlace { c1 with peeked := false } p' := by
  obtain ⟨c2, hn⟩ := peek_token_unpeeked hs.2.2.2.1 h
  obtain ⟨p', hp', hsp⟩ := samePlace_next hs hn
  have hc2 := next_token_unpeeked hn
  have hcp := hs.2.2.2.1
  unfold peek_token at h
  simp only [hcp, Bool.false_eq_true, if_false, hn, bind, Except.bind, pure, Except.pure,
    Except.ok.injEq, Prod.mk.injEq] at h
  obtain ⟨_, rfl⟩ := h
  refine ⟨by simp [peek_token, pure, Except.pure], p', hp', ?_⟩
  obtain ⟨e1, e2, e3, _, e5⟩ := hsp
  exact ⟨e1, e2, e3, rfl, e5⟩

theorem parse_one_of_next {file : File} {s s' : Scanner} {k0 k1 : String}
    (h : parse_one_of file s k0 k1 = .ok s') :
    ∃ t, next_token file s = .ok (t, s') ∧
      (is_kind file t k0 = .ok true ∨ is_kind file t k1 = .ok true) := by
  unfold parse_one_of at h
  cases hn : next_token file s with
  | error e => simp [hn, bind, Except.bind] at h
  | ok r =>
    obtain ⟨t, s1⟩ := r
    simp only [hn, bind, Except.bind] at h
    cases hk0 : is_kind file t k0 with
    | error e => simp [hk0] at h
    | ok b0 =>
      cases b0 with
      | true =>
        simp only [hk0, if_true, pure, Except.pure, Except.ok.injEq] at h
        exact ⟨t, by rw [h], Or.inl hk0⟩
      | false =>
        simp only [hk0, Bool.false_eq_true, if_false] at h
        cases hk1 : is_kind file t k1 with
        | error e => simp [hk1] at h
        | ok b1 =>
          cases b1 with
          | true =>
            simp only [hk1, Bool.not_true, Bool.false_eq_true, if_false, pure, Except.pure,
              Except.ok.injEq] at h
            exact ⟨t, by rw [h], Or.inr hk1⟩
          | false =>
            simp [hk1, throw, throwThe, MonadExceptOf.throw] at h

theorem parse_integer_next {file : File} {s s' : Scanner} {n : Nat}
    (h : parse_integer file s = .ok (n, s')) : ∃ t, next_token file s = .ok (t, s') := by
  unfold parse_integer at h
  cases hn : next_token file s with
  | error e => simp [hn, bind, Except.bind] at h
  | ok r =>
    obtain ⟨t, s1⟩ := r
    simp only [hn, bind, Except.bind] at h
    cases hs : t.start with
    | none => simp [hs, throw, throwThe, MonadExceptOf.throw] at h
    | some start =>
      simp only [hs] at h
      cases hl : parse_integer_loop file t start t.len 0 0 with
      | error e => simp [hl] at h
      | ok v =>
        simp only [hl, pure, Except.pure, Except.ok.injEq, Prod.mk.injEq] at h
        exact ⟨t, by rw [h.2]⟩

/-- The end of an entry: the keyword of the delay and the token of the delay. -/
theorem gate_tail {file : File} {a : Nat} {t : Token} {s c' p : Scanner} {gate : Gate}
    (hrel : ∀ d s1, next_token file s = .ok (d, s1) →
      ∃ p1, next_token file p = .ok (d, p1) ∧ SamePlace s1 p1)
    (h : (parse_one_of file s "delays" "d" >>= fun v1 =>
      parse_integer file v1 >>= fun v2 =>
        (pure ({ start := t.start, len := t.len, arity := a, delay := v2.1 }, v2.2) :
          Except Err (Gate × Scanner))) = .ok (gate, c')) :
    gate.arity = a ∧ gate.start = t.start ∧ gate.len = t.len ∧
    ∃ d s1 v p', next_token file s = .ok (d, s1) ∧ DelayKeyword file d ∧
      TokensFrom file p [d, v] p' ∧ SamePlace c' p' := by
  cases h1 : parse_one_of file s "delays" "d" with
  | error e => simp [h1, bind, Except.bind] at h
  | ok v1 =>
    simp only [h1, bind, Except.bind] at h
    cases h2 : parse_integer file v1 with
    | error e => simp [h2] at h
    | ok v2 =>
      simp only [h2, pure, Except.pure, Except.ok.injEq, Prod.mk.injEq] at h
      obtain ⟨hg, hc⟩ := h
      obtain ⟨d, hd, hk⟩ := parse_one_of_next h1
      obtain ⟨v, hv⟩ := parse_integer_next (show parse_integer file v1 = .ok (v2.1, v2.2) from h2)
      obtain ⟨p1, hp1, hs1⟩ := hrel d v1 hd
      obtain ⟨p2, hp2, hs2⟩ := samePlace_next hs1 hv
      refine ⟨by rw [← hg], by rw [← hg], by rw [← hg], d, v1, v, p2, hd, hk,
        TokensFrom.cons hp1 (TokensFrom.cons hp2 (TokensFrom.nil _)), ?_⟩
      rw [← hc]
      exact hs2

theorem ok_bind {α β : Type} (a : α) (f : α → Except Err β) :
    (Except.ok a >>= f) = f a := rfl

/-- The three steps of `parse_gate` after its first token. -/
theorem parse_gate_eq {file : File} {sc sc0 : Scanner} {t0 : Token}
    (hn : next_token file sc = .ok (t0, sc0)) :
    parse_gate file sc =
      ((is_kind file t0 "arity" >>= fun b =>
          if b = true then pure true else is_kind file t0 "a") >>= fun isar =>
        ((if isar = true then
            peek_token file sc0 >>= fun r1 =>
              match r1.1.start with
              | none => pure (2, t0, r1.2)
              | some start =>
                file.read start >>= fun c =>
                  if is_digit c = true then
                    parse_integer file r1.2 >>= fun r2 =>
                      next_token file r2.2 >>= fun r3 => pure (r2.1, r3.1, r3.2)
                  else pure (2, t0, r1.2)
          else pure (2, t0, sc0) : Except Err (Nat × Token × Scanner)) >>= fun v =>
          parse_one_of file v.2.2 "delays" "d" >>= fun v1 =>
            parse_integer file v1 >>= fun v2 =>
              pure ({ start := v.2.1.start, len := v.2.1.len, arity := v.1, delay := v2.1 },
                v2.2))) := by
  unfold parse_gate
  simp only [hn, bind, Except.bind]
  try rfl


theorem tokensFrom_append {file : File} {a b c : Scanner} {xs ys : List Token}
    (h : TokensFrom file a xs b) (h' : TokensFrom file b ys c) :
    TokensFrom file a (xs ++ ys) c := by
  induction h with
  | nil sc => exact h'
  | cons hn _ ih => exact TokensFrom.cons hn (ih h')

theorem parse_literal_next {file : File} {s s' : Scanner} {k : String}
    (h : parse_literal file s k = .ok s') :
    ∃ t, next_token file s = .ok (t, s') ∧ is_kind file t k = .ok true := by
  unfold parse_literal at h
  cases hn : next_token file s with
  | error e => simp [hn, bind, Except.bind] at h
  | ok r =>
    obtain ⟨t, s1⟩ := r
    simp only [hn, bind, Except.bind] at h
    cases hk : is_kind file t k with
    | error e => simp [hk] at h
    | ok b =>
      cases b with
      | true =>
        simp only [hk, Bool.not_true, Bool.false_eq_true, if_false, pure, Except.pure,
          Except.ok.injEq] at h
        exact ⟨t, by rw [h], hk⟩
      | false => simp [hk, throw, throwThe, MonadExceptOf.throw] at h

theorem next_is_peek {file : File} {c c1 : Scanner} {k : String} {b : Bool}
    (h : next_is file c k = .ok (b, c1)) :
    ∃ tk, peek_token file c = .ok (tk, c1) ∧
      (b = true → tk.start = none ∨ is_kind file tk k = .ok true) := by
  unfold next_is at h
  cases hpk : peek_token file c with
  | error e => simp [hpk, bind, Except.bind] at h
  | ok r =>
    obtain ⟨tk, c2⟩ := r
    simp only [hpk, bind, Except.bind] at h
    cases hs : tk.start with
    | none =>
      simp only [eof, hs, Option.isNone_none, if_true, pure, Except.pure, Except.ok.injEq,
        Prod.mk.injEq] at h
      exact ⟨tk, by rw [h.2], fun _ => Or.inl hs⟩
    | some st =>
      simp only [eof, hs, Option.isNone_some, Bool.false_eq_true, if_false] at h
      cases hk : is_kind file tk k with
      | error e => simp [hk] at h
      | ok b' =>
        simp only [hk, pure, Except.pure, Except.ok.injEq, Prod.mk.injEq] at h
        obtain ⟨rfl, rfl⟩ := h
        exact ⟨tk, rfl, fun hb => Or.inr (by rw [hs] at *; rw [hk, hb])⟩

/-- One entry of the `GATES` section, as `parse_gate` reads it after its first
token. -/
theorem parse_gate_clause {file : File} {c c0 c' p0 : Scanner} {t0 : Token} {gate : Gate}
    (h1 : 0 < file.size) (h2 : file.size ≤ ULONG_MAX)
    (hn : next_token file c = .ok (t0, c0)) (hsim : SamePlace c0 p0)
    (h : parse_gate file c = .ok (gate, c')) :
    ∃ ts p', TokensFrom file p0 ts p' ∧ GateClause file gate (t0 :: ts) ∧ SamePlace c' p' := by
  rw [parse_gate_eq hn] at h
  have hp0 := hsim.2.2.2.1
  have plain : ∀ (s : Scanner),
      (∀ d s1, next_token file s = .ok (d, s1) →
        ∃ p1, next_token file p0 = .ok (d, p1) ∧ SamePlace s1 p1) →
      (∀ d s1, next_token file s = .ok (d, s1) →
        ¬ (ArityKeyword file t0 ∧ StartsWithDigit file d)) →
      (parse_one_of file s "delays" "d" >>= fun v1 =>
        parse_integer file v1 >>= fun v2 =>
          (pure ({ start := t0.start, len := t0.len, arity := 2, delay := v2.1 }, v2.2) :
            Except Err (Gate × Scanner))) = .ok (gate, c') →
      ∃ ts p', TokensFrom file p0 ts p' ∧ GateClause file gate (t0 :: ts) ∧
        SamePlace c' p' := by
    intro s hrel hno htail
    obtain ⟨ha, hst, hl, d, s1, v, p', hd, hk, htok, hsp⟩ :=
      @gate_tail file 2 t0 s c' p0 gate hrel htail
    exact ⟨[d, v], p', htok, Or.inr ⟨t0, d, v, rfl, hno d s1 hd, ha, hst, hl, hk⟩, hsp⟩
  generalize hkw : (is_kind file t0 "arity" >>= fun b =>
        if b = true then pure true else is_kind file t0 "a") = K at h
  cases K with
  | error e => simp [bind, Except.bind] at h
  | ok isar =>
    have hisar : isar = true ↔ ArityKeyword file t0 := by
      unfold ArityKeyword
      cases hk1 : is_kind file t0 "arity" with
      | error e => simp [hk1, bind, Except.bind] at hkw
      | ok b1 =>
        cases b1 with
        | true =>
          simp only [hk1, bind, Except.bind, if_true, pure, Except.pure,
            Except.ok.injEq] at hkw
          simp [← hkw]
        | false =>
          simp only [hk1, bind, Except.bind, Bool.false_eq_true, if_false] at hkw
          simp [hkw]
    simp only [ok_bind] at h
    cases isar with
    | false =>
      simp only [Bool.false_eq_true, if_false] at h
      refine plain c0 (fun d s1 hd => samePlace_next hsim hd) ?_ h
      rintro d s1 _ ⟨hk, _⟩
      exact absurd (hisar.mpr hk) (by simp)
    | true =>
      have hkey := hisar.mp rfl
      simp only [if_true] at h
      cases hpk : peek_token file c0 with
      | error e => simp [hpk, bind, Except.bind] at h
      | ok r1 =>
        obtain ⟨t1, c1⟩ := r1
        simp only [hpk, ok_bind] at h
        obtain ⟨_, p1, hnp1, hsp1⟩ := samePlace_peek hsim hpk
        have hnc1 := peek_then_next hpk
        have rel1 : ∀ d s1, next_token file c1 = .ok (d, s1) →
            ∃ p1', next_token file p0 = .ok (d, p1') ∧ SamePlace s1 p1' := by
          intro d s1 hd
          rw [hnc1] at hd
          simp only [Except.ok.injEq, Prod.mk.injEq] at hd
          obtain ⟨rfl, rfl⟩ := hd
          exact ⟨p1, hnp1, hsp1⟩
        have same1 : ∀ d s1, next_token file c1 = .ok (d, s1) → d = t1 := by
          intro d s1 hd
          rw [hnc1] at hd
          simp only [Except.ok.injEq, Prod.mk.injEq] at hd
          exact hd.1.symm
        obtain ⟨sc2, hn1⟩ := peek_token_unpeeked hp0 hpk
        cases hs1 : t1.start with
        | none =>
          simp only [hs1] at h
          refine plain c1 rel1 ?_ h
          rintro d s1 hd ⟨_, s, ch, hs, _⟩
          rw [same1 d s1 hd, hs1] at hs
          cases hs
        | some start =>
          simp only [hs1] at h
          cases hr : file.read start with
          | error e => simp [hr, bind, Except.bind] at h
          | ok ch =>
            simp only [hr, ok_bind] at h
            have hc := read_getElem? hr
            by_cases hd : is_digit ch = true
            · simp only [hd, if_true] at h
              obtain ⟨hrun, hin, hdig⟩ := digit_token h1 h2 hp0 hn1 hs1 hc hd
              have hval := parse_integer_spec hnc1 hin hdig
              rw [hval] at h
              by_cases hv : decimal_value (token_text file t1) ≤ ULONG_MAX
              · simp only [if_pos hv, ok_bind] at h
                cases hn2 : next_token file { c1 with peeked := false } with
                | error e => simp [hn2, bind, Except.bind] at h
                | ok r2 =>
                  simp only [hn2, ok_bind] at h
                  obtain ⟨p2, hnp2, hsp2⟩ := samePlace_next hsp1
                    (show next_token file { c1 with peeked := false } = .ok (r2.1, r2.2) from hn2)
                  obtain ⟨ha, hst, hl, d, s1, v, p', _, hk, htok, hsp⟩ :=
                    @gate_tail file (decimal_value (token_text file t1)) r2.1 r2.2 c' p2 gate
                      (fun d s1 hd => samePlace_next hsp2 hd) h
                  exact ⟨t1 :: r2.1 :: [d, v], p',
                    TokensFrom.cons hnp1 (TokensFrom.cons hnp2 htok),
                    Or.inl ⟨t0, t1, r2.1, d, v, rfl, hkey, ⟨start, ch, hs1, hc, hd⟩,
                      ⟨start, hs1, hrun⟩, ha, by rw [ha]; exact hv, hst, hl, hk⟩, hsp⟩
              · simp [if_neg hv, bind, Except.bind] at h
            · simp only [hd, if_false] at h
              refine plain c1 rel1 ?_ h
              rintro d s1 hd' ⟨_, s, ch', hs, hc', hdg⟩
              rw [same1 d s1 hd', hs1] at hs
              obtain rfl := Option.some.inj hs
              rw [hc] at hc'
              obtain rfl := Option.some.inj hc'
              exact hd hdg

/-- The loop of `parse_gates` appends one operator for each entry that it
reads, in order, and stops before `CLOCK` or at the end of input. -/
theorem parse_gates_loop_clauses (file : File) (h1 : 0 < file.size)
    (h2 : file.size ≤ ULONG_MAX) :
    ∀ (n : Nat) (c : Scanner) (ar : Arena) (arr0 arr : List Gate) (c' : Scanner)
      (ar' : Arena) (p : Scanner), SamePlace c p →
      parse_gates_loop file n c ar arr0 = .ok (arr, c', ar') →
      ∃ new clauses p' t' p'', arr = arr0 ++ new ∧
        TokensFrom file p clauses.flatten p' ∧ List.Forall₂ (GateClause file) new clauses ∧
        next_token file p' = .ok (t', p'') ∧
        (t'.start = none ∨ is_kind file t' "CLOCK" = .ok true) := by
  intro n
  induction n with
  | zero =>
    intro c ar arr0 arr c' ar' p _ h
    simp [parse_gates_loop, throw, throwThe, MonadExceptOf.throw] at h
  | succ n ih =>
    intro c ar arr0 arr c' ar' p hsim h
    unfold parse_gates_loop at h
    cases hni : next_is file c "CLOCK" with
    | error e => simp [hni, bind, Except.bind] at h
    | ok r1 =>
      obtain ⟨stop, c1⟩ := r1
      simp only [hni, bind, Except.bind] at h
      obtain ⟨tk, hpk, hstop⟩ := next_is_peek hni
      obtain ⟨hpk1, p1, hnp1, hsp1⟩ := samePlace_peek hsim hpk
      cases stop with
      | true =>
        simp only [if_true, pure, Except.pure, Except.ok.injEq, Prod.mk.injEq] at h
        obtain ⟨rfl, _, _⟩ := h
        exact ⟨[], [], p, tk, p1, by simp, TokensFrom.nil p, List.Forall₂.nil, hnp1, hstop rfl⟩
      | false =>
        simp only [Bool.false_eq_true, if_false, hpk1] at h
        cases h3 : parse_gate file c1 with
        | error e => simp [h3] at h
        | ok r3 =>
          obtain ⟨gate, c3⟩ := r3
          simp only [h3] at h
          cases h4 : declared file gate arr0 with
          | error e => simp [h4] at h
          | ok b =>
            cases b with
            | true => simp [h4, throw, throwThe, MonadExceptOf.throw] at h
            | false =>
              simp only [h4, Bool.false_eq_true, if_false, pure, Except.pure] at h
              cases h5 : alloc ar SIZEOF_GATE with
              | error e => simp [h5] at h
              | ok r5 =>
                obtain ⟨q, ar5⟩ := r5
                simp only [h5] at h
                obtain ⟨ts, p3, htok, hcl, hsp3⟩ :=
                  parse_gate_clause h1 h2 (peek_then_next hpk) hsp1 h3
                obtain ⟨new, clauses, p', t', p'', harr, htoks, hall, hnext, hend⟩ :=
                  ih c3 ar5 (arr0 ++ [gate]) arr c' ar' p3 hsp3 h
                refine ⟨gate :: new, (tk :: ts) :: clauses, p', t', p'', ?_, ?_,
                  List.Forall₂.cons hcl hall, hnext, hend⟩
                · rw [harr]; simp
                · simp only [List.flatten_cons, List.cons_append]
                  exact TokensFrom.cons hnp1 (tokensFrom_append htok htoks)

/-- C17, as the code has it: the table that a successful `parse_gates` returns
has one operator for each entry of the `GATES` section, in order, from the
token after `GATES` up to `CLOCK` or the end of input; each operator has the
name of its own entry and the arity written in it: the value of the digits
after `arity` or `a`, any value up to `ULONG_MAX` and 0 included, and 2 when
the entry has no arity clause. -/
theorem parse_gates_arity (file : File) (sc sc' : Scanner) (ar ar' : Arena)
    (gates : List Gate) (h1 : 0 < file.size) (h2 : file.size ≤ ULONG_MAX)
    (h : parse_gates file sc ar = .ok (gates, sc', ar')) :
    ∃ t clauses sc1 t' sc2, is_kind file t "GATES" = .ok true ∧
      TokensFrom file sc (t :: clauses.flatten) sc1 ∧
      List.Forall₂ (GateClause file) gates clauses ∧
      next_token file sc1 = .ok (t', sc2) ∧
      (t'.start = none ∨ is_kind file t' "CLOCK" = .ok true) := by
  unfold parse_gates at h
  cases hl : parse_literal file sc "GATES" with
  | error e => simp [hl, bind, Except.bind] at h
  | ok c =>
    simp only [hl, bind, Except.bind] at h
    obtain ⟨t, hn, hk⟩ := parse_literal_next hl
    obtain ⟨new, clauses, p', t', p'', harr, htoks, hall, hnext, hend⟩ :=
      parse_gates_loop_clauses file h1 h2 _ c ar [] gates sc' ar' c
        (samePlace_refl (next_token_unpeeked hn)) h
    simp only [List.nil_append] at harr
    subst harr
    exact ⟨t, clauses, p', t', p'', hk, TokensFrom.cons hn htoks, hall, hnext, hend⟩

/-- C17: an entry declared with `arity 0` is accepted into the table with
arity 0. -/
theorem parse_gates_arity_zero :
    parsed_gates source_nullary = .ok [⟨some 14, 1, 0, 4⟩] := by
  decide

/-- C17 applies to the table of `source_nullary`, whose only entry has the
arity clause `arity 0`. -/
theorem parse_gates_arity_witness :
    0 < source_nullary.size ∧ source_nullary.size ≤ ULONG_MAX ∧
    parse_gates source_nullary make_scanner make_arena =
      .ok ([⟨some 14, 1, 0, 4⟩], ⟨1, 0, 30, ⟨1, 0, some 25, 5⟩, true⟩,
        { make_arena with used := 32 }) ∧
    ∃ t clauses sc1 t' sc2, is_kind source_nullary t "GATES" = .ok true ∧
      TokensFrom source_nullary make_scanner (t :: clauses.flatten) sc1 ∧
      List.Forall₂ (GateClause source_nullary) [(⟨some 14, 1, 0, 4⟩ : Gate)] clauses ∧
      next_token source_nullary sc1 = .ok (t', sc2) ∧
      (t'.start = none ∨ is_kind source_nullary t' "CLOCK" = .ok true) :=
  have h : parse_gates source_nullary make_scanner make_arena =
      .ok ([⟨some 14, 1, 0, 4⟩], ⟨1, 0, 30, ⟨1, 0, some 25, 5⟩, true⟩,
        { make_arena with used := 32 }) := by
    rfl
  ⟨by decide, by decide, h,
    parse_gates_arity source_nullary make_scanner _ make_arena _ _ (by decide) (by decide) h⟩

/-! ## The budget of the parser is never exhausted -/

theorem bind_no_fuel {α β : Type} {x : Except Err α} {f : α → Except Err β}
    (hx : x ≠ .error Err.fuel) (hf : ∀ a, x = .ok a → f a ≠ .error Err.fuel) :
    (x >>= f) ≠ .error Err.fuel := by
  cases x with
  | error e =>
    intro h
    simp only [bind, Except.bind, Except.error.injEq] at h
    exact hx (by rw [h])
  | ok a => exact hf a rfl

theorem read_no_fuel (file : File) (i : Nat) : file.read i ≠ .error Err.fuel := by
  unfold File.read
  cases file.text[i]? <;> simp [pure, Except.pure, throw, throwThe, MonadExceptOf.throw]

theorem cstr_at_no_fuel (s : String) (i : Nat) : cstr_at s i ≠ .error Err.fuel := by
  unfold cstr_at
  cases s.toList[i]? with
  | some c => simp [pure, Except.pure]
  | none =>
    by_cases h : i = s.length <;>
      simp [h, pure, Except.pure, throw, throwThe, MonadExceptOf.throw]

theorem strncmp_eq_no_fuel (a b : Nat → Except Err Char)
    (ha : ∀ i, a i ≠ .error Err.fuel) (hb : ∀ i, b i ≠ .error Err.fuel) :
    ∀ n i, strncmp_eq a b n i ≠ .error Err.fuel := by
  intro n
  induction n with
  | zero => intro i; simp [strncmp_eq, pure, Except.pure]
  | succ n ih =>
    intro i
    unfold strncmp_eq
    refine bind_no_fuel (ha i) fun x _ => bind_no_fuel (hb i) fun y _ => ?_
    by_cases hxy : x ≠ y
    · simp [hxy, pure, Except.pure]
    · have hxy' : x = y := by simpa using hxy
      subst hxy'
      by_cases hx : x = NUL
      · simp [hx, pure, Except.pure]
      · simp only [ne_eq, not_true_eq_false, hx, if_false]
        exact ih (i + 1)

theorem next_reserved_no_fuel (file : File) (idx : Nat) :
    next_reserved file idx ≠ .error Err.fuel := by
  unfold next_reserved
  generalize reserved = l
  induction l with
  | nil => simp [next_reserved_loop, pure, Except.pure]
  | cons s rest ih =>
    unfold next_reserved_loop
    refine bind_no_fuel (strncmp_eq_no_fuel _ _ (cstr_at_no_fuel s)
      (fun i => read_no_fuel file (idx + i)) _ _) fun b _ => ?_
    cases b with
    | true => simp [pure, Except.pure]
    | false => simpa using ih

theorem skip_space_no_fuel (file : File) :
    ∀ n a b i, skip_space file n a b i ≠ .error Err.fuel := by
  intro n
  induction n with
  | zero => intro a b i; simp [skip_space, throw, throwThe, MonadExceptOf.throw]
  | succ n ih =>
    intro a b i
    unfold skip_space
    refine bind_no_fuel (read_no_fuel file i) fun c _ => ?_
    by_cases hs : is_space c = true
    · by_cases hn : c = '\n'
      · simp only [hs, hn, if_true]; exact ih _ _ _
      · simp only [hs, hn, if_true, if_false]; exact ih _ _ _
    · simp [hs, pure, Except.pure]

theorem scan_run_no_fuel (file : File) (p : Nat → Except Err Bool)
    (hp : ∀ i, p i ≠ .error Err.fuel) : ∀ n i, scan_run file p n i ≠ .error Err.fuel := by
  intro n
  induction n with
  | zero => intro i; simp [scan_run, pure, Except.pure]
  | succ n ih =>
    intro i
    unfold scan_run
    by_cases hlt : i < file.size
    · simp only [hlt, if_true]
      refine bind_no_fuel (hp i) fun b _ => ?_
      cases b with
      | true => simpa using ih (i + 1)
      | false => simp [pure, Except.pure]
    · simp [hlt, pure, Except.pure]

theorem symbol_char_no_fuel (file : File) (i : Nat) :
    symbol_char file i ≠ .error Err.fuel := by
  unfold symbol_char
  refine bind_no_fuel (read_no_fuel file i) fun c _ => ?_
  by_cases h1 : is_space c = true
  · simp [h1, pure, Except.pure]
  by_cases h2 : is_digit c = true
  · simp [h1, h2, pure, Except.pure]
  by_cases h3 : is_letter c = true
  · simp [h1, h2, h3, pure, Except.pure]
  simp only [h1, h2, h3, Bool.false_eq_true, if_false]
  exact bind_no_fuel (next_reserved_no_fuel file i) fun r _ => by simp [pure, Except.pure]

theorem next_token_no_fuel (file : File) (sc : Scanner) :
    next_token file sc ≠ .error Err.fuel := by
  unfold next_token
  by_cases hp : sc.peeked = true
  · simp [hp, pure, Except.pure]
  simp only [hp, Bool.false_eq_true, if_false]
  by_cases h1 : past_end file sc.idx = true
  · simp [h1, pure, Except.pure]
  simp only [h1, Bool.false_eq_true, if_false]
  refine bind_no_fuel (skip_space_no_fuel file _ _ _ _) fun r _ => ?_
  obtain ⟨ln, l, idx⟩ := r
  simp only
  by_cases h2 : past_end file idx = true
  · simp [h2, pure, Except.pure]
  simp only [h2, Bool.false_eq_true, if_false]
  refine bind_no_fuel (next_reserved_no_fuel file idx) fun rlen _ => ?_
  refine bind_no_fuel (read_no_fuel file idx) fun c _ => ?_
  have hrun : ∀ (q : Char → Bool) n i,
      scan_run file (fun i => do let d ← file.read i; pure (q d)) n i ≠ .error Err.fuel :=
    fun q n i => scan_run_no_fuel file _
      (fun i => bind_no_fuel (read_no_fuel file i) fun d _ => by simp [pure, Except.pure]) _ _
  by_cases hd : is_digit c = true
  · simp only [hd, if_true]
    exact bind_no_fuel (hrun is_digit _ _) fun e _ => by simp [pure, Except.pure]
  simp only [hd, Bool.false_eq_true, if_false]
  by_cases hl : rlen > 0
  · simp [hl, pure, Except.pure, bind, Except.bind]
  simp only [hl, if_false]
  by_cases hle : is_letter c = true
  · simp only [hle, if_true]
    exact bind_no_fuel (hrun (fun d => is_letter d || is_digit d) _ _)
      fun e _ => by simp [pure, Except.pure]
  simp only [hle, Bool.false_eq_true, if_false]
  exact bind_no_fuel (scan_run_no_fuel file _ (symbol_char_no_fuel file) _ _)
    fun e _ => by simp [pure, Except.pure]

theorem peek_token_no_fuel (file : File) (sc : Scanner) :
    peek_token file sc ≠ .error Err.fuel := by
  unfold peek_token
  by_cases hp : sc.peeked = true
  · simp [hp, pure, Except.pure]
  simp only [hp, Bool.false_eq_true, if_false]
  exact bind_no_fuel (next_token_no_fuel file sc) fun r _ => by simp [pure, Except.pure]

theorem is_kind_no_fuel (file : File) (t : Token) (k : String) :
    is_kind file t k ≠ .error Err.fuel := by
  unfold is_kind
  cases t.start with
  | none => simp [pure, Except.pure]
  | some start =>
    simp only
    generalize t.len = n
    generalize (0 : Nat) = i
    induction n generalizing i with
    | zero =>
      unfold is_loop
      exact bind_no_fuel (cstr_at_no_fuel k i) fun c _ => by simp [pure, Except.pure]
    | succ n ih =>
      unfold is_loop
      refine bind_no_fuel (cstr_at_no_fuel k i) fun c _ =>
        bind_no_fuel (read_no_fuel file _) fun d _ => ?_
      by_cases hcd : c ≠ d
      · simp [hcd, pure, Except.pure]
      · simp only [hcd, if_false]; exact ih (i + 1)

theorem next_is_no_fuel (file : File) (sc : Scanner) (k : String) :
    next_is file sc k ≠ .error Err.fuel := by
  unfold next_is
  refine bind_no_fuel (peek_token_no_fuel file sc) fun r _ => ?_
  obtain ⟨t, s⟩ := r
  simp only
  by_cases he : eof t = true
  · simp [he, pure, Except.pure]
  simp only [he, Bool.false_eq_true, if_false]
  exact bind_no_fuel (is_kind_no_fuel file t k) fun b _ => by simp [pure, Except.pure]

theorem formula_end_no_fuel (file : File) (sc : Scanner) :
    formula_end file sc ≠ .error Err.fuel := by
  unfold formula_end
  refine bind_no_fuel (peek_token_no_fuel file sc) fun r _ => ?_
  obtain ⟨t, s⟩ := r
  simp only
  by_cases he : eof t = true
  · simp [he, pure, Except.pure]
  simp only [he, Bool.false_eq_true, if_false]
  refine bind_no_fuel (next_is_no_fuel file s "]") fun r _ => ?_
  obtain ⟨b, s'⟩ := r
  cases b with
  | true => simp [pure, Except.pure]
  | false => simpa using next_is_no_fuel file s' ")"

theorem parse_literal_no_fuel (file : File) (sc : Scanner) (k : String) :
    parse_literal file sc k ≠ .error Err.fuel := by
  unfold parse_literal
  refine bind_no_fuel (next_token_no_fuel file sc) fun r _ => ?_
  obtain ⟨t, s⟩ := r
  simp only
  refine bind_no_fuel (is_kind_no_fuel file t k) fun b _ => ?_
  cases b <;> simp [pure, Except.pure, throw, throwThe, MonadExceptOf.throw, bind, Except.bind]

theorem bytes_eq_no_fuel (file : File) (s0 s1 : Nat) :
    ∀ n i, bytes_eq file s0 s1 n i ≠ .error Err.fuel := by
  intro n
  induction n with
  | zero => intro i; simp [bytes_eq, pure, Except.pure]
  | succ n ih =>
    intro i
    unfold bytes_eq
    refine bind_no_fuel (read_no_fuel file _) fun a _ =>
      bind_no_fuel (read_no_fuel file _) fun b _ => ?_
    by_cases hab : a ≠ b
    · simp [hab, pure, Except.pure]
    · simp only [hab, if_false]; exact ih (i + 1)

theorem gate_equals_no_fuel (file : File) (g : Gate) (t : Token) :
    gate_equals file g t ≠ .error Err.fuel := by
  unfold gate_equals
  by_cases hl : g.len ≠ t.len
  · simp [hl, pure, Except.pure]
  simp only [hl, if_false]
  cases g.start <;> cases t.start <;> simp only
  all_goals first
    | exact bytes_eq_no_fuel file _ _ _ _
    | (by_cases h0 : g.len = 0 <;>
        simp [h0, pure, Except.pure, throw, throwThe, MonadExceptOf.throw])

theorem max_arity_loop_no_fuel (file : File) (t : Token) :
    ∀ (gates : List Gate) (v : Bool) (m : Nat),
      max_arity_loop file t gates v m ≠ .error Err.fuel := by
  intro gates
  induction gates with
  | nil => intro v m; simp [max_arity_loop, pure, Except.pure]
  | cons g rest ih =>
    intro v m
    unfold max_arity_loop
    refine bind_no_fuel (gate_equals_no_fuel file g t) fun b _ => ?_
    cases b with
    | false => simpa using ih v m
    | true =>
      by_cases h : g.arity > m
      · simpa [h] using ih false g.arity
      · simpa [h] using ih v m

theorem select_gate_no_fuel (file : File) (t : Token) (k : Nat) :
    ∀ (gates : List Gate) (g0 : Option Gate),
      select_gate file t k gates g0 ≠ .error Err.fuel := by
  intro gates
  induction gates with
  | nil => intro g0; simp [select_gate, pure, Except.pure]
  | cons g rest ih =>
    intro g0
    unfold select_gate
    refine bind_no_fuel (gate_equals_no_fuel file g t) fun b _ => ?_
    cases b with
    | false => simpa using ih g0
    | true =>
      by_cases h : g.arity = k
      · simpa [h] using ih (some g)
      · simpa [h] using ih g0

theorem alloc_no_fuel (ar : Arena) (n : Nat) : alloc ar n ≠ .error Err.fuel := by
  unfold alloc
  simp only
  by_cases h : wrap (ar.used + n) > ar.size <;>
    simp [h, pure, Except.pure, throw, throwThe, MonadExceptOf.throw]

/-! ## Tokens left to read -/

theorem next_unpeeked_idx {file : File} (h1 : file.size = 0 → file.text = [])
    (h2 : file.size ≤ ULONG_MAX) {sc sc' : Scanner} {t : Token} (hp : sc.peeked = false)
    (h : next_token file sc = .ok (t, sc')) :
    sc'.peeked = false ∧ (t.start = none → sc' = sc) ∧
      (t.start.isSome = true → sc'.idx ≤ file.size ∧ sc.idx + 1 ≤ sc'.idx) := by
  refine ⟨next_token_unpeeked h, fun hs => next_token_eof hp h hs, fun hs => ?_⟩
  obtain ⟨s, hs'⟩ := Option.isSome_iff_exists.mp hs
  by_cases hz : file.size = 0
  · have := next_token_empty (h1 hz) hp h
    rw [hs'] at this
    cases this
  · obtain ⟨hle, _, c, _, _, _, hlen, hin, hidx⟩ :=
      (token_rule_nonempty file sc (by omega) h2 hp).1 t sc' s h hs'
    omega

theorem tokens_left_unpeeked {file : File} {sc : Scanner} (hp : sc.peeked = false) :
    tokens_left file sc = file.size - sc.idx := by
  simp [tokens_left, hp]

theorem eofStable_unpeeked {file : File} {sc : Scanner} (hp : sc.peeked = false) :
    EofStable file sc := by
  intro h
  rw [hp] at h
  cases h

/-- Reading a token: the bound does not grow and drops when the token is not
the end of input; after the end of input, reading on returns it again. -/
theorem tokens_left_next {file : File} (h1 : file.size = 0 → file.text = [])
    (h2 : file.size ≤ ULONG_MAX) {sc sc' : Scanner} {t : Token} (hst : EofStable file sc)
    (h : next_token file sc = .ok (t, sc')) :
    sc'.peeked = false ∧ tokens_left file sc' ≤ tokens_left file sc ∧
      (t.start.isSome = true → tokens_left file sc' + 1 ≤ tokens_left file sc) ∧
      (t.start = none → ∃ t' s', next_token file sc' = .ok (t', s') ∧ t'.start = none) ∧
      (sc.peeked = true → t = sc.stored) := by
  by_cases hp : sc.peeked = true
  · have h' := h
    simp only [next_token, hp, if_true, pure, Except.pure, Except.ok.injEq, Prod.mk.injEq] at h'
    obtain ⟨rfl, rfl⟩ := h'
    refine ⟨rfl, ?_, ?_, ?_, fun _ => rfl⟩
    · simp [tokens_left]
    · intro hs
      simp [tokens_left, hp, hs]
    · intro hs
      exact hst hp hs
  · have hp' : sc.peeked = false := by simpa using hp
    obtain ⟨hq, he, hs⟩ := next_unpeeked_idx h1 h2 hp' h
    rw [tokens_left_unpeeked hq, tokens_left_unpeeked hp']
    refine ⟨hq, ?_, ?_, ?_, fun hpp => absurd hpp hp⟩
    · cases hts : t.start with
      | none => rw [he hts]
      | some s => have := hs (by simp [hts]); omega
    · intro hts
      have := hs hts
      omega
    · intro hts
      have e := he hts
      subst e
      exact ⟨t, _, h, hts⟩

/-- Looking at the next token: the bound does not grow, the scanner holds the
token and is consistent. -/
theorem tokens_left_peek {file : File} (h1 : file.size = 0 → file.text = [])
    (h2 : file.size ≤ ULONG_MAX) {sc sc' : Scanner} {t : Token} (hst : EofStable file sc)
    (h : peek_token file sc = .ok (t, sc')) :
    EofStable file sc' ∧ sc'.peeked = true ∧ sc'.stored = t ∧
      tokens_left file sc' ≤ tokens_left file sc ∧ (sc.peeked = true → sc' = sc) := by
  by_cases hp : sc.peeked = true
  · simp only [peek_token, hp, if_true, pure, Except.pure, Except.ok.injEq, Prod.mk.injEq] at h
    obtain ⟨rfl, rfl⟩ := h
    exact ⟨hst, hp, rfl, Nat.le_refl _, fun _ => rfl⟩
  · have hp' : sc.peeked = false := by simpa using hp
    obtain ⟨s1, hn⟩ := peek_token_unpeeked hp' h
    obtain ⟨hq, he, hs⟩ := next_unpeeked_idx h1 h2 hp' hn
    unfold peek_token at h
    simp only [hp', Bool.false_eq_true, if_false, hn, bind, Except.bind, pure, Except.pure,
      Except.ok.injEq, Prod.mk.injEq] at h
    obtain ⟨_, rfl⟩ := h
    refine ⟨?_, rfl, rfl, ?_, fun hpp => absurd hpp hp⟩
    · intro _ hts
      simp only at hts
      have hs1 := he hts
      subst hs1
      have hx := next_token_stored t hp' hn
      have e : ({ ({ s1 with stored := t, peeked := true } : Scanner) with peeked := false } :
          Scanner) = { s1 with stored := t } := by
        cases s1
        simp_all
      rw [e]
      exact ⟨t, _, hx, hts⟩
    · rw [tokens_left_unpeeked hp']
      cases hts : t.start with
      | none =>
        rw [he hts]
        simp [tokens_left, hts]
      | some s =>
        have := hs (by simp [hts])
        simp only [tokens_left, hts, Option.isSome_some, and_self, if_true]
        omega

theorem tokens_left_next_is {file : File} (h1 : file.size = 0 → file.text = [])
    (h2 : file.size ≤ ULONG_MAX) {sc sc' : Scanner} {k : String} {b : Bool}
    (hst : EofStable file sc) (h : next_is file sc k = .ok (b, sc')) :
    EofStable file sc' ∧ sc'.peeked = true ∧ tokens_left file sc' ≤ tokens_left file sc ∧
      (b = false → sc'.stored.start.isSome = true) ∧ (sc.peeked = true → sc' = sc) ∧
      (sc'.stored.start = none → b = true) := by
  unfold next_is at h
  cases hpk : peek_token file sc with
  | error e => simp [hpk, bind, Except.bind] at h
  | ok r =>
    obtain ⟨t, s1⟩ := r
    simp only [hpk, bind, Except.bind] at h
    obtain ⟨hst1, hp1, hs1, hle, hsame⟩ := tokens_left_peek h1 h2 hst hpk
    cases hts : t.start with
    | none =>
      simp only [eof, hts, Option.isNone_none, if_true, pure, Except.pure, Except.ok.injEq,
        Prod.mk.injEq] at h
      obtain ⟨rfl, rfl⟩ := h
      exact ⟨hst1, hp1, hle, (fun hb => by cases hb), hsame, fun _ => rfl⟩
    | some st =>
      simp only [eof, hts, Option.isNone_some, Bool.false_eq_true, if_false] at h
      cases hk : is_kind file t k with
      | error e => simp [hk] at h
      | ok b' =>
        simp only [hk, pure, Except.pure, Except.ok.injEq, Prod.mk.injEq] at h
        obtain ⟨rfl, rfl⟩ := h
        refine ⟨hst1, hp1, hle, (fun _ => by rw [hs1, hts]; rfl), hsame, fun hn => ?_⟩
        rw [hs1, hts] at hn
        cases hn

theorem tokens_left_formula_end {file : File} (h1 : file.size = 0 → file.text = [])
    (h2 : file.size ≤ ULONG_MAX) {sc sc' : Scanner} {stop : Bool}
    (hst : EofStable file sc) (h : formula_end file sc = .ok (stop, sc')) :
    EofStable file sc' ∧ sc'.peeked = true ∧ tokens_left file sc' ≤ tokens_left file sc ∧
      (stop = false → sc'.stored.start.isSome = true) := by
  unfold formula_end at h
  cases hpk : peek_token file sc with
  | error e => simp [hpk, bind, Except.bind] at h
  | ok r =>
    obtain ⟨t, s1⟩ := r
    simp only [hpk, bind, Except.bind] at h
    obtain ⟨hst1, hp1, hs1, hle, _⟩ := tokens_left_peek h1 h2 hst hpk
    cases hts : t.start with
    | none =>
      simp only [eof, hts, Option.isNone_none, if_true, pure, Except.pure, Except.ok.injEq,
        Prod.mk.injEq] at h
      obtain ⟨rfl, rfl⟩ := h
      exact ⟨hst1, hp1, hle, (fun hb => by cases hb)⟩
    | some st =>
      simp only [eof, hts, Option.isNone_some, Bool.false_eq_true, if_false] at h
      cases hn1 : next_is file s1 "]" with
      | error e => simp [hn1] at h
      | ok r1 =>
        obtain ⟨b1, s2⟩ := r1
        simp only [hn1] at h
        obtain ⟨hst2, hp2, hle2, _, hsame2, _⟩ := tokens_left_next_is h1 h2 hst1 hn1
        have e2 := hsame2 hp1
        subst e2
        cases b1 with
        | true =>
          simp only [if_true, pure, Except.pure, Except.ok.injEq, Prod.mk.injEq] at h
          obtain ⟨rfl, rfl⟩ := h
          exact ⟨hst1, hp1, hle, (fun hb => by cases hb)⟩
        | false =>
          simp only [Bool.false_eq_true, if_false] at h
          obtain ⟨hst3, hp3, hle3, _, hsame3, _⟩ := tokens_left_next_is h1 h2 hst1 h
          have e3 := hsame3 hp1
          subst e3
          exact ⟨hst1, hp1, hle, fun _ => by rw [hs1, hts]; rfl⟩

theorem tokens_left_literal {file : File} (h1 : file.size = 0 → file.text = [])
    (h2 : file.size ≤ ULONG_MAX) {sc sc' : Scanner} {k : String}
    (hst : EofStable file sc) (h : parse_literal file sc k = .ok sc') :
    EofStable file sc' ∧ tokens_left file sc' ≤ tokens_left file sc := by
  obtain ⟨t, hn, _⟩ := parse_literal_next h
  obtain ⟨hq, hle, _, _, _⟩ := tokens_left_next h1 h2 hst hn
  exact ⟨eofStable_unpeeked hq, hle⟩

theorem bind_post {α β : Type} {x : Except Err α} {f : α → Except Err β} {P : β → Prop}
    (hx : x ≠ .error Err.fuel)
    (hf : ∀ a, x = .ok a → f a ≠ .error Err.fuel ∧ ∀ b, f a = .ok b → P b) :
    (x >>= f) ≠ .error Err.fuel ∧ ∀ b, (x >>= f) = .ok b → P b := by
  cases x with
  | error e =>
    refine ⟨?_, ?_⟩
    · intro h
      simp only [bind, Except.bind, Except.error.injEq] at h
      exact hx (by rw [h])
    · intro b h
      simp [bind, Except.bind] at h
  | ok a => exact hf a rfl

theorem tokens_left_pos {file : File} {sc : Scanner} (hp : sc.peeked = true)
    (hs : sc.stored.start.isSome = true) : 1 ≤ tokens_left file sc := by
  simp [tokens_left, hp, hs]

theorem next_is_stored {file : File} {sc sc' s' : Scanner} {k : String} {b : Bool} {t' : Token}
    (hp : sc.peeked = false) (h : next_is file sc k = .ok (b, sc'))
    (hn : next_token file sc = .ok (t', s')) : sc'.stored = t' := by
  obtain ⟨tk, hpk, _⟩ := next_is_peek h
  unfold peek_token at hpk
  simp only [hp, Bool.false_eq_true, if_false, hn, bind, Except.bind, pure, Except.pure,
    Except.ok.injEq, Prod.mk.injEq] at hpk
  rw [← hpk.2]

/-- The budget of `parse_formula` and of the loop over its arguments: twice
the bound on the tokens left suffices, and the bound does not grow. -/
theorem parse_budget (file : File) (gates : List Gate) (h1 : file.size = 0 → file.text = [])
    (h2 : file.size ≤ ULONG_MAX) : ∀ n : Nat,
    (∀ sc ar, EofStable file sc → 2 * tokens_left file sc ≤ n → 1 ≤ n →
      parse_formula file gates n sc ar ≠ .error Err.fuel ∧
      ∀ r, parse_formula file gates n sc ar = .ok r →
        EofStable file r.2.1 ∧ tokens_left file r.2.1 ≤ tokens_left file sc ∧
        (sc.peeked = true → sc.stored.start.isSome = true →
          tokens_left file r.2.1 + 1 ≤ tokens_left file sc)) ∧
    (∀ args ma al sc ar, EofStable file sc → 2 * tokens_left file sc + 1 ≤ n →
      parse_args file gates n args ma al sc ar ≠ .error Err.fuel ∧
      ∀ r, parse_args file gates n args ma al sc ar = .ok r →
        EofStable file r.2.1 ∧ tokens_left file r.2.1 ≤ tokens_left file sc) := by
  intro n
  induction n with
  | zero =>
    refine ⟨fun sc ar _ _ h => absurd h (by omega), fun args ma al sc ar _ h => ?_⟩
    omega
  | succ n ih =>
    obtain ⟨ihF, ihA⟩ := ih
    refine ⟨?_, ?_⟩
    · intro sc ar hst hfuel _
      unfold parse_formula
      refine bind_post (next_is_no_fuel file sc "[") fun r1 hr1 => ?_
      obtain ⟨bracket, s1⟩ := r1
      obtain ⟨hst1, hp1, hle1, hsome1, hsame1, hnone1⟩ := tokens_left_next_is h1 h2 hst hr1
      simp only
      cases bracket with
      | true =>
        simp only [if_true]
        refine bind_post (next_token_no_fuel file s1) fun r2 hr2 => ?_
        obtain ⟨tk, s2⟩ := r2
        obtain ⟨hq2, hle2, hdec2, heof2, htk2⟩ := tokens_left_next h1 h2 hst1 hr2
        have hst2 := @eofStable_unpeeked file s2 hq2
        simp only
        refine bind_post (next_is_no_fuel file s2 "]") fun r3 hr3 => ?_
        obtain ⟨close, s3⟩ := r3
        obtain ⟨hst3, hp3, hle3, hsome3, _, _⟩ := tokens_left_next_is h1 h2 hst2 hr3
        have hready : sc.peeked = true → sc.stored.start.isSome = true →
            tokens_left file s2 + 1 ≤ tokens_left file sc := by
          intro hp hs
          have e := hsame1 hp
          subst e
          have := hdec2 (by rw [htk2 hp]; exact hs)
          omega
        simp only
        cases close with
        | false =>
          simp only [Bool.not_false, if_true]
          have htk : tk.start.isSome = true := by
            cases hts : tk.start with
            | some s => rfl
            | none =>
              exfalso
              obtain ⟨t', s', hn', ht'⟩ := heof2 hts
              have := next_is_stored hq2 hr3 hn'
              have h3 := hsome3 rfl
              rw [this, ht'] at h3
              cases h3
          have hd := hdec2 htk
          have hpos3 := @tokens_left_pos file s3 hp3 (hsome3 rfl)
          refine bind_post (alloc_no_fuel _ _) fun r4 _ => ?_
          obtain ⟨inp, ar1⟩ := r4
          simp only
          obtain ⟨hnf, hpost⟩ := ihF s3 ar1 hst3 (by omega) (by omega)
          refine bind_post hnf fun r5 hr5 => ?_
          obtain ⟨hst5, hle5, _⟩ := hpost r5 hr5
          obtain ⟨inner, s5, ar5⟩ := r5
          simp only at hst5 hle5 ⊢
          refine bind_post (parse_literal_no_fuel file s5 "]") fun s6 hr6 => ?_
          obtain ⟨hst6, hle6⟩ := tokens_left_literal h1 h2 hst5 hr6
          refine ⟨by simp [pure, Except.pure], ?_⟩
          intro r hr
          simp only [pure, Except.pure, Except.ok.injEq] at hr
          subst hr
          exact ⟨hst6, by simp only; omega, fun _ _ => by simp only; omega⟩
        | true =>
          simp only [Bool.not_true, Bool.false_eq_true, if_false]
          refine bind_post (parse_literal_no_fuel file s3 "]") fun s6 hr6 => ?_
          obtain ⟨hst6, hle6⟩ := tokens_left_literal h1 h2 hst3 hr6
          refine ⟨by simp [pure, Except.pure], ?_⟩
          intro r hr
          simp only [pure, Except.pure, Except.ok.injEq] at hr
          subst hr
          refine ⟨hst6, by simp only; omega, fun hp hs => ?_⟩
          have := hready hp hs
          simp only
          omega
      | false =>
        simp only [Bool.false_eq_true, if_false]
        have hs1 := hsome1 rfl
        refine bind_post (next_is_no_fuel file s1 "(") fun r2 hr2 => ?_
        obtain ⟨paren, s1'⟩ := r2
        obtain ⟨_, _, _, _, hsame2, _⟩ := tokens_left_next_is h1 h2 hst1 hr2
        have e := hsame2 hp1
        subst e
        simp only
        have hpos1 := @tokens_left_pos file s1' hp1 hs1
        cases paren with
        | true =>
          simp only [if_true]
          refine bind_post (next_token_no_fuel file s1') fun r3 hr3 => ?_
          obtain ⟨tk, s2⟩ := r3
          obtain ⟨hq2, hle2, hdec2, _, htk2⟩ := tokens_left_next h1 h2 hst1 hr3
          have hd := hdec2 (by rw [htk2 hp1]; exact hs1)
          simp only
          obtain ⟨hnf, hpost⟩ := ihF s2 ar (eofStable_unpeeked hq2) (by omega) (by omega)
          refine bind_post hnf fun r5 hr5 => ?_
          obtain ⟨hst5, hle5, _⟩ := hpost r5 hr5
          obtain ⟨inner, s5, ar5⟩ := r5
          simp only at hst5 hle5 ⊢
          refine bind_post (parse_literal_no_fuel file s5 ")") fun s6 hr6 => ?_
          obtain ⟨hst6, hle6⟩ := tokens_left_literal h1 h2 hst5 hr6
          refine ⟨by simp [pure, Except.pure], ?_⟩
          intro r hr
          simp only [pure, Except.pure, Except.ok.injEq] at hr
          subst hr
          exact ⟨hst6, by simp only; omega, fun _ _ => by simp only; omega⟩
        | false =>
          simp only [Bool.false_eq_true, if_false]
          refine bind_post (next_token_no_fuel file s1') fun r3 hr3 => ?_
          obtain ⟨token, s2⟩ := r3
          obtain ⟨hq2, hle2, hdec2, _, htk2⟩ := tokens_left_next h1 h2 hst1 hr3
          have hd := hdec2 (by rw [htk2 hp1]; exact hs1)
          simp only
          refine bind_post (max_arity_loop_no_fuel file token gates true 0) fun r4 _ => ?_
          obtain ⟨is_v, max_arity⟩ := r4
          simp only
          refine bind_post (alloc_no_fuel _ _) fun r5 _ => ?_
          obtain ⟨args, ar1⟩ := r5
          simp only
          obtain ⟨hnf, hpost⟩ := ihA args max_arity 0 s2 ar1 (eofStable_unpeeked hq2) (by omega)
          refine bind_post hnf fun r6 hr6 => ?_
          obtain ⟨hst6, hle6⟩ := hpost r6 hr6
          obtain ⟨args_len, s6, ar6⟩ := r6
          simp only at hst6 hle6 ⊢
          refine bind_post (select_gate_no_fuel file token args_len gates none) fun gate _ => ?_
          have hfinal : ∀ (r : Circuit × Scanner × Arena), r.2.1 = s6 →
              EofStable file r.2.1 ∧ tokens_left file r.2.1 ≤ tokens_left file sc ∧
              (sc.peeked = true → sc.stored.start.isSome = true →
                tokens_left file r.2.1 + 1 ≤ tokens_left file sc) := by
            intro r hr
            rw [hr]
            exact ⟨hst6, by omega, fun _ _ => by omega⟩
          by_cases hbad : (!is_v && gate.isNone) = true
          · simp [hbad, throw, throwThe, MonadExceptOf.throw, bind, Except.bind]
          · simp only [hbad, Bool.false_eq_true, if_false]
            cases is_v with
            | true =>
              simp only [if_true, pure, Except.pure, bind, Except.bind]
              cases hal : alloc ar6 SIZEOF_TOKEN with
              | error e =>
                have := alloc_no_fuel ar6 SIZEOF_TOKEN
                rw [hal] at this
                simp only
                refine ⟨fun h => this ?_, fun r hr => by cases hr⟩
                simp only [Except.error.injEq] at h ⊢
                exact h
              | ok r7 =>
                simp only
                refine ⟨by simp, fun r hr => ?_⟩
                simp only [Except.ok.injEq] at hr
                exact hfinal r (by rw [← hr])
            | false =>
              simp only [Bool.false_eq_true, if_false, pure, Except.pure, bind, Except.bind]
              refine ⟨by simp, fun r hr => ?_⟩
              simp only [Except.ok.injEq] at hr
              exact hfinal r (by rw [← hr])
    · intro args ma al sc ar hst hfuel
      unfold parse_args
      refine bind_post (formula_end_no_fuel file sc) fun r1 hr1 => ?_
      obtain ⟨stop, s1⟩ := r1
      obtain ⟨hst1, hp1, hle1, hsome1⟩ := tokens_left_formula_end h1 h2 hst hr1
      simp only
      by_cases hgo : (!stop && decide (al < ma)) = true
      · simp only [hgo, if_true]
        have hstop : stop = false := by
          cases stop with
          | false => rfl
          | true => simp at hgo
        have hs1 := hsome1 hstop
        have hpos1 := @tokens_left_pos file s1 hp1 hs1
        obtain ⟨hnf, hpost⟩ := ihF s1 ar hst1 (by omega) (by omega)
        refine bind_post hnf fun r2 hr2 => ?_
        obtain ⟨hst2, hle2, hdec2⟩ := hpost r2 hr2
        have hd := hdec2 hp1 hs1
        obtain ⟨arg, s2, ar2⟩ := r2
        simp only at hst2 hle2 hd ⊢
        by_cases hout : args + SIZEOF_CIRCUIT * (al + 1) > ar2.size
        · simp [hout, throw, throwThe, MonadExceptOf.throw, bind, Except.bind]
        · simp only [hout, if_false, pure, Except.pure, bind, Except.bind]
          obtain ⟨hnf', hpost'⟩ := ihA args ma (al + 1) s2
            (ar2.store (args + SIZEOF_CIRCUIT * al) arg) hst2 (by omega)
          refine ⟨hnf', fun r hr => ?_⟩
          obtain ⟨hst3, hle3⟩ := hpost' r hr
          exact ⟨hst3, by omega⟩
      · simp only [hgo, Bool.false_eq_true, if_false]
        refine ⟨by simp [pure, Except.pure], fun r hr => ?_⟩
        simp only [pure, Except.pure, Except.ok.injEq] at hr
        subst hr
        exact ⟨hst1, hle1⟩

/-- The budget `2 * file.size + 2` of `parse_formula` is never exhausted. -/
theorem parse_formula_budget (file : File) (gates : List Gate)
    (h1 : file.size = 0 → file.text = []) (h2 : file.size ≤ ULONG_MAX) (sc : Scanner)
    (ar : Arena) (hst : EofStable file sc) :
    parse_formula file gates (2 * file.size + 2) sc ar ≠ .error Err.fuel := by
  have hle : tokens_left file sc ≤ file.size + 1 := by
    unfold tokens_left
    split <;> omega
  exact ((parse_budget file gates h1 h2 _).1 sc ar hst (by omega) (by omega)).1

/-- The function `parse_var` never exhausts its budget. -/
theorem parse_var_budget (file : File) (gates : List Gate)
    (h1 : file.size = 0 → file.text = []) (h2 : file.size ≤ ULONG_MAX) (sc : Scanner)
    (ar : Arena) : parse_var file gates sc ar ≠ .error Err.fuel := by
  unfold parse_var
  refine bind_no_fuel (next_token_no_fuel file sc) fun r1 _ => ?_
  obtain ⟨name, s1⟩ := r1
  simp only
  refine bind_no_fuel (parse_literal_no_fuel file s1 "is") fun s2 hr2 => ?_
  obtain ⟨t, hn, _⟩ := parse_literal_next hr2
  refine bind_no_fuel (parse_formula_budget file gates h1 h2 s2 ar
    (eofStable_unpeeked (next_token_unpeeked hn))) fun r3 _ => ?_
  simp [pure, Except.pure]

theorem token_eq_no_fuel (file : File) (a b : Token) :
    token_eq file a b ≠ .error Err.fuel := by
  unfold token_eq
  by_cases hl : a.len ≠ b.len
  · simp [hl, pure, Except.pure]
  simp only [hl, if_false]
  cases a.start <;> cases b.start <;> simp only
  all_goals first
    | exact bytes_eq_no_fuel file _ _ _ _
    | (by_cases h0 : a.len = 0 <;>
        simp [h0, pure, Except.pure, throw, throwThe, MonadExceptOf.throw])

theorem load_token_no_fuel (tokens : Nat → Option Token) (p : Nat) :
    load_token tokens p ≠ .error Err.fuel := by
  unfold load_token
  cases tokens p <;> simp [pure, Except.pure, throw, throwThe, MonadExceptOf.throw]

theorem redefined_no_fuel (file : File) (tokens : Nat → Option Token) (arr i : Nat) :
    ∀ n j, redefined file tokens arr i n j ≠ .error Err.fuel := by
  intro n
  induction n with
  | zero => intro j; simp [redefined, pure, Except.pure]
  | succ n ih =>
    intro j
    unfold redefined
    refine bind_no_fuel (load_token_no_fuel _ _) fun a _ =>
      bind_no_fuel (load_token_no_fuel _ _) fun b _ =>
        bind_no_fuel (token_eq_no_fuel file a b) fun e _ => ?_
    cases e with
    | true => simp [pure, Except.pure]
    | false => simpa using ih (j + 1)

theorem count_commas_no_fuel (file : File) :
    ∀ n i c, count_commas file n i c ≠ .error Err.fuel := by
  intro n
  induction n with
  | zero => intro i c; simp [count_commas, pure, Except.pure]
  | succ n ih =>
    intro i c
    unfold count_commas
    exact bind_no_fuel (read_no_fuel file i) fun ch _ => ih _ _

/-- The function `parse_vars` never exhausts a budget. -/
theorem parse_vars_budget (file : File) (gates : List Gate)
    (h1 : file.size = 0 → file.text = []) (h2 : file.size ≤ ULONG_MAX) (sc : Scanner)
    (ar : Arena) : parse_vars file gates sc ar ≠ .error Err.fuel := by
  have hloop : ∀ (arr k i : Nat) (s : Scanner) (a : Arena),
      parse_vars_loop file gates arr k i s a ≠ .error Err.fuel := by
    intro arr k
    induction k with
    | zero => intro i s a; simp [parse_vars_loop, pure, Except.pure]
    | succ k ih =>
      intro i s a
      unfold parse_vars_loop
      refine bind_no_fuel (peek_token_no_fuel file s) fun r1 _ => ?_
      obtain ⟨token, s1⟩ := r1
      simp only
      refine bind_no_fuel (parse_var_budget file gates h1 h2 s1 a) fun r2 _ => ?_
      obtain ⟨name, formula, s2, a2⟩ := r2
      simp only
      by_cases hout : arr + SIZEOF_VAR * (i + 1) > a2.size
      · simp [hout, throw, throwThe, MonadExceptOf.throw, bind, Except.bind]
      · simp only [hout, if_false, pure, Except.pure, bind, Except.bind]
        cases hl : parse_literal file s2 "," with
        | error e =>
          have := parse_literal_no_fuel file s2 ","
          rw [hl] at this
          simp only
          intro h
          simp only [Except.error.injEq] at h
          exact this (by rw [h])
        | ok s3 =>
          simp only
          cases hr : redefined file
              ((a2.store_token (arr + SIZEOF_VAR * i) name).store (var_formula arr i)
                formula).tokens arr i i 0 with
          | error e =>
            have := redefined_no_fuel file
              ((a2.store_token (arr + SIZEOF_VAR * i) name).store (var_formula arr i)
                formula).tokens arr i i 0
            rw [hr] at this
            simp only
            intro h
            simp only [Except.error.injEq] at h
            exact this (by rw [h])
          | ok b =>
            cases b with
            | true => simp [throw, throwThe, MonadExceptOf.throw]
            | false => simpa using ih (i + 1) s3 _
  unfold parse_vars
  refine bind_no_fuel ?_ fun len _ => bind_no_fuel (alloc_no_fuel _ _) fun r _ => ?_
  · unfold remaining_commas
    exact count_commas_no_fuel file _ _ _
  · obtain ⟨arr, a1⟩ := r
    simp only
    exact bind_no_fuel (hloop arr len 0 sc a1) fun r' _ => by simp [pure, Except.pure]

/-! ## The budgets of the loops over the sections

Every turn of the loops of `print_tokens`, `parse_gates` and `parse_clock`
reads a token that is not the end of input, so `file.size + 1` turns are
never used up. -/

theorem parse_integer_loop_no_fuel (file : File) (t : Token) (start : Nat) :
    ∀ n i v, parse_integer_loop file t start n i v ≠ .error Err.fuel := by
  intro n
  induction n with
  | zero => intro i v; simp [parse_integer_loop, pure, Except.pure]
  | succ n ih =>
    intro i v
    unfold parse_integer_loop
    refine bind_no_fuel (read_no_fuel file _) fun c _ => ?_
    by_cases hd : is_digit c = true
    · simp only [hd, Bool.not_true, Bool.false_eq_true, if_false, pure, Except.pure, bind,
        Except.bind]
      split
      · simp [throw, throwThe, MonadExceptOf.throw]
      · exact ih _ _
    · simp [hd, throw, throwThe, MonadExceptOf.throw, bind, Except.bind]

/-- Reading an integer: the token is not the end of input, so the bound drops. -/
theorem parse_integer_post {file : File} (h1 : file.size = 0 → file.text = [])
    (h2 : file.size ≤ ULONG_MAX) {sc : Scanner} (hst : EofStable file sc) :
    parse_integer file sc ≠ .error Err.fuel ∧
      ∀ r, parse_integer file sc = .ok r →
        r.2.peeked = false ∧ tokens_left file r.2 + 1 ≤ tokens_left file sc := by
  unfold parse_integer
  refine bind_post (next_token_no_fuel file sc) fun r hn => ?_
  obtain ⟨t, s⟩ := r
  obtain ⟨hq, _, hlt, _, _⟩ := tokens_left_next h1 h2 hst hn
  cases hs : t.start with
  | none => simp [hs, throw, throwThe, MonadExceptOf.throw]
  | some start =>
    simp only [hs]
    refine bind_post (parse_integer_loop_no_fuel file t start _ _ _) fun v _ => ?_
    refine ⟨by simp [pure, Except.pure], fun b hb => ?_⟩
    simp only [pure, Except.pure, Except.ok.injEq] at hb
    subst hb
    exact ⟨hq, hlt (by simp [hs])⟩

theorem parse_one_of_post {file : File} (h1 : file.size = 0 → file.text = [])
    (h2 : file.size ≤ ULONG_MAX) {sc : Scanner} (hst : EofStable file sc) (k0 k1 : String) :
    parse_one_of file sc k0 k1 ≠ .error Err.fuel ∧
      ∀ s, parse_one_of file sc k0 k1 = .ok s →
        s.peeked = false ∧ tokens_left file s ≤ tokens_left file sc := by
  refine ⟨?_, fun s hs => ?_⟩
  · unfold parse_one_of
    refine bind_no_fuel (next_token_no_fuel file sc) fun r _ => ?_
    obtain ⟨t, s⟩ := r
    simp only
    refine bind_no_fuel (is_kind_no_fuel file t k0) fun b _ => ?_
    cases b with
    | true => simp [pure, Except.pure]
    | false =>
      simp only [Bool.false_eq_true, if_false]
      refine bind_no_fuel (is_kind_no_fuel file t k1) fun b _ => ?_
      cases b <;>
        simp [pure, Except.pure, throw, throwThe, MonadExceptOf.throw, bind, Except.bind]
  · obtain ⟨t, hn, _⟩ := parse_one_of_next hs
    obtain ⟨hq, hle, _, _, _⟩ := tokens_left_next h1 h2 hst hn
    exact ⟨hq, hle⟩

/-- The clause of the arity in `parse_gate`. -/
theorem parse_gate_arity_post {file : File} (h1 : file.size = 0 → file.text = [])
    (h2 : file.size ≤ ULONG_MAX) {sc0 : Scanner} (hp0 : sc0.peeked = false) (t0 : Token)
    (isar : Bool) :
    ((if isar = true then
        peek_token file sc0 >>= fun r1 =>
          match r1.1.start with
          | none => pure (2, t0, r1.2)
          | some start =>
            file.read start >>= fun c =>
              if is_digit c = true then
                parse_integer file r1.2 >>= fun r2 =>
                  next_token file r2.2 >>= fun r3 => pure (r2.1, r3.1, r3.2)
              else pure (2, t0, r1.2)
      else pure (2, t0, sc0) : Except Err (Nat × Token × Scanner)) ≠ .error Err.fuel) ∧
    ∀ v, (if isar = true then
        peek_token file sc0 >>= fun r1 =>
          match r1.1.start with
          | none => pure (2, t0, r1.2)
          | some start =>
            file.read start >>= fun c =>
              if is_digit c = true then
                parse_integer file r1.2 >>= fun r2 =>
                  next_token file r2.2 >>= fun r3 => pure (r2.1, r3.1, r3.2)
              else pure (2, t0, r1.2)
      else pure (2, t0, sc0) : Except Err (Nat × Token × Scanner)) = .ok v →
      EofStable file v.2.2 ∧ tokens_left file v.2.2 ≤ tokens_left file sc0 := by
  have hst0 : EofStable file sc0 := eofStable_unpeeked hp0
  cases isar with
  | false =>
    refine ⟨by simp [pure, Except.pure], fun v hv => ?_⟩
    simp only [Bool.false_eq_true, if_false, pure, Except.pure, Except.ok.injEq] at hv
    subst hv
    exact ⟨hst0, Nat.le_refl _⟩
  | true =>
    simp only [if_true]
    refine bind_post (peek_token_no_fuel file sc0) fun r1 hpk => ?_
    obtain ⟨pk, s1⟩ := r1
    obtain ⟨hst1, _, _, hle1, _⟩ := tokens_left_peek h1 h2 hst0 hpk
    cases hs : pk.start with
    | none =>
      simp only [hs]
      refine ⟨by simp [pure, Except.pure], fun v hv => ?_⟩
      simp only [pure, Except.pure, Except.ok.injEq] at hv
      subst hv
      exact ⟨hst1, hle1⟩
    | some start =>
      simp only [hs]
      refine bind_post (read_no_fuel file start) fun c _ => ?_
      by_cases hd : is_digit c = true
      · simp only [hd, if_true]
        obtain ⟨hnf, hpost⟩ := parse_integer_post h1 h2 hst1
        refine bind_post hnf fun r2 h2' => ?_
        obtain ⟨hq2, hle2⟩ := hpost r2 h2'
        refine bind_post (next_token_no_fuel file r2.2) fun r3 h3 => ?_
        obtain ⟨hq3, hle3, _, _, _⟩ :=
          tokens_left_next h1 h2 (eofStable_unpeeked hq2)
            (show next_token file r2.2 = .ok (r3.1, r3.2) from h3)
        refine ⟨by simp [pure, Except.pure], fun v hv => ?_⟩
        simp only [pure, Except.pure, Except.ok.injEq] at hv
        subst hv
        exact ⟨eofStable_unpeeked hq3, by simp only; omega⟩
      · simp only [hd, Bool.false_eq_true, if_false]
        refine ⟨by simp [pure, Except.pure], fun v hv => ?_⟩
        simp only [pure, Except.pure, Except.ok.injEq] at hv
        subst hv
        exact ⟨hst1, hle1⟩

/-- An entry of the table ends with the integer of its delay: `parse_gate`
reads at least one token that is not the end of input. -/
theorem parse_gate_post {file : File} (h1 : file.size = 0 → file.text = [])
    (h2 : file.size ≤ ULONG_MAX) {sc : Scanner} (hst : EofStable file sc) :
    parse_gate file sc ≠ .error Err.fuel ∧
      ∀ r, parse_gate file sc = .ok r →
        r.2.peeked = false ∧ tokens_left file r.2 + 1 ≤ tokens_left file sc := by
  cases hn : next_token file sc with
  | error e =>
    have hnf := next_token_no_fuel file sc
    rw [hn] at hnf
    have he : parse_gate file sc = .error e := by
      unfold parse_gate
      simp only [hn, bind, Except.bind]
    rw [he]
    refine ⟨fun h => hnf ?_, fun r hr => by cases hr⟩
    simp only [Except.error.injEq] at h ⊢
    exact h
  | ok r0 =>
    obtain ⟨t0, sc0⟩ := r0
    obtain ⟨hq0, hle0, _, _, _⟩ := tokens_left_next h1 h2 hst hn
    rw [parse_gate_eq hn]
    refine bind_post (bind_no_fuel (is_kind_no_fuel file t0 "arity") fun b _ => ?_)
      fun isar _ => ?_
    · cases b with
      | true => simp [pure, Except.pure]
      | false => simpa using is_kind_no_fuel file t0 "a"
    obtain ⟨hnf, hpost⟩ := parse_gate_arity_post h1 h2 hq0 t0 isar
    refine bind_post hnf fun v hv => ?_
    obtain ⟨hstv, hlev⟩ := hpost v hv
    obtain ⟨hnf1, hpost1⟩ := parse_one_of_post h1 h2 hstv "delays" "d"
    refine bind_post hnf1 fun v1 hv1 => ?_
    obtain ⟨hq1, hle1⟩ := hpost1 v1 hv1
    obtain ⟨hnf2, hpost2⟩ := parse_integer_post h1 h2 (@eofStable_unpeeked file v1 hq1)
    refine bind_post hnf2 fun v2 hv2 => ?_
    obtain ⟨hq2, hle2⟩ := hpost2 v2 hv2
    refine ⟨by simp [pure, Except.pure], fun b hb => ?_⟩
    simp only [pure, Except.pure, Except.ok.injEq] at hb
    subst hb
    exact ⟨hq2, by simp only; omega⟩

theorem declared_no_fuel (file : File) (gate : Gate) :
    ∀ arr, declared file gate arr ≠ .error Err.fuel := by
  intro arr
  induction arr with
  | nil => simp [declared, pure, Except.pure]
  | cons g rest ih =>
    unfold declared
    by_cases hc : g.len ≠ gate.len ∨ g.arity ≠ gate.arity
    · simp only [hc, if_true]; exact ih
    · simp only [hc, if_false]
      cases hs0 : g.start with
      | none =>
        by_cases hz : gate.len = 0 <;>
          simp [hz, pure, Except.pure, throw, throwThe, MonadExceptOf.throw]
      | some s0 =>
        cases hs1 : gate.start with
        | none =>
          by_cases hz : gate.len = 0 <;>
            simp [hz, pure, Except.pure, throw, throwThe, MonadExceptOf.throw]
        | some s1 =>
          simp only
          refine bind_no_fuel (strncmp_eq_no_fuel _ _ (fun i => read_no_fuel file _)
            (fun i => read_no_fuel file _) _ _) fun b _ => ?_
          cases b with
          | true => simp [pure, Except.pure]
          | false => simpa using ih

theorem clock_assign_no_fuel (file : File) (token : Token) (n : Nat) :
    ∀ names i given fields,
      clock_assign file token n names i given fields ≠ .error Err.fuel := by
  intro names
  induction names with
  | nil => intro i given fields; simp [clock_assign, pure, Except.pure]
  | cons name rest ih =>
    intro i given fields
    unfold clock_assign
    refine bind_no_fuel (is_kind_no_fuel file token name) fun b _ => ?_
    cases b with
    | true =>
      simp only [if_true]
      by_cases hg : (given >>> i) &&& 1 ≠ 0
      · rw [if_pos hg]
        simp [throw, throwThe, MonadExceptOf.throw, bind, Except.bind]
      · rw [if_neg hg]
        simp only [pure, Except.pure, bind, Except.bind]
        exact ih _ _ _
    | false =>
      simp only [Bool.false_eq_true, if_false]
      exact ih _ _ _

theorem is_kind_some {file : File} {t : Token} {k : String}
    (h : is_kind file t k = .ok true) : t.start.isSome = true := by
  cases hs : t.start with
  | none => simp [is_kind, hs, pure, Except.pure] at h
  | some s => rfl

/-- The loop of `print_tokens` ends within its budget. -/
theorem tokens_loop_budget (file : File) (h1 : file.size = 0 → file.text = [])
    (h2 : file.size ≤ ULONG_MAX) :
    ∀ n sc, EofStable file sc → tokens_left file sc + 1 ≤ n →
      tokens_loop file n sc ≠ .error Err.fuel := by
  intro n
  induction n with
  | zero => intro sc _ h; omega
  | succ n ih =>
    intro sc hst hn
    unfold tokens_loop
    refine bind_no_fuel (next_token_no_fuel file sc) fun r hr => ?_
    obtain ⟨t, s⟩ := r
    obtain ⟨hq, _, hlt, _, _⟩ := tokens_left_next h1 h2 hst hr
    simp only
    by_cases he : eof t = true
    · simp [he, pure, Except.pure]
    · simp only [he, Bool.false_eq_true, if_false]
      have hsome : t.start.isSome = true := by
        cases hs : t.start with
        | none => simp [eof, hs] at he
        | some s => rfl
      have := hlt hsome
      exact bind_no_fuel (ih s (eofStable_unpeeked hq) (by omega)) fun _ _ => by
        simp [pure, Except.pure]

/-- The function `print_tokens` returns the tokens of every buffer: its budget
is never used up. -/
theorem print_tokens_budget (file : File) (h1 : file.size = 0 → file.text = [])
    (h2 : file.size ≤ ULONG_MAX) : print_tokens file ≠ .error Err.fuel := by
  unfold print_tokens
  exact tokens_loop_budget file h1 h2 _ _ (eofStable_unpeeked rfl)
    (by simp [tokens_left, make_scanner])

/-- The loop of `parse_gates` ends within its budget. -/
theorem parse_gates_loop_budget (file : File) (h1 : file.size = 0 → file.text = [])
    (h2 : file.size ≤ ULONG_MAX) :
    ∀ n sc ar arr, EofStable file sc → tokens_left file sc + 1 ≤ n →
      parse_gates_loop file n sc ar arr ≠ .error Err.fuel := by
  intro n
  induction n with
  | zero => intro sc _ _ _ h; omega
  | succ n ih =>
    intro sc ar arr hst hn
    unfold parse_gates_loop
    refine bind_no_fuel (next_is_no_fuel file sc "CLOCK") fun r hr => ?_
    obtain ⟨stop, s1⟩ := r
    obtain ⟨hst1, _, hle1, _, _, _⟩ := tokens_left_next_is h1 h2 hst hr
    simp only
    cases stop with
    | true => simp [pure, Except.pure]
    | false =>
      simp only [Bool.false_eq_true, if_false]
      refine bind_no_fuel (peek_token_no_fuel file s1) fun r2 hr2 => ?_
      obtain ⟨tk, s2⟩ := r2
      obtain ⟨hst2, _, _, hle2, _⟩ := tokens_left_peek h1 h2 hst1 hr2
      simp only
      obtain ⟨hnf, hpost⟩ := parse_gate_post h1 h2 hst2
      refine bind_no_fuel hnf fun r3 hr3 => ?_
      obtain ⟨hq3, hle3⟩ := hpost r3 hr3
      obtain ⟨gate, s3⟩ := r3
      simp only
      refine bind_no_fuel (declared_no_fuel file gate arr) fun b _ => ?_
      cases b with
      | true => simp [throw, throwThe, MonadExceptOf.throw, bind, Except.bind]
      | false =>
        simp only [Bool.false_eq_true, if_false]
        refine bind_no_fuel (by simp [pure, Except.pure]) fun _ _ =>
          bind_no_fuel (alloc_no_fuel _ _) fun r4 _ => ?_
        obtain ⟨q, ar4⟩ := r4
        simp only
        exact ih s3 ar4 _ (eofStable_unpeeked hq3) (by simp only at hle3; omega)

/-- The function `parse_gates` never exhausts its budget. -/
theorem parse_gates_budget (file : File) (h1 : file.size = 0 → file.text = [])
    (h2 : file.size ≤ ULONG_MAX) (sc : Scanner) (ar : Arena) :
    parse_gates file sc ar ≠ .error Err.fuel := by
  unfold parse_gates
  refine bind_no_fuel (parse_literal_no_fuel file sc "GATES") fun s hs => ?_
  obtain ⟨t, hn, _⟩ := parse_literal_next hs
  have hq := next_token_unpeeked hn
  exact parse_gates_loop_budget file h1 h2 _ s ar [] (eofStable_unpeeked hq)
    (by rw [tokens_left_unpeeked hq]; omega)

/-- The loop of `parse_clock` ends within its budget. -/
theorem parse_clock_loop_budget (file : File) (h1 : file.size = 0 → file.text = [])
    (h2 : file.size ≤ ULONG_MAX) :
    ∀ n sc given fields, EofStable file sc → tokens_left file sc + 1 ≤ n →
      parse_clock_loop file n sc given fields ≠ .error Err.fuel := by
  intro n
  induction n with
  | zero => intro sc _ _ _ h; omega
  | succ n ih =>
    intro sc given fields hst hn
    unfold parse_clock_loop
    refine bind_no_fuel (next_is_no_fuel file sc "CIRCUIT") fun r hr => ?_
    obtain ⟨stop, s1⟩ := r
    obtain ⟨hst1, _, hle1, _, _, _⟩ := tokens_left_next_is h1 h2 hst hr
    simp only
    cases stop with
    | true => simp [pure, Except.pure]
    | false =>
      simp only [Bool.false_eq_true, if_false]
      refine bind_no_fuel (next_token_no_fuel file s1) fun r2 hr2 => ?_
      obtain ⟨tk, s2⟩ := r2
      obtain ⟨hq2, hle2, _, _, _⟩ := tokens_left_next h1 h2 hst1 hr2
      simp only
      refine bind_no_fuel (parse_literal_no_fuel file s2 "=") fun s3 hs3 => ?_
      obtain ⟨hst3, hle3⟩ := tokens_left_literal h1 h2 (eofStable_unpeeked hq2) hs3
      obtain ⟨hnf, hpost⟩ := parse_integer_post h1 h2 hst3
      refine bind_no_fuel hnf fun r4 hr4 => ?_
      obtain ⟨hq4, hle4⟩ := hpost r4 hr4
      obtain ⟨v, s4⟩ := r4
      simp only
      refine bind_no_fuel (clock_assign_no_fuel file tk v _ _ _ _) fun r5 _ => ?_
      obtain ⟨g5, f5⟩ := r5
      simp only
      exact ih s4 g5 f5 (eofStable_unpeeked hq4) (by simp only at hle4; omega)

/-- The function `parse_clock` never exhausts its budget. -/
theorem parse_clock_budget (file : File) (h1 : file.size = 0 → file.text = [])
    (h2 : file.size ≤ ULONG_MAX) (sc : Scanner) :
    parse_clock file sc ≠ .error Err.fuel := by
  unfold parse_clock
  refine bind_no_fuel (parse_literal_no_fuel file sc "CLOCK") fun s hs => ?_
  obtain ⟨t, hn, _⟩ := parse_literal_next hs
  have hq := next_token_unpeeked hn
  refine bind_no_fuel (parse_clock_loop_budget file h1 h2 _ s 0 [0, 0, 0, 0]
    (eofStable_unpeeked hq) (by rw [tokens_left_unpeeked hq]; omega)) fun r _ => ?_
  obtain ⟨g, f, s'⟩ := r
  simp [pure, Except.pure]

/-! ## The fan-in of a node -/

theorem reach_cases {cells : Cells} {p q : Nat} (h : Reach cells p q) :
    q = p ∨ ∃ x, Edge cells p x ∧ Reach cells x q := by
  rcases Relation.ReflTransGen.cases_head h with h | ⟨x, e, r⟩
  · exact Or.inl h.symm
  · exact Or.inr ⟨x, e, r⟩

theorem reach_no_input {cells : Cells} {p q : Nat} {c : Circuit} (hp : cells p = some c)
    (hi : c.inp = none) (h : Reach cells p q) : q = p := by
  rcases reach_cases h with h | ⟨x, ⟨c', hc', e⟩, _⟩
  · exact h
  · rw [hp] at hc'
    obtain rfl := Option.some.inj hc'
    rcases e with ⟨_, e⟩ | ⟨_, _, e⟩ | ⟨_, _, g, a, i, _, e, _⟩ <;> rw [hi] at e <;> cases e

theorem reach_single {cells : Cells} {p q x : Nat} {c : Circuit} (hp : cells p = some c)
    (hk : is_reg c = true ∨ is_var c = true) (hi : c.inp = some x) (h : Reach cells p q) :
    q = p ∨ Reach cells x q := by
  rcases reach_cases h with h | ⟨y, ⟨c', hc', e⟩, r⟩
  · exact Or.inl h
  · rw [hp] at hc'
    obtain rfl := Option.some.inj hc'
    rcases e with ⟨_, e⟩ | ⟨_, _, e⟩ | ⟨hr, hv, _⟩
    · rw [hi] at e; obtain rfl := Option.some.inj e; exact Or.inr r
    · rw [hi] at e; obtain rfl := Option.some.inj e; exact Or.inr r
    · rcases hk with hk | hk
      · rw [hk] at hr; cases hr
      · rw [hk] at hv; cases hv

theorem reach_app {cells : Cells} {p q a : Nat} {c : Circuit} {g : Gate}
    (hp : cells p = some c) (hr : is_reg c = false) (hv : is_var c = false)
    (hg : c.gate = some g) (hi : c.inp = some a) (h : Reach cells p q) :
    q = p ∨ ∃ i, i < g.arity ∧ Reach cells (a + SIZEOF_CIRCUIT * i) q := by
  rcases reach_cases h with h | ⟨y, ⟨c', hc', e⟩, r⟩
  · exact Or.inl h
  · rw [hp] at hc'
    obtain rfl := Option.some.inj hc'
    rcases e with ⟨hr', _⟩ | ⟨_, hv', _⟩ | ⟨_, _, g', a', i, hg', hi', hlt, rfl⟩
    · rw [hr] at hr'; cases hr'
    · rw [hv] at hv'; cases hv'
    · rw [hg] at hg'; obtain rfl := Option.some.inj hg'
      rw [hi] at hi'; obtain rfl := Option.some.inj hi'
      exact Or.inr ⟨i, hlt, r⟩

theorem regReach_of_edge {cells : Cells} {p q : Nat} {r : Circuit} (e : Edge cells p q)
    (h : RegReach cells q r) : RegReach cells p r := by
  obtain ⟨x, hx, hc, hr⟩ := h
  exact ⟨x, Relation.ReflTransGen.head e hx, hc, hr⟩

theorem regReach_self {cells : Cells} {p : Nat} {c : Circuit} (hp : cells p = some c)
    (hr : is_reg c = true) : RegReach cells p c :=
  ⟨p, Relation.ReflTransGen.refl, hp, hr⟩

/-! ## The extremal queries -/

theorem get_max_delay_extremal :
    ∀ (n : Nat) (cells : Cells) (p : Nat) (c : Circuit), resolved n cells p = true →
      cells p = some c →
      ∃ m, get_max_delay n cells c = .ok m ∧
        (∀ r, RegReach cells p r → r.max_delay ≤ m) ∧
        (m = 0 ∨ ∃ r, RegReach cells p r ∧ r.max_delay = m) := by
  intro n
  induction n with
  | zero => intro cells p c h; simp [resolved] at h
  | succ n ih =>
    intro cells p c hres hp
    by_cases hr : is_reg c = true
    · cases hi : c.inp with
      | none =>
        refine ⟨c.max_delay, ?_, ?_, Or.inr ⟨c, regReach_self hp hr, rfl⟩⟩
        · simp [get_max_delay, hr, hi, pure, Except.pure]
        · rintro r ⟨x, hx, hc, _⟩
          rw [reach_no_input hp hi hx, hp] at hc
          rw [← Option.some.inj hc]
      | some q =>
        have hres' : resolved n cells q = true := by
          simpa [resolved, hp, hr, hi] using hres
        obtain ⟨cq, hq⟩ := resolved_some hres'
        obtain ⟨m, hm, hub, hat⟩ := ih cells q cq hres' hq
        have e : Edge cells p q := ⟨c, hp, Or.inl ⟨hr, hi⟩⟩
        refine ⟨MAX c.max_delay m, ?_, ?_, ?_⟩
        · simp [get_max_delay, hr, hi, load, hq, hm, bind, Except.bind, pure, Except.pure]
        · rintro r ⟨x, hx, hc, hrr⟩
          rw [MAX_eq_max]
          rcases reach_single hp (Or.inl hr) hi hx with rfl | hx
          · rw [hp] at hc
            rw [← Option.some.inj hc]
            exact Nat.le_max_left _ _
          · exact Nat.le_trans (hub r ⟨x, hx, hc, hrr⟩) (Nat.le_max_right _ _)
        · rw [MAX_eq_max]
          rcases Nat.le_total m c.max_delay with hle | hle
          · rw [Nat.max_eq_left hle]
            exact Or.inr ⟨c, regReach_self hp hr, rfl⟩
          · rw [Nat.max_eq_right hle]
            rcases hat with h0 | ⟨r, hr1, hr2⟩
            · exact Or.inl h0
            · exact Or.inr ⟨r, regReach_of_edge e hr1, hr2⟩
    · have hr : is_reg c = false := by simpa using hr
      by_cases hv : is_var c = true
      · cases hi : c.inp with
        | none => simp [resolved, hp, hr, hv, hi] at hres
        | some q =>
          have hres' : resolved n cells q = true := by
            simpa [resolved, hp, hr, hv, hi] using hres
          obtain ⟨cq, hq⟩ := resolved_some hres'
          obtain ⟨m, hm, hub, hat⟩ := ih cells q cq hres' hq
          have e : Edge cells p q := ⟨c, hp, Or.inr (Or.inl ⟨hr, hv, hi⟩)⟩
          refine ⟨m, ?_, ?_, ?_⟩
          · simp [get_max_delay, hr, hv, hi, deref_in, load, hq, hm, bind, Except.bind, pure,
              Except.pure]
          · rintro r ⟨x, hx, hc, hrr⟩
            rcases reach_single hp (Or.inr hv) hi hx with rfl | hx
            · rw [hp] at hc
              rw [← Option.some.inj hc, hr] at hrr
              cases hrr
            · exact hub r ⟨x, hx, hc, hrr⟩
          · rcases hat with h0 | ⟨r, hr1, hr2⟩
            · exact Or.inl h0
            · exact Or.inr ⟨r, regReach_of_edge e hr1, hr2⟩
      · have hv : is_var c = false := by simpa using hv
        cases hg : c.gate with
        | none => simp [resolved, hp, hr, hv, hg] at hres
        | some g =>
          rw [get_max_delay_app hr hv hg]
          cases hi : c.inp with
          | none =>
            have h0 : g.arity = 0 := by simpa [resolved, hp, hr, hv, hg, hi] using hres
            refine ⟨0, by simp [h0, for_range, pure, Except.pure], ?_, Or.inl rfl⟩
            rintro r ⟨x, hx, hc, hrr⟩
            rw [reach_no_input hp hi hx, hp] at hc
            rw [← Option.some.inj hc, hr] at hrr
            cases hrr
          | some a =>
            have hin := resolved_inputs hp hr hv hg hi hres
            obtain ⟨m, hm, hub, hat⟩ := for_range_inv
              (fun delay i =>
                input_ptr c i >>= fun q => load cells q >>= fun ci =>
                  get_max_delay n cells ci >>= fun in_delay => pure (MAX delay in_delay))
              (fun j m =>
                (∀ i, i < j → ∀ r, RegReach cells (a + SIZEOF_CIRCUIT * i) r →
                  r.max_delay ≤ m) ∧
                (m = 0 ∨ ∃ r, RegReach cells p r ∧ r.max_delay = m))
              g.arity 0 0 ⟨fun i hi0 => by omega, Or.inl rfl⟩
              (by
                intro j acc _ hj ⟨hub, hat⟩
                have hj : j < g.arity := by omega
                obtain ⟨cq, hq⟩ := resolved_some (hin j hj)
                obtain ⟨m, hm, hub', hat'⟩ := ih cells _ cq (hin j hj) hq
                have e : Edge cells p (a + SIZEOF_CIRCUIT * j) :=
                  ⟨c, hp, Or.inr (Or.inr ⟨hr, hv, g, a, j, hg, hi, hj, rfl⟩)⟩
                refine ⟨MAX acc m, ?_, ?_, ?_⟩
                · simp [input_ptr, hi, load, hq, hm, bind, Except.bind, pure, Except.pure]
                · intro i hij r hri
                  rw [MAX_eq_max]
                  by_cases hije : i = j
                  · subst hije
                    exact Nat.le_trans (hub' r hri) (Nat.le_max_right _ _)
                  · exact Nat.le_trans (hub i (by omega) r hri) (Nat.le_max_left _ _)
                · rw [MAX_eq_max]
                  rcases Nat.le_total m acc with hle | hle
                  · rw [Nat.max_eq_left hle]; exact hat
                  · rw [Nat.max_eq_right hle]
                    rcases hat' with h0 | ⟨r, hr1, hr2⟩
                    · exact Or.inl h0
                    · exact Or.inr ⟨r, regReach_of_edge e hr1, hr2⟩)
            refine ⟨m, hm, ?_, hat⟩
            rintro r ⟨x, hx, hc, hrr⟩
            rcases reach_app hp hr hv hg hi hx with rfl | ⟨i, hlt, hx⟩
            · rw [hp] at hc
              rw [← Option.some.inj hc, hr] at hrr
              cases hrr
            · exact hub i (by omega) r ⟨x, hx, hc, hrr⟩

theorem get_min_delay_extremal :
    ∀ (n : Nat) (cells : Cells) (p : Nat) (c : Circuit), resolved n cells p = true →
      cells p = some c → (∀ r, RegReach cells p r → r.min_delay ≤ ULONG_MAX) →
      ∃ m, get_min_delay n cells c = .ok m ∧ m ≤ ULONG_MAX ∧
        (∀ r, RegReach cells p r → m ≤ r.min_delay) ∧
        (m = ULONG_MAX ∨ ∃ r, RegReach cells p r ∧ r.min_delay = m) := by
  intro n
  induction n with
  | zero => intro cells p c h; simp [resolved] at h
  | succ n ih =>
    intro cells p c hres hp hb
    by_cases hr : is_reg c = true
    · cases hi : c.inp with
      | none =>
        refine ⟨c.min_delay, ?_, hb c (regReach_self hp hr), ?_,
          Or.inr ⟨c, regReach_self hp hr, rfl⟩⟩
        · simp [get_min_delay, hr, hi, pure, Except.pure]
        · rintro r ⟨x, hx, hc, _⟩
          rw [reach_no_input hp hi hx, hp] at hc
          rw [← Option.some.inj hc]
      | some q =>
        have hres' : resolved n cells q = true := by
          simpa [resolved, hp, hr, hi] using hres
        obtain ⟨cq, hq⟩ := resolved_some hres'
        have e : Edge cells p q := ⟨c, hp, Or.inl ⟨hr, hi⟩⟩
        obtain ⟨m, hm, hmb, hlb, hat⟩ := ih cells q cq hres' hq
          (fun r hrr => hb r (regReach_of_edge e hrr))
        refine ⟨MIN c.min_delay m, ?_, ?_, ?_, ?_⟩
        · simp [get_min_delay, hr, hi, load, hq, hm, bind, Except.bind, pure, Except.pure]
        · rw [MIN_eq_min]
          exact Nat.le_trans (Nat.min_le_right _ _) hmb
        · rintro r ⟨x, hx, hc, hrr⟩
          rw [MIN_eq_min]
          rcases reach_single hp (Or.inl hr) hi hx with rfl | hx
          · rw [hp] at hc
            rw [← Option.some.inj hc]
            exact Nat.min_le_left _ _
          · exact Nat.le_trans (Nat.min_le_right _ _) (hlb r ⟨x, hx, hc, hrr⟩)
        · rw [MIN_eq_min]
          rcases Nat.le_total c.min_delay m with hle | hle
          · rw [Nat.min_eq_left hle]
            exact Or.inr ⟨c, regReach_self hp hr, rfl⟩
          · rw [Nat.min_eq_right hle]
            rcases hat with h0 | ⟨r, hr1, hr2⟩
            · exact Or.inl h0
            · exact Or.inr ⟨r, regReach_of_edge e hr1, hr2⟩
    · have hr : is_reg c = false := by simpa using hr
      by_cases hv : is_var c = true
      · cases hi : c.inp with
        | none => simp [resolved, hp, hr, hv, hi] at hres
        | some q =>
          have hres' : resolved n cells q = true := by
            simpa [resolved, hp, hr, hv, hi] using hres
          obtain ⟨cq, hq⟩ := resolved_some hres'
          have e : Edge cells p q := ⟨c, hp, Or.inr (Or.inl ⟨hr, hv, hi⟩)⟩
          obtain ⟨m, hm, hmb, hlb, hat⟩ := ih cells q cq hres' hq
            (fun r hrr => hb r (regReach_of_edge e hrr))
          refine ⟨m, ?_, hmb, ?_, ?_⟩
          · simp [get_min_delay, hr, hv, hi, deref_in, load, hq, hm, bind, Except.bind, pure,
              Except.pure]
          · rintro r ⟨x, hx, hc, hrr⟩
            rcases reach_single hp (Or.inr hv) hi hx with rfl | hx
            · rw [hp] at hc
              rw [← Option.some.inj hc, hr] at hrr
              cases hrr
            · exact hlb r ⟨x, hx, hc, hrr⟩
          · rcases hat with h0 | ⟨r, hr1, hr2⟩
            · exact Or.inl h0
            · exact Or.inr ⟨r, regReach_of_edge e hr1, hr2⟩
      · have hv : is_var c = false := by simpa using hv
        cases hg : c.gate with
        | none => simp [resolved, hp, hr, hv, hg] at hres
        | some g =>
          rw [get_min_delay_app hr hv hg]
          cases hi : c.inp with
          | none =>
            have h0 : g.arity = 0 := by simpa [resolved, hp, hr, hv, hg, hi] using hres
            refine ⟨ULONG_MAX, by simp [h0, for_range, pure, Except.pure], Nat.le_refl _, ?_,
              Or.inl rfl⟩
            rintro r ⟨x, hx, hc, hrr⟩
            rw [reach_no_input hp hi hx, hp] at hc
            rw [← Option.some.inj hc, hr] at hrr
            cases hrr
          | some a =>
            have hin := resolved_inputs hp hr hv hg hi hres
            obtain ⟨m, hm, hmb, hlb, hat⟩ := for_range_inv
              (fun delay i =>
                input_ptr c i >>= fun q => load cells q >>= fun ci =>
                  get_min_delay n cells ci >>= fun in_delay => pure (MIN delay in_delay))
              (fun j m => m ≤ ULONG_MAX ∧
                (∀ i, i < j → ∀ r, RegReach cells (a + SIZEOF_CIRCUIT * i) r →
                  m ≤ r.min_delay) ∧
                (m = ULONG_MAX ∨ ∃ r, RegReach cells p r ∧ r.min_delay = m))
              g.arity 0 ULONG_MAX ⟨Nat.le_refl _, fun i hi0 => by omega, Or.inl rfl⟩
              (by
                intro j acc _ hj ⟨hab, hlb, hat⟩
                have hj : j < g.arity := by omega
                obtain ⟨cq, hq⟩ := resolved_some (hin j hj)
                have e : Edge cells p (a + SIZEOF_CIRCUIT * j) :=
                  ⟨c, hp, Or.inr (Or.inr ⟨hr, hv, g, a, j, hg, hi, hj, rfl⟩)⟩
                obtain ⟨m, hm, _, hlb', hat'⟩ := ih cells _ cq (hin j hj) hq
                  (fun r hrr => hb r (regReach_of_edge e hrr))
                refine ⟨MIN acc m, ?_, ?_, ?_, ?_⟩
                · simp [input_ptr, hi, load, hq, hm, bind, Except.bind, pure, Except.pure]
                · rw [MIN_eq_min]
                  exact Nat.le_trans (Nat.min_le_left _ _) hab
                · intro i hij r hri
                  rw [MIN_eq_min]
                  by_cases hije : i = j
                  · subst hije
                    exact Nat.le_trans (Nat.min_le_right _ _) (hlb' r hri)
                  · exact Nat.le_trans (Nat.min_le_left _ _) (hlb i (by omega) r hri)
                · rw [MIN_eq_min]
                  rcases Nat.le_total acc m with hle | hle
                  · rw [Nat.min_eq_left hle]; exact hat
                  · rw [Nat.min_eq_right hle]
                    rcases hat' with h0 | ⟨r, hr1, hr2⟩
                    · exact Or.inl h0
                    · exact Or.inr ⟨r, regReach_of_edge e hr1, hr2⟩)
            refine ⟨m, hm, hmb, ?_, hat⟩
            rintro r ⟨x, hx, hc, hrr⟩
            rcases reach_app hp hr hv hg hi hx with rfl | ⟨i, hlt, hx⟩
            · rw [hp] at hc
              rw [← Option.some.inj hc, hr] at hrr
              cases hrr
            · exact hlb i (by omega) r ⟨x, hx, hc, hrr⟩

/-- C14: on a resolved acyclic graph, `get_max_delay` returns the greatest
stored `max_delay` among the register nodes in the fan-in of the node (the
node included), or 0 when there is none, and `get_min_delay` returns the least
stored `min_delay` among them, or `ULONG_MAX` when there is none; the results
are determined by the annotations of registers alone. -/
theorem get_delay_extremal (n : Nat) (cells : Cells) (p : Nat) (c : Circuit)
    (hres : resolved n cells p = true) (hp : cells p = some c)
    (hb : ∀ r, RegReach cells p r → r.min_delay ≤ ULONG_MAX) :
    ∃ mx mn, get_max_delay n cells c = .ok mx ∧ get_min_delay n cells c = .ok mn ∧
      (∀ r, RegReach cells p r → r.max_delay ≤ mx) ∧
      ((∃ r, RegReach cells p r ∧ r.max_delay = mx) ∨
        ((¬ ∃ r, RegReach cells p r) ∧ mx = 0)) ∧
      (∀ r, RegReach cells p r → mn ≤ r.min_delay) ∧
      ((∃ r, RegReach cells p r ∧ r.min_delay = mn) ∨
        ((¬ ∃ r, RegReach cells p r) ∧ mn = ULONG_MAX)) := by
  obtain ⟨mx, hmx, hub, hat⟩ := get_max_delay_extremal n cells p c hres hp
  obtain ⟨mn, hmn, _, hlb, hat'⟩ := get_min_delay_extremal n cells p c hres hp hb
  refine ⟨mx, mn, hmx, hmn, hub, ?_, hlb, ?_⟩
  · rcases hat with h0 | h
    · by_cases hex : ∃ r, RegReach cells p r
      · obtain ⟨r, hr⟩ := hex
        have := hub r hr
        exact Or.inl ⟨r, hr, by omega⟩
      · exact Or.inr ⟨hex, h0⟩
    · exact Or.inl h
  · rcases hat' with h0 | h
    · by_cases hex : ∃ r, RegReach cells p r
      · obtain ⟨r, hr⟩ := hex
        have h1 := hlb r hr
        have h2 := hb r hr
        exact Or.inl ⟨r, hr, by omega⟩
      · exact Or.inr ⟨hex, h0⟩
    · exact Or.inl h

/-! ## The kinds of nodes of a resolved graph -/

theorem node_cases {n : Nat} {cells : Cells} {p : Nat}
    (h : resolved (n + 1) cells p = true) :
    ∃ c, cells p = some c ∧
      ((is_reg c = true ∧ c.inp = none) ∨
       (is_reg c = true ∧ ∃ q, c.inp = some q ∧ resolved n cells q = true) ∨
       (is_reg c = false ∧ is_var c = true ∧ ∃ q, c.inp = some q ∧ resolved n cells q = true) ∨
       (is_reg c = false ∧ is_var c = false ∧ ∃ g, c.gate = some g ∧ c.inp = none ∧
          g.arity = 0) ∨
       (is_reg c = false ∧ is_var c = false ∧ ∃ g a, c.gate = some g ∧ c.inp = some a ∧
          ∀ j, j < g.arity → resolved n cells (a + SIZEOF_CIRCUIT * j) = true)) := by
  cases hp : cells p with
  | none => simp [resolved, hp] at h
  | some c =>
    refine ⟨c, rfl, ?_⟩
    by_cases hr : is_reg c = true
    · cases hi : c.inp with
      | none => exact Or.inl ⟨hr, rfl⟩
      | some q =>
        exact Or.inr (Or.inl ⟨hr, q, rfl, by simpa [resolved, hp, hr, hi] using h⟩)
    · have hr : is_reg c = false := by simpa using hr
      by_cases hv : is_var c = true
      · cases hi : c.inp with
        | none => simp [resolved, hp, hr, hv, hi] at h
        | some q =>
          exact Or.inr (Or.inr (Or.inl ⟨hr, hv, q, rfl,
            by simpa [resolved, hp, hr, hv, hi] using h⟩))
      · have hv : is_var c = false := by simpa using hv
        cases hg : c.gate with
        | none => simp [resolved, hp, hr, hv, hg] at h
        | some g =>
          cases hi : c.inp with
          | none =>
            exact Or.inr (Or.inr (Or.inr (Or.inl ⟨hr, hv, g, rfl, rfl,
              by simpa [resolved, hp, hr, hv, hg, hi] using h⟩)))
          | some a =>
            exact Or.inr (Or.inr (Or.inr (Or.inr ⟨hr, hv, g, a, rfl, rfl,
              resolved_inputs hp hr hv hg hi h⟩)))

theorem min_ann_app {n : Nat} {cells : Cells} {p : Nat} {c : Circuit} {g : Gate} {a : Nat}
    (hp : cells p = some c) (hr : is_reg c = false) (hv : is_var c = false)
    (hg : c.gate = some g) (hi : c.inp = some a) :
    min_ann (n + 1) cells p =
      (if ((List.range g.arity).map
          (fun i => min_ann n cells (a + SIZEOF_CIRCUIT * i))).foldl min ULONG_MAX = ULONG_MAX
        then 0
        else ((List.range g.arity).map
          (fun i => min_ann n cells (a + SIZEOF_CIRCUIT * i))).foldl min ULONG_MAX) +
      g.delay := by
  simp [min_ann, hp, hr, hv, hg, hi]

theorem min_ann_congr {a b : Cells} (h : SameShape a b) :
    ∀ n p, min_ann n b p = min_ann n a p := by
  intro n
  induction n with
  | zero => intro p; rfl
  | succ n ih =>
    intro p
    unfold min_ann
    cases ha : a p with
    | none => rw [h.none ha]
    | some c =>
      obtain ⟨c', hb, hv, hg, hi⟩ := h.some ha
      rw [hb]
      simp only [is_reg_congr hv hg, is_var_congr hv, hg, hi, ih]

theorem min_ann_succ :
    ∀ (n : Nat) (cells : Cells) (p : Nat), resolved n cells p = true →
      min_ann (n + 1) cells p = min_ann n cells p := by
  intro n
  induction n with
  | zero => intro cells p h; simp [resolved] at h
  | succ n ih =>
    intro cells p hres
    obtain ⟨c, hp, hk⟩ := node_cases hres
    rcases hk with ⟨hr, hi⟩ | ⟨hr, q, hi, hq⟩ | ⟨hr, hv, q, hi, hq⟩ | ⟨hr, hv, g, hg, hi, h0⟩ |
      ⟨hr, hv, g, a, hg, hi, hin⟩
    · simp [min_ann, hp, hr, hi]
    · have := ih cells q hq
      rw [min_ann]; simp only [hp, hr, hi, if_true]; rw [this]
      simp [min_ann, hp, hr, hi]
    · have := ih cells q hq
      rw [min_ann]; simp only [hp, hr, hv, hi, if_true, Bool.false_eq_true, if_false]
      rw [this]
      simp [min_ann, hp, hr, hv, hi]
    · simp [min_ann, hp, hr, hv, hg, hi]
    · rw [min_ann_app hp hr hv hg hi, min_ann_app hp hr hv hg hi]
      have e : (List.range g.arity).map (fun i => min_ann (n + 1) cells (a + SIZEOF_CIRCUIT * i))
          = (List.range g.arity).map (fun i => min_ann n cells (a + SIZEOF_CIRCUIT * i)) := by
        apply List.map_congr_left
        intro j hj
        exact ih cells _ (hin j (List.mem_range.mp hj))
      rw [e]

theorem min_ann_le {n k : Nat} (h : n ≤ k) {cells : Cells} {p : Nat}
    (hres : resolved n cells p = true) : min_ann k cells p = min_ann n cells p := by
  induction h with
  | refl => rfl
  | step hle ih =>
    rw [min_ann_succ _ cells p (resolved_le hle hres).1, ih]

/-- The values of a node do not depend on the budget, once the budget shows
that the graph below the node is resolved. -/
theorem values_stable {n k : Nat} {cells : Cells} {p : Nat}
    (hn : resolved n cells p = true) (hk : resolved k cells p = true) :
    longest_sum k cells p = longest_sum n cells p ∧ min_ann k cells p = min_ann n cells p := by
  rcases Nat.le_total n k with h | h
  · exact ⟨(resolved_le h hn).2, min_ann_le h hn⟩
  · exact ⟨(resolved_le h hk).2.symm, (min_ann_le h hk).symm⟩

theorem resolved_edge {n : Nat} {cells : Cells} {p q : Nat}
    (hres : resolved (n + 1) cells p = true) (e : Edge cells p q) :
    resolved n cells q = true ∧ longest_sum n cells q ≤ longest_sum (n + 1) cells p := by
  obtain ⟨c, hp, hk⟩ := node_cases hres
  obtain ⟨c', hp', he⟩ := e
  rw [hp] at hp'
  obtain rfl := Option.some.inj hp'
  rcases hk with ⟨hr, hi⟩ | ⟨hr, x, hi, hx⟩ | ⟨hr, hv, x, hi, hx⟩ | ⟨hr, hv, g, hg, hi, h0⟩ |
    ⟨hr, hv, g, a, hg, hi, hin⟩
  · rcases he with ⟨_, e⟩ | ⟨_, _, e⟩ | ⟨_, _, g, a, i, _, e, _⟩ <;> rw [hi] at e <;> cases e
  · rcases he with ⟨_, e⟩ | ⟨hr', _⟩ | ⟨hr', _⟩
    · rw [hi] at e; obtain rfl := Option.some.inj e
      exact ⟨hx, by simp [longest_sum, hp, hr, hi]⟩
    · rw [hr] at hr'; cases hr'
    · rw [hr] at hr'; cases hr'
  · rcases he with ⟨hr', _⟩ | ⟨_, _, e⟩ | ⟨_, hv', _⟩
    · rw [hr] at hr'; cases hr'
    · rw [hi] at e; obtain rfl := Option.some.inj e
      exact ⟨hx, by simp [longest_sum, hp, hr, hv, hi]⟩
    · rw [hv] at hv'; cases hv'
  · rcases he with ⟨_, e⟩ | ⟨_, _, e⟩ | ⟨_, _, g, a, i, _, e, _⟩ <;> rw [hi] at e <;> cases e
  · rcases he with ⟨hr', _⟩ | ⟨_, hv', _⟩ | ⟨_, _, g', a', i, hg', hi', hlt, rfl⟩
    · rw [hr] at hr'; cases hr'
    · rw [hv] at hv'; cases hv'
    · rw [hg] at hg'; obtain rfl := Option.some.inj hg'
      rw [hi] at hi'; obtain rfl := Option.some.inj hi'
      refine ⟨hin i hlt, ?_⟩
      rw [longest_sum_app hp hr hv hg hi]
      have : longest_sum n cells (a + SIZEOF_CIRCUIT * i) ≤
          ((List.range g.arity).map
            (fun i => longest_sum n cells (a + SIZEOF_CIRCUIT * i))).foldl max 0 :=
        le_foldl_max (l := (List.range g.arity).map
          (fun i => longest_sum n cells (a + SIZEOF_CIRCUIT * i)))
          (List.mem_map.mpr ⟨i, List.mem_range.mpr hlt, rfl⟩) 0
      omega

theorem resolved_reach {cells : Cells} {p q : Nat} (r : Reach cells p q) :
    ∀ n, resolved n cells p = true →
      resolved n cells q = true ∧ longest_sum n cells q ≤ longest_sum n cells p := by
  induction r using Relation.ReflTransGen.head_induction_on with
  | refl => intro n h; exact ⟨h, Nat.le_refl _⟩
  | head e _ ih =>
    intro n h
    cases n with
    | zero => simp [resolved] at h
    | succ m =>
      obtain ⟨h1, h2⟩ := resolved_edge h e
      obtain ⟨h3, h4⟩ := ih m h1
      obtain ⟨h5, h6⟩ := resolved_succ m cells _ h3
      exact ⟨h5, by omega⟩

theorem edge_congr {a b : Cells} (h : SameShape a b) {p q : Nat} (e : Edge a p q) :
    Edge b p q := by
  obtain ⟨c, hc, he⟩ := e
  obtain ⟨c', hb, hv, hg, hi⟩ := h.some hc
  refine ⟨c', hb, ?_⟩
  rw [is_reg_congr hv hg, is_var_congr hv, hg, hi]
  exact he

theorem reach_congr {a b : Cells} (h : SameShape a b) {p q : Nat} (r : Reach a p q) :
    Reach b p q :=
  Relation.ReflTransGen.mono (fun _ _ e => edge_congr h e) r

theorem maxAnnotated_congr {a b : Cells} (h : SameShape a b) {q : Nat}
    (hq : (b q).map Circuit.max_delay = (a q).map Circuit.max_delay)
    (hm : MaxAnnotated a q) : MaxAnnotated b q := by
  obtain ⟨c, k, hc, hres, hv⟩ := hm
  obtain ⟨c', hb, _⟩ := h.some hc
  rw [hb, hc] at hq
  simp only [Option.map_some', Option.some.injEq] at hq
  exact ⟨c', k, hb, by rw [resolved_congr h]; exact hres,
    by rw [hq, longest_sum_congr h]; exact hv⟩

theorem minAnnotated_congr {a b : Cells} (h : SameShape a b) {q : Nat}
    (hq : (b q).map Circuit.min_delay = (a q).map Circuit.min_delay)
    (hm : MinAnnotated a q) : MinAnnotated b q := by
  obtain ⟨c, k, hc, hres, hv⟩ := hm
  obtain ⟨c', hb, _⟩ := h.some hc
  rw [hb, hc] at hq
  simp only [Option.map_some', Option.some.injEq] at hq
  exact ⟨c', k, hb, by rw [resolved_congr h]; exact hres,
    by rw [hq, min_ann_congr h]; exact hv⟩

/-- The store of the maximum annotation of `p` into a memory of the same shape. -/
theorem set_max_annot {cells s : Cells} {p k : Nat} {cp : Circuit}
    (hs : SameShape cells s) (hcp : s p = some cp) (hres : resolved k cells p = true) :
    SameShape cells
      (fun q => if q = p then some { cp with max_delay := longest_sum k cells p } else s q) ∧
    KeepsMin s
      (fun q => if q = p then some { cp with max_delay := longest_sum k cells p } else s q) ∧
    MaxAnnotated
      (fun q => if q = p then some { cp with max_delay := longest_sum k cells p } else s q) p ∧
    ∀ q, MaxAnnotated s q → MaxAnnotated
      (fun q => if q = p then some { cp with max_delay := longest_sum k cells p } else s q) q := by
  have hs' := sameShape_set_max hcp (longest_sum k cells p)
  have hall := hs.trans hs'
  have hp : MaxAnnotated
      (fun q => if q = p then some { cp with max_delay := longest_sum k cells p } else s q)
      p := by
    refine ⟨{ cp with max_delay := longest_sum k cells p }, k, if_pos rfl, ?_, ?_⟩
    · rw [resolved_congr hall]; exact hres
    · rw [longest_sum_congr hall]
  refine ⟨hall, ?_, hp, ?_⟩
  · intro q
    by_cases hq : q = p
    · subst hq; simp [hcp]
    · simp [hq]
  · intro q hm
    by_cases hq : q = p
    · subst hq; exact hp
    · exact maxAnnotated_congr hs' (by simp [hq]) hm

/-! ## The maximum pass annotates the whole fan-in -/

theorem compute_max_delays_annot :
    ∀ (n : Nat) (cells : Cells) (p : Nat), resolved n cells p = true →
      longest_sum n cells p ≤ ULONG_MAX →
      ∃ cells', compute_max_delays n cells p = .ok (cells', longest_sum n cells p) ∧
        SameShape cells cells' ∧ KeepsMin cells cells' ∧
        (∀ q, Reach cells p q → MaxAnnotated cells' q) ∧
        (∀ q, MaxAnnotated cells q → MaxAnnotated cells' q) := by
  intro n
  induction n with
  | zero => intro cells p h; simp [resolved] at h
  | succ n ih =>
    intro cells p hres hle
    obtain ⟨c, hp, hk⟩ := node_cases hres
    rcases hk with ⟨hr, hi⟩ | ⟨hr, x, hi, hx⟩ | ⟨hr, hv, x, hi, hx⟩ | ⟨hr, hv, g, hg, hi, h0⟩ |
      ⟨hr, hv, g, a, hg, hi, hin⟩
    · obtain ⟨h1, h2, h3, h4⟩ := set_max_annot (SameShape.refl cells) hp hres
      have hl : longest_sum (n + 1) cells p = 0 := by simp [longest_sum, hp, hr, hi]
      refine ⟨_, ?_, h1, h2, ?_, h4⟩
      · simp [compute_max_delays, load, hp, hr, hi, bind, Except.bind, pure, Except.pure,
          set_max_delay, hl]
      · intro q hq
        rw [reach_no_input hp hi hq]
        exact h3
    · have hl : longest_sum (n + 1) cells p = longest_sum n cells x := by
        simp [longest_sum, hp, hr, hi]
      obtain ⟨s, hrun, hs, hkm, hreach, hkeep⟩ := ih cells x hx (hl ▸ hle)
      obtain ⟨cp, hcp, _⟩ := hs.some hp
      obtain ⟨h1, h2, h3, h4⟩ := set_max_annot hs hcp hres
      refine ⟨_, ?_, h1, fun q => (h2 q).trans (hkm q), ?_, fun q hq => h4 q (hkeep q hq)⟩
      · simp [compute_max_delays, load, hp, hr, hi, bind, Except.bind, pure, Except.pure,
          hrun, set_max_delay, hcp, hl]
      · intro q hq
        rcases reach_single hp (Or.inl hr) hi hq with rfl | hq
        · exact h3
        · exact h4 q (hreach q hq)
    · have hl : longest_sum (n + 1) cells p = longest_sum n cells x := by
        simp [longest_sum, hp, hr, hv, hi]
      obtain ⟨s, hrun, hs, hkm, hreach, hkeep⟩ := ih cells x hx (hl ▸ hle)
      obtain ⟨cp, hcp, _⟩ := hs.some hp
      obtain ⟨h1, h2, h3, h4⟩ := set_max_annot hs hcp hres
      refine ⟨_, ?_, h1, fun q => (h2 q).trans (hkm q), ?_, fun q hq => h4 q (hkeep q hq)⟩
      · simp [compute_max_delays, load, hp, hr, hv, hi, bind, Except.bind, pure, Except.pure,
          hrun, set_max_delay, hcp, hl, deref_in]
      · intro q hq
        rcases reach_single hp (Or.inr hv) hi hq with rfl | hq
        · exact h3
        · exact h4 q (hreach q hq)
    · obtain ⟨h1, h2, h3, h4⟩ := set_max_annot (SameShape.refl cells) hp hres
      have hl : longest_sum (n + 1) cells p = g.delay := by
        simp [longest_sum, hp, hr, hv, hg, hi]
      refine ⟨_, ?_, h1, h2, ?_, h4⟩
      · rw [hl] at hle
        simp [compute_max_delays, load, hp, hr, hv, hg, hi, bind, Except.bind, pure,
          Except.pure, set_max_delay, hl, h0, for_range, wrap_of_le hle]
      · intro q hq
        rw [reach_no_input hp hi hq]
        exact h3
    · have hl := longest_sum_app (n := n) hp hr hv hg hi
      set f := fun i => longest_sum n cells (a + SIZEOF_CIRCUIT * i) with hf
      have hfle : ∀ j, j < g.arity → f j ≤ ULONG_MAX := by
        intro j hj
        have : f j ≤ ((List.range g.arity).map f).foldl max 0 :=
          le_foldl_max (List.mem_map.mpr ⟨j, List.mem_range.mpr hj, rfl⟩) 0
        omega
      obtain ⟨s', hloop, hsame, hacc, hkm, hreach, hkeep⟩ := for_range_inv
        (fun (s : Cells × Nat) i =>
          input_ptr c i >>= fun q => compute_max_delays n s.1 q >>= fun r =>
            pure (r.1, MAX s.2 r.2))
        (fun j s => SameShape cells s.1 ∧
          s.2 = ((List.range' 0 j).map f).foldl max 0 ∧ KeepsMin cells s.1 ∧
          (∀ i, i < j → ∀ q, Reach cells (a + SIZEOF_CIRCUIT * i) q → MaxAnnotated s.1 q) ∧
          (∀ q, MaxAnnotated cells q → MaxAnnotated s.1 q))
        g.arity 0 (cells, 0)
        ⟨SameShape.refl _, rfl, fun _ => rfl, fun i hi0 => by omega, fun _ h => h⟩
        (by
          rintro j ⟨cj, acc⟩ _ hj ⟨hsj, haccj, hkmj, hreachj, hkeepj⟩
          have hj : j < g.arity := by omega
          have e1 := resolved_congr hsj n (a + SIZEOF_CIRCUIT * j)
          have e2 := longest_sum_congr hsj n (a + SIZEOF_CIRCUIT * j)
          obtain ⟨cells1, h1, hs1, hkm1, hreach1, hkeep1⟩ := ih cj (a + SIZEOF_CIRCUIT * j)
            (by rw [e1]; exact hin j hj) (by rw [e2]; exact hfle j hj)
          refine ⟨(cells1, MAX acc (f j)), ?_, hsj.trans hs1, ?_,
            fun q => (hkm1 q).trans (hkmj q), ?_, fun q hq => hkeep1 q (hkeepj q hq)⟩
          · simp only [input_ptr, hi, bind, Except.bind, pure, Except.pure, h1, e2]
          · simp only at haccj
            simp only [range'_snoc, List.map_append, foldl_max_snoc, MAX_eq_max, haccj,
              List.map_cons, List.map_nil, Nat.zero_add]
          · intro i hij q hq
            by_cases hije : i = j
            · subst hije
              exact hreach1 q (reach_congr hsj hq)
            · exact hkeep1 q (hreachj i (by omega) q hq))
      simp only [Nat.zero_add] at hsame hacc hreach
      rw [← List.range_eq_range'] at hacc
      obtain ⟨cp, hcp, _⟩ := hsame.some hp
      have hw : wrap (s'.2 + g.delay) = longest_sum (n + 1) cells p := by
        rw [hl, ← hacc]; apply wrap_of_le; rw [hacc, ← hl]; exact hle
      obtain ⟨h1, h2, h3, h4⟩ := set_max_annot hsame hcp hres
      refine ⟨_, ?_, h1, fun q => (h2 q).trans (hkm q), ?_, fun q hq => h4 q (hkeep q hq)⟩
      · rw [compute_max_delays_app hp hr hv hg, hloop]
        simp only [bind, Except.bind, set_max_delay_ok hcp, pure, Except.pure, hw]
      · intro q hq
        rcases reach_app hp hr hv hg hi hq with rfl | ⟨i, hlt, hq⟩
        · exact h3
        · exact h4 q (hreach i hlt q hq)

/-! ## The minimum pass annotates the whole fan-in -/

theorem foldl_min_le (l : List Nat) (acc : Nat) : l.foldl min acc ≤ acc := by
  induction l generalizing acc with
  | nil => exact Nat.le_refl _
  | cons x l ih => exact Nat.le_trans (ih (min acc x)) (Nat.min_le_left _ _)

theorem foldl_min_mem (l : List Nat) (acc : Nat) :
    l.foldl min acc = acc ∨ l.foldl min acc ∈ l := by
  induction l generalizing acc with
  | nil => exact Or.inl rfl
  | cons x l ih =>
    rcases ih (min acc x) with h | h
    · rw [List.foldl_cons, h]
      rcases Nat.le_total acc x with hx | hx
      · left; exact Nat.min_eq_left hx
      · right; rw [Nat.min_eq_right hx]; exact List.mem_cons_self _ _
    · right; exact List.mem_cons_of_mem _ h

theorem foldl_min_snoc (l : List Nat) (acc x : Nat) :
    (l ++ [x]).foldl min acc = min (l.foldl min acc) x := by
  simp [List.foldl_append]

theorem min_ann_bound :
    ∀ (n : Nat) (cells : Cells) (p : Nat), resolved n cells p = true →
      (min_ann n cells p = ULONG_MAX ∨ min_ann n cells p ≤ longest_sum n cells p) ∧
      (∀ c, cells p = some c → is_reg c = false → is_var c = false →
        min_ann n cells p ≤ longest_sum n cells p) := by
  intro n
  induction n with
  | zero => intro cells p h; simp [resolved] at h
  | succ n ih =>
    intro cells p hres
    obtain ⟨c, hp, hk⟩ := node_cases hres
    have contra_r : is_reg c = true → ∀ c', cells p = some c' → is_reg c' = false → False := by
      intro hr c' hc' hr'
      rw [hp] at hc'
      rw [← Option.some.inj hc', hr] at hr'
      cases hr'
    have contra_v : is_var c = true → ∀ c', cells p = some c' → is_var c' = false → False := by
      intro hv c' hc' hv'
      rw [hp] at hc'
      rw [← Option.some.inj hc', hv] at hv'
      cases hv'
    rcases hk with ⟨hr, hi⟩ | ⟨hr, x, hi, hx⟩ | ⟨hr, hv, x, hi, hx⟩ | ⟨hr, hv, g, hg, hi, h0⟩ |
      ⟨hr, hv, g, a, hg, hi, hin⟩
    · exact ⟨Or.inl (by simp [min_ann, hp, hr, hi]),
        fun c' hc' hr' _ => (contra_r hr c' hc' hr').elim⟩
    · have e1 : min_ann (n + 1) cells p = min_ann n cells x := by simp [min_ann, hp, hr, hi]
      have e2 : longest_sum (n + 1) cells p = longest_sum n cells x := by
        simp [longest_sum, hp, hr, hi]
      rw [e1, e2]
      exact ⟨(ih cells x hx).1, fun c' hc' hr' _ => (contra_r hr c' hc' hr').elim⟩
    · have e1 : min_ann (n + 1) cells p = min_ann n cells x := by
        simp [min_ann, hp, hr, hv, hi]
      have e2 : longest_sum (n + 1) cells p = longest_sum n cells x := by
        simp [longest_sum, hp, hr, hv, hi]
      rw [e1, e2]
      exact ⟨(ih cells x hx).1, fun c' hc' _ hv' => (contra_v hv c' hc' hv').elim⟩
    · have e1 : min_ann (n + 1) cells p = g.delay := by simp [min_ann, hp, hr, hv, hg, hi]
      have e2 : longest_sum (n + 1) cells p = g.delay := by
        simp [longest_sum, hp, hr, hv, hg, hi]
      rw [e1, e2]
      exact ⟨Or.inr (Nat.le_refl _), fun _ _ _ _ => Nat.le_refl _⟩
    · rw [min_ann_app hp hr hv hg hi, longest_sum_app hp hr hv hg hi]
      have key : (if ((List.range g.arity).map
            (fun i => min_ann n cells (a + SIZEOF_CIRCUIT * i))).foldl min ULONG_MAX = ULONG_MAX
          then 0
          else ((List.range g.arity).map
            (fun i => min_ann n cells (a + SIZEOF_CIRCUIT * i))).foldl min ULONG_MAX) ≤
          ((List.range g.arity).map
            (fun i => longest_sum n cells (a + SIZEOF_CIRCUIT * i))).foldl max 0 := by
        split
        · exact Nat.zero_le _
        · rename_i hne
          rcases foldl_min_mem ((List.range g.arity).map
            (fun i => min_ann n cells (a + SIZEOF_CIRCUIT * i))) ULONG_MAX with h | h
          · exact absurd h hne
          · obtain ⟨i, hi1, hi2⟩ := List.mem_map.mp h
            have hlt := List.mem_range.mp hi1
            rw [← hi2]
            rw [← hi2] at hne
            rcases (ih cells _ (hin i hlt)).1 with hu | hle
            · exact absurd hu hne
            · exact Nat.le_trans hle
                (le_foldl_max (l := (List.range g.arity).map
                  (fun i => longest_sum n cells (a + SIZEOF_CIRCUIT * i)))
                  (List.mem_map.mpr ⟨i, hi1, rfl⟩) 0)
      exact ⟨Or.inr (by omega), fun _ _ _ _ => by omega⟩

theorem compute_min_delays_app {n : Nat} {cells : Cells} {p : Nat} {c : Circuit} {g : Gate}
    (hp : cells p = some c) (hr : is_reg c = false) (hv : is_var c = false)
    (hg : c.gate = some g) :
    compute_min_delays (n + 1) cells p =
      (for_range (fun (s : Cells × Nat) i =>
          input_ptr c i >>= fun q => compute_min_delays n s.1 q >>= fun r =>
            pure (r.1, MIN s.2 r.2)) g.arity 0 (cells, ULONG_MAX)) >>= fun r =>
        set_min_delay r.1 p (wrap ((if r.2 = ULONG_MAX then 0 else r.2) + g.delay)) >>=
          fun cells' =>
            pure (cells', wrap ((if r.2 = ULONG_MAX then 0 else r.2) + g.delay)) := by
  simp only [compute_min_delays, load, hp, hr, hv, hg, Bool.false_eq_true, if_false, pure_bind,
    bind_assoc]

/-- The store of the minimum annotation of `p` into a memory of the same shape. -/
theorem set_min_annot {cells s : Cells} {p k : Nat} {cp : Circuit}
    (hs : SameShape cells s) (hcp : s p = some cp) (hres : resolved k cells p = true) :
    SameShape cells
      (fun q => if q = p then some { cp with min_delay := min_ann k cells p } else s q) ∧
    MinAnnotated
      (fun q => if q = p then some { cp with min_delay := min_ann k cells p } else s q) p ∧
    ∀ q, MinAnnotated s q → MinAnnotated
      (fun q => if q = p then some { cp with min_delay := min_ann k cells p } else s q) q := by
  have hs' := sameShape_set_min hcp (min_ann k cells p)
  have hall := hs.trans hs'
  have hp : MinAnnotated
      (fun q => if q = p then some { cp with min_delay := min_ann k cells p } else s q)
      p := by
    refine ⟨{ cp with min_delay := min_ann k cells p }, k, if_pos rfl, ?_, ?_⟩
    · rw [resolved_congr hall]; exact hres
    · rw [min_ann_congr hall]
  refine ⟨hall, hp, ?_⟩
  intro q hm
  by_cases hq : q = p
  · subst hq; exact hp
  · exact minAnnotated_congr hs' (by simp [hq]) hm

theorem compute_min_delays_annot :
    ∀ (n : Nat) (cells : Cells) (p : Nat), resolved n cells p = true →
      longest_sum n cells p ≤ ULONG_MAX →
      ∃ cells', compute_min_delays n cells p = .ok (cells', min_ann n cells p) ∧
        SameShape cells cells' ∧
        (∀ q, Reach cells p q → MinAnnotated cells' q) ∧
        (∀ q, MinAnnotated cells q → MinAnnotated cells' q) := by
  intro n
  induction n with
  | zero => intro cells p h; simp [resolved] at h
  | succ n ih =>
    intro cells p hres hle
    obtain ⟨c, hp, hk⟩ := node_cases hres
    rcases hk with ⟨hr, hi⟩ | ⟨hr, x, hi, hx⟩ | ⟨hr, hv, x, hi, hx⟩ | ⟨hr, hv, g, hg, hi, h0⟩ |
      ⟨hr, hv, g, a, hg, hi, hin⟩
    · obtain ⟨h1, h3, h4⟩ := set_min_annot (SameShape.refl cells) hp hres
      have hl : min_ann (n + 1) cells p = ULONG_MAX := by simp [min_ann, hp, hr, hi]
      refine ⟨_, ?_, h1, ?_, h4⟩
      · simp [compute_min_delays, load, hp, hr, hi, bind, Except.bind, pure, Except.pure,
          set_min_delay, hl]
      · intro q hq
        rw [reach_no_input hp hi hq]
        exact h3
    · have hl : longest_sum (n + 1) cells p = longest_sum n cells x := by
        simp [longest_sum, hp, hr, hi]
      have hm : min_ann (n + 1) cells p = min_ann n cells x := by
        simp [min_ann, hp, hr, hi]
      obtain ⟨s, hrun, hs, hreach, hkeep⟩ := ih cells x hx (hl ▸ hle)
      obtain ⟨cp, hcp, _⟩ := hs.some hp
      obtain ⟨h1, h3, h4⟩ := set_min_annot hs hcp hres
      refine ⟨_, ?_, h1, ?_, fun q hq => h4 q (hkeep q hq)⟩
      · simp [compute_min_delays, load, hp, hr, hi, bind, Except.bind, pure, Except.pure,
          hrun, set_min_delay, hcp, hm]
      · intro q hq
        rcases reach_single hp (Or.inl hr) hi hq with rfl | hq
        · exact h3
        · exact h4 q (hreach q hq)
    · have hl : longest_sum (n + 1) cells p = longest_sum n cells x := by
        simp [longest_sum, hp, hr, hv, hi]
      have hm : min_ann (n + 1) cells p = min_ann n cells x := by
        simp [min_ann, hp, hr, hv, hi]
      obtain ⟨s, hrun, hs, hreach, hkeep⟩ := ih cells x hx (hl ▸ hle)
      obtain ⟨cp, hcp, _⟩ := hs.some hp
      obtain ⟨h1, h3, h4⟩ := set_min_annot hs hcp hres
      refine ⟨_, ?_, h1, ?_, fun q hq => h4 q (hkeep q hq)⟩
      · simp [compute_min_delays, load, hp, hr, hv, hi, bind, Except.bind, pure, Except.pure,
          hrun, set_min_delay, hcp, hm, deref_in]
      · intro q hq
        rcases reach_single hp (Or.inr hv) hi hq with rfl | hq
        · exact h3
        · exact h4 q (hreach q hq)
    · obtain ⟨h1, h3, h4⟩ := set_min_annot (SameShape.refl cells) hp hres
      have hl : longest_sum (n + 1) cells p = g.delay := by
        simp [longest_sum, hp, hr, hv, hg, hi]
      have hm : min_ann (n + 1) cells p = g.delay := by
        simp [min_ann, hp, hr, hv, hg, hi]
      refine ⟨_, ?_, h1, ?_, h4⟩
      · rw [hl] at hle
        simp [compute_min_delays, load, hp, hr, hv, hg, hi, bind, Except.bind, pure,
          Except.pure, set_min_delay, hm, h0, for_range, wrap_of_le hle]
      · intro q hq
        rw [reach_no_input hp hi hq]
        exact h3
    · have hl := longest_sum_app (n := n) hp hr hv hg hi
      have hm := min_ann_app (n := n) hp hr hv hg hi
      have hbound := (min_ann_bound (n + 1) cells p hres).2 c hp hr hv
      set f := fun i => min_ann n cells (a + SIZEOF_CIRCUIT * i) with hf
      have hfle : ∀ j, j < g.arity →
          longest_sum n cells (a + SIZEOF_CIRCUIT * j) ≤ ULONG_MAX := by
        intro j hj
        have : longest_sum n cells (a + SIZEOF_CIRCUIT * j) ≤
            ((List.range g.arity).map
              (fun i => longest_sum n cells (a + SIZEOF_CIRCUIT * i))).foldl max 0 :=
          le_foldl_max (l := (List.range g.arity).map
            (fun i => longest_sum n cells (a + SIZEOF_CIRCUIT * i)))
            (List.mem_map.mpr ⟨j, List.mem_range.mpr hj, rfl⟩) 0
        omega
      obtain ⟨s', hloop, hsame, hacc, hreach, hkeep⟩ := for_range_inv
        (fun (s : Cells × Nat) i =>
          input_ptr c i >>= fun q => compute_min_delays n s.1 q >>= fun r =>
            pure (r.1, MIN s.2 r.2))
        (fun j s => SameShape cells s.1 ∧
          s.2 = ((List.range' 0 j).map f).foldl min ULONG_MAX ∧
          (∀ i, i < j → ∀ q, Reach cells (a + SIZEOF_CIRCUIT * i) q → MinAnnotated s.1 q) ∧
          (∀ q, MinAnnotated cells q → MinAnnotated s.1 q))
        g.arity 0 (cells, ULONG_MAX)
        ⟨SameShape.refl _, rfl, fun i hi0 => by omega, fun _ h => h⟩
        (by
          rintro j ⟨cj, acc⟩ _ hj ⟨hsj, haccj, hreachj, hkeepj⟩
          have hj : j < g.arity := by omega
          have e1 := resolved_congr hsj n (a + SIZEOF_CIRCUIT * j)
          have e2 := longest_sum_congr hsj n (a + SIZEOF_CIRCUIT * j)
          have e3 := min_ann_congr hsj n (a + SIZEOF_CIRCUIT * j)
          obtain ⟨cells1, h1, hs1, hreach1, hkeep1⟩ := ih cj (a + SIZEOF_CIRCUIT * j)
            (by rw [e1]; exact hin j hj) (by rw [e2]; exact hfle j hj)
          refine ⟨(cells1, MIN acc (f j)), ?_, hsj.trans hs1, ?_, ?_,
            fun q hq => hkeep1 q (hkeepj q hq)⟩
          · simp only [input_ptr, hi, bind, Except.bind, pure, Except.pure, h1, e3]
          · simp only at haccj
            simp only [range'_snoc, List.map_append, foldl_min_snoc, MIN_eq_min, haccj,
              List.map_cons, List.map_nil, Nat.zero_add]
          · intro i hij q hq
            by_cases hije : i = j
            · subst hije
              exact hreach1 q (reach_congr hsj hq)
            · exact hkeep1 q (hreachj i (by omega) q hq))
      simp only [Nat.zero_add] at hsame hacc hreach
      rw [← List.range_eq_range'] at hacc
      obtain ⟨cp, hcp, _⟩ := hsame.some hp
      have hw : wrap ((if s'.2 = ULONG_MAX then 0 else s'.2) + g.delay) =
          min_ann (n + 1) cells p := by
        rw [hm, ← hacc]; apply wrap_of_le; rw [hacc, ← hm]; omega
      obtain ⟨h1, h3, h4⟩ := set_min_annot hsame hcp hres
      refine ⟨_, ?_, h1, ?_, fun q hq => h4 q (hkeep q hq)⟩
      · rw [compute_min_delays_app hp hr hv hg, hloop]
        simp only [bind, Except.bind, set_min_delay_ok hcp, pure, Except.pure, hw]
      · intro q hq
        rcases reach_app hp hr hv hg hi hq with rfl | ⟨i, hlt, hq⟩
        · exact h3
        · exact h4 q (hreach i hlt q hq)

/-! ## The queries after the passes -/

theorem maxAnnotated_value {cells : Cells} {q n : Nat} {r : Circuit}
    (hm : MaxAnnotated cells q) (hq : cells q = some r) (hres : resolved n cells q = true) :
    r.max_delay = longest_sum n cells q := by
  obtain ⟨c, k, hc, hk, hv⟩ := hm
  rw [hq] at hc
  obtain rfl := Option.some.inj hc
  rw [hv, (values_stable hres hk).1]

theorem minAnnotated_value {cells : Cells} {q n : Nat} {r : Circuit}
    (hm : MinAnnotated cells q) (hq : cells q = some r) (hres : resolved n cells q = true) :
    r.min_delay = min_ann n cells q := by
  obtain ⟨c, k, hc, hk, hv⟩ := hm
  rw [hq] at hc
  obtain rfl := Option.some.inj hc
  rw [hv, (values_stable hres hk).2]

/-- C19: on a resolved acyclic graph in which no path sum exceeds `ULONG_MAX`,
after `compute_max_delays` the query `get_max_delay` on the node returns at
most the `max_delay` stored in the node, and exactly that value when the node
is a register. -/
theorem get_max_delay_le_annotation (n : Nat) (cells : Cells) (p : Nat)
    (hres : resolved n cells p = true)
    (hbound : ∀ s, PathSum cells p s → s ≤ ULONG_MAX) :
    ∃ cells' c' m, compute_max_delays n cells p = .ok (cells', c'.max_delay) ∧
      cells' p = some c' ∧ get_max_delay n cells' c' = .ok m ∧
      m ≤ c'.max_delay ∧ (is_reg c' = true → m = c'.max_delay) := by
  have hle : longest_sum n cells p ≤ ULONG_MAX := hbound _ (pathSum_longest_sum n cells p hres)
  obtain ⟨cells', hrun, hs, _, hreach, _⟩ := compute_max_delays_annot n cells p hres hle
  obtain ⟨c, hc⟩ := resolved_some hres
  obtain ⟨c', hc', _⟩ := hs.some hc
  have hres' : resolved n cells' p = true := by rw [resolved_congr hs]; exact hres
  have hval : c'.max_delay = longest_sum n cells p := by
    rw [maxAnnotated_value (hreach p Relation.ReflTransGen.refl) hc' hres',
      longest_sum_congr hs]
  obtain ⟨m, hm, hub, hat⟩ := get_max_delay_extremal n cells' p c' hres' hc'
  have hmle : m ≤ c'.max_delay := by
    rcases hat with h0 | ⟨r, ⟨q, hq, hrq, _⟩, hrm⟩
    · omega
    · have hq' : Reach cells p q := reach_congr hs.symm hq
      obtain ⟨h1, h2⟩ := resolved_reach hq' n hres
      have h3 : resolved n cells' q = true := by rw [resolved_congr hs]; exact h1
      have h4 := maxAnnotated_value (hreach q hq') hrq h3
      rw [longest_sum_congr hs] at h4
      omega
  refine ⟨cells', c', m, by rw [hval]; exact hrun, hc', hm, hmle, ?_⟩
  intro hr
  have := hub c' (regReach_self hc' hr)
  omega

/-- C20: on a resolved acyclic graph in which no path sum exceeds `ULONG_MAX`,
after both annotation passes every operator application in the fan-in of the
node has `min_delay ≤ max_delay`, and when `get_min_delay` on the node does not
return the sentinel `ULONG_MAX` it returns at most what `get_max_delay`
returns. -/
theorem min_delay_le_max_delay (n : Nat) (cells : Cells) (p : Nat)
    (hres : resolved n cells p = true)
    (hbound : ∀ s, PathSum cells p s → s ≤ ULONG_MAX) :
    ∃ cells1 v1 cells2 v2 c2 mn mx,
      compute_min_delays n cells p = .ok (cells1, v1) ∧
      compute_max_delays n cells1 p = .ok (cells2, v2) ∧
      cells2 p = some c2 ∧
      (∀ q c, Reach cells p q → cells2 q = some c → is_reg c = false → is_var c = false →
        c.min_delay ≤ c.max_delay) ∧
      get_min_delay n cells2 c2 = .ok mn ∧ get_max_delay n cells2 c2 = .ok mx ∧
      (mn ≠ ULONG_MAX → mn ≤ mx) := by
  have hle : longest_sum n cells p ≤ ULONG_MAX := hbound _ (pathSum_longest_sum n cells p hres)
  obtain ⟨cells1, hrun1, hs1, hreach1, _⟩ := compute_min_delays_annot n cells p hres hle
  have hres1 : resolved n cells1 p = true := by rw [resolved_congr hs1]; exact hres
  have hle1 : longest_sum n cells1 p ≤ ULONG_MAX := by rw [longest_sum_congr hs1]; exact hle
  obtain ⟨cells2, hrun2, hs2, hkm, hreach2, _⟩ :=
    compute_max_delays_annot n cells1 p hres1 hle1
  have hs := hs1.trans hs2
  have hres2 : resolved n cells2 p = true := by rw [resolved_congr hs]; exact hres
  obtain ⟨c2, hc2⟩ := resolved_some hres2
  have facts : ∀ q c, Reach cells p q → cells2 q = some c →
      resolved n cells2 q = true ∧ c.min_delay = min_ann n cells2 q ∧
      c.max_delay = longest_sum n cells2 q ∧ longest_sum n cells2 q ≤ ULONG_MAX := by
    intro q c hq hc
    obtain ⟨h1, h2⟩ := resolved_reach hq n hres
    have h3 : resolved n cells2 q = true := by rw [resolved_congr hs]; exact h1
    have hmin : MinAnnotated cells2 q := minAnnotated_congr hs2 (hkm q) (hreach1 q hq)
    have hmax : MaxAnnotated cells2 q := hreach2 q (reach_congr hs1 hq)
    refine ⟨h3, minAnnotated_value hmin hc h3, maxAnnotated_value hmax hc h3, ?_⟩
    rw [longest_sum_congr hs]
    omega
  have hb : ∀ r, RegReach cells2 p r → r.min_delay ≤ ULONG_MAX := by
    rintro r ⟨q, hq, hc, _⟩
    obtain ⟨h1, h2, _, h4⟩ := facts q r (reach_congr hs.symm hq) hc
    rcases (min_ann_bound n cells2 q h1).1 with h | h <;> omega
  obtain ⟨mx, hmx, hub, _⟩ := get_max_delay_extremal n cells2 p c2 hres2 hc2
  obtain ⟨mn, hmn, _, _, hat⟩ := get_min_delay_extremal n cells2 p c2 hres2 hc2 hb
  refine ⟨cells1, _, cells2, _, c2, mn, mx, hrun1, hrun2, hc2, ?_, hmn, hmx, ?_⟩
  · intro q c hq hc hr hv
    obtain ⟨h1, h2, h3, _⟩ := facts q c hq hc
    rw [h2, h3]
    exact (min_ann_bound n cells2 q h1).2 c hc hr hv
  · intro hne
    rcases hat with h | ⟨r, ⟨q, hq, hc, hrr⟩, hrm⟩
    · exact absurd h hne
    · obtain ⟨h1, h2, h3, _⟩ := facts q r (reach_congr hs.symm hq) hc
      have := hub r ⟨q, hq, hc, hrr⟩
      rcases (min_ann_bound n cells2 q h1).1 with h | h <;> omega

/-- C14 applies to the memory `registers_cells`: the registers in the fan-in of
the output hold the maximum annotations 12, 7 and 0 and the minimum annotations
12, 7 and `ULONG_MAX`; the queries return 12 and 7. -/
theorem get_delay_extremal_witness :
    resolved 5 registers_cells ROOT = true ∧
    registers_cells ROOT = some ⟨none, none, some 0, false, 12, 12⟩ ∧
    (∀ r, RegReach registers_cells ROOT r → r.min_delay ≤ ULONG_MAX) ∧
    get_max_delay 5 registers_cells ⟨none, none, some 0, false, 12, 12⟩ = .ok 12 ∧
    get_min_delay 5 registers_cells ⟨none, none, some 0, false, 12, 12⟩ = .ok 7 ∧
    ∃ mx mn,
      get_max_delay 5 registers_cells ⟨none, none, some 0, false, 12, 12⟩ = .ok mx ∧
      get_min_delay 5 registers_cells ⟨none, none, some 0, false, 12, 12⟩ = .ok mn ∧
      (∀ r, RegReach registers_cells ROOT r → r.max_delay ≤ mx) ∧
      ((∃ r, RegReach registers_cells ROOT r ∧ r.max_delay = mx) ∨
        ((¬ ∃ r, RegReach registers_cells ROOT r) ∧ mx = 0)) ∧
      (∀ r, RegReach registers_cells ROOT r → mn ≤ r.min_delay) ∧
      ((∃ r, RegReach registers_cells ROOT r ∧ r.min_delay = mn) ∨
        ((¬ ∃ r, RegReach registers_cells ROOT r) ∧ mn = ULONG_MAX)) :=
  have hb : ∀ r, RegReach registers_cells ROOT r → r.min_delay ≤ ULONG_MAX := by
    rintro r ⟨q, _, hc, _⟩
    unfold registers_cells at hc
    split_ifs at hc <;> cases hc <;> decide
  ⟨by decide, rfl, hb, by decide, by decide,
    get_delay_extremal 5 registers_cells ROOT _ (by decide) rfl hb⟩

/-- C19 applies to the graph of `registers_cells`, whose output is a
register. -/
theorem get_max_delay_le_annotation_witness :
    resolved 5 registers_cells ROOT = true ∧
    (∀ s, PathSum registers_cells ROOT s → s ≤ ULONG_MAX) ∧
    ∃ cells' c' m, compute_max_delays 5 registers_cells ROOT =
        .ok (cells', c'.max_delay) ∧
      cells' ROOT = some c' ∧ get_max_delay 5 cells' c' = .ok m ∧
      m ≤ c'.max_delay ∧ (is_reg c' = true → m = c'.max_delay) :=
  have hbound : ∀ s, PathSum registers_cells ROOT s → s ≤ ULONG_MAX :=
    fun s hs => Nat.le_trans
      (pathSum_le_longest_sum 5 registers_cells ROOT (by decide) s hs) (by decide)
  ⟨by decide, hbound,
    get_max_delay_le_annotation 5 registers_cells ROOT (by decide) hbound⟩

/-- C20 applies to the graph of `registers_cells`. -/
theorem min_delay_le_max_delay_witness :
    resolved 5 registers_cells ROOT = true ∧
    (∀ s, PathSum registers_cells ROOT s → s ≤ ULONG_MAX) ∧
    ∃ cells1 v1 cells2 v2 c2 mn mx,
      compute_min_delays 5 registers_cells ROOT = .ok (cells1, v1) ∧
      compute_max_delays 5 cells1 ROOT = .ok (cells2, v2) ∧
      cells2 ROOT = some c2 ∧
      (∀ q c, Reach registers_cells ROOT q → cells2 q = some c → is_reg c = false →
        is_var c = false → c.min_delay ≤ c.max_delay) ∧
      get_min_delay 5 cells2 c2 = .ok mn ∧ get_max_delay 5 cells2 c2 = .ok mx ∧
      (mn ≠ ULONG_MAX → mn ≤ mx) :=
  have hbound : ∀ s, PathSum registers_cells ROOT s → s ≤ ULONG_MAX :=
    fun s hs => Nat.le_trans
      (pathSum_le_longest_sum 5 registers_cells ROOT (by decide) s hs) (by decide)
  ⟨by decide, hbound,
    min_delay_le_max_delay 5 registers_cells ROOT (by decide) hbound⟩

/-! ## More budget does not change a result of resolution -/

theorem for_range_mono {σ : Type} (b1 b2 : σ → Nat → Except Err σ)
    (h : ∀ s i r, b1 s i = .ok r → b2 s i = .ok r) :
    ∀ (k i : Nat) (s r : σ), for_range b1 k i s = .ok r → for_range b2 k i s = .ok r := by
  intro k
  induction k with
  | zero => intro i s r hr; exact hr
  | succ k ih =>
    intro i s r hr
    unfold for_range at hr ⊢
    cases hb : b1 s i with
    | error e => simp [hb, bind, Except.bind] at hr
    | ok s1 =>
      simp only [hb, bind, Except.bind] at hr
      simp only [h s i s1 hb, bind, Except.bind]
      exact ih (i + 1) s1 r hr

theorem resolve_circuit_mono (file : File) (vars : Vars) :
    ∀ (n : Nat) (cells : Cells) (p : Nat) (r : Cells),
      resolve_circuit file vars n cells p = .ok r →
      resolve_circuit file vars (n + 1) cells p = .ok r := by
  intro n
  induction n with
  | zero =>
    intro cells p r h
    simp [resolve_circuit, throw, throwThe, MonadExceptOf.throw] at h
  | succ n ih =>
    intro cells p r h
    cases hp : cells p with
    | none =>
      simp [resolve_circuit, load, hp, bind, Except.bind, throw, throwThe,
        MonadExceptOf.throw] at h
    | some c =>
      rw [resolve_circuit_succ hp] at h ⊢
      by_cases hv : is_var c = true
      · simp only [hv, if_true] at h ⊢
        by_cases hi : c.inp.isSome = true
        · simp only [hi, if_true] at h ⊢
          exact h
        · simp only [hi, Bool.false_eq_true, if_false] at h ⊢
          cases ht : c.var with
          | none => simp [ht] at h
          | some token =>
            simp only [ht] at h ⊢
            cases hf : find_var file token vars.names 0 with
            | error e => simp [hf, bind, Except.bind] at h
            | ok o =>
              simp only [hf, bind, Except.bind] at h ⊢
              cases o with
              | none => simp at h
              | some i => exact ih _ _ r h
      · simp only [hv, Bool.false_eq_true, if_false] at h ⊢
        by_cases hr : is_reg c = true
        · simp only [hr, if_true] at h ⊢
          cases hi : c.inp with
          | none => simpa [hi] using h
          | some q =>
            simp only [hi] at h ⊢
            exact ih _ _ r h
        · simp only [hr, Bool.false_eq_true, if_false] at h ⊢
          cases hg : c.gate with
          | none => simp [hg] at h
          | some g =>
            cases hi : c.inp with
            | none => simpa [hg, hi] using h
            | some a =>
              simp only [hg, hi] at h ⊢
              exact for_range_mono _ _ (fun s i r' hr' => ih s _ r' hr') _ _ _ _ h

theorem resolve_circuit_mono_le (file : File) (vars : Vars) {n m : Nat} (hle : n ≤ m)
    {cells r : Cells} {p : Nat} (h : resolve_circuit file vars n cells p = .ok r) :
    resolve_circuit file vars m cells p = .ok r := by
  induction hle with
  | refl => exact h
  | step _ ih => exact resolve_circuit_mono file vars _ cells p r ih

/-- C16, as stated, fails: `resolve_circuit` returns on the output of
`x is x , x` with a budget of 3 calls and on the output of
`x is AND x [ ] , x` with a budget of 5 calls. -/
theorem resolve_circuit_self_returns :
    (resolve_circuit source_self (unresolved source_self).1 3
      (unresolved source_self).2 ROOT).toBool = true ∧
    (resolve_circuit source_self_and (unresolved source_self_and).1 5
      (unresolved source_self_and).2 ROOT).toBool = true := by
  decide

theorem compute_min_delays_self :
    ∀ k, compute_min_delays k (parsed_cells source_self) 40 = .error Err.fuel := by
  have h40 : parsed_cells source_self 40 =
      some ⟨some ⟨1, 0, some 25, 1⟩, none, some 40, false, 0, 0⟩ := by decide
  intro k
  induction k with
  | zero => rfl
  | succ k ih =>
    simp [compute_min_delays, load, h40, is_reg, is_var, deref_in, ih, bind, Except.bind,
      pure, Except.pure]

theorem compute_min_delays_self_and :
    ∀ k, compute_min_delays k (parsed_cells source_self_and) 72 = .error Err.fuel ∧
      compute_min_delays k (parsed_cells source_self_and) 120 = .error Err.fuel := by
  have h72 : parsed_cells source_self_and 72 =
      some ⟨none, some ⟨some 6, 3, 2, 1⟩, some 120, false, 0, 0⟩ := by decide
  have h120 : parsed_cells source_self_and 120 =
      some ⟨some ⟨1, 0, some 37, 1⟩, none, some 72, false, 0, 0⟩ := by decide
  intro k
  induction k with
  | zero => exact ⟨rfl, rfl⟩
  | succ k ih =>
    constructor
    · rw [compute_min_delays_app h72 rfl rfl rfl]
      simp [for_range, input_ptr, ih.2, bind, Except.bind, pure, Except.pure]
    · simp [compute_min_delays, load, h120, is_reg, is_var, deref_in, ih.1, bind, Except.bind,
        pure, Except.pure]

/-- C16, as the code has it: on the output of `x is x , x` and of
`x is AND x [ ] , x`, `resolve_circuit` returns for every budget of at least 3,
respectively 5, calls: it links the name in the body to the body itself and
stops at a name that is linked already.  It leaves a cycle, on which
`compute_min_delays`, the next step of `main`, exhausts every budget. -/
theorem self_reference_resolves :
    (∀ m, 3 ≤ m →
      resolve_circuit source_self (unresolved source_self).1 m
        (unresolved source_self).2 ROOT = .ok (parsed_cells source_self)) ∧
    (∀ k, compute_min_delays k (parsed_cells source_self) ROOT = .error Err.fuel) ∧
    (∀ m, 5 ≤ m →
      resolve_circuit source_self_and (unresolved source_self_and).1 m
        (unresolved source_self_and).2 ROOT = .ok (parsed_cells source_self_and)) ∧
    (∀ k, compute_min_delays k (parsed_cells source_self_and) ROOT = .error Err.fuel) := by
  have r1 : parsed_cells source_self ROOT =
      some ⟨some ⟨1, 0, some 29, 1⟩, none, some 40, false, 0, 0⟩ := by decide
  have r2 : parsed_cells source_self_and ROOT =
      some ⟨some ⟨1, 0, some 45, 1⟩, none, some 72, false, 0, 0⟩ := by decide
  refine ⟨?_, ?_, ?_, ?_⟩
  · intro m hm
    exact resolve_circuit_mono_le source_self _ hm (by rfl)
  · intro k
    cases k with
    | zero => rfl
    | succ k =>
      simp [compute_min_delays, load, r1, is_reg, is_var, deref_in, compute_min_delays_self k,
        bind, Except.bind, pure, Except.pure]
  · intro m hm
    exact resolve_circuit_mono_le source_self_and _ hm (by rfl)
  · intro k
    cases k with
    | zero => rfl
    | succ k =>
      simp [compute_min_delays, load, r2, is_reg, is_var, deref_in,
        (compute_min_delays_self_and k).1, bind, Except.bind, pure, Except.pure]

/-- C15, as stated, fails: in `source_unused` the body of the binding `x`,
which the output does not use, is the name `y`, and no binding has that name;
the run succeeds. -/
theorem parse_circuit_unused_binding :
    (unresolved source_unused).1.names = [⟨1, 0, some 30, 1⟩] ∧
    (unresolved source_unused).2 (var_formula (unresolved source_unused).1.arr 0) =
      some (mk_circuit (some ⟨1, 0, some 35, 1⟩) none none) ∧
    binding_index source_unused ⟨1, 0, some 35, 1⟩ (unresolved source_unused).1.names 0 =
      none ∧
    main 3 source_unused = .ok { shortest := none, longest := some (0, 1) } := by
  refine ⟨by decide, by decide, by decide, by decide⟩

/-- C15, as the code has it: `resolve_circuit` walks the expression at `p` and
the bodies of the bindings reached from it.  On a memory laid out as the
parsers leave it, its result, the same for every sufficient budget, is the
error `Variable not defined` exactly when a name without binding is reached
from `p`, directly or through bindings, and a memory otherwise; names in
bodies that are not reached do not matter. -/
theorem resolve_circuit_rejects_iff (file : File) (vars : Vars) (rank : Nat → Nat)
    (bound : Nat) (h : Cells) (p : Nat)
    (hw : WellFormed file vars rank bound h) (hp : (h p).isSome = true) :
    ∃ n R, (∀ m, n ≤ m → resolve_circuit file vars m h p = R) ∧
      ((∃ tok, R = .error (Err.not_defined tok)) ↔ ∃ tok, Undefined file vars h p tok) ∧
      ((∃ h', R = .ok h') ↔ ¬ ∃ tok, Undefined file vars h p tok) := by
  obtain ⟨n, R, hn, hs⟩ := resolve_circuit_total file vars rank bound _ _ h p rfl rfl hw hp
  have key : ∀ h', R = .ok h' → ¬ ∃ tok, Undefined file vars h p tok := by
    rintro h' hR ⟨tok, q, c, hreach, hc, ht, hi, hb⟩
    have hres : resolve_circuit file vars n h p = .ok h' := by rw [hn n (Nat.le_refl _), hR]
    obtain ⟨hl, htd, hnd⟩ := resolve_circuit_post file vars hw.names_inside n h p h'
      hw.tokens_inside hres
    obtain ⟨i, hi', _⟩ := linked_of_treeDone hl (treeDone_reach hl hnd htd hreach) hc ht hi
    rw [hb] at hi'
    cases hi'
  refine ⟨n, R, hn, ⟨?_, ?_⟩, ⟨?_, ?_⟩⟩
  · rintro ⟨tok, hR⟩
    rcases hs with ⟨h', hR', _⟩ | ⟨tok', _, hu⟩
    · rw [hR] at hR'; cases hR'
    · exact ⟨tok', hu⟩
  · intro hu
    rcases hs with ⟨h', hR', _⟩ | ⟨tok', hR', _⟩
    · exact absurd hu (key h' hR')
    · exact ⟨tok', hR'⟩
  · rintro ⟨h', hR⟩
    exact key h' hR
  · intro hno
    rcases hs with ⟨h', hR', _⟩ | ⟨tok', _, hu⟩
    · exact ⟨h', hR'⟩
    · exact absurd ⟨tok', hu⟩ hno

theorem source_unused_wellFormed :
    WellFormed source_unused source_unused_vars parsed_rank (ROOT + 1)
      source_unused_cells where
  dom := by
    intro a ha
    simp only [ROOT, INIT_ARENA_SIZE] at ha
    unfold source_unused_cells
    simp only [show a ≠ 10000 by omega, show a ≠ 40 by omega, if_false]
  reg := by
    intro a c q hc hv hr hi
    unfold source_unused_cells at hc
    split_ifs at hc <;> cases hc <;> simp [mk_circuit] at hi
  app := by
    intro a c hc hv hr
    unfold source_unused_cells at hc
    split_ifs at hc <;> cases hc <;> simp [is_var, is_reg, mk_circuit] at hv hr
  body := by
    intro i hi
    have : i = 0 := by simpa [source_unused_vars] using hi
    subst this
    decide
  names_inside := by
    intro t ht
    simp only [source_unused_vars, List.mem_singleton] at ht
    subst ht
    exact ⟨30, rfl, by decide⟩
  tokens_inside := by
    intro a c t hc ht
    unfold source_unused_cells at hc
    split_ifs at hc <;> cases hc <;> simp [mk_circuit] at ht
    subst ht
    exact ⟨35, rfl, by decide⟩

theorem source_unused_parsed :
    unresolved source_unused = (source_unused_vars, source_unused_cells) := by
  have h : unresolved source_unused = (source_unused_vars,
      ((((make_arena.store_token 88 ⟨1, 0, some 35, 1⟩).store_token 0 ⟨1, 0, some 30, 1⟩).store 40
        (mk_circuit (some ⟨1, 0, some 35, 1⟩) none none)).store 10000
          (mk_circuit none none none)).cells) := by
    rfl
  rw [h]
  congr 1
  funext q
  by_cases h1 : q = 10000
  · subst h1; decide
  by_cases h2 : q = 40
  · subst h2; decide
  simp only [store_cells, store_token_cells, make_arena_cells, source_unused_cells, h1, h2,
    if_false, ite_self]

/-- C15 applies to the memory and the binding table that `parse_circuit`
builds from `source_unused`: the name without binding is not reached from the
output. -/
theorem resolve_circuit_rejects_iff_witness :
    unresolved source_unused = (source_unused_vars, source_unused_cells) ∧
    ∃ n R, (∀ m, n ≤ m →
        resolve_circuit source_unused source_unused_vars m source_unused_cells ROOT = R) ∧
      ((∃ tok, R = .error (Err.not_defined tok)) ↔
        ∃ tok, Undefined source_unused source_unused_vars source_unused_cells ROOT tok) ∧
      ((∃ h', R = .ok h') ↔
        ¬ ∃ tok, Undefined source_unused source_unused_vars source_unused_cells ROOT tok) :=
  ⟨source_unused_parsed,
    resolve_circuit_rejects_iff source_unused source_unused_vars parsed_rank (ROOT + 1)
      source_unused_cells ROOT source_unused_wellFormed (by decide)⟩

end TimingSolver
